import Mathlib

/-!
# fullmonte: multiplayer Monte Carlo tree search

A shallow embedding of `src/montecarlo/node.go`, `src/montecarlo/tree.go`,
`src/montecarlo/montecarlo.go`, `src/montecarlo/detpolicy.go`, `src/montecarlo/errors.go`
and `src/uctpolicy.go`, with theorems about it.

Modelling conventions

* `float64` is `F64`: the three IEEE special values `nan`, `ninf`, `pinf` and the finite
  values, which are exact rationals.  The special-value rules of `+ - * /` and of the
  comparisons are those of IEEE 754 (every comparison with `nan` is false,
  `pinf - pinf = nan`, ...); rounding, overflow to infinity and the sign of zero are not
  modelled.  `math.Sqrt` and `math.Log` follow their documented special cases and take
  their finite values from a `MathFns` parameter.  Where the rounding of a sum decides a
  property, `F64.addRounded` adds with rounding to the nearest `float64`, and
  `Node.MergeWith` is `Node.Merge` over a given addition.  The theorems that a search
  returns bound the scores and the exploration parameter by `2^900`, under which no
  `float64` value of the search overflows.
* `int64` visit counts are `Int`, `uint` player indices and player counts are `Nat`.
  Where the wrap-around of `int64` decides a property, `wrapInt64` wraps a sum, and
  `Node.Merge64`, `Node.Copy64` and `UCTPolicy.Backpropagate64` are `Merge`, `Copy` and
  `Backpropagate` with the counter wrapped.  In a search the counts are at most the
  number of rounds, which is an `int`.
* `Tree.Merge` hands a `*Node` to `Node.Merge`, which takes a `Node`; Go does not compile
  this call.  `Tree.Merge` and `RootParallelSearch` are embedded with the node pointed
  to, as a reading of what they are meant to do.
* `Key` (`interface{}` in the source) is a small sum of the key values the source and its
  tests use: the nil interface, strings and integers.
* A Go map is an association list searched from the front.  Where the result of a `range`
  over a map depends on the order (`selectBestChild`), the order is taken from a `MapOrder`,
  an arbitrary rearrangement of the entries; elsewhere iteration follows the list.
* A tree of `*Node` is a value of the inductive type `Node`.  A pointer into a tree is the
  list of keys leading to the node from the root of its tree (`Path`); the `parent`
  back-reference of the node at a path is the path without its last key, and `nil` for the
  empty path.  Sharing of one node between two parents is not represented.
* Code that can panic (index out of range, nil dereference) or loop returns `Option`;
  `none` stands for "no result".  Loops without a structural bound take a fuel argument.
* `rand.Intn` draws are read from an explicit stream `rnd : Nat → Nat` with a cursor.
* A state is a value of the state type and an action a total function on it: the nil
  `State` that an action could return and the nil `Action` in an action set are not
  represented.  The nil `State` of a node is `none`.
-/

namespace Montecarlo

/-! ## Floating point values -/

/-- IEEE special values and exact finite values. -/
inductive F64 where
  | nan
  | ninf
  | pinf
  | fin (q : ℚ)
  deriving DecidableEq

namespace F64

/-- Conversion `float64(v)` of an integer. -/
def ofInt (v : Int) : F64 := fin (v : ℚ)

/-- Unary minus. -/
def neg : F64 → F64
  | nan => nan
  | ninf => pinf
  | pinf => ninf
  | fin a => fin (-a)

/-- Float addition `a + b`. -/
def add : F64 → F64 → F64
  | nan, _ => nan
  | _, nan => nan
  | pinf, ninf => nan
  | ninf, pinf => nan
  | pinf, _ => pinf
  | _, pinf => pinf
  | ninf, _ => ninf
  | _, ninf => ninf
  | fin a, fin b => fin (a + b)

/-- Float subtraction `a - b`. -/
def sub (a b : F64) : F64 := add a (neg b)

/-- The infinity with the sign of `pos`. -/
def signedInf (pos : Bool) : F64 := if pos then pinf else ninf

/-- Float multiplication `a * b`. -/
def mul : F64 → F64 → F64
  | nan, _ => nan
  | _, nan => nan
  | pinf, pinf => pinf
  | ninf, ninf => pinf
  | pinf, ninf => ninf
  | ninf, pinf => ninf
  | pinf, fin b => if b = 0 then nan else signedInf (decide (0 < b))
  | ninf, fin b => if b = 0 then nan else signedInf (decide (b < 0))
  | fin a, pinf => if a = 0 then nan else signedInf (decide (0 < a))
  | fin a, ninf => if a = 0 then nan else signedInf (decide (a < 0))
  | fin a, fin b => fin (a * b)

/-- Float division `a / b` (a zero divisor counts as positive zero). -/
def div : F64 → F64 → F64
  | nan, _ => nan
  | _, nan => nan
  | fin a, fin b =>
      if b = 0 then (if a = 0 then nan else signedInf (decide (0 < a))) else fin (a / b)
  | fin _, _ => fin 0
  | pinf, fin b => signedInf (decide (0 ≤ b))
  | ninf, fin b => signedInf (decide (b < 0))
  | _, _ => nan

/-- Float comparison `a <= b`. -/
def le : F64 → F64 → Bool
  | nan, _ => false
  | _, nan => false
  | ninf, _ => true
  | _, pinf => true
  | fin a, fin b => decide (a ≤ b)
  | _, _ => false

/-- Float comparison `a < b`. -/
def lt : F64 → F64 → Bool
  | nan, _ => false
  | _, nan => false
  | pinf, _ => false
  | _, ninf => false
  | fin a, fin b => decide (a < b)
  | _, _ => true

/-- Float comparison `a >= b`. -/
def ge (a b : F64) : Bool := le b a

/-- Float comparison `a > b`. -/
def gt (a b : F64) : Bool := lt b a

/-- Float comparison `a == b`: `nan` equals nothing. -/
def eq : F64 → F64 → Bool
  | nan, _ => false
  | _, nan => false
  | a, b => decide (a = b)

/-- A finite value (neither `nan` nor an infinity). -/
def isFinite : F64 → Bool
  | fin _ => true
  | _ => false

end F64

/-- The finite values of `math.Log` and `math.Sqrt`, which the embedding does not compute. -/
structure MathFns where
  logQ : ℚ → ℚ
  sqrtQ : ℚ → ℚ

/-- Go's `math.Log`: `Log(+Inf) = +Inf`, `Log(0) = -Inf`, `Log(x < 0) = NaN`, `Log(NaN) = NaN`. -/
def MathFns.Log (m : MathFns) : F64 → F64
  | F64.nan => F64.nan
  | F64.ninf => F64.nan
  | F64.pinf => F64.pinf
  | F64.fin x => if x < 0 then F64.nan else if x = 0 then F64.ninf else F64.fin (m.logQ x)

/-- Go's `math.Sqrt`: `Sqrt(+Inf) = +Inf`, `Sqrt(x < 0) = NaN`, `Sqrt(NaN) = NaN`. -/
def MathFns.Sqrt (m : MathFns) : F64 → F64
  | F64.nan => F64.nan
  | F64.ninf => F64.nan
  | F64.pinf => F64.pinf
  | F64.fin x => if x < 0 then F64.nan else F64.fin (m.sqrtQ x)

/-! ## Keys, policies, states -/

/-- Values of `type Key interface{}`. -/
inductive Key where
  | nil
  | str (s : String)
  | num (n : Int)
  deriving DecidableEq, Repr

/-- The empty string, which `selectBestChild` and `randomAction` return as a sentinel. -/
def emptyKey : Key := Key.str ""

/-- Values of the `Policy` interface: nil and the two implementations in the repository. -/
inductive Policy where
  | nil
  | UCTPolicy
  | DeterminizationPolicy (childProbability : List (Key × F64))
  deriving DecidableEq

/-- The `State` interface of `montecarlo.go`.  An `Action` is a function `S → S`, and an
`ActionSet` is an association list from keys to actions. -/
class State (S : Type) where
  LegalActions : S → List (Key × (S → S))
  Score : S → Nat → F64
  Bias : S → F64
  Copy : S → S
  Player : S → Nat
  Policy : S → Policy

/-! ## Errors (`errors.go`) -/

/-- The merge errors, with the two numbers they report. -/
inductive MergeError where
  | MergeDifferingPlayerCount (one other : Nat)
  | MergePlayerIndexMismatch (one other : Nat)
  deriving DecidableEq, Repr

/-! ## Nodes (`node.go`) -/

/-- The `Node` struct.  The `parent` field is the position of the node in its tree. -/
inductive Node (S : Type) where
  | mk (score : List F64) (numPlayers : Nat) (State : Option S) (visits : Int)
      (children : List (Key × Node S)) (policy : Policy) : Node S

/-- A pointer into a tree: the keys from the root of the tree to the node. -/
abbrev Path := List Key

namespace Node

variable {S : Type}

/-- Field `score`. -/
def score : Node S → List F64
  | mk s _ _ _ _ _ => s

/-- Field `numPlayers`. -/
def numPlayers : Node S → Nat
  | mk _ n _ _ _ _ => n

/-- Field `State` (`none` is the nil interface). -/
def State : Node S → Option S
  | mk _ _ s _ _ _ => s

/-- Field `visits`. -/
def visits : Node S → Int
  | mk _ _ _ v _ _ => v

/-- Field `children`. -/
def children : Node S → List (Key × Node S)
  | mk _ _ _ _ c _ => c

/-- Field `policy`. -/
def policy : Node S → Policy
  | mk _ _ _ _ _ p => p

/-- Assignment to the field `score`. -/
def withScore : Node S → List F64 → Node S
  | mk _ n s v c p, sc => mk sc n s v c p

/-- Assignment to the field `State`. -/
def withState : Node S → Option S → Node S
  | mk sc n _ v c p, s => mk sc n s v c p

/-- Assignment to the field `visits`. -/
def withVisits : Node S → Int → Node S
  | mk sc n s _ c p, v => mk sc n s v c p

/-- Assignment to the field `children`. -/
def withChildren : Node S → List (Key × Node S) → Node S
  | mk sc n s v _ p, c => mk sc n s v c p

/-- Assignment to the field `policy`. -/
def withPolicy : Node S → Policy → Node S
  | mk sc n s v c _, p => mk sc n s v c p

end Node

/-- Map lookup `m[k]`. -/
def mapGet {α : Type} (k : Key) : List (Key × α) → Option α
  | [] => none
  | (k', a) :: rest => if k' = k then some a else mapGet k rest

/-- Map assignment `m[k] = a`: overwrite the entry of `k`, or add one. -/
def mapSet {α : Type} (k : Key) (a : α) : List (Key × α) → List (Key × α)
  | [] => [(k, a)]
  | (k', a') :: rest => if k' = k then (k, a) :: rest else (k', a') :: mapSet k a rest

/-- Map deletion `delete(m, k)`. -/
def mapDelete {α : Type} (k : Key) : List (Key × α) → List (Key × α)
  | [] => []
  | (k', a') :: rest => if k' = k then mapDelete k rest else (k', a') :: mapDelete k rest

/-- The keys of a map. -/
def mapKeys {α : Type} (m : List (Key × α)) : List Key := m.map Prod.fst

namespace Node

variable {S : Type}

/-- `NewNode`: the node, and whether `ZeroPlayerCount` is returned with it. -/
def NewNode (numPlayers : Nat) : Node S × Bool :=
  (mk (List.replicate numPlayers (F64.fin 0)) numPlayers none 0 [] Policy.UCTPolicy,
    decide (numPlayers ≤ 0))

/-- `GetChild`: the child under `index`, `none` for nil. -/
def GetChild (node : Node S) (index : Key) : Option (Node S) := mapGet index node.children

/-- `SetChild`: store `child` under `index` (its parent is then this node). -/
def SetChild (node : Node S) (index : Key) (child : Node S) : Node S :=
  node.withChildren (mapSet index child node.children)

/-- `RemoveChild`: delete the entry of `index` if there is one. -/
def RemoveChild (node : Node S) (index : Key) : Node S :=
  match mapGet index node.children with
  | some _ => node.withChildren (mapDelete index node.children)
  | none => node

/-- `IsLeaf`. -/
def IsLeaf (node : Node S) : Bool := node.children.length == 0

/-- `IsTerminal`. -/
def IsTerminal [Montecarlo.State S] (node : Node S) : Bool :=
  match node.State with
  | none => true
  | some s => (State.LegalActions s).length == 0

/-- `Visits`. -/
def Visits (node : Node S) : Int := node.visits

/-- `AddVisit`. -/
def AddVisit (node : Node S) : Node S := node.withVisits (node.visits + 1)

/-- `IsExhausted`. -/
def IsExhausted [Montecarlo.State S] (node : Node S) : Bool :=
  match node.State with
  | none => true
  | some s => (State.LegalActions s).all (fun ka => (mapGet ka.1 node.children).isSome)

/-- `NumPlayers`. -/
def NumPlayers (node : Node S) : Nat := node.numPlayers

/-- `Player`: the state's player, 0 without a state. -/
def Player [Montecarlo.State S] (node : Node S) : Nat :=
  match node.State with
  | none => 0
  | some s => State.Player s

/-- `ScoreVector`. -/
def ScoreVector (node : Node S) : List F64 := node.score

/-- `Score`: `node.score[player]`, no result when the index is out of range. -/
def Score (node : Node S) (player : Nat) : Option F64 := node.score.get? player

/-- `SetScore`: `node.score[player] = score`, no result when the index is out of range. -/
def SetScore (node : Node S) (player : Nat) (score : F64) : Option (Node S) :=
  if player < node.score.length then some (node.withScore (node.score.set player score))
  else none

/-- Dereference of the pointer `path` into the tree `root`. -/
def get? : Node S → Path → Option (Node S)
  | n, [] => some n
  | n, k :: ks =>
    match mapGet k n.children with
    | none => none
    | some c => get? c ks

/-- Write through the pointer `path`: replace the node there by its image under `f`. -/
def modify (f : Node S → Node S) : Node S → Path → Node S
  | n, [] => f n
  | n, k :: ks =>
    match mapGet k n.children with
    | none => n
    | some c => n.withChildren (mapSet k (modify f c ks) n.children)

end Node

/-- `mergeGetErrors`: the error that forbids merging `other` into `node`, if any. -/
def mergeGetErrors {S : Type} [State S] (node other : Node S) : Option MergeError :=
  if other.NumPlayers ≠ node.NumPlayers then
    some (MergeError.MergeDifferingPlayerCount node.NumPlayers other.NumPlayers)
  else if node.State.isSome && other.State.isSome && decide (node.Player ≠ other.Player) then
    some (MergeError.MergePlayerIndexMismatch node.Player other.Player)
  else none

/-- The loop `node.score[i] += other.score[i]` over the indices `is`; no result when an
index is out of range in one of the two vectors. -/
def mergeScores (other : List F64) : List Nat → List F64 → Option (List F64)
  | [], score => some score
  | i :: is, score =>
    match score.get? i, other.get? i with
    | some a, some b => mergeScores other is (score.set i (F64.add a b))
    | _, _ => none

mutual
/-- `Merge`: the receiver after the call and the returned error (`none` is nil).  The
results of the recursive calls are dropped, as in the source. -/
def Node.Merge {S : Type} [Montecarlo.State S] : Node S → Node S → Option (Node S × Option MergeError)
  | node, Node.mk oscore onum ostate ovisits ochildren opolicy =>
    let other : Node S := Node.mk oscore onum ostate ovisits ochildren opolicy
    match mergeGetErrors node other with
    | some err => some (node, some err)
    | none =>
      match mergeScores other.score (List.range node.NumPlayers) node.score with
      | none => none
      | some sc =>
        let node1 := (node.withScore sc).withVisits (node.visits + other.Visits)
        let node2 := if node1.State.isNone && other.State.isSome
          then node1.withState (other.State.map Montecarlo.State.Copy) else node1
        match Node.mergeLoop node2 ochildren with
        | none => none
        | some node3 => some (node3, none)
/-- The loop of `Merge` over the children of `other`.  `otherChild.Copy()` is written out
as the merge of `otherChild` into a new node, which is what `Copy` is. -/
def Node.mergeLoop {S : Type} [Montecarlo.State S] : Node S → List (Key × Node S) → Option (Node S)
  | node, [] => some node
  | node, (k, otherChild) :: rest =>
    match mapGet k node.children with
    | none =>
      match Node.Merge (Node.NewNode otherChild.NumPlayers).1 otherChild with
      | none => none
      | some (otherCopy, _) => Node.mergeLoop (node.SetChild k otherCopy) rest
    | some child =>
      match Node.Merge child otherChild with
      | none => none
      | some (child', _) => Node.mergeLoop (node.SetChild k child') rest
end

/-- `Copy`: merge the node into a new node of the same player count. -/
def Node.Copy {S : Type} [Montecarlo.State S] (node : Node S) : Option (Node S) :=
  match Node.Merge (Node.NewNode node.NumPlayers).1 node with
  | none => none
  | some (cpy, _) => some cpy

mutual
/-- The test `p` holds at a node and at every node below it. -/
def Node.allNodes {S : Type} (p : Node S → Bool) : Node S → Bool
  | Node.mk sc n s v c q => p (Node.mk sc n s v c q) && Node.allChildren p c
/-- The test `p` holds at every node of a list of subtrees. -/
def Node.allChildren {S : Type} (p : Node S → Bool) : List (Key × Node S) → Bool
  | [] => true
  | (_, c) :: rest => Node.allNodes p c && Node.allChildren p rest
end

/-- Data-model invariant: at every node the score vector has one entry per player. -/
def Node.ScoreOK {S : Type} (node : Node S) : Bool :=
  Node.allNodes (fun n => n.score.length == n.numPlayers) node

/-- Data-model invariant: at every node the child map has no key twice. -/
def Node.KeysOK {S : Type} (node : Node S) : Bool :=
  Node.allNodes (fun n => decide (mapKeys n.children).Nodup) node

/-- Along `path` the two trees both have a node, and every pair of corresponding nodes on
the way, the last one included, passes the checks of `mergeGetErrors`. -/
def mergeableAlong {S : Type} [State S] : Node S → Node S → Path → Bool
  | node, other, [] => (mergeGetErrors node other).isNone
  | node, other, k :: ks =>
    (mergeGetErrors node other).isNone &&
      match mapGet k node.children, mapGet k other.children with
      | some c, some oc => mergeableAlong c oc ks
      | _, _ => false

/-- The pair of corresponding nodes at `path` is the first one, walking down from the two
roots, that fails the checks of `mergeGetErrors`. -/
def firstConflictAt {S : Type} [State S] : Node S → Node S → Path → Bool
  | node, other, [] => (mergeGetErrors node other).isSome
  | node, other, k :: ks =>
    (mergeGetErrors node other).isNone &&
      match mapGet k node.children, mapGet k other.children with
      | some c, some oc => firstConflictAt c oc ks
      | _, _ => false

/-- At every node of the tree that holds a state, `Copy` of the state keeps `Player`. -/
def Node.CopyKeepsPlayer {S : Type} [Montecarlo.State S] (node : Node S) : Bool :=
  Node.allNodes (fun n =>
    match n.State with
    | none => true
    | some s => State.Player (State.Copy s) == State.Player s) node

/-- `Parent` of the node at `path`: `none` (nil) at the root of the tree. -/
def Parent (path : Path) : Option Path :=
  if path.isEmpty then none else some path.dropLast

/-- `IsRoot` of the node at `path`: its parent is nil. -/
def IsRoot (path : Path) : Bool := (Parent path).isNone

/-- `UpperConfidenceBound` of the node at `path` in the tree `root`. -/
def UpperConfidenceBound {S : Type} (m : MathFns) (root : Node S) (path : Path)
    (explorationParameter : F64) (player : Nat) : Option F64 :=
  match root.get? path with
  | none => none
  | some node =>
    let expl := if F64.lt explorationParameter (F64.fin 0) then F64.fin 0
      else explorationParameter
    let nVisits := F64.ofInt node.Visits
    if IsRoot path || F64.le nVisits (F64.fin 0) ||
        (F64.eq nVisits (F64.fin 1) && !IsRoot path &&
          (match Parent path with
            | none => false
            | some pp => IsRoot pp)) then
      some F64.pinf
    else
      match node.Score player, (Parent path).bind root.get? with
      | some nScore, some parent =>
        let pVisits := F64.ofInt parent.Visits
        some (F64.add (F64.div nScore nVisits)
          (F64.mul expl (m.Sqrt (F64.div (F64.mul (F64.fin 2) (m.Log pVisits)) nVisits))))
      | _, _ => none

/-! ## Random draws -/

/-- The stream of raw draws that `rand.Intn` and `rand.Float64` read. -/
abbrev Rand := Nat → Nat

/-- The stream after one draw. -/
def Rand.next (rnd : Rand) : Rand := fun n => rnd (n + 1)

/-- `rand.Float64()`: a multiple of `2^-53` in `[0, 1)`. -/
def Rand.float64 (rnd : Rand) : F64 := F64.fin (((rnd 0 % 2 ^ 53 : Nat) : ℚ) / 2 ^ 53)

/-- The order in which a `range` over a map visits its entries.  Go leaves it unspecified:
it is any rearrangement of the entries, chosen here from a raw draw. -/
structure MapOrder where
  perm : Nat → {α : Type} → List α → List α
  isPerm : ∀ (n : Nat) {α : Type} (l : List α), (perm n l).Perm l

/-! ## Selection (`node.go`) -/

/-- The local variables `maxUCB`, `maxIndex` and `maxima` of `selectBestChild`. -/
structure BestState where
  maxUCB : F64
  maxIndex : Key
  maxima : List (F64 × List Key)

/-- Lookup `maxima[x]` in a map with float keys: the nil slice when absent. -/
def floatMapGet (x : F64) : List (F64 × List Key) → List Key
  | [] => []
  | (y, l) :: rest => if F64.eq y x then l else floatMapGet x rest

/-- Assignment `maxima[x] = l` in a map with float keys (a `nan` key matches no entry). -/
def floatMapSet (x : F64) (l : List Key) : List (F64 × List Key) → List (F64 × List Key)
  | [] => [(x, l)]
  | (y, l') :: rest => if F64.eq y x then (y, l) :: rest else (y, l') :: floatMapSet x l rest

/-- The constant `epsilon := 0.000001` of `selectBestChild`. -/
def epsilon : F64 := F64.fin (1 / 1000000)

/-- One round of the loop of `selectBestChild`, for the child `entry.2` under `entry.1`. -/
def selectBestChildStep {S : Type} [State S] (m : MathFns) (root : Node S) (path : Path)
    (explorationParam : F64) (player : Nat) (st : BestState) (entry : Key × Node S) :
    Option BestState :=
  match UpperConfidenceBound m root (path ++ [entry.1]) explorationParam player with
  | none => none
  | some ucb =>
    let bias := match entry.2.State with
      | some s => State.Bias s
      | none => F64.fin 0
    if F64.ge (F64.add ucb bias) st.maxUCB then
      let st1 : BestState :=
        if F64.le (F64.sub st.maxUCB ucb) epsilon then
          { maxUCB := ucb, maxIndex := entry.1, maxima := floatMapSet ucb [] st.maxima }
        else st
      some { st1 with
        maxima := floatMapSet st1.maxUCB
          (floatMapGet st1.maxUCB st1.maxima ++ [st1.maxIndex]) st1.maxima }
    else some st

/-- The loop of `selectBestChild` over the children. -/
def selectBestChildLoop {S : Type} [State S] (m : MathFns) (root : Node S) (path : Path)
    (explorationParam : F64) (player : Nat) :
    BestState → List (Key × Node S) → Option BestState
  | st, [] => some st
  | st, entry :: rest =>
    match selectBestChildStep m root path explorationParam player st entry with
    | none => none
    | some st' => selectBestChildLoop m root path explorationParam player st' rest

/-- The pointer `node.children[k]`: nil when `k` is no key of the node at `path`. -/
def childPtr {S : Type} (node : Node S) (path : Path) (k : Key) : Option Path :=
  if (mapGet k node.children).isSome then some (path ++ [k]) else none

/-- `selectBestChild` of the node at `path`: the key and the pointer it returns.  On a
leaf the source returns a pointer to a copy of the node; the embedding returns `path`.
The loop visits the children in the order `ord` chooses from the first draw. -/
def selectBestChild {S : Type} [State S] (m : MathFns) (ord : MapOrder) (rnd : Rand)
    (root : Node S) (path : Path) (explorationParam : F64) :
    Option ((Key × Option Path) × Rand) :=
  match root.get? path with
  | none => none
  | some node =>
    if node.IsLeaf then some ((emptyKey, some path), rnd)
    else
      match selectBestChildLoop m root path explorationParam node.Player
          { maxUCB := F64.ninf, maxIndex := Key.nil, maxima := [] }
          (ord.perm (rnd 0) node.children) with
      | none => none
      | some st =>
        let ties := floatMapGet st.maxUCB st.maxima
        if 1 < ties.length then
          match ties.get? (rnd 1 % ties.length) with
          | some k => some ((k, childPtr node path k), rnd.next.next)
          | none => some ((st.maxIndex, childPtr node path st.maxIndex), rnd.next.next)
        else some ((st.maxIndex, childPtr node path st.maxIndex), rnd.next)

/-! ## The confidence-bound policy (`uctpolicy.go`) -/

/-- `randomAction`: the entry at a drawn position, or the empty key and nil. -/
def randomAction {α : Type} (rnd : Rand) (actions : List (Key × α)) :
    (Key × Option α) × Rand :=
  if 0 < actions.length then
    match actions.get? (rnd 0 % actions.length) with
    | some (k, v) => ((k, some v), rnd.next)
    | none => ((emptyKey, none), rnd.next)
  else ((emptyKey, none), rnd)

/-- `UCTPolicy.Expand` at the node at `path`: the tree afterwards and the returned
pointer. -/
def UCTPolicy.Expand {S : Type} [State S] (rnd : Rand) (root : Node S) (path : Path) :
    Option ((Node S × Path) × Rand) :=
  match root.get? path with
  | none => none
  | some node =>
    match node.State with
    | none => none
    | some s =>
      let legalActions := State.LegalActions s
      let untried := legalActions.filter (fun ka => (node.GetChild ka.1).isNone)
      match randomAction rnd untried with
      | ((_, none), rnd') => some ((root, path), rnd')
      | ((index, some action), rnd') =>
        match (Node.NewNode node.NumPlayers : Node S × Bool) with
        | (_, true) => none
        | (n, false) =>
          let st := action (State.Copy s)
          let n1 := (n.withState (some st)).withPolicy (State.Policy st)
          some ((root.modify (fun nd => nd.SetChild index n1) path, path ++ [index]), rnd')

/-- The loop of `UCTPolicy.Select`, with `n` the current pointer. -/
def UCTPolicy.SelectLoop {S : Type} [State S] (m : MathFns) (ord : MapOrder) (explorationParam : F64) :
    Nat → Rand → Node S → Option Path → Option ((Node S × Option Path) × Rand)
  | _, rnd, root, none => some ((root, none), rnd)
  | 0, _, _, some _ => none
  | fuel + 1, rnd, root, some n =>
    match root.get? n with
    | none => none
    | some node =>
      if IsRoot n || !node.IsTerminal then
        if !node.IsExhausted then
          match UCTPolicy.Expand rnd root n with
          | none => none
          | some ((root', p), rnd') => some ((root', some p), rnd')
        else
          match selectBestChild m ord rnd root n explorationParam with
          | none => none
          | some ((_, n'), rnd') => UCTPolicy.SelectLoop m ord explorationParam fuel rnd' root n'
      else some ((root, some n), rnd)

/-- `UCTPolicy.Select` from the node at `path`. -/
def UCTPolicy.Select {S : Type} [State S] (m : MathFns) (ord : MapOrder) (fuel : Nat) (rnd : Rand)
    (root : Node S) (path : Path) (explorationParam : F64) :
    Option ((Node S × Option Path) × Rand) :=
  UCTPolicy.SelectLoop m ord explorationParam fuel rnd root (some path)

/-- The playout loop of `Simulate`: random legal actions until none is left. -/
def rollout {S : Type} [State S] : Nat → Rand → S → Option (S × Rand)
  | 0, _, _ => none
  | fuel + 1, rnd, state =>
    let legalActions := State.LegalActions state
    if legalActions.length ≤ 0 then some (state, rnd)
    else
      match randomAction rnd legalActions with
      | ((_, some action), rnd') => rollout fuel rnd' (action state)
      | ((_, none), _) => none

/-- `UCTPolicy.Simulate` of the node at `path` (one playout, averaged over `n = 1`). -/
def UCTPolicy.Simulate {S : Type} [State S] (fuel : Nat) (rnd : Rand) (root : Node S)
    (path : Path) : Option (F64 × Rand) :=
  match root.get? path with
  | none => none
  | some node =>
    match node.State with
    | none => none
    | some s =>
      match rollout fuel rnd (State.Copy s) with
      | none => none
      | some (state, rnd') =>
        let score := F64.add (F64.fin 0) (State.Score state (State.Player state))
        some (F64.div score (F64.ofInt 1), rnd')

/-- The loop of `Backpropagate`, with `n` the current pointer.  The parent chain of a
path of length `l` has `l + 1` nodes, which bounds the fuel. -/
def UCTPolicy.BackpropagateLoop {S : Type} (player : Nat) (score : F64) :
    Nat → Node S → Option Path → Option (Node S)
  | _, root, none => some root
  | 0, _, some _ => none
  | fuel + 1, root, some n =>
    match root.get? n with
    | none => none
    | some node =>
      match node.Score player with
      | none => none
      | some old =>
        match node.SetScore player (F64.add old score) with
        | none => none
        | some node1 =>
          UCTPolicy.BackpropagateLoop player score fuel
            (root.modify (fun _ => node1.AddVisit) n) (Parent n)

/-- `UCTPolicy.Backpropagate` from the node at `path`. -/
def UCTPolicy.Backpropagate {S : Type} [State S] (root : Node S) (path : Path)
    (score : F64) : Option (Node S) :=
  match root.get? path with
  | none => none
  | some node =>
    UCTPolicy.BackpropagateLoop node.Player score (path.length + 1) root (some path)

/-! ## The determinization policy (`detpolicy.go`) -/

/-- `ChildProbability`: the declared probability of a key, 0 when undeclared. -/
def DeterminizationPolicy.ChildProbability (childProbability : List (Key × F64))
    (child : Key) : F64 :=
  match mapGet child childProbability with
  | some p => p
  | none => F64.fin 0

/-- The loop `for !node.IsExhausted() { node.Policy().Expand(node, expl) }`; `Expand` is
the same for both policies, and a nil policy panics. -/
def DeterminizationPolicy.expandAll {S : Type} [State S] :
    Nat → Rand → Node S → Path → Option (Node S × Rand)
  | 0, _, _, _ => none
  | fuel + 1, rnd, root, path =>
    match root.get? path with
    | none => none
    | some node =>
      if !node.IsExhausted then
        match node.policy with
        | Policy.nil => none
        | _ =>
          match UCTPolicy.Expand rnd root path with
          | none => none
          | some ((root', _), rnd') => DeterminizationPolicy.expandAll fuel rnd' root' path
      else some (root, rnd)

/-- The struct `probabilityPair`. -/
structure probabilityPair where
  probability : F64
  action : Key

/-- The slice `pairs` before it is sorted: `make(probabilityPairList, len(node.children))`
gives one zero pair (probability 0, nil key) per child, and the loop over the children
appends one pair per key to these. -/
def DeterminizationPolicy.pairs {S : Type} (childProbability : List (Key × F64))
    (children : List (Key × Node S)) : List probabilityPair :=
  List.replicate children.length { probability := F64.fin 0, action := Key.nil } ++
    children.map (fun kc =>
      { probability := DeterminizationPolicy.ChildProbability childProbability kc.1,
        action := kc.1 })

/-- Insertion of a pair into a slice sorted by `Less`, after the pairs that are not
greater. -/
def DeterminizationPolicy.insertPair (p : probabilityPair) :
    List probabilityPair → List probabilityPair
  | [] => [p]
  | q :: rest =>
    if F64.lt p.probability q.probability then p :: q :: rest
    else q :: DeterminizationPolicy.insertPair p rest

/-- `sort.Sort(pairs)`: ascending by probability (pairs of equal probability keep their
order here; the source leaves their order open). -/
def DeterminizationPolicy.sortPairs (l : List probabilityPair) : List probabilityPair :=
  l.foldr DeterminizationPolicy.insertPair []

/-- The loop over the sorted pairs: the running sum `cProbability`, and the key that the
pointer `actionKey` was last set to (`none` while the pointer is nil).  The loop has no
`break`. -/
def DeterminizationPolicy.scan (target : F64) :
    F64 → Option Key → List probabilityPair → F64 × Option Key
  | cProbability, actionKey, [] => (cProbability, actionKey)
  | cProbability, actionKey, v :: rest =>
    let c := F64.add cProbability v.probability
    DeterminizationPolicy.scan target c
      (if F64.lt target c then some v.action else actionKey) rest

/-- `node.GetChild(actionKey)` with `actionKey` of type `*Key`.  The index handed to the
map is the pointer itself, boxed in a `Key`, not the key it points to.  The pointer is nil
or the address of a variable of `Select`; the keys of a child map are the keys of legal
actions, none of which is that pointer, so the lookup yields nil whatever key the pointer
points to. -/
def DeterminizationPolicy.pointerChild {S : Type} (_node : Node S) (_path : Path)
    (_actionKey : Option Key) : Option Path :=
  none

/-- The part of `DeterminizationPolicy.Select` after the expansion loop: build and sort
the pairs, draw the target, run the loop and look the child up. -/
def DeterminizationPolicy.sample {S : Type} (childProbability : List (Key × F64))
    (rnd : Rand) (root : Node S) (path : Path) : Option ((Node S × Option Path) × Rand) :=
  match root.get? path with
  | none => none
  | some node =>
    let pairs := DeterminizationPolicy.sortPairs
      (DeterminizationPolicy.pairs childProbability node.children)
    let target := rnd.float64
    let r := DeterminizationPolicy.scan target (F64.fin 0) none pairs
    some ((root, DeterminizationPolicy.pointerChild node path r.2), rnd.next)

/-- `DeterminizationPolicy.Select` of the node at `path`. -/
def DeterminizationPolicy.Select {S : Type} [State S] (childProbability : List (Key × F64))
    (fuel : Nat) (rnd : Rand) (root : Node S) (path : Path) :
    Option ((Node S × Option Path) × Rand) :=
  match root.get? path with
  | none => none
  | some node =>
    if node.children.length ≤ 0 && node.IsExhausted then some ((root, none), rnd)
    else
      match DeterminizationPolicy.expandAll fuel rnd root path with
      | none => none
      | some (root', rnd') => DeterminizationPolicy.sample childProbability rnd' root' path

/-! ## Dispatch on the `Policy` interface -/

/-- `p.Select(node, expl)`: nil panics. -/
def Policy.Select {S : Type} [State S] (p : Policy) (m : MathFns) (ord : MapOrder) (fuel : Nat) (rnd : Rand)
    (root : Node S) (path : Path) (explorationParam : F64) :
    Option ((Node S × Option Path) × Rand) :=
  match p with
  | Policy.nil => none
  | Policy.UCTPolicy => UCTPolicy.Select m ord fuel rnd root path explorationParam
  | Policy.DeterminizationPolicy cp => DeterminizationPolicy.Select cp fuel rnd root path

/-- `p.Simulate(node)`: nil panics, the determinization policy delegates. -/
def Policy.Simulate {S : Type} [State S] (p : Policy) (fuel : Nat) (rnd : Rand)
    (root : Node S) (path : Path) : Option (F64 × Rand) :=
  match p with
  | Policy.nil => none
  | Policy.UCTPolicy => UCTPolicy.Simulate fuel rnd root path
  | Policy.DeterminizationPolicy _ => UCTPolicy.Simulate fuel rnd root path

/-- `p.Backpropagate(node, score)`: nil panics, the determinization policy delegates. -/
def Policy.Backpropagate {S : Type} [State S] (p : Policy) (root : Node S) (path : Path)
    (score : F64) : Option (Node S) :=
  match p with
  | Policy.nil => none
  | Policy.UCTPolicy => UCTPolicy.Backpropagate root path score
  | Policy.DeterminizationPolicy _ => UCTPolicy.Backpropagate root path score

/-! ## Trees and the orchestrator (`tree.go`, `montecarlo.go`) -/

/-- The `Tree` struct. -/
structure Tree (S : Type) where
  possibleActions : List (Key × (S → S))
  root : Node S

/-- `NewTree`: the tree and whether `ZeroPlayerCount` is returned with it. -/
def NewTree {S : Type} (numPlayers : Nat) (initialState : S)
    (possibleActions : List (Key × (S → S))) : Tree S × Bool :=
  match (Node.NewNode numPlayers : Node S × Bool) with
  | (node, err) =>
    ({ root := node.withState (some initialState), possibleActions := possibleActions }, err)

/-- The `MultiplayerMCTS` struct. -/
structure MultiplayerMCTS (S : Type) where
  tree : Tree S
  policy : Policy

/-- `NewMultiplayerMCTS`; the `policy` field keeps its zero value. -/
def NewMultiplayerMCTS {S : Type} [State S] (numPlayers : Nat) (init : S)
    (actions : List (Key × (S → S))) : MultiplayerMCTS S × Bool :=
  match NewTree numPlayers (State.Copy init) actions with
  | (t, err) => ({ tree := t, policy := Policy.nil }, err)

/-- One round of the loop of `Search`: select from the root, simulate, backpropagate. -/
def searchRound {S : Type} [State S] (m : MathFns) (ord : MapOrder) (fuel : Nat) (expl : F64) (rnd : Rand)
    (root : Node S) : Option (Node S × Rand) :=
  match root.policy.Select m ord fuel rnd root [] expl with
  | none => none
  | some ((_, none), _) => none
  | some ((root1, some path), rnd1) =>
    match root1.get? path with
    | none => none
    | some node =>
      match node.policy.Simulate fuel rnd1 root1 path with
      | none => none
      | some (score, rnd2) =>
        match node.policy.Backpropagate root1 path score with
        | none => none
        | some root2 => some (root2, rnd2)

/-- The loop of `Search`: `level` rounds. -/
def searchLoop {S : Type} [State S] (m : MathFns) (ord : MapOrder) (fuel : Nat) (expl : F64) :
    Nat → Rand → Node S → Option (Node S × Rand)
  | 0, rnd, root => some (root, rnd)
  | level + 1, rnd, root =>
    match searchRound m ord fuel expl rnd root with
    | none => none
    | some (root', rnd') => searchLoop m ord fuel expl level rnd' root'

/-- `Search`: the key and the action it returns (the error is always nil). -/
def MultiplayerMCTS.Search {S : Type} [State S] (m : MathFns) (ord : MapOrder) (fuel : Nat) (rnd : Rand)
    (mcts : MultiplayerMCTS S) (level : Int) (expl : F64) :
    Option (Key × Option (S → S)) :=
  match searchLoop m ord fuel expl level.toNat rnd mcts.tree.root with
  | none => none
  | some (root, rnd') =>
    match selectBestChild m ord rnd' root [] (F64.fin 0) with
    | none => none
    | some ((key, _), _) => some (key, mapGet key mcts.tree.possibleActions)

/-- One round of the loop of `Backpropagate` at a node: add `score` to the entry of
`player` and count a visit (the node itself when the index is out of range). -/
def Node.bump {S : Type} (player : Nat) (score : F64) (node : Node S) : Node S :=
  match node.Score player with
  | none => node
  | some old => (node.withScore (node.score.set player (F64.add old score))).AddVisit

/-- The tree `root'` is the tree `root` after one round of the loop of `Backpropagate`
at every node on the path `p`: these nodes have the bumped score vector and one more
visit, keep their other fields and their keys, and every other place is as it was. -/
def BumpedAlong {S : Type} (player : Nat) (score : F64) (p : Path) (root root' : Node S) :
    Prop :=
  (∀ q, q <+: p → ∃ b b', root.get? q = some b ∧ root'.get? q = some b' ∧
    b'.score = (b.bump player score).score ∧ b'.visits = b.visits + 1 ∧
    b'.State = b.State ∧ b'.numPlayers = b.numPlayers ∧ b'.policy = b.policy ∧
    (∀ k, (mapGet k b'.children).isSome = (mapGet k b.children).isSome)) ∧
  (∀ q, ¬ q <+: p → root'.get? q = root.get? q)

/-- A value that `selectBestChild` can compare: `+Inf` or finite. -/
def F64.isGood : F64 → Bool
  | F64.pinf => true
  | F64.fin _ => true
  | _ => false

/-- The keys held by the state of `selectBestChild` are among `keys`. -/
def BestState.Valid (keys : List Key) (st : BestState) : Prop :=
  st.maxIndex ∈ keys ∧ ∀ yl ∈ st.maxima, ∀ k ∈ yl.2, k ∈ keys

/-! ## Invariants of the search -/

/-- The fields of a node of a search tree over `N` players are sound: one finite score per
player, a state, a policy, no negative visit count. -/
structure NodeOK {S : Type} (N : Nat) (b : Node S) : Prop where
  score_len : b.score.length = N
  numPlayers_eq : b.numPlayers = N
  score_fin : ∀ x ∈ b.score, x.isFinite = true
  state : b.State.isSome = true
  policy : b.policy ≠ Policy.nil
  visits_nonneg : 0 ≤ b.visits

/-- The invariant of the loop of `Search` on the tree of an orchestrator built over the
state `s0`: the root holds `s0` and the confidence-bound policy, its keys are legal-action
keys of `s0`, every node is sound, and every node below the root and every node with a
child has been visited.  During a round the nodes from the selected node `ex` up to the
root are exempt from the last condition until `Backpropagate` has run. -/
def SearchInv {S : Type} [State S] (N : Nat) (s0 : S) (ex : Option Path) (root : Node S) :
    Prop :=
  root.State = some s0 ∧ root.policy = Policy.UCTPolicy ∧
  (∀ k, (mapGet k root.children).isSome = true → k ∈ mapKeys (State.LegalActions s0)) ∧
  ∀ q b, root.get? q = some b → NodeOK N b ∧
    ((∀ p, ex = some p → ¬ q <+: p) →
      (q ≠ [] → 1 ≤ b.visits) ∧ (b.IsLeaf = false → 1 ≤ b.visits))

/-- Every place of `root` is a place of `root'`. -/
def Grows {S : Type} (root root' : Node S) : Prop :=
  ∀ q, (root.get? q).isSome = true → (root'.get? q).isSome = true

mutual
/-- The number of nodes on the longest path from a node down to a leaf. -/
def Node.height {S : Type} : Node S → Nat
  | Node.mk _ _ _ _ c _ => Node.heightChildren c + 1
/-- The largest height among a list of subtrees. -/
def Node.heightChildren {S : Type} : List (Key × Node S) → Nat
  | [] => 0
  | (_, c) :: rest => max (Node.height c) (Node.heightChildren rest)
end

/-- The child that `Expand` creates under a node of player count `numPlayers` for the
state `st`. -/
def newChild {S : Type} [State S] (numPlayers : Nat) (st : S) : Node S :=
  (((Node.NewNode numPlayers : Node S × Bool).1).withState (some st)).withPolicy
    (State.Policy st)

/-- What the search assumes of the `State` implementation and of `math.Log`: player
indices below the player count, a policy at every state, finite scores and biases,
playouts that end, and a logarithm that is not negative from 1 on. -/
structure SearchAssumptions (S : Type) [State S] (m : MathFns) (N : Nat) : Prop where
  player_lt : ∀ s : S, State.Player s < N
  policy : ∀ s : S, State.Policy s ≠ Policy.nil
  score_fin : ∀ (s : S) (p : Nat), (State.Score s p).isFinite = true
  bias_fin : ∀ s : S, (State.Bias s).isFinite = true
  rollout_ends : ∀ (s : S) (rnd : Rand), ∃ f, (rollout f rnd s).isSome = true
  log_nonneg : ∀ x : ℚ, 1 ≤ x → 0 ≤ m.logQ x

/-! ## Test fixtures (`node_test.go`) -/

/-- The state type `simpleStateImplementation` of the node tests. -/
structure simpleStateImplementation where
  internal : Int
  triggerPlayerIndexError : Bool
  deriving DecidableEq

instance : State simpleStateImplementation where
  LegalActions _ := []
  Score _ _ := F64.fin 0
  Bias _ := F64.fin 0
  Copy ssi := ssi
  Player ssi := if ssi.triggerPlayerIndexError then 1 else 0
  Policy _ := Policy.nil

/-- A one-player node with the given statistics, state and children. -/
def testNode (score : ℚ) (visits : Int) (state : Option simpleStateImplementation)
    (children : List (Key × Node simpleStateImplementation)) :
    Node simpleStateImplementation :=
  Node.mk [F64.fin score] 1 state visits children Policy.UCTPolicy

/-- A two-player node with zero scores and the given visits, state and children. -/
def twoPlayerNode (visits : Int) (state : Option simpleStateImplementation)
    (children : List (Key × Node simpleStateImplementation)) :
    Node simpleStateImplementation :=
  Node.mk [F64.fin 0, F64.fin 0] 2 state visits children Policy.UCTPolicy

/-- A receiver whose child under `"a"` holds a state of player 0. -/
def conflictReceiver : Node simpleStateImplementation :=
  twoPlayerNode 1 none [(Key.str "a", twoPlayerNode 1 (some ⟨0, false⟩) [])]

/-- A tree whose child under `"a"` holds a state of player 1. -/
def conflictOther : Node simpleStateImplementation :=
  twoPlayerNode 1 none [(Key.str "a", twoPlayerNode 1 (some ⟨0, true⟩) [])]

/-- A game of one move, for exercising `Search`: the key of the move, the bias and the
policy of its states are fields of the state. -/
structure oneMoveState where
  done : Bool
  key : Key
  bias : F64
  policy : Policy

instance : State oneMoveState where
  LegalActions s := if s.done then [] else [(s.key, fun t => { t with done := true })]
  Score _ _ := F64.fin 0
  Bias s := s.bias
  Copy s := s
  Player _ := 0
  Policy s := s.policy

/-- A game of one move under the key `"flip"`, with zero scores and biases and the
confidence-bound policy at every state. -/
structure coinState where
  done : Bool

instance : State coinState where
  LegalActions s := if s.done then [] else [(Key.str "flip", fun _ => { done := true })]
  Score _ _ := F64.fin 0
  Bias _ := F64.fin 0
  Copy s := s
  Player _ := 0
  Policy _ := Policy.UCTPolicy

/-- Map iteration in the order of the association list. -/
def testOrder : MapOrder := { perm := fun _ _ l => l, isPerm := fun _ _ l => List.Perm.refl l }

/-- Stand-in values for the logarithm and the square root. -/
def testMath : MathFns := { logQ := fun _ => 0, sqrtQ := fun _ => 0 }

/-! ## Vocabulary of the selection theorems -/

/-- Go's `math.Max`: `nan` when an argument is `nan`, otherwise the larger argument. -/
def F64.max : F64 → F64 → F64
  | F64.nan, _ => F64.nan
  | _, F64.nan => F64.nan
  | a, b => if F64.lt a b then b else a

/-- The bias that `selectBestChild` adds to the confidence bound of a child: `Bias()` of
its state, 0 without a state. -/
def Node.bias {S : Type} [Montecarlo.State S] (c : Node S) : F64 :=
  match c.State with
  | some s => State.Bias s
  | none => F64.fin 0

/-- The value `ucb + bias` by which `selectBestChild`, at the node at `path`, compares the
child under the key `k`. -/
def childValue {S : Type} [State S] (m : MathFns) (root : Node S) (path : Path)
    (explorationParam : F64) (player : Nat) (k : Key) : Option F64 :=
  match UpperConfidenceBound m root (path ++ [k]) explorationParam player,
      root.get? (path ++ [k]) with
  | some ucb, some c => some (F64.add ucb c.bias)
  | _, _ => none

/-- The mean score `score[player] / visits` of a node. -/
def Node.meanScore {S : Type} (c : Node S) (player : Nat) : Option F64 :=
  match c.Score player with
  | some s => some (F64.div s (F64.ofInt c.Visits))
  | none => none

/-- One descending round of the loop of `UCTPolicy.Select`: the node at `a.1` passes the
loop condition (it is a root or not terminal) and is exhausted, and `selectBestChild`,
reading the draws `a.2`, returns the pointer `b.1` and leaves the draws `b.2`. -/
def SelectDescends {S : Type} [State S] (m : MathFns) (ord : MapOrder) (explorationParam : F64)
    (root : Node S) (a b : Path × Rand) : Prop :=
  ∃ node k, root.get? a.1 = some node ∧ (IsRoot a.1 || !node.IsTerminal) = true ∧
    node.IsExhausted = true ∧
    selectBestChild m ord a.2 root a.1 explorationParam = some ((k, some b.1), b.2)

/-- The slice `maxima[maxUCB]` holds nothing but copies of `maxIndex`. -/
def BestState.TiesOK (st : BestState) : Prop :=
  ∀ k ∈ floatMapGet st.maxUCB st.maxima, k = st.maxIndex

/-! ## Fixtures of the selection theorems -/

/-- A one-player node without state. -/
def statNode (score : ℚ) (visits : Int) (children : List (Key × Node oneMoveState)) :
    Node oneMoveState :=
  Node.mk [F64.fin score] 1 none visits children Policy.UCTPolicy

/-- A one-player leaf whose state is final and declares the bias `bias`. -/
def biasNode (score : ℚ) (visits : Int) (bias : F64) : Node oneMoveState :=
  Node.mk [F64.fin score] 1
    (some { done := true, key := Key.nil, bias := bias, policy := Policy.UCTPolicy })
    visits [] Policy.UCTPolicy

/-- A root never visited, with a child visited twice. -/
def unvisitedParent : Node oneMoveState :=
  statNode 0 0 [(Key.str "a", statNode 1 2 [])]

/-- A root whose child `"a"` has mean score 0 and bias 5 and whose child `"b"` has mean
score 3 and bias 0. -/
def biasedRoot : Node oneMoveState :=
  statNode 0 4
    [(Key.str "a", biasNode 0 2 (F64.fin 5)), (Key.str "b", biasNode 6 2 (F64.fin 0))]

/-- A root whose child `"a"` has one visit and mean score 0 and whose child `"b"` has two
visits and mean score 1. -/
def oneVisitRoot : Node oneMoveState :=
  statNode 0 3 [(Key.str "a", statNode 0 1 []), (Key.str "b", statNode 2 2 [])]

/-- A root whose children have the mean scores 1 and 1.0000005. -/
def nearTieRoot : Node oneMoveState :=
  statNode 0 4
    [(Key.str "a", statNode 2 2 []), (Key.str "b", statNode (2000001 / 1000000) 2 [])]

/-- A root whose only child is stored under the empty string. -/
def emptyKeyRoot : Node oneMoveState :=
  statNode 0 4 [(emptyKey, statNode 2 2 [])]

/-- A root whose only child has the score `-Inf`. -/
def ninfRoot : Node oneMoveState :=
  statNode 0 4 [(Key.str "a", Node.mk [F64.ninf] 1 none 2 [] Policy.UCTPolicy)]

/-- A root holding the start state of the one-move game `coinState`, not yet expanded. -/
def coinRoot : Node coinState :=
  Node.mk [F64.fin 0] 1 (some { done := false }) 0 [] Policy.UCTPolicy

/-- The root `coinRoot` after its only action has been expanded and visited once. -/
def coinRootExpanded : Node coinState :=
  Node.mk [F64.fin 0] 1 (some { done := false }) 1
    [(Key.str "flip", Node.mk [F64.fin 0] 1 (some { done := true }) 1 [] Policy.UCTPolicy)]
    Policy.UCTPolicy

/-- A root holding a final state of the game `coinState`, which has no legal action. -/
def coinRootFinal : Node coinState :=
  Node.mk [F64.fin 0] 1 (some { done := true }) 0 [] Policy.UCTPolicy

/-- A root without state, as `NewNode` returns it. -/
def bareRoot : Node coinState := (Node.NewNode 1).1

/-- A root of the game `oneMoveState` whose only legal action `"a"` has a child, never
visited, that holds a state with the untried action `"b"`. -/
def walkRoot : Node oneMoveState :=
  Node.mk [F64.fin 0] 1
    (some { done := false, key := Key.str "a", bias := F64.fin 0, policy := Policy.UCTPolicy })
    0
    [(Key.str "a", Node.mk [F64.fin 0] 1
      (some { done := false, key := Key.str "b", bias := F64.fin 0,
              policy := Policy.UCTPolicy }) 0 [] Policy.UCTPolicy)]
    Policy.UCTPolicy

/-- A step of a playout: a legal action of the state `a`, applied to `a`, gives `b`. -/
def PlayoutStep {S : Type} [State S] (a b : S) : Prop :=
  ∃ ka ∈ State.LegalActions a, b = ka.2 a

/-- The probabilities `{A: 0.3, B: 0.7}`. -/
def abProbability : List (Key × F64) :=
  [(Key.str "A", F64.fin (3 / 10)), (Key.str "B", F64.fin (7 / 10))]

/-- A chance state with the two outcomes `"A"` and `"B"`, each of which ends the game. -/
structure abState where
  done : Bool

instance : State abState where
  LegalActions s :=
    if s.done then []
    else [(Key.str "A", fun _ => { done := true }), (Key.str "B", fun _ => { done := true })]
  Score _ _ := F64.fin 0
  Bias _ := F64.fin 0
  Copy s := s
  Player _ := 0
  Policy _ := Policy.DeterminizationPolicy abProbability

/-- A chance node, not yet expanded. -/
def abRoot : Node abState :=
  Node.mk [F64.fin 0] 1 (some { done := false }) 0 [] (Policy.DeterminizationPolicy abProbability)

/-- The chance node `abRoot` with both outcomes expanded. -/
def abRootExpanded : Node abState :=
  Node.mk [F64.fin 0] 1 (some { done := false }) 0
    [(Key.str "A", newChild 1 { done := true }), (Key.str "B", newChild 1 { done := true })]
    (Policy.DeterminizationPolicy abProbability)

/-- The legal actions of `s` that have no child at `node`, as `Expand` collects them. -/
def untriedActions {S : Type} [State S] (node : Node S) (s : S) : List (Key × (S → S)) :=
  (State.LegalActions s).filter (fun ka => (node.GetChild ka.1).isNone)

/-- A `Node` as an object in memory: its `parent` is the address of a node or nil, and its
child map holds addresses of nodes. -/
structure Cell (S : Type) where
  score : List F64
  numPlayers : Nat
  State : Option S
  visits : Int
  parent : Option Nat
  children : List (Key × Nat)
  policy : Policy

/-- The memory that holds the nodes: the node at each address that holds one. -/
abbrev Heap (S : Type) := Nat → Option (Cell S)

/-- The node that `NewNode` returns, as an object in memory. -/
def Cell.NewNode {S : Type} (numPlayers : Nat) : Cell S :=
  { score := List.replicate numPlayers (F64.fin 0), numPlayers := numPlayers, State := none,
    visits := 0, parent := none, children := [], policy := Policy.UCTPolicy }

/-- Assignment to the node at the address `a`. -/
def Heap.write {S : Type} (h : Heap S) (a : Nat) (c : Cell S) : Heap S :=
  fun b => if b = a then some c else h b

/-- `node.SetChild(index, child)` on pointers: `child.parent = node`, then
`node.children[index] = child`.  No result when a pointer is nil. -/
def Heap.SetChild {S : Type} (h : Heap S) (node : Nat) (index : Key) (child : Nat) :
    Option (Heap S) :=
  match h child with
  | none => none
  | some c =>
    let h1 := h.write child { c with parent := some node }
    match h1 node with
    | none => none
    | some n => some (h1.write node { n with children := mapSet index child n.children })

/-- `node.RemoveChild(index)` on pointers: when `index` is a key of the child map,
`node.children[index].parent = nil`, then `delete(node.children, index)`. -/
def Heap.RemoveChild {S : Type} (h : Heap S) (node : Nat) (index : Key) : Option (Heap S) :=
  match h node with
  | none => none
  | some n =>
    match mapGet index n.children with
    | none => some h
    | some child =>
      match h child with
      | none => none
      | some c =>
        let h1 := h.write child { c with parent := none }
        match h1 node with
        | none => none
        | some n1 => some (h1.write node { n1 with children := mapDelete index n1.children })

/-- `node.GetChild(index)` on pointers: nil when `index` is no key. -/
def Heap.GetChild {S : Type} (h : Heap S) (node : Nat) (index : Key) : Option Nat :=
  match h node with
  | none => none
  | some n => mapGet index n.children

/-- `node.Parent()` on pointers. -/
def Heap.Parent {S : Type} (h : Heap S) (node : Nat) : Option Nat :=
  match h node with
  | none => none
  | some n => n.parent

/-- A memory of three fresh one-player nodes, at the addresses 0, 1 and 2. -/
def threeNodes : Heap simpleStateImplementation :=
  fun a => if a < 3 then some (Cell.NewNode 1) else none

/-- A call of `SetChild` or of `RemoveChild`. -/
inductive TreeOp where
  | SetChild (node : Nat) (index : Key) (child : Nat)
  | RemoveChild (node : Nat) (index : Key)

/-- The memory after a call. -/
def Heap.apply {S : Type} (h : Heap S) : TreeOp → Option (Heap S)
  | TreeOp.SetChild node index child => h.SetChild node index child
  | TreeOp.RemoveChild node index => h.RemoveChild node index

/-- The memory after a sequence of calls. -/
def Heap.run {S : Type} (h : Heap S) : List TreeOp → Option (Heap S)
  | [] => some h
  | op :: ops =>
    match h.apply op with
    | none => none
    | some h1 => Heap.run h1 ops

/-- All nodes in memory are fresh: they have no parent and no children. -/
def Heap.Fresh {S : Type} (h : Heap S) : Prop :=
  ∀ a n, h a = some n → n.parent = none ∧ n.children = []

/-- The parent back-reference invariant: a node `c` has the parent `p` exactly when `c` is
stored in the child map of `p`, under exactly one key. -/
def Heap.BackReference {S : Type} (h : Heap S) : Prop :=
  ∀ c p cn pn, h c = some cn → h p = some pn →
    (cn.parent = some p ↔ ∃! k, mapGet k pn.children = some c)

/-- A call that attaches with care: `SetChild` on two nodes in memory, of a child that has
no parent, under a key that the node does not have; or `RemoveChild` on a node in
memory. -/
def Heap.Attaches {S : Type} (h : Heap S) : TreeOp → Prop
  | TreeOp.SetChild node index child =>
    (h node).isSome = true ∧ (h child).isSome = true ∧ h.GetChild node index = none ∧
      h.Parent child = none
  | TreeOp.RemoveChild node _ => (h node).isSome = true

/-- Every call of the sequence attaches with care in the memory it is made in. -/
def Heap.Careful {S : Type} (h : Heap S) : List TreeOp → Prop
  | [] => True
  | op :: ops => h.Attaches op ∧ ∀ h1, h.apply op = some h1 → Heap.Careful h1 ops

/-- Child maps and parents agree: every stored child is in memory and has the storing node
as parent, no child is stored twice in a map, and every node with a parent in memory is
stored in the child map of that parent. -/
def Heap.Linked {S : Type} (h : Heap S) : Prop :=
  (∀ p pn k c, h p = some pn → mapGet k pn.children = some c →
    ∃ cn, h c = some cn ∧ cn.parent = some p) ∧
  (∀ p pn k k' c, h p = some pn → mapGet k pn.children = some c →
    mapGet k' pn.children = some c → k = k') ∧
  (∀ c cn p pn, h c = some cn → cn.parent = some p → h p = some pn →
    ∃ k, mapGet k pn.children = some c)

/-- The memory `threeNodes` after `SetChild` has stored the node 1 in the node 0 under
the key `"0"`. -/
def attachedNodes : Heap simpleStateImplementation :=
  fun a =>
    if a = 0 then some { (Cell.NewNode 1 : Cell simpleStateImplementation) with
      children := [(Key.str "0", 1)] }
    else if a = 1 then some { (Cell.NewNode 1 : Cell simpleStateImplementation) with
      parent := some 0 }
    else if a = 2 then some (Cell.NewNode 1)
    else none

/-- `Tree.Root`. -/
def Tree.Root {S : Type} (tree : Tree S) : Node S := tree.root

/-- `Tree.Copy`: a copy of the action map around a copy of the root. -/
def Tree.Copy {S : Type} [State S] (tree : Tree S) : Option (Tree S) :=
  match tree.Root.Copy with
  | none => none
  | some rootCpy => some { possibleActions := tree.possibleActions, root := rootCpy }

/-- `Tree.Merge` as its comment describes it: merge the root of `other` into the root.
The source writes `root.Merge(other.Root())`, which hands a `*Node` to a method that takes
a `Node` and is not accepted by the Go compiler; this definition merges the node pointed
to, and is a reading of the intent, not of a program that runs. -/
def Tree.Merge {S : Type} [State S] (tree other : Tree S) :
    Option (Tree S × Option MergeError) :=
  match tree.Root.Merge other.Root with
  | none => none
  | some (root, err) => some ({ tree with root := root }, err)

/-- The work of one worker of `RootParallelSearch`: `level` rounds of the loop of `Search`
on a copy of the tree. -/
def parallelWorker {S : Type} [State S] (m : MathFns) (ord : MapOrder) (fuel : Nat)
    (expl : F64) (level : Nat) (rnd : Rand) (tree : Tree S) : Option (Tree S) :=
  match tree.Copy with
  | none => none
  | some t =>
    match searchLoop m ord fuel expl level rnd t.Root with
    | none => none
    | some (root, _) => some { t with root := root }

/-- The trees of the workers `threads`, each drawing from its own stream. -/
def parallelWorkers {S : Type} [State S] (m : MathFns) (ord : MapOrder) (fuel : Nat)
    (expl : F64) (level : Nat) (rnds : Nat → Rand) (tree : Tree S) :
    List Nat → Option (List (Tree S))
  | [] => some []
  | threadno :: rest =>
    match parallelWorker m ord fuel expl level (rnds threadno) tree with
    | none => none
    | some t =>
      match parallelWorkers m ord fuel expl level rnds tree rest with
      | none => none
      | some ts => some (t :: ts)

/-- The loop `for t := range trees { mcts.tree.Merge(t) }`: the trees are merged one at a
time and the error of `Merge` is dropped. -/
def mergeTrees {S : Type} [State S] : Tree S → List (Tree S) → Option (Tree S)
  | tree, [] => some tree
  | tree, t :: rest =>
    match tree.Merge t with
    | none => none
    | some (tree', _) => mergeTrees tree' rest

/-- The tree `mcts.tree` of `RootParallelSearch` after the merges, read sequentially and
with the `Tree.Merge` above: the workers run one after the other on their copies, and
their trees arrive in the channel in an order that `arrival` chooses. -/
def MultiplayerMCTS.parallelTree {S : Type} [State S] (m : MathFns) (ord arrival : MapOrder)
    (fuel : Nat) (rnds : Nat → Rand) (mcts : MultiplayerMCTS S) (numThreads : Nat)
    (level : Int) (expl : F64) : Option (Tree S) :=
  match parallelWorkers m ord fuel expl level.toNat rnds mcts.tree
      (List.range numThreads) with
  | none => none
  | some trees => mergeTrees mcts.tree (arrival.perm 0 trees)

/-- `RootParallelSearch`: the key and the action it returns (the error is always nil).
The receiver is a value: the merges are made into the copy `mcts.tree` that the call
holds. -/
def MultiplayerMCTS.RootParallelSearch {S : Type} [State S] (m : MathFns)
    (ord arrival : MapOrder) (fuel : Nat) (rnds : Nat → Rand) (rnd : Rand)
    (mcts : MultiplayerMCTS S) (numThreads : Nat) (level : Int) (expl : F64) :
    Option (Key × Option (S → S)) :=
  match mcts.parallelTree m ord arrival fuel rnds numThreads level expl with
  | none => none
  | some tree =>
    match selectBestChild m ord rnd tree.root [] (F64.fin 0) with
    | none => none
    | some ((key, _), _) => some (key, mapGet key tree.possibleActions)

/-- The calls `Expand(node)` of a growing tree in order, each with its draws and the
pointer to its node; the pointer that `Expand` returns is dropped. -/
def expandRun {S : Type} [State S] : Node S → List (Rand × Path) → Option (Node S)
  | root, [] => some root
  | root, (rnd, path) :: rest =>
    match UCTPolicy.Expand rnd root path with
    | none => none
    | some ((root', _), _) => expandRun root' rest

/-- At every node of the tree that holds a state, the policy is the one the state
declares. -/
def Node.PolicyOK {S : Type} [Montecarlo.State S] (node : Node S) : Bool :=
  Node.allNodes (fun n =>
    match n.State with
    | none => true
    | some s => decide (n.policy = State.Policy s)) node

/-- An operand of `fmt.Sprintf` under the verb `%v`: an unsigned integer, or a value whose
type has an `Error` method, given with the result of calling that method (`none` when the
call does not return). -/
inductive FmtOperand where
  | uint (n : Nat)
  | error (Error : Option String)

/-- The text `fmt.Sprintf` puts in the place of a `%v`: an operand that implements the
`error` interface is formatted by invoking its `Error` method (package `fmt`), an
integer is written in decimal. -/
def fmtVerbV : FmtOperand → Option String
  | FmtOperand.uint n => some (toString n)
  | FmtOperand.error r => r

/-- `ZeroPlayerCount.Error`: `fmt.Sprintf("can't create node with zero players: %v", zpc)`.
The operand is the receiver, whose type `ZeroPlayerCount` has this `Error` method; `fuel`
bounds the depth of the calls. -/
def ZeroPlayerCount.Error {S : Type} : Nat → Node S → Option String
  | 0, _ => none
  | fuel + 1, zpc =>
    match fmtVerbV (FmtOperand.error (ZeroPlayerCount.Error fuel zpc)) with
    | none => none
    | some v => some ("can't create node with zero players: " ++ v)

/-- `MergeDifferingPlayerCount.Error` and `MergePlayerIndexMismatch.Error`, which format
the two numbers of the error. -/
def MergeError.Error : MergeError → Option String
  | MergeError.MergeDifferingPlayerCount one other =>
    match fmtVerbV (FmtOperand.uint one), fmtVerbV (FmtOperand.uint other) with
    | some a, some b =>
      some ("can't merge tree of player count " ++ a ++ " with a tree of player count " ++ b)
    | _, _ => none
  | MergeError.MergePlayerIndexMismatch one other =>
    match fmtVerbV (FmtOperand.uint one), fmtVerbV (FmtOperand.uint other) with
    | some a, some b => some ("player index mismatch: " ++ a ++ " vs. " ++ b)
    | _, _ => none

mutual
/-- The number of nodes of a tree. -/
def Node.size {S : Type} : Node S → Nat
  | Node.mk _ _ _ _ c _ => Node.sizeChildren c + 1
/-- The number of nodes of a list of subtrees. -/
def Node.sizeChildren {S : Type} : List (Key × Node S) → Nat
  | [] => 0
  | (_, c) :: rest => Node.size c + Node.sizeChildren rest
end

/-- Every node of the tree has the player count `n`, a score vector of length `n`, and,
when it holds a state, a state whose player is below `n`. -/
def Node.IndexOK {S : Type} [Montecarlo.State S] (n : Nat) (node : Node S) : Bool :=
  Node.allNodes (fun x =>
    x.numPlayers == n && x.score.length == n &&
      match x.State with
      | none => true
      | some s => decide (State.Player s < n)) node

/-- Every node of the tree has the confidence-bound policy. -/
def Node.AllUCT {S : Type} (node : Node S) : Bool :=
  Node.allNodes (fun x => decide (x.policy = Policy.UCTPolicy)) node

/-- Every place of `node` is a place of `r`, and the node there has the same policy. -/
def KeepsPolicies {S : Type} (node r : Node S) : Prop :=
  ∀ q b, node.get? q = some b → ∃ b', r.get? q = some b' ∧ b'.policy = b.policy

/-- The sum of the visits of the children in a child map. -/
def childVisits {S : Type} (l : List (Key × Node S)) : Int :=
  (l.map (fun kc => kc.2.visits)).sum

/-- At every node of the tree, the visits are at least the sum of the visits of the
children. -/
def Node.VisitsOK {S : Type} (node : Node S) : Bool :=
  Node.allNodes (fun x => decide (childVisits x.children ≤ x.visits)) node

/-- The tree is as `VisitsOK` asks, but for the node at `path`, whose children may have one
visit more than it has: the state of the tree while `Backpropagate` has counted a visit
at a child of that node and not yet at the node. -/
def Node.DebtOK {S : Type} : Node S → Path → Prop
  | n, [] => childVisits n.children ≤ n.visits + 1 ∧
      ∀ kc ∈ n.children, kc.2.VisitsOK = true
  | n, k :: ks => childVisits n.children ≤ n.visits ∧
      ∃ c, mapGet k n.children = some c ∧ Node.DebtOK c ks ∧
        ∀ kc ∈ mapSet k (Node.NewNode 0).1 n.children, kc.2.VisitsOK = true

/-- The invariant of the loop of `Backpropagate` with the pointer `n`: `DebtOK` at the
pointer, and `VisitsOK` when the pointer is nil. -/
def Node.VisitsInv {S : Type} (root : Node S) : Option Path → Prop
  | none => root.VisitsOK = true
  | some p => root.DebtOK p

/-- What `Merge` reads and writes of a node apart from its children: the visits, the score
vector, the player count and the player of the state (`none` without a state). -/
structure NodeStats where
  visits : Int
  score : List F64
  numPlayers : Nat
  player : Option Nat

/-- The statistics of a node. -/
def Node.stats {S : Type} [Montecarlo.State S] (x : Node S) : NodeStats :=
  { visits := x.visits, score := x.score, numPlayers := x.numPlayers,
    player := x.State.map Montecarlo.State.Player }

/-- The statistics of the node at `q`, `none` where the tree has no node. -/
def statsAt {S : Type} [State S] (x : Node S) (q : Path) : Option NodeStats :=
  (x.get? q).map Node.stats

/-- The statistics of a receiver with the statistics `a` after a merge with a node with
the statistics `b`. -/
def NodeStats.merge (a b : NodeStats) : NodeStats :=
  { visits := a.visits + b.visits, score := List.zipWith F64.add a.score b.score,
    numPlayers := a.numPlayers,
    player := match a.player with
      | some p => some p
      | none => b.player }

/-- The statistics at a place after a merge: those of the node that one of the trees has
there, merged when both have one. -/
def mergeStatsAt : Option NodeStats → Option NodeStats → Option NodeStats
  | none, none => none
  | some a, none => some a
  | none, some b => some b
  | some a, some b => some (a.merge b)

/-- Two trees are compatible: wherever both have a node, the two nodes pass the checks of
`Merge` (same player count, no player-index conflict). -/
def Compatible {S : Type} [State S] (a b : Node S) : Prop :=
  ∀ q x y, a.get? q = some x → b.get? q = some y → mergeGetErrors x y = none

/-- The checks of `mergeGetErrors`, on the statistics of the two nodes. -/
def NodeStats.ok (a b : NodeStats) : Prop :=
  a.numPlayers = b.numPlayers ∧ ∀ p p', a.player = some p → b.player = some p' → p = p'

/-- Two trees have the same key structure and, at every place, the same visits and the
same score vector. -/
def SameStatistics {S : Type} (r1 r2 : Node S) : Prop :=
  ∀ q, (r1.get? q).isSome = (r2.get? q).isSome ∧
    ∀ x y, r1.get? q = some x → r2.get? q = some y →
      x.Visits = y.Visits ∧ x.ScoreVector = y.ScoreVector

/-- The visits and the score vector of the statistics. -/
def NodeStats.core (s : NodeStats) : Int × List F64 := (s.visits, s.score)

/-- The `float64` nearest to a rational, ties to even, for rationals whose magnitude is in
the normal range of `float64`: the values of `float64` in `[2^e, 2^(e+1))` are the
multiples of `2^(e-52)`. -/
def F64.roundQ (x : ℚ) : ℚ :=
  if x = 0 then 0
  else
    let ulp : ℚ := (2 : ℚ) ^ (Int.log 2 |x| - 52)
    let q := x / ulp
    let f := ⌊q⌋
    let n : Int :=
      if q - f < 1 / 2 then f
      else if 1 / 2 < q - f then f + 1
      else if f % 2 = 0 then f else f + 1
    n * ulp

/-- Float addition `a + b` with the rounding of the sum of two finite values, which
`F64.add` leaves out. -/
def F64.addRounded : F64 → F64 → F64
  | F64.fin a, F64.fin b => F64.fin (F64.roundQ (a + b))
  | a, b => F64.add a b

/-- The loop `node.score[i] += other.score[i]` of `mergeScores`, with the addition `add`
of floats as a parameter. -/
def mergeScoresWith (add : F64 → F64 → F64) (other : List F64) :
    List Nat → List F64 → Option (List F64)
  | [], score => some score
  | i :: is, score =>
    match score.get? i, other.get? i with
    | some a, some b => mergeScoresWith add other is (score.set i (add a b))
    | _, _ => none

mutual
/-- `Merge`, as `Node.Merge`, with the addition `add` of floats as a parameter. -/
def Node.MergeWith {S : Type} [Montecarlo.State S] (add : F64 → F64 → F64) :
    Node S → Node S → Option (Node S × Option MergeError)
  | node, Node.mk oscore onum ostate ovisits ochildren opolicy =>
    let other : Node S := Node.mk oscore onum ostate ovisits ochildren opolicy
    match mergeGetErrors node other with
    | some err => some (node, some err)
    | none =>
      match mergeScoresWith add other.score (List.range node.NumPlayers) node.score with
      | none => none
      | some sc =>
        let node1 := (node.withScore sc).withVisits (node.visits + other.Visits)
        let node2 := if node1.State.isNone && other.State.isSome
          then node1.withState (other.State.map Montecarlo.State.Copy) else node1
        match Node.mergeLoopWith add node2 ochildren with
        | none => none
        | some node3 => some (node3, none)
/-- The loop of `Merge` over the children of `other`, as `Node.mergeLoop`, with the
addition `add` of floats as a parameter. -/
def Node.mergeLoopWith {S : Type} [Montecarlo.State S] (add : F64 → F64 → F64) :
    Node S → List (Key × Node S) → Option (Node S)
  | node, [] => some node
  | node, (k, otherChild) :: rest =>
    match mapGet k node.children with
    | none =>
      match Node.MergeWith add (Node.NewNode otherChild.NumPlayers).1 otherChild with
      | none => none
      | some (otherCopy, _) => Node.mergeLoopWith add (node.SetChild k otherCopy) rest
    | some child =>
      match Node.MergeWith add child otherChild with
      | none => none
      | some (child', _) => Node.mergeLoopWith add (node.SetChild k child') rest
end

/-- Every node below the root has been visited. -/
def Node.BelowRootVisited {S : Type} (root : Node S) : Prop :=
  ∀ q b, q ≠ [] → root.get? q = some b → 1 ≤ b.visits

/-- The state of the tree while `Backpropagate` runs with the pointer `n`: the nodes below
the root that the loop has still to count, from `n` up, have no negative visit count, and
every other node below the root has been visited. -/
def Node.VisitedBut {S : Type} (root : Node S) : Option Path → Prop
  | none => root.BelowRootVisited
  | some n => ∀ q b, q ≠ [] → root.get? q = some b →
      (q <+: n → 0 ≤ b.visits) ∧ (¬ q <+: n → 1 ≤ b.visits)

/-- The value that an `int64` holds after an addition whose exact result is `v`: Go wraps
around modulo `2^64`. -/
def wrapInt64 (v : Int) : Int := (v + 2 ^ 63) % 2 ^ 64 - 2 ^ 63

/-- `AddVisit` on the `int64` counter of the source: `node.visits++`. -/
def Node.AddVisit64 {S : Type} (node : Node S) : Node S :=
  node.withVisits (wrapInt64 (node.visits + 1))

mutual
/-- `Merge` with the machine arithmetic of the source: `node.visits += other.Visits()` is
an addition of `int64` and wraps around, and the scores are added with the addition `add`
of floats, a parameter.  Otherwise as `Node.Merge`. -/
def Node.Merge64 {S : Type} [Montecarlo.State S] (add : F64 → F64 → F64) :
    Node S → Node S → Option (Node S × Option MergeError)
  | node, Node.mk oscore onum ostate ovisits ochildren opolicy =>
    let other : Node S := Node.mk oscore onum ostate ovisits ochildren opolicy
    match mergeGetErrors node other with
    | some err => some (node, some err)
    | none =>
      match mergeScoresWith add other.score (List.range node.NumPlayers) node.score with
      | none => none
      | some sc =>
        let node1 := (node.withScore sc).withVisits (wrapInt64 (node.visits + other.Visits))
        let node2 := if node1.State.isNone && other.State.isSome
          then node1.withState (other.State.map Montecarlo.State.Copy) else node1
        match Node.mergeLoop64 add node2 ochildren with
        | none => none
        | some node3 => some (node3, none)
/-- The loop of `Merge64` over the children of `other`, as `Node.mergeLoop`. -/
def Node.mergeLoop64 {S : Type} [Montecarlo.State S] (add : F64 → F64 → F64) :
    Node S → List (Key × Node S) → Option (Node S)
  | node, [] => some node
  | node, (k, otherChild) :: rest =>
    match mapGet k node.children with
    | none =>
      match Node.Merge64 add (Node.NewNode otherChild.NumPlayers).1 otherChild with
      | none => none
      | some (otherCopy, _) => Node.mergeLoop64 add (node.SetChild k otherCopy) rest
    | some child =>
      match Node.Merge64 add child otherChild with
      | none => none
      | some (child', _) => Node.mergeLoop64 add (node.SetChild k child') rest
end

/-- `Copy` with the machine arithmetic of the source: `Merge64` into a new node of the
same player count. -/
def Node.Copy64 {S : Type} [Montecarlo.State S] (add : F64 → F64 → F64) (node : Node S) :
    Option (Node S) :=
  match Node.Merge64 add (Node.NewNode node.NumPlayers).1 node with
  | none => none
  | some (cpy, _) => some cpy

/-- The loop of `Backpropagate` with the machine arithmetic of the source: the visit is
counted in `int64` and the score is added with the addition `add` of floats.  Otherwise
as `UCTPolicy.BackpropagateLoop`. -/
def UCTPolicy.BackpropagateLoop64 {S : Type} (add : F64 → F64 → F64) (player : Nat)
    (score : F64) : Nat → Node S → Option Path → Option (Node S)
  | _, root, none => some root
  | 0, _, some _ => none
  | fuel + 1, root, some n =>
    match root.get? n with
    | none => none
    | some node =>
      match node.Score player with
      | none => none
      | some old =>
        match node.SetScore player (add old score) with
        | none => none
        | some node1 =>
          UCTPolicy.BackpropagateLoop64 add player score fuel
            (root.modify (fun _ => node1.AddVisit64) n) (Parent n)

/-- `UCTPolicy.Backpropagate` from the node at `path`, with the machine arithmetic of the
source. -/
def UCTPolicy.Backpropagate64 {S : Type} [State S] (add : F64 → F64 → F64) (root : Node S)
    (path : Path) (score : F64) : Option (Node S) :=
  match root.get? path with
  | none => none
  | some node =>
    UCTPolicy.BackpropagateLoop64 add node.Player score (path.length + 1) root (some path)

/-- A tree whose root has `2^62` visits and whose only child has `2^61`. -/
def wideTree : Node coinState :=
  Node.mk [F64.fin 0] 1 (some { done := false }) (2 ^ 62)
    [(Key.str "flip", Node.mk [F64.fin 0] 1 (some { done := true }) (2 ^ 61) []
      Policy.UCTPolicy)]
    Policy.UCTPolicy

/-- A root without children that has the largest `int64` as its visits. -/
def fullRoot : Node coinState :=
  Node.mk [F64.fin 0] 1 (some { done := false }) (2 ^ 63 - 1) [] Policy.UCTPolicy

/-! ## Theorems -/

/-- C10: `UpperConfidenceBound(e, p)` is `+Inf`, for every exploration parameter and every
player, when the node is a root, or has zero visits, or has one visit and a root parent. -/
theorem UpperConfidenceBound_inf {S : Type} (m : MathFns) (root node : Node S) (path : Path)
    (e : F64) (p : Nat) (hnode : root.get? path = some node)
    (h : IsRoot path = true ∨ node.Visits = 0 ∨
      (node.Visits = 1 ∧ ∃ pp, Parent path = some pp ∧ IsRoot pp = true)) :
    UpperConfidenceBound m root path e p = some F64.pinf := by
  unfold UpperConfidenceBound
  rw [hnode]
  rcases h with h | h | ⟨h1, pp, hp, hr⟩
  · simp [h]
  · simp [h, F64.ofInt, F64.le]
  · by_cases hroot : IsRoot path = true
    · simp [hroot]
    · simp [h1, hp, hr, hroot, F64.ofInt, F64.eq]

/-- C10 at a one-visit child of a ten-visit root, as in
`TestUpperConfidenceBoundDirectFromRoot`. -/
theorem UpperConfidenceBound_inf_witness :
    UpperConfidenceBound ⟨fun _ => 0, fun _ => 0⟩
      (testNode 0 10 none [(Key.str "0", testNode 0 1 none [])]) [Key.str "0"]
      (F64.fin 0) 0 = some F64.pinf :=
  UpperConfidenceBound_inf _ _ (testNode 0 1 none []) _ _ _ rfl
    (Or.inr (Or.inr ⟨rfl, [], rfl, rfl⟩))

/-! ### Fields and maps -/

section fields

variable {S : Type}

@[simp] theorem score_withScore (n : Node S) (x : List F64) : (n.withScore x).score = x := by
  cases n; rfl
@[simp] theorem numPlayers_withScore (n : Node S) (x : List F64) :
    (n.withScore x).numPlayers = n.numPlayers := by cases n; rfl
@[simp] theorem State_withScore (n : Node S) (x : List F64) :
    (n.withScore x).State = n.State := by cases n; rfl
@[simp] theorem visits_withScore (n : Node S) (x : List F64) :
    (n.withScore x).visits = n.visits := by cases n; rfl
@[simp] theorem children_withScore (n : Node S) (x : List F64) :
    (n.withScore x).children = n.children := by cases n; rfl
@[simp] theorem policy_withScore (n : Node S) (x : List F64) :
    (n.withScore x).policy = n.policy := by cases n; rfl

@[simp] theorem score_withState (n : Node S) (x : Option S) :
    (n.withState x).score = n.score := by cases n; rfl
@[simp] theorem numPlayers_withState (n : Node S) (x : Option S) :
    (n.withState x).numPlayers = n.numPlayers := by cases n; rfl
@[simp] theorem State_withState (n : Node S) (x : Option S) : (n.withState x).State = x := by
  cases n; rfl
@[simp] theorem visits_withState (n : Node S) (x : Option S) :
    (n.withState x).visits = n.visits := by cases n; rfl
@[simp] theorem children_withState (n : Node S) (x : Option S) :
    (n.withState x).children = n.children := by cases n; rfl
@[simp] theorem policy_withState (n : Node S) (x : Option S) :
    (n.withState x).policy = n.policy := by cases n; rfl

@[simp] theorem score_withVisits (n : Node S) (x : Int) :
    (n.withVisits x).score = n.score := by cases n; rfl
@[simp] theorem numPlayers_withVisits (n : Node S) (x : Int) :
    (n.withVisits x).numPlayers = n.numPlayers := by cases n; rfl
@[simp] theorem State_withVisits (n : Node S) (x : Int) :
    (n.withVisits x).State = n.State := by cases n; rfl
@[simp] theorem visits_withVisits (n : Node S) (x : Int) : (n.withVisits x).visits = x := by
  cases n; rfl
@[simp] theorem children_withVisits (n : Node S) (x : Int) :
    (n.withVisits x).children = n.children := by cases n; rfl
@[simp] theorem policy_withVisits (n : Node S) (x : Int) :
    (n.withVisits x).policy = n.policy := by cases n; rfl

@[simp] theorem score_withChildren (n : Node S) (x : List (Key × Node S)) :
    (n.withChildren x).score = n.score := by cases n; rfl
@[simp] theorem numPlayers_withChildren (n : Node S) (x : List (Key × Node S)) :
    (n.withChildren x).numPlayers = n.numPlayers := by cases n; rfl
@[simp] theorem State_withChildren (n : Node S) (x : List (Key × Node S)) :
    (n.withChildren x).State = n.State := by cases n; rfl
@[simp] theorem visits_withChildren (n : Node S) (x : List (Key × Node S)) :
    (n.withChildren x).visits = n.visits := by cases n; rfl
@[simp] theorem children_withChildren (n : Node S) (x : List (Key × Node S)) :
    (n.withChildren x).children = x := by cases n; rfl
@[simp] theorem policy_withChildren (n : Node S) (x : List (Key × Node S)) :
    (n.withChildren x).policy = n.policy := by cases n; rfl

@[simp] theorem score_withPolicy (n : Node S) (x : Policy) :
    (n.withPolicy x).score = n.score := by cases n; rfl
@[simp] theorem numPlayers_withPolicy (n : Node S) (x : Policy) :
    (n.withPolicy x).numPlayers = n.numPlayers := by cases n; rfl
@[simp] theorem State_withPolicy (n : Node S) (x : Policy) :
    (n.withPolicy x).State = n.State := by cases n; rfl
@[simp] theorem visits_withPolicy (n : Node S) (x : Policy) :
    (n.withPolicy x).visits = n.visits := by cases n; rfl
@[simp] theorem children_withPolicy (n : Node S) (x : Policy) :
    (n.withPolicy x).children = n.children := by cases n; rfl
@[simp] theorem policy_withPolicy (n : Node S) (x : Policy) : (n.withPolicy x).policy = x := by
  cases n; rfl

/-- A node is determined by its six fields. -/
theorem Node_ext {a b : Node S} (h1 : a.score = b.score) (h2 : a.numPlayers = b.numPlayers)
    (h3 : a.State = b.State) (h4 : a.visits = b.visits) (h5 : a.children = b.children)
    (h6 : a.policy = b.policy) : a = b := by
  cases a; cases b
  simp only [Node.score, Node.numPlayers, Node.State, Node.visits, Node.children,
    Node.policy] at h1 h2 h3 h4 h5 h6
  subst h1 h2 h3 h4 h5 h6
  rfl

@[simp] theorem score_SetChild (n c : Node S) (k : Key) : (n.SetChild k c).score = n.score := by
  simp [Node.SetChild]
@[simp] theorem numPlayers_SetChild (n c : Node S) (k : Key) :
    (n.SetChild k c).numPlayers = n.numPlayers := by simp [Node.SetChild]
@[simp] theorem State_SetChild (n c : Node S) (k : Key) : (n.SetChild k c).State = n.State := by
  simp [Node.SetChild]
@[simp] theorem visits_SetChild (n c : Node S) (k : Key) :
    (n.SetChild k c).visits = n.visits := by simp [Node.SetChild]
@[simp] theorem policy_SetChild (n c : Node S) (k : Key) :
    (n.SetChild k c).policy = n.policy := by simp [Node.SetChild]
@[simp] theorem children_SetChild (n c : Node S) (k : Key) :
    (n.SetChild k c).children = mapSet k c n.children := by simp [Node.SetChild]

@[simp] theorem score_NewNode (n : Nat) :
    ((Node.NewNode n : Node S × Bool).1).score = List.replicate n (F64.fin 0) := rfl
@[simp] theorem numPlayers_NewNode (n : Nat) :
    ((Node.NewNode n : Node S × Bool).1).numPlayers = n := rfl
@[simp] theorem State_NewNode (n : Nat) : ((Node.NewNode n : Node S × Bool).1).State = none := rfl
@[simp] theorem visits_NewNode (n : Nat) : ((Node.NewNode n : Node S × Bool).1).visits = 0 := rfl
@[simp] theorem children_NewNode (n : Nat) :
    ((Node.NewNode n : Node S × Bool).1).children = [] := rfl
@[simp] theorem policy_NewNode (n : Nat) :
    ((Node.NewNode n : Node S × Bool).1).policy = Policy.UCTPolicy := rfl

end fields

section maps

variable {α : Type}

@[simp] theorem mapGet_nil (k : Key) : mapGet k ([] : List (Key × α)) = none := rfl

theorem mapGet_cons (k k' : Key) (a : α) (m : List (Key × α)) :
    mapGet k ((k', a) :: m) = if k' = k then some a else mapGet k m := rfl

theorem mapGet_mapSet_self (k : Key) (a : α) (m : List (Key × α)) :
    mapGet k (mapSet k a m) = some a := by
  induction m with
  | nil => simp [mapSet, mapGet_cons]
  | cons x m ih =>
    obtain ⟨k', a'⟩ := x
    by_cases h : k' = k
    · simp [mapSet, mapGet_cons, h]
    · simp [mapSet, mapGet_cons, h, ih]

theorem mapGet_mapSet_ne (k k' : Key) (a : α) (m : List (Key × α)) (hne : k' ≠ k) :
    mapGet k' (mapSet k a m) = mapGet k' m := by
  induction m with
  | nil => simp [mapSet, mapGet_cons, hne.symm]
  | cons x m ih =>
    obtain ⟨k'', a'⟩ := x
    by_cases h : k'' = k
    · subst h
      simp [mapSet, mapGet_cons, hne.symm]
    · simp only [mapSet, h, if_false, mapGet_cons, ih]

theorem mapGet_eq_none_iff (k : Key) (m : List (Key × α)) :
    mapGet k m = none ↔ k ∉ mapKeys m := by
  induction m with
  | nil => simp [mapKeys]
  | cons x m ih =>
    obtain ⟨k', a'⟩ := x
    by_cases h : k' = k
    · simp [mapGet_cons, mapKeys, h]
    · have h' : ¬ k = k' := fun e => h e.symm
      simp only [mapGet_cons, h, if_false, ih, mapKeys, List.map_cons, List.mem_cons, h',
        false_or]

theorem mapGet_isSome_iff (k : Key) (m : List (Key × α)) :
    (mapGet k m).isSome = true ↔ k ∈ mapKeys m := by
  rw [← not_iff_not, ← mapGet_eq_none_iff]
  cases mapGet k m <;> simp

theorem mapGet_mem {k : Key} {a : α} {m : List (Key × α)} (h : mapGet k m = some a) :
    (k, a) ∈ m := by
  induction m with
  | nil => simp at h
  | cons x m ih =>
    obtain ⟨k', a'⟩ := x
    by_cases hk : k' = k
    · simp only [mapGet_cons, hk, if_true, Option.some.injEq] at h
      simp [hk, h]
    · simp only [mapGet_cons, hk, if_false] at h
      exact List.mem_cons_of_mem _ (ih h)

theorem mapGet_of_mem_nodup {k : Key} {a : α} {m : List (Key × α)} (hm : (k, a) ∈ m)
    (hnd : (mapKeys m).Nodup) : mapGet k m = some a := by
  induction m with
  | nil => simp at hm
  | cons x m ih =>
    obtain ⟨k', a'⟩ := x
    simp only [mapKeys, List.map_cons, List.nodup_cons] at hnd
    rcases List.mem_cons.mp hm with h | h
    · simp only [Prod.mk.injEq] at h
      simp [mapGet_cons, h.1, h.2]
    · have hk : k ∈ mapKeys m := List.mem_map.mpr ⟨(k, a), h, rfl⟩
      have hne : k' ≠ k := fun e => hnd.1 (e ▸ hk)
      simp only [mapGet_cons, hne, if_false]
      exact ih h hnd.2

theorem mem_mapKeys_mapSet (k k' : Key) (a : α) (m : List (Key × α)) :
    k' ∈ mapKeys (mapSet k a m) ↔ k' = k ∨ k' ∈ mapKeys m := by
  rw [← mapGet_isSome_iff, ← mapGet_isSome_iff]
  by_cases h : k' = k
  · subst h
    simp [mapGet_mapSet_self]
  · simp [mapGet_mapSet_ne _ _ _ _ h, h]

theorem mapSet_of_not_mem (k : Key) (a : α) (m : List (Key × α)) (h : k ∉ mapKeys m) :
    mapSet k a m = m ++ [(k, a)] := by
  induction m with
  | nil => rfl
  | cons x m ih =>
    obtain ⟨k', a'⟩ := x
    simp only [mapKeys, List.map_cons, List.mem_cons, not_or] at h
    have hne : ¬ k' = k := fun e => h.1 e.symm
    simp only [mapSet, hne, if_false, List.cons_append, ih h.2]

theorem mapKeys_mapSet_of_mem (k : Key) (a : α) (m : List (Key × α)) (h : k ∈ mapKeys m) :
    mapKeys (mapSet k a m) = mapKeys m := by
  induction m with
  | nil => simp [mapKeys] at h
  | cons x m ih =>
    obtain ⟨k', a'⟩ := x
    by_cases hk : k' = k
    · simp [mapSet, mapKeys, hk]
    · simp only [mapKeys, List.map_cons, List.mem_cons] at h
      have h' : k ∈ mapKeys m := by
        rcases h with h | h
        · exact absurd h.symm hk
        · exact h
      have := ih h'
      simp only [mapKeys] at this
      simp [mapSet, mapKeys, hk, this]

theorem nodup_mapKeys_mapSet (k : Key) (a : α) (m : List (Key × α))
    (h : (mapKeys m).Nodup) : (mapKeys (mapSet k a m)).Nodup := by
  by_cases hk : k ∈ mapKeys m
  · rw [mapKeys_mapSet_of_mem k a m hk]
    exact h
  · rw [mapSet_of_not_mem k a m hk]
    simp only [mapKeys, List.map_append, List.map_cons, List.map_nil]
    exact List.Nodup.append h (List.nodup_singleton k) (by simpa [mapKeys] using hk)

theorem mem_mapSet {k : Key} {a : α} {m : List (Key × α)} {x : Key × α}
    (h : x ∈ mapSet k a m) : x = (k, a) ∨ x ∈ m := by
  induction m with
  | nil => simpa [mapSet] using h
  | cons y m ih =>
    obtain ⟨k', a'⟩ := y
    by_cases hk : k' = k
    · simp only [mapSet, hk, if_true, List.mem_cons] at h
      rcases h with h | h
      · exact Or.inl h
      · exact Or.inr (List.mem_cons_of_mem _ h)
    · simp only [mapSet, hk, if_false, List.mem_cons] at h
      rcases h with h | h
      · exact Or.inr (h ▸ List.mem_cons_self _ _)
      · rcases ih h with h' | h'
        · exact Or.inl h'
        · exact Or.inr (List.mem_cons_of_mem _ h')

end maps

/-! ### Predicates over all nodes of a tree -/

section allNodes

variable {S : Type}

theorem allNodes_iff (p : Node S → Bool) (n : Node S) :
    Node.allNodes p n = true ↔ p n = true ∧ Node.allChildren p n.children = true := by
  cases n
  simp [Node.allNodes, Node.children]

theorem allChildren_iff (p : Node S → Bool) (l : List (Key × Node S)) :
    Node.allChildren p l = true ↔ ∀ kc ∈ l, Node.allNodes p kc.2 = true := by
  induction l with
  | nil => simp [Node.allChildren]
  | cons x l ih =>
    obtain ⟨k, c⟩ := x
    simp [Node.allChildren, ih]

theorem allChildren_mapSet (p : Node S → Bool) (k : Key) (c : Node S)
    (l : List (Key × Node S)) (hc : Node.allNodes p c = true)
    (hl : Node.allChildren p l = true) : Node.allChildren p (mapSet k c l) = true := by
  induction l with
  | nil => simp [mapSet, Node.allChildren, hc]
  | cons x l ih =>
    obtain ⟨k', c'⟩ := x
    simp only [Node.allChildren, Bool.and_eq_true] at hl
    by_cases h : k' = k
    · simp [mapSet, h, Node.allChildren, hc, hl.2]
    · simp [mapSet, h, Node.allChildren, hl.1, ih hl.2]

theorem allNodes_of_mapGet (p : Node S → Bool) {n c : Node S} {k : Key}
    (hn : Node.allNodes p n = true) (hc : mapGet k n.children = some c) :
    Node.allNodes p c = true :=
  (allChildren_iff p n.children).mp ((allNodes_iff p n).mp hn).2 (k, c) (mapGet_mem hc)

theorem ScoreOK_iff (n : Node S) :
    n.ScoreOK = true ↔
      n.score.length = n.numPlayers ∧ ∀ kc ∈ n.children, kc.2.ScoreOK = true := by
  unfold Node.ScoreOK
  rw [allNodes_iff, allChildren_iff]
  simp

theorem KeysOK_iff (n : Node S) :
    n.KeysOK = true ↔
      (mapKeys n.children).Nodup ∧ ∀ kc ∈ n.children, kc.2.KeysOK = true := by
  unfold Node.KeysOK
  rw [allNodes_iff, allChildren_iff]
  simp

theorem ScoreOK_NewNode (n : Nat) : (Node.NewNode n : Node S × Bool).1.ScoreOK = true := by
  simp [Node.NewNode, Node.ScoreOK, Node.allNodes, Node.allChildren, Node.score,
    Node.numPlayers]

theorem KeysOK_NewNode (n : Nat) : (Node.NewNode n : Node S × Bool).1.KeysOK = true := by
  simp [Node.NewNode, Node.KeysOK, Node.allNodes, Node.allChildren, Node.children, mapKeys]

end allNodes

/-! ### Merge: the statistics -/

/-- `Merge` first computes `mergeGetErrors`, then adds the statistics, then loops. -/
theorem Merge_eq {S : Type} [State S] (node other : Node S) :
    Node.Merge node other =
      match mergeGetErrors node other with
      | some err => some (node, some err)
      | none =>
        match mergeScores other.score (List.range node.NumPlayers) node.score with
        | none => none
        | some sc =>
          let node1 := (node.withScore sc).withVisits (node.visits + other.Visits)
          let node2 := if node1.State.isNone && other.State.isSome
            then node1.withState (other.State.map State.Copy) else node1
          match Node.mergeLoop node2 other.children with
          | none => none
          | some node3 => some (node3, none) := by
  cases other
  rw [Node.Merge]
  rfl

theorem mergeScores_spec (other : List F64) :
    ∀ (is : List Nat) (score : List F64), is.Nodup →
      (∀ i ∈ is, i < score.length ∧ i < other.length) →
      ∃ r, mergeScores other is score = some r ∧ r.length = score.length ∧
        ∀ j, r.get? j =
          if j ∈ is then
            (match score.get? j, other.get? j with
              | some a, some b => some (F64.add a b)
              | _, _ => none)
          else score.get? j := by
  intro is
  induction is with
  | nil => intro score _ _; exact ⟨score, rfl, rfl, fun j => by simp⟩
  | cons i is ih =>
    intro score hnd hlt
    obtain ⟨hi1, hi2⟩ := hlt i (List.mem_cons_self _ _)
    obtain ⟨hni, hnd'⟩ := List.nodup_cons.mp hnd
    have ha : score.get? i = some (score.get ⟨i, hi1⟩) := List.get?_eq_get hi1
    have hb : other.get? i = some (other.get ⟨i, hi2⟩) := List.get?_eq_get hi2
    obtain ⟨r, hr, hlen, hget⟩ := ih (score.set i (F64.add (score.get ⟨i, hi1⟩)
      (other.get ⟨i, hi2⟩))) hnd' (fun j hj => by
        have := hlt j (List.mem_cons_of_mem _ hj)
        simpa using this)
    refine ⟨r, ?_, by simpa using hlen, fun j => ?_⟩
    · simp only [mergeScores, ha, hb]
      exact hr
    · rw [hget j]
      by_cases hj : j ∈ is
      · have hji : i ≠ j := fun e => hni (e ▸ hj)
        simp [hj, List.getElem?_set_ne hji]
      · by_cases hji : j = i
        · subst hji
          simp only [hj, if_false, List.mem_cons, true_or, if_true, ha, hb]
          simp [hi1]
        · have hij : i ≠ j := fun e => hji e.symm
          simp [hj, hji, List.getElem?_set_ne hij]

theorem mergeScores_range (score other : List F64) (n : Nat) (h1 : score.length = n)
    (h2 : other.length = n) :
    mergeScores other (List.range n) score = some (List.zipWith F64.add score other) := by
  obtain ⟨r, hr, _, hget⟩ := mergeScores_spec other (List.range n) score (List.nodup_range n)
    (fun i hi => by
      have := List.mem_range.mp hi
      omega)
  rw [hr]
  congr 1
  apply List.ext_get?
  intro j
  rw [hget j]
  simp only [List.get?_eq_getElem?, List.getElem?_zipWith, List.mem_range]
  by_cases hj : j < n
  · simp only [hj, if_true]
    rcases hs : score[j]? with _ | a <;> rcases ho : other[j]? with _ | b <;> simp
  · have : score[j]? = none := by
      apply List.getElem?_eq_none
      omega
    simp [hj, this]

theorem mergeLoop_fields {S : Type} [State S] :
    ∀ (l : List (Key × Node S)) (node r : Node S), Node.mergeLoop node l = some r →
      r.score = node.score ∧ r.numPlayers = node.numPlayers ∧ r.State = node.State ∧
        r.visits = node.visits ∧ r.policy = node.policy := by
  intro l
  induction l with
  | nil =>
    intro node r h
    simp only [Node.mergeLoop, Option.some.injEq] at h
    subst h
    exact ⟨rfl, rfl, rfl, rfl, rfl⟩
  | cons x l ih =>
    obtain ⟨k, oc⟩ := x
    intro node r h
    rw [Node.mergeLoop] at h
    split at h
    · split at h
      · exact absurd h (by simp)
      · have := ih _ _ h
        simpa using this
    · split at h
      · exact absurd h (by simp)
      · have := ih _ _ h
        simpa using this

theorem ScoreOK_SetChild {S : Type} (n c : Node S) (k : Key) (hn : n.ScoreOK = true)
    (hc : c.ScoreOK = true) : (n.SetChild k c).ScoreOK = true := by
  rw [ScoreOK_iff] at hn ⊢
  refine ⟨by simpa using hn.1, fun kc hkc => ?_⟩
  rw [children_SetChild] at hkc
  rcases mem_mapSet hkc with h | h
  · rw [h]; exact hc
  · exact hn.2 kc h

theorem KeysOK_SetChild {S : Type} (n c : Node S) (k : Key) (hn : n.KeysOK = true)
    (hc : c.KeysOK = true) : (n.SetChild k c).KeysOK = true := by
  rw [KeysOK_iff] at hn ⊢
  refine ⟨?_, fun kc hkc => ?_⟩
  · rw [children_SetChild]
    exact nodup_mapKeys_mapSet k c _ hn.1
  · rw [children_SetChild] at hkc
    rcases mem_mapSet hkc with h | h
    · rw [h]; exact hc
    · exact hn.2 kc h

/-- An error returned by `Merge` is the one of `mergeGetErrors`, and the receiver is as
it was. -/
theorem Merge_error_eq {S : Type} [State S] (node other r : Node S) (e : MergeError)
    (h : Node.Merge node other = some (r, some e)) :
    mergeGetErrors node other = some e ∧ r = node := by
  rw [Merge_eq] at h
  cases hg : mergeGetErrors node other with
  | some err =>
    rw [hg] at h
    simp only [Option.some.injEq, Prod.mk.injEq] at h
    exact ⟨by rw [h.2], h.1.symm⟩
  | none =>
    rw [hg] at h
    simp only at h
    split at h
    · exact absurd h (by simp)
    · split at h
      · exact absurd h (by simp)
      · simp at h

/-- The receiver after the statistics of `other` have been added: the state of `Merge`
when its loop over the children starts. -/
theorem Merge_of_ok {S : Type} [State S] (node other : Node S)
    (hg : mergeGetErrors node other = none) (h1 : node.score.length = node.numPlayers)
    (h2 : other.score.length = other.numPlayers) :
    node.numPlayers = other.numPlayers ∧
    Node.Merge node other =
      match Node.mergeLoop
        (((node.withScore (List.zipWith F64.add node.score other.score)).withVisits
          (node.visits + other.visits)).withState
            (match node.State with
              | some s => some s
              | none => other.State.map State.Copy)) other.children with
      | none => none
      | some node3 => some (node3, none) := by
  have hnum : node.numPlayers = other.numPlayers := by
    unfold mergeGetErrors at hg
    by_contra hne
    have : other.NumPlayers ≠ node.NumPlayers := fun e => hne e.symm
    simp [this] at hg
  refine ⟨hnum, ?_⟩
  rw [Merge_eq, hg]
  simp only [Node.NumPlayers, Node.Visits]
  rw [mergeScores_range node.score other.score node.numPlayers h1 (by rw [h2, hnum])]
  simp only [State_withVisits, State_withScore]
  have : (if node.State.isNone && other.State.isSome then
      ((node.withScore (List.zipWith F64.add node.score other.score)).withVisits
        (node.visits + other.visits)).withState (other.State.map State.Copy)
      else ((node.withScore (List.zipWith F64.add node.score other.score)).withVisits
        (node.visits + other.visits))) =
      (((node.withScore (List.zipWith F64.add node.score other.score)).withVisits
          (node.visits + other.visits)).withState
            (match node.State with
              | some s => some s
              | none => other.State.map State.Copy)) := by
    cases hs : node.State with
    | none =>
      cases ho : other.State with
      | none =>
        simp only [Option.isNone_none, Option.isSome_none, Bool.and_false, Option.map_none']
        apply Node_ext <;> simp [hs]
      | some t => simp
    | some t =>
      simp only [Option.isNone_some, Bool.false_and]
      apply Node_ext <;> simp [hs]
  rw [this]

mutual
/-- On trees whose score vectors have one entry per player, `Merge` returns. -/
theorem Merge_total {S : Type} [State S] :
    ∀ (other node : Node S), other.ScoreOK = true → node.ScoreOK = true →
      ∃ r e, Node.Merge node other = some (r, e) ∧ r.ScoreOK = true ∧
        (node.KeysOK = true → r.KeysOK = true)
  | Node.mk oscore onum ostate ovisits ochildren opolicy, node, ho, hn => by
    cases hg : mergeGetErrors node (Node.mk oscore onum ostate ovisits ochildren opolicy) with
    | some err =>
      refine ⟨node, some err, ?_, hn, id⟩
      rw [Merge_eq, hg]
    | none =>
      have ho' := (ScoreOK_iff _).mp ho
      have hn' := (ScoreOK_iff _).mp hn
      obtain ⟨hnum, heq⟩ := Merge_of_ok node _ hg hn'.1 ho'.1
      rw [heq]
      obtain ⟨r, hr, hr2, hr3⟩ := mergeLoop_total ochildren
        (((node.withScore (List.zipWith F64.add node.score oscore)).withVisits
          (node.visits + ovisits)).withState
            (match node.State with
              | some s => some s
              | none => ostate.map State.Copy)) ho'.2 (by
          rw [ScoreOK_iff]
          refine ⟨?_, by simpa using hn'.2⟩
          have h1 := hn'.1
          have h2 : oscore.length = onum := ho'.1
          have h3 : node.numPlayers = onum := hnum
          simp only [score_withState, score_withVisits, score_withScore, List.length_zipWith,
            numPlayers_withState, numPlayers_withVisits, numPlayers_withScore]
          omega)
      refine ⟨r, none, ?_, hr2, fun hk => hr3 ?_⟩
      · simp only [Node.score, Node.visits, Node.State, Node.children]
        simp only [Node.score, Node.visits, Node.State, Node.children] at hr
        rw [hr]
      · rw [KeysOK_iff] at hk ⊢
        simpa using hk
/-- On trees whose score vectors have one entry per player, the loop of `Merge` returns. -/
theorem mergeLoop_total {S : Type} [State S] :
    ∀ (l : List (Key × Node S)) (node : Node S), (∀ kc ∈ l, kc.2.ScoreOK = true) →
      node.ScoreOK = true → ∃ r, Node.mergeLoop node l = some r ∧ r.ScoreOK = true ∧
        (node.KeysOK = true → r.KeysOK = true)
  | [], node, _, hn => ⟨node, rfl, hn, id⟩
  | (k, oc) :: rest, node, hl, hn => by
    have hoc : oc.ScoreOK = true := hl (k, oc) (List.mem_cons_self _ _)
    have hrest : ∀ kc ∈ rest, kc.2.ScoreOK = true := fun kc h =>
      hl kc (List.mem_cons_of_mem _ h)
    rw [Node.mergeLoop]
    cases hget : mapGet k node.children with
    | none =>
      obtain ⟨c, e, hc, hc2, hc3⟩ := Merge_total oc (Node.NewNode oc.NumPlayers).1 hoc
        (ScoreOK_NewNode _)
      simp only [hc]
      obtain ⟨r, hr, hr2, hr3⟩ := mergeLoop_total rest _ hrest
        (ScoreOK_SetChild _ _ _ hn hc2)
      exact ⟨r, hr, hr2, fun hk => hr3 (KeysOK_SetChild _ _ _ hk (hc3 (KeysOK_NewNode _)))⟩
    | some child =>
      have hch : child.ScoreOK = true := allNodes_of_mapGet _ hn hget
      obtain ⟨c, e, hc, hc2, hc3⟩ := Merge_total oc child hoc hch
      simp only [hc]
      obtain ⟨r, hr, hr2, hr3⟩ := mergeLoop_total rest _ hrest
        (ScoreOK_SetChild _ _ _ hn hc2)
      exact ⟨r, hr, hr2, fun hk => hr3 (KeysOK_SetChild _ _ _ hk
        (hc3 (allNodes_of_mapGet _ hk hget)))⟩
end

/-- What `Merge` returns when the checks pass. -/
theorem Merge_ok {S : Type} [State S] (node other : Node S)
    (hg : mergeGetErrors node other = none) (hn : node.ScoreOK = true)
    (ho : other.ScoreOK = true) :
    ∃ r, Node.Merge node other = some (r, none) ∧
      Node.mergeLoop
        (((node.withScore (List.zipWith F64.add node.score other.score)).withVisits
          (node.visits + other.visits)).withState
            (match node.State with
              | some s => some s
              | none => other.State.map State.Copy)) other.children = some r ∧
      r.score = List.zipWith F64.add node.score other.score ∧
      r.numPlayers = node.numPlayers ∧
      r.visits = node.visits + other.visits ∧
      r.State = (match node.State with
        | some s => some s
        | none => other.State.map State.Copy) ∧
      r.policy = node.policy ∧ r.ScoreOK = true ∧ (node.KeysOK = true → r.KeysOK = true) := by
  obtain ⟨r, e, hr, hr2, hr3⟩ := Merge_total other node ho hn
  obtain ⟨_, heq⟩ := Merge_of_ok node other hg ((ScoreOK_iff _).mp hn).1
    ((ScoreOK_iff _).mp ho).1
  rw [heq] at hr
  split at hr
  · exact absurd hr (by simp)
  · rename_i node3 hloop
    simp only [Option.some.injEq, Prod.mk.injEq] at hr
    obtain ⟨h1, h2⟩ := hr
    subst h1
    obtain ⟨f1, f2, f3, f4, f5⟩ := mergeLoop_fields _ _ _ hloop
    rw [heq, hloop]
    refine ⟨node3, rfl, rfl, ?_, ?_, ?_, ?_, ?_, hr2, hr3⟩
    · simpa using f1
    · simpa using f2
    · simpa using f4
    · simpa using f3
    · simpa using f5

theorem zipWith_add_get {a b : List F64} {i : Nat} {x y : F64} (ha : a.get? i = some x)
    (hb : b.get? i = some y) : (List.zipWith F64.add a b).get? i = some (F64.add x y) := by
  simp only [List.get?_eq_getElem?] at ha hb ⊢
  simp [List.getElem?_zipWith, ha, hb]

/-- C3: merging `other` into `node`, both with one score entry per player at every node,
equal player counts and no player-index conflict, returns no error; the receiver then has
the entry-wise sum of the two score vectors, the sum of the visits, and its old state, or
a copy of the state of `other` when it had none. -/
theorem Merge_statistics {S : Type} [State S] (node other : Node S)
    (hn : node.ScoreOK = true) (ho : other.ScoreOK = true)
    (hcount : node.NumPlayers = other.NumPlayers)
    (hidx : ¬ (node.State.isSome = true ∧ other.State.isSome = true ∧
      node.Player ≠ other.Player)) :
    ∃ r, Node.Merge node other = some (r, none) ∧
      r.ScoreVector.length = node.NumPlayers ∧
      (∀ i, i < node.NumPlayers → ∃ a b, node.Score i = some a ∧ other.Score i = some b ∧
        r.Score i = some (F64.add a b)) ∧
      r.Visits = node.Visits + other.Visits ∧
      r.State = (match node.State with
        | some s => some s
        | none => other.State.map State.Copy) := by
  have hg : mergeGetErrors node other = none := by
    unfold mergeGetErrors
    have h1 : ¬ other.NumPlayers ≠ node.NumPlayers := fun h => h hcount.symm
    simp only [h1, if_false]
    split
    · rename_i hc
      simp only [Bool.and_eq_true, decide_eq_true_eq] at hc
      exact absurd ⟨hc.1.1, hc.1.2, hc.2⟩ hidx
    · rfl
  obtain ⟨r, hr, _, hs, _, hv, hst, _, _, _⟩ := Merge_ok node other hg hn ho
  have hl1 := ((ScoreOK_iff _).mp hn).1
  have hl2 := ((ScoreOK_iff _).mp ho).1
  have hc' : node.numPlayers = other.numPlayers := hcount
  refine ⟨r, hr, ?_, ?_, hv, hst⟩
  · simp only [Node.ScoreVector, hs, List.length_zipWith, Node.NumPlayers]
    omega
  · intro i hi
    simp only [Node.NumPlayers] at hi
    have ha : node.score.get? i = some (node.score.get ⟨i, by omega⟩) := List.get?_eq_get _
    have hb : other.score.get? i = some (other.score.get ⟨i, by omega⟩) :=
      List.get?_eq_get _
    refine ⟨_, _, ha, hb, ?_⟩
    simp only [Node.Score, hs]
    exact zipWith_add_get ha hb

/-- C3 at a childless node and a node with a state and one child. -/
theorem Merge_statistics_witness :
    ∃ r, Node.Merge (testNode 1 3 none [])
        (testNode 2 4 (some ⟨0, false⟩) [(Key.str "a", testNode 0 1 none [])]) =
        some (r, none) ∧
      r.ScoreVector.length = (testNode 1 3 none []).NumPlayers ∧
      (∀ i, i < (testNode 1 3 none []).NumPlayers →
        ∃ a b, (testNode 1 3 none []).Score i = some a ∧
          (testNode 2 4 (some ⟨0, false⟩) [(Key.str "a", testNode 0 1 none [])]).Score i =
            some b ∧
          r.Score i = some (F64.add a b)) ∧
      r.Visits = (testNode 1 3 none []).Visits +
        (testNode 2 4 (some ⟨0, false⟩) [(Key.str "a", testNode 0 1 none [])]).Visits ∧
      r.State = (match (testNode 1 3 none []).State with
        | some s => some s
        | none => (testNode 2 4 (some ⟨0, false⟩)
            [(Key.str "a", testNode 0 1 none [])]).State.map State.Copy) :=
  Merge_statistics _ _ rfl rfl rfl (by simp [testNode, Node.State])

/-! ### Merge: the children -/

theorem Copy_eq {S : Type} [State S] (node : Node S) :
    node.Copy = (Node.Merge (Node.NewNode node.NumPlayers).1 node).map Prod.fst := by
  unfold Node.Copy
  cases Node.Merge (Node.NewNode node.NumPlayers).1 node with
  | none => rfl
  | some x => rfl

/-- The child map after the loop of `Merge`: a key of `l` holds the merge of the two
children, or a copy of the child of `l` when the receiver had none; other keys are as
before. -/
theorem mergeLoop_children {S : Type} [State S] :
    ∀ (l : List (Key × Node S)) (node r : Node S), (mapKeys l).Nodup →
      Node.mergeLoop node l = some r → ∀ k,
        mapGet k r.children =
          match mapGet k l with
          | none => mapGet k node.children
          | some oc =>
            match mapGet k node.children with
            | none => oc.Copy
            | some c => (Node.Merge c oc).map Prod.fst := by
  intro l
  induction l with
  | nil =>
    intro node r _ h k
    simp only [Node.mergeLoop, Option.some.injEq] at h
    subst h
    rfl
  | cons x l ih =>
    obtain ⟨k0, oc⟩ := x
    intro node r hnd h k
    simp only [mapKeys, List.map_cons, List.nodup_cons] at hnd
    have hk0 : mapGet k0 l = none := (mapGet_eq_none_iff k0 l).mpr hnd.1
    rw [Node.mergeLoop] at h
    cases hget : mapGet k0 node.children with
    | none =>
      rw [hget] at h
      simp only at h
      cases hm : Node.Merge (Node.NewNode oc.NumPlayers).1 oc with
      | none => rw [hm] at h; exact absurd h (by simp)
      | some xe =>
        obtain ⟨x, e⟩ := xe
        rw [hm] at h
        simp only at h
        rw [ih _ _ hnd.2 h k]
        by_cases hk : k = k0
        · subst hk
          simp [hk0, mapGet_cons, hget, mapGet_mapSet_self, Copy_eq, hm]
        · have hk' : ¬ k0 = k := fun e => hk e.symm
          simp only [mapGet_cons, hk', if_false, children_SetChild,
            mapGet_mapSet_ne _ _ _ _ hk]
    | some child =>
      rw [hget] at h
      simp only at h
      cases hm : Node.Merge child oc with
      | none => rw [hm] at h; exact absurd h (by simp)
      | some xe =>
        obtain ⟨x, e⟩ := xe
        rw [hm] at h
        simp only at h
        rw [ih _ _ hnd.2 h k]
        by_cases hk : k = k0
        · subst hk
          simp [hk0, mapGet_cons, hget, mapGet_mapSet_self, hm]
        · have hk' : ¬ k0 = k := fun e => hk e.symm
          simp only [mapGet_cons, hk', if_false, children_SetChild,
            mapGet_mapSet_ne _ _ _ _ hk]

/-- The child map after a `Merge` that passed the checks. -/
theorem Merge_children {S : Type} [State S] (node other r : Node S)
    (hg : mergeGetErrors node other = none) (hn : node.ScoreOK = true)
    (ho : other.ScoreOK = true) (hk : (mapKeys other.children).Nodup)
    (hr : Node.Merge node other = some (r, none)) (k : Key) :
    mapGet k r.children =
      match mapGet k other.children with
      | none => mapGet k node.children
      | some oc =>
        match mapGet k node.children with
        | none => oc.Copy
        | some c => (Node.Merge c oc).map Prod.fst := by
  obtain ⟨r', hr', hloop, _⟩ := Merge_ok node other hg hn ho
  rw [hr] at hr'
  simp only [Option.some.injEq, Prod.mk.injEq, and_true] at hr'
  subst hr'
  have := mergeLoop_children _ _ _ hk hloop k
  simpa using this

theorem ScoreOK_of_mapGet {S : Type} {n c : Node S} {k : Key} (hn : n.ScoreOK = true)
    (hc : mapGet k n.children = some c) : c.ScoreOK = true :=
  allNodes_of_mapGet _ hn hc

theorem KeysOK_of_mapGet {S : Type} {n c : Node S} {k : Key} (hn : n.KeysOK = true)
    (hc : mapGet k n.children = some c) : c.KeysOK = true :=
  allNodes_of_mapGet _ hn hc

/-- `Copy` returns on trees with one score entry per player. -/
theorem Copy_total {S : Type} [State S] (n : Node S) (hn : n.ScoreOK = true) :
    ∃ c, n.Copy = some c ∧ Node.Merge (Node.NewNode n.NumPlayers).1 n = some (c, none) ∧
      c.ScoreOK = true ∧ c.KeysOK = true := by
  have hg : mergeGetErrors (Node.NewNode n.NumPlayers).1 n = none := by
    simp [mergeGetErrors, Node.NewNode, Node.NumPlayers, Node.numPlayers, Node.State]
  obtain ⟨r, hr, _, _, _, _, _, _, h1, h2⟩ := Merge_ok _ n hg (ScoreOK_NewNode _) hn
  exact ⟨r, by rw [Copy_eq, hr]; rfl, hr, h1, h2 (KeysOK_NewNode _)⟩

/-- The key set after a `Merge` that passed the checks is the union of the key sets. -/
theorem Merge_keys {S : Type} [State S] (node other r : Node S)
    (hg : mergeGetErrors node other = none) (hn : node.ScoreOK = true)
    (ho : other.ScoreOK = true) (hk : (mapKeys other.children).Nodup)
    (hr : Node.Merge node other = some (r, none)) (k : Key) :
    k ∈ mapKeys r.children ↔ k ∈ mapKeys node.children ∨ k ∈ mapKeys other.children := by
  rw [← mapGet_isSome_iff, ← mapGet_isSome_iff, ← mapGet_isSome_iff,
    Merge_children node other r hg hn ho hk hr k]
  cases h1 : mapGet k other.children with
  | none => simp
  | some oc =>
    have hoc := ScoreOK_of_mapGet ho h1
    cases h2 : mapGet k node.children with
    | none =>
      obtain ⟨c, hc, _⟩ := Copy_total oc hoc
      simp [hc]
    | some c =>
      obtain ⟨r', e, hm, _⟩ := Merge_total oc c hoc (ScoreOK_of_mapGet hn h2)
      simp [hm]

theorem Merge_no_error {S : Type} [State S] (node other r : Node S) (e : Option MergeError)
    (hg : mergeGetErrors node other = none) (h : Node.Merge node other = some (r, e)) :
    e = none := by
  cases e with
  | none => rfl
  | some err =>
    have := (Merge_error_eq node other r err h).1
    rw [hg] at this
    exact absurd this (by simp)

/-- Along a path of pairs that pass the checks, the node of the result is the merge of the
two corresponding nodes. -/
theorem Merge_along {S : Type} [State S] :
    ∀ (path : Path) (node other : Node S), node.ScoreOK = true → other.ScoreOK = true →
      other.KeysOK = true → mergeableAlong node other path = true →
      ∃ r n o n', Node.Merge node other = some (r, none) ∧ node.get? path = some n ∧
        other.get? path = some o ∧ r.get? path = some n' ∧
        Node.Merge n o = some (n', none) ∧ mergeGetErrors n o = none ∧
        n.ScoreOK = true ∧ o.ScoreOK = true ∧ o.KeysOK = true := by
  intro path
  induction path with
  | nil =>
    intro node other hn ho hk hm
    have hg : mergeGetErrors node other = none := by
      simpa [mergeableAlong] using hm
    obtain ⟨r, hr, _⟩ := Merge_ok node other hg hn ho
    exact ⟨r, node, other, r, hr, rfl, rfl, rfl, hr, hg, hn, ho, hk⟩
  | cons k ks ih =>
    intro node other hn ho hk hm
    simp only [mergeableAlong, Bool.and_eq_true, Option.isNone_iff_eq_none] at hm
    obtain ⟨hg, hm⟩ := hm
    cases h1 : mapGet k node.children with
    | none => simp [h1] at hm
    | some c =>
      cases h2 : mapGet k other.children with
      | none => simp [h1, h2] at hm
      | some oc =>
        simp only [h1, h2] at hm
        obtain ⟨rc, n, o, n', hrc, e1, e2, e3, e4, e5, e6, e7, e8⟩ :=
          ih c oc (ScoreOK_of_mapGet hn h1) (ScoreOK_of_mapGet ho h2)
            (KeysOK_of_mapGet hk h2) hm
        obtain ⟨r, hr, _⟩ := Merge_ok node other hg hn ho
        have hch := Merge_children node other r hg hn ho ((KeysOK_iff _).mp hk).1 hr k
        simp only [h1, h2, hrc, Option.map_some'] at hch
        refine ⟨r, n, o, n', hr, ?_, ?_, ?_, e4, e5, e6, e7, e8⟩
        · simp only [Node.get?, h1]; exact e1
        · simp only [Node.get?, h2]; exact e2
        · simp only [Node.get?, hch]; exact e3

/-- When the first pair that fails the checks lies at `path`, the receiver's node at
`path` is as it was; an error is returned exactly when `path` is empty. -/
theorem Merge_firstConflict {S : Type} [State S] :
    ∀ (path : Path) (node other : Node S), node.ScoreOK = true → other.ScoreOK = true →
      other.KeysOK = true → firstConflictAt node other path = true →
      ∃ r e n, Node.Merge node other = some (r, e) ∧ node.get? path = some n ∧
        r.get? path = some n ∧ (path = [] → r = node ∧ e.isSome = true) ∧
        (path ≠ [] → e = none) := by
  intro path
  induction path with
  | nil =>
    intro node other _ _ _ hm
    simp only [firstConflictAt, Option.isSome_iff_exists] at hm
    obtain ⟨err, hg⟩ := hm
    refine ⟨node, some err, node, ?_, rfl, rfl, fun _ => ⟨rfl, rfl⟩, fun h => absurd rfl h⟩
    rw [Merge_eq, hg]
  | cons k ks ih =>
    intro node other hn ho hk hm
    simp only [firstConflictAt, Bool.and_eq_true, Option.isNone_iff_eq_none] at hm
    obtain ⟨hg, hm⟩ := hm
    cases h1 : mapGet k node.children with
    | none => simp [h1] at hm
    | some c =>
      cases h2 : mapGet k other.children with
      | none => simp [h1, h2] at hm
      | some oc =>
        simp only [h1, h2] at hm
        obtain ⟨rc, ec, n, hrc, e1, e2, _, _⟩ :=
          ih c oc (ScoreOK_of_mapGet hn h1) (ScoreOK_of_mapGet ho h2)
            (KeysOK_of_mapGet hk h2) hm
        obtain ⟨r, hr, _⟩ := Merge_ok node other hg hn ho
        have hch := Merge_children node other r hg hn ho ((KeysOK_iff _).mp hk).1 hr k
        simp only [h1, h2, hrc, Option.map_some'] at hch
        refine ⟨r, none, n, hr, ?_, ?_, fun h => absurd h (by simp), fun _ => rfl⟩
        · simp only [Node.get?, h1]; exact e1
        · simp only [Node.get?, hch]; exact e2

theorem mergeGetErrors_of_success {S : Type} [State S] (node other r : Node S)
    (hr : Node.Merge node other = some (r, none)) : mergeGetErrors node other = none := by
  cases hg : mergeGetErrors node other with
  | none => rfl
  | some err =>
    rw [Merge_eq, hg] at hr
    simp at hr

/-- C4, as amended: after a successful `Merge` (trees with one score entry per player at
every node, `other` without duplicate keys) the key set of the receiver is the union of
the two key sets; a child only in the receiver is as it was; a child only in `other` is
its copy; a child in both is the result of merging the two children, with summed visits
and scores when the two children pass the checks of `Merge` and unchanged when they do
not; and the sums hold at the end of every key path along which every pair of
corresponding nodes passes the checks. -/
theorem Merge_children_union {S : Type} [State S] (node other r : Node S)
    (hn : node.ScoreOK = true) (ho : other.ScoreOK = true) (hk : other.KeysOK = true)
    (hr : Node.Merge node other = some (r, none)) :
    (∀ k, k ∈ mapKeys r.children ↔ k ∈ mapKeys node.children ∨ k ∈ mapKeys other.children) ∧
    (∀ k c, node.GetChild k = some c → other.GetChild k = none → r.GetChild k = some c) ∧
    (∀ k oc, node.GetChild k = none → other.GetChild k = some oc →
      ∃ cp, oc.Copy = some cp ∧ r.GetChild k = some cp) ∧
    (∀ k c oc, node.GetChild k = some c → other.GetChild k = some oc →
      (mergeGetErrors c oc = none →
        ∃ c', r.GetChild k = some c' ∧ Node.Merge c oc = some (c', none) ∧
          c'.Visits = c.Visits + oc.Visits ∧
          c'.ScoreVector = List.zipWith F64.add c.ScoreVector oc.ScoreVector) ∧
      (∀ e, mergeGetErrors c oc = some e → r.GetChild k = some c)) ∧
    (∀ path, mergeableAlong node other path = true →
      ∃ n o n', node.get? path = some n ∧ other.get? path = some o ∧
        r.get? path = some n' ∧ n'.Visits = n.Visits + o.Visits ∧
        n'.ScoreVector = List.zipWith F64.add n.ScoreVector o.ScoreVector) := by
  have hg := mergeGetErrors_of_success node other r hr
  have hnd := ((KeysOK_iff _).mp hk).1
  have hch := Merge_children node other r hg hn ho hnd hr
  refine ⟨Merge_keys node other r hg hn ho hnd hr, ?_, ?_, ?_, ?_⟩
  · intro k c h1 h2
    simp only [Node.GetChild] at h1 h2 ⊢
    rw [hch k, h2, h1]
  · intro k oc h1 h2
    simp only [Node.GetChild] at h1 h2 ⊢
    obtain ⟨cp, hcp, _⟩ := Copy_total oc (ScoreOK_of_mapGet ho h2)
    exact ⟨cp, hcp, by rw [hch k, h2, h1]; exact hcp⟩
  · intro k c oc h1 h2
    simp only [Node.GetChild] at h1 h2 ⊢
    have hc := ScoreOK_of_mapGet hn h1
    have hoc := ScoreOK_of_mapGet ho h2
    constructor
    · intro hgc
      obtain ⟨c', hc', _, hs, _, hv, _⟩ := Merge_ok c oc hgc hc hoc
      refine ⟨c', ?_, hc', hv, hs⟩
      rw [hch k, h2, h1]
      simp [hc']
    · intro e hgc
      rw [hch k, h2, h1]
      simp [Merge_eq, hgc]
  · intro path hm
    obtain ⟨r', n, o, n', hr', e1, e2, e3, e4, e5, e6, e7, _⟩ :=
      Merge_along path node other hn ho hk hm
    rw [hr] at hr'
    simp only [Option.some.injEq, Prod.mk.injEq, and_true] at hr'
    subst hr'
    obtain ⟨n'', hn'', _, hs, _, hv, _⟩ := Merge_ok n o e5 e6 e7
    rw [e4] at hn''
    simp only [Option.some.injEq, Prod.mk.injEq, and_true] at hn''
    subst hn''
    exact ⟨n, o, n', e1, e2, e3, hv, hs⟩

/-- C4 as stated fails: `Merge` succeeds on two trees whose children under `"a"` disagree
on the player, and the receiver's child keeps its one visit instead of the sum 2. -/
theorem Merge_children_union_counterexample :
    ∃ r c oc c', Node.Merge conflictReceiver conflictOther = some (r, none) ∧
      conflictReceiver.GetChild (Key.str "a") = some c ∧
      conflictOther.GetChild (Key.str "a") = some oc ∧
      r.GetChild (Key.str "a") = some c' ∧ c'.Visits ≠ c.Visits + oc.Visits :=
  ⟨_, _, _, _, rfl, rfl, rfl, rfl, by decide⟩

/-- C4, as amended, at two trees whose children under `"a"` fail the checks. -/
theorem Merge_children_union_witness :
    ∃ r, Node.Merge conflictReceiver conflictOther = some (r, none) ∧
    ((∀ k, k ∈ mapKeys r.children ↔
      k ∈ mapKeys conflictReceiver.children ∨ k ∈ mapKeys conflictOther.children) ∧
    (∀ k c, conflictReceiver.GetChild k = some c → conflictOther.GetChild k = none →
      r.GetChild k = some c) ∧
    (∀ k oc, conflictReceiver.GetChild k = none → conflictOther.GetChild k = some oc →
      ∃ cp, oc.Copy = some cp ∧ r.GetChild k = some cp) ∧
    (∀ k c oc, conflictReceiver.GetChild k = some c → conflictOther.GetChild k = some oc →
      (mergeGetErrors c oc = none →
        ∃ c', r.GetChild k = some c' ∧ Node.Merge c oc = some (c', none) ∧
          c'.Visits = c.Visits + oc.Visits ∧
          c'.ScoreVector = List.zipWith F64.add c.ScoreVector oc.ScoreVector) ∧
      (∀ e, mergeGetErrors c oc = some e → r.GetChild k = some c)) ∧
    (∀ path, mergeableAlong conflictReceiver conflictOther path = true →
      ∃ n o n', conflictReceiver.get? path = some n ∧ conflictOther.get? path = some o ∧
        r.get? path = some n' ∧ n'.Visits = n.Visits + o.Visits ∧
        n'.ScoreVector = List.zipWith F64.add n.ScoreVector o.ScoreVector)) :=
  ⟨_, rfl, Merge_children_union conflictReceiver conflictOther _ rfl rfl rfl rfl⟩

/-- C7, as amended: `Merge` validates before it mutates at the two nodes it is called on.
When these fail the checks it returns an error and the whole receiver is as it was.  When
the first failing pair of corresponding nodes lies below, at the end of a key path, the
failure is not reported, and the receiver's node at that path is as it was, with its
subtree. -/
theorem Merge_validates_first_pair {S : Type} [State S] (path : Path) (node other : Node S)
    (hn : node.ScoreOK = true) (ho : other.ScoreOK = true) (hk : other.KeysOK = true)
    (hc : firstConflictAt node other path = true) :
    ∃ r e n, Node.Merge node other = some (r, e) ∧ node.get? path = some n ∧
      r.get? path = some n ∧ (path = [] → r = node ∧ e.isSome = true) ∧
      (path ≠ [] → e = none) :=
  Merge_firstConflict path node other hn ho hk hc

/-- C7, as amended, at the conflict under `"a"`. -/
theorem Merge_validates_first_pair_witness :
    ∃ r e n, Node.Merge conflictReceiver conflictOther = some (r, e) ∧
      conflictReceiver.get? [Key.str "a"] = some n ∧
      r.get? [Key.str "a"] = some n ∧ ([Key.str "a"] = [] → r = conflictReceiver ∧
        e.isSome = true) ∧
      ([Key.str "a"] ≠ [] → e = none) :=
  Merge_validates_first_pair [Key.str "a"] conflictReceiver conflictOther rfl rfl rfl rfl

/-- C7 as stated fails: the children under `"a"` conflict on the player index, yet
`Merge` returns no error and the receiver has changed (two visits instead of one). -/
theorem Merge_validates_counterexample :
    firstConflictAt conflictReceiver conflictOther [Key.str "a"] = true ∧
    ∃ r, Node.Merge conflictReceiver conflictOther = some (r, none) ∧
      r.Visits ≠ conflictReceiver.Visits :=
  ⟨rfl, _, rfl, by decide⟩

/-! ### Copy -/

theorem F64.zero_add (x : F64) : F64.add (F64.fin 0) x = x := by
  cases x <;> simp [F64.add]

theorem F64.add_self (x : F64) : F64.add x x = F64.mul (F64.fin 2) x := by
  cases x with
  | nan => rfl
  | ninf => norm_num [F64.add, F64.mul, F64.signedInf]
  | pinf => norm_num [F64.add, F64.mul, F64.signedInf]
  | fin a => simp [F64.add, F64.mul, two_mul]

theorem zipWith_add_replicate (l : List F64) :
    List.zipWith F64.add (List.replicate l.length (F64.fin 0)) l = l := by
  induction l with
  | nil => rfl
  | cons x l ih => simp [List.replicate_succ, F64.zero_add, ih]

theorem zipWith_add_self (l : List F64) :
    List.zipWith F64.add l l = l.map (F64.mul (F64.fin 2)) := by
  induction l with
  | nil => rfl
  | cons x l ih => simp [F64.add_self, ih]

/-- The fields and children of a copy. -/
theorem Copy_spec {S : Type} [State S] (n : Node S) (hn : n.ScoreOK = true)
    (hk : n.KeysOK = true) :
    ∃ c, n.Copy = some c ∧ c.numPlayers = n.numPlayers ∧ c.visits = n.visits ∧
      c.score = n.score ∧ c.State = n.State.map State.Copy ∧
      (∀ k, k ∈ mapKeys c.children ↔ k ∈ mapKeys n.children) ∧
      (∀ k ch, mapGet k n.children = some ch →
        ∃ cc, ch.Copy = some cc ∧ mapGet k c.children = some cc) ∧
      c.policy = Policy.UCTPolicy ∧ c.ScoreOK = true ∧ c.KeysOK = true := by
  obtain ⟨c, hc, hm, h1, h2⟩ := Copy_total n hn
  have hg := mergeGetErrors_of_success _ _ _ hm
  obtain ⟨c', hc', _, hs, hnp, hv, hst, hp, _⟩ := Merge_ok _ n hg (ScoreOK_NewNode _) hn
  rw [hm] at hc'
  simp only [Option.some.injEq, Prod.mk.injEq, and_true] at hc'
  subst hc'
  have hnd := ((KeysOK_iff _).mp hk).1
  have hlen := ((ScoreOK_iff _).mp hn).1
  refine ⟨c, hc, ?_, ?_, ?_, ?_, ?_, ?_, ?_, h1, h2⟩
  · rw [hnp]; rfl
  · rw [hv]; simp [Node.NewNode, Node.visits]
  · rw [hs]
    simp only [Node.NewNode, Node.score, Node.NumPlayers]
    rw [← hlen]
    exact zipWith_add_replicate _
  · rw [hst]; rfl
  · intro k
    rw [Merge_keys _ n c hg (ScoreOK_NewNode _) hn hnd hm k]
    simp [Node.NewNode, Node.children, mapKeys]
  · intro k ch hch
    obtain ⟨cc, hcc, _⟩ := Copy_total ch (ScoreOK_of_mapGet hn hch)
    refine ⟨cc, hcc, ?_⟩
    rw [Merge_children _ n c hg (ScoreOK_NewNode _) hn hnd hm k, hch]
    simpa [Node.NewNode, Node.children] using hcc
  · rw [hp]; rfl

/-- C9: `Copy` is a deep clone.  On a tree with one score entry per player and no
duplicate keys it returns a node with the same player count, visits, score vector and
key set, whose state is the copy of the state (absent when absent) and whose child under
each key is the copy of the child of `n` under that key.  The copy is a tree of its own:
its root has the empty path, so no parent.  `Copy` returns the copy only; `n` is read. -/
theorem Copy_deep_clone {S : Type} [State S] (n : Node S) (hn : n.ScoreOK = true)
    (hk : n.KeysOK = true) :
    ∃ c, n.Copy = some c ∧ c.NumPlayers = n.NumPlayers ∧ c.Visits = n.Visits ∧
      c.ScoreVector = n.ScoreVector ∧
      (∀ k, k ∈ mapKeys c.children ↔ k ∈ mapKeys n.children) ∧
      c.State = n.State.map State.Copy ∧
      (∀ k ch, n.GetChild k = some ch →
        ∃ cc, ch.Copy = some cc ∧ c.GetChild k = some cc) ∧
      Parent ([] : Path) = none ∧ IsRoot ([] : Path) = true := by
  obtain ⟨c, h1, h2, h3, h4, h5, h6, h7, _⟩ := Copy_spec n hn hk
  exact ⟨c, h1, h2, h3, h4, h6, h5, h7, rfl, rfl⟩

/-- C9 at a tree with a child and a grandchild. -/
theorem Copy_deep_clone_witness :
    ∃ c, (testNode 3 10 (some ⟨7, false⟩)
        [(Key.str "0", testNode 1 4 none [(Key.str "1", testNode 2 1 none [])])]).Copy =
        some c ∧
      c.NumPlayers = (testNode 3 10 (some ⟨7, false⟩)
        [(Key.str "0", testNode 1 4 none [(Key.str "1", testNode 2 1 none [])])]).NumPlayers ∧
      c.Visits = (testNode 3 10 (some ⟨7, false⟩)
        [(Key.str "0", testNode 1 4 none [(Key.str "1", testNode 2 1 none [])])]).Visits ∧
      c.ScoreVector = (testNode 3 10 (some ⟨7, false⟩)
        [(Key.str "0", testNode 1 4 none [(Key.str "1", testNode 2 1 none [])])]).ScoreVector ∧
      (∀ k, k ∈ mapKeys c.children ↔ k ∈ mapKeys (testNode 3 10 (some ⟨7, false⟩)
        [(Key.str "0", testNode 1 4 none [(Key.str "1", testNode 2 1 none [])])]).children) ∧
      c.State = (testNode 3 10 (some ⟨7, false⟩)
        [(Key.str "0", testNode 1 4 none [(Key.str "1", testNode 2 1 none [])])]).State.map
          State.Copy ∧
      (∀ k ch, (testNode 3 10 (some ⟨7, false⟩)
        [(Key.str "0", testNode 1 4 none [(Key.str "1", testNode 2 1 none [])])]).GetChild k =
          some ch → ∃ cc, ch.Copy = some cc ∧ c.GetChild k = some cc) ∧
      Parent ([] : Path) = none ∧ IsRoot ([] : Path) = true :=
  Copy_deep_clone _ rfl rfl

/-! ### Merging a node with its copy -/

theorem mergeGetErrors_copy {S : Type} [State S] (n c : Node S)
    (h1 : c.numPlayers = n.numPlayers) (h2 : c.State = n.State.map State.Copy)
    (hP : n.CopyKeepsPlayer = true) : mergeGetErrors n c = none := by
  have hp := ((allNodes_iff _ n).mp hP).1
  unfold mergeGetErrors
  simp only [Node.NumPlayers, h1, ne_eq, not_true_eq_false, if_false, Node.Player, h2]
  cases hs : n.State with
  | none => simp
  | some s =>
    rw [hs] at hp
    simp only [beq_iff_eq] at hp
    simp [hp]

/-- The copy of a tree has, at every path of the tree, the copy of the node there, and
every pair of corresponding nodes passes the checks of `Merge`. -/
theorem Copy_along {S : Type} [State S] :
    ∀ (path : Path) (N c n : Node S), N.ScoreOK = true → N.KeysOK = true →
      N.CopyKeepsPlayer = true → N.Copy = some c → N.get? path = some n →
      mergeableAlong N c path = true ∧
        ∃ o, c.get? path = some o ∧ n.Copy = some o ∧ n.ScoreOK = true ∧
          n.KeysOK = true := by
  intro path
  induction path with
  | nil =>
    intro N c n hN hK hP hc hn
    simp only [Node.get?, Option.some.injEq] at hn
    subst hn
    obtain ⟨c', hc', h1, _, _, h4, _⟩ := Copy_spec N hN hK
    rw [hc] at hc'
    simp only [Option.some.injEq] at hc'
    subst hc'
    refine ⟨?_, c, rfl, hc, hN, hK⟩
    simp [mergeableAlong, mergeGetErrors_copy N c h1 h4 hP]
  | cons k ks ih =>
    intro N c n hN hK hP hc hn
    obtain ⟨c', hc', h1, _, _, h4, _, h6, _⟩ := Copy_spec N hN hK
    rw [hc] at hc'
    simp only [Option.some.injEq] at hc'
    subst hc'
    cases hch : mapGet k N.children with
    | none => simp [Node.get?, hch] at hn
    | some ch =>
      simp only [Node.get?, hch] at hn
      obtain ⟨cc, hcc, hget⟩ := h6 k ch hch
      obtain ⟨hm, o, ho, hrest⟩ := ih ch cc n (ScoreOK_of_mapGet hN hch)
        (KeysOK_of_mapGet hK hch) (allNodes_of_mapGet _ hP hch) hcc hn
      refine ⟨?_, o, ?_, hrest⟩
      · simp [mergeableAlong, mergeGetErrors_copy N c h1 h4 hP, hch, hget, hm]
      · simp only [Node.get?, hget]
        exact ho

/-- C8: self-merge doubles.  For a tree `N` (one score entry per player, no duplicate
keys) whose states keep their player under `Copy`, `N.Merge(N.Copy())` succeeds; the
result has twice the visits and twice every score of `N` and the same key set, and so has
the node at every path of `N`. -/
theorem Merge_self_copy_doubles {S : Type} [State S] (N : Node S) (hN : N.ScoreOK = true)
    (hK : N.KeysOK = true) (hP : N.CopyKeepsPlayer = true) :
    ∃ c r, N.Copy = some c ∧ Node.Merge N c = some (r, none) ∧
      r.Visits = 2 * N.Visits ∧
      r.ScoreVector = N.ScoreVector.map (F64.mul (F64.fin 2)) ∧
      (∀ k, k ∈ mapKeys r.children ↔ k ∈ mapKeys N.children) ∧
      (∀ path n, N.get? path = some n →
        ∃ n', r.get? path = some n' ∧ n'.Visits = 2 * n.Visits ∧
          n'.ScoreVector = n.ScoreVector.map (F64.mul (F64.fin 2)) ∧
          (∀ k, k ∈ mapKeys n'.children ↔ k ∈ mapKeys n.children)) := by
  obtain ⟨c, hc, _, _, _, _, _, _, _, hcS, hcK⟩ := Copy_spec N hN hK
  obtain ⟨hm0, _⟩ := Copy_along [] N c N hN hK hP hc rfl
  have hg0 : mergeGetErrors N c = none := by simpa [mergeableAlong] using hm0
  obtain ⟨r, hr, _⟩ := Merge_ok N c hg0 hN hcS
  have deep : ∀ path n, N.get? path = some n →
      ∃ n', r.get? path = some n' ∧ n'.Visits = 2 * n.Visits ∧
        n'.ScoreVector = n.ScoreVector.map (F64.mul (F64.fin 2)) ∧
        (∀ k, k ∈ mapKeys n'.children ↔ k ∈ mapKeys n.children) := by
    intro path n hn
    obtain ⟨hm, o, ho, hno, hnS, hnK⟩ := Copy_along path N c n hN hK hP hc hn
    obtain ⟨r', n0, o0, n', hr', e1, e2, e3, e4, e5, e6, e7, e8⟩ :=
      Merge_along path N c hN hcS hcK hm
    rw [hr] at hr'
    simp only [Option.some.injEq, Prod.mk.injEq, and_true] at hr'
    subst hr'
    rw [hn] at e1
    rw [ho] at e2
    simp only [Option.some.injEq] at e1 e2
    subst e1 e2
    obtain ⟨o', ho', _, f2, f3, _, f5, _⟩ := Copy_spec n hnS hnK
    rw [hno] at ho'
    simp only [Option.some.injEq] at ho'
    subst ho'
    obtain ⟨n'', hn'', _, hs, _, hv, _⟩ := Merge_ok n o e5 e6 e7
    rw [e4] at hn''
    simp only [Option.some.injEq, Prod.mk.injEq, and_true] at hn''
    subst hn''
    refine ⟨n', e3, ?_, ?_, ?_⟩
    · simp only [Node.Visits, hv, f2]; ring
    · simp only [Node.ScoreVector, hs, f3]
      exact zipWith_add_self _
    · intro k
      rw [Merge_keys n o n' e5 e6 e7 ((KeysOK_iff _).mp e8).1 e4 k, f5 k]
      simp
  obtain ⟨n', h1, h2, h3, h4⟩ := deep [] N rfl
  simp only [Node.get?, Option.some.injEq] at h1
  subst h1
  exact ⟨c, r, hc, hr, h2, h3, h4, deep⟩

/-- C8 at a tree with a state, a child and a grandchild. -/
theorem Merge_self_copy_doubles_witness :
    ∃ c r, (testNode 3 10 (some ⟨7, false⟩)
        [(Key.str "0", testNode 1 4 none [(Key.str "1", testNode 2 1 none [])])]).Copy =
        some c ∧
      Node.Merge (testNode 3 10 (some ⟨7, false⟩)
        [(Key.str "0", testNode 1 4 none [(Key.str "1", testNode 2 1 none [])])]) c =
        some (r, none) ∧
      r.Visits = 2 * (testNode 3 10 (some ⟨7, false⟩)
        [(Key.str "0", testNode 1 4 none [(Key.str "1", testNode 2 1 none [])])]).Visits ∧
      r.ScoreVector = (testNode 3 10 (some ⟨7, false⟩)
        [(Key.str "0", testNode 1 4 none [(Key.str "1", testNode 2 1 none [])])]).ScoreVector.map
          (F64.mul (F64.fin 2)) ∧
      (∀ k, k ∈ mapKeys r.children ↔ k ∈ mapKeys (testNode 3 10 (some ⟨7, false⟩)
        [(Key.str "0", testNode 1 4 none [(Key.str "1", testNode 2 1 none [])])]).children) ∧
      (∀ path n, (testNode 3 10 (some ⟨7, false⟩)
        [(Key.str "0", testNode 1 4 none [(Key.str "1", testNode 2 1 none [])])]).get? path =
          some n →
        ∃ n', r.get? path = some n' ∧ n'.Visits = 2 * n.Visits ∧
          n'.ScoreVector = n.ScoreVector.map (F64.mul (F64.fin 2)) ∧
          (∀ k, k ∈ mapKeys n'.children ↔ k ∈ mapKeys n.children)) :=
  Merge_self_copy_doubles _ rfl rfl rfl

/-! ### Merge: the error checks -/

/-- C5: `Merge` returns `MergeDifferingPlayerCount` exactly when the player counts differ,
and then the receiver (score vector, visits, state, children) is returned unchanged. -/
theorem Merge_differingPlayerCount_iff {S : Type} [State S] (node other : Node S) :
    ((∃ r a b, Node.Merge node other =
        some (r, some (MergeError.MergeDifferingPlayerCount a b))) ↔
      node.NumPlayers ≠ other.NumPlayers) ∧
    (∀ r a b, Node.Merge node other =
        some (r, some (MergeError.MergeDifferingPlayerCount a b)) →
      r = node ∧ a = node.NumPlayers ∧ b = other.NumPlayers) := by
  have key : ∀ r a b, Node.Merge node other =
      some (r, some (MergeError.MergeDifferingPlayerCount a b)) →
      node.NumPlayers ≠ other.NumPlayers ∧ r = node ∧ a = node.NumPlayers ∧
        b = other.NumPlayers := by
    intro r a b h
    obtain ⟨hg, hr⟩ := Merge_error_eq node other r _ h
    unfold mergeGetErrors at hg
    by_cases hn : other.NumPlayers = node.NumPlayers
    · simp only [ne_eq, hn, not_true_eq_false, if_false] at hg
      split at hg <;> simp at hg
    · simp only [ne_eq, hn, not_false_eq_true, if_true, Option.some.injEq,
        MergeError.MergeDifferingPlayerCount.injEq] at hg
      exact ⟨fun h' => hn h'.symm, hr, hg.1.symm, hg.2.symm⟩
  refine ⟨⟨fun ⟨r, a, b, h⟩ => (key r a b h).1, fun hn => ?_⟩, fun r a b h => (key r a b h).2⟩
  refine ⟨node, node.NumPlayers, other.NumPlayers, ?_⟩
  rw [Merge_eq]
  have hn' : other.NumPlayers ≠ node.NumPlayers := fun h' => hn h'.symm
  simp [mergeGetErrors, hn']

/-- C6: with equal player counts, `Merge` returns `MergePlayerIndexMismatch` exactly when
both nodes hold a state and the two states report different players; the receiver is then
returned unchanged.  In particular there is no such error when a state is absent. -/
theorem Merge_playerIndexMismatch_iff {S : Type} [State S] (node other : Node S)
    (hcount : node.NumPlayers = other.NumPlayers) :
    ((∃ r a b, Node.Merge node other =
        some (r, some (MergeError.MergePlayerIndexMismatch a b))) ↔
      (node.State.isSome = true ∧ other.State.isSome = true ∧ node.Player ≠ other.Player)) ∧
    (∀ r a b, Node.Merge node other =
        some (r, some (MergeError.MergePlayerIndexMismatch a b)) →
      r = node ∧ a = node.Player ∧ b = other.Player) := by
  have hn : ¬ other.NumPlayers ≠ node.NumPlayers := fun h => h hcount.symm
  have key : ∀ r a b, Node.Merge node other =
      some (r, some (MergeError.MergePlayerIndexMismatch a b)) →
      (node.State.isSome = true ∧ other.State.isSome = true ∧ node.Player ≠ other.Player) ∧
        r = node ∧ a = node.Player ∧ b = other.Player := by
    intro r a b h
    obtain ⟨hg, hr⟩ := Merge_error_eq node other r _ h
    unfold mergeGetErrors at hg
    simp only [ne_eq, hcount.symm, not_true_eq_false, if_false] at hg
    split at hg
    · rename_i hc
      simp only [Bool.and_eq_true, decide_eq_true_eq] at hc
      simp only [Option.some.injEq, MergeError.MergePlayerIndexMismatch.injEq] at hg
      exact ⟨⟨hc.1.1, hc.1.2, hc.2⟩, hr, hg.1.symm, hg.2.symm⟩
    · simp at hg
  refine ⟨⟨fun ⟨r, a, b, h⟩ => (key r a b h).1, fun hc => ?_⟩, fun r a b h => (key r a b h).2⟩
  refine ⟨node, node.Player, other.Player, ?_⟩
  rw [Merge_eq]
  simp [mergeGetErrors, hn, hc.1, hc.2.1, hc.2.2]

/-- C6 at the nodes of `TestNodeMergePlayerIndexMismatch`. -/
theorem Merge_playerIndexMismatch_iff_witness :
    ((∃ r a b, Node.Merge (testNode 0 100 (some ⟨0, false⟩) []) (testNode 0 0 (some ⟨0, true⟩) [])
        = some (r, some (MergeError.MergePlayerIndexMismatch a b))) ↔
      ((testNode 0 100 (some ⟨0, false⟩) []).State.isSome = true ∧
        (testNode 0 0 (some ⟨0, true⟩) []).State.isSome = true ∧
        (testNode 0 100 (some ⟨0, false⟩) []).Player ≠
          (testNode 0 0 (some ⟨0, true⟩) []).Player)) ∧
    (∀ r a b, Node.Merge (testNode 0 100 (some ⟨0, false⟩) []) (testNode 0 0 (some ⟨0, true⟩) [])
        = some (r, some (MergeError.MergePlayerIndexMismatch a b)) →
      r = testNode 0 100 (some ⟨0, false⟩) [] ∧
        a = (testNode 0 100 (some ⟨0, false⟩) []).Player ∧
        b = (testNode 0 0 (some ⟨0, true⟩) []).Player) :=
  Merge_playerIndexMismatch_iff _ _ rfl

/-! ### Pointers: reading and writing -/

section pointers

variable {S : Type}

theorem get?_nil (root : Node S) : root.get? [] = some root := rfl

theorem get?_cons (root : Node S) (k : Key) (ks : Path) :
    root.get? (k :: ks) = (mapGet k root.children).bind (fun c => c.get? ks) := by
  simp only [Node.get?]
  cases mapGet k root.children <;> rfl

theorem get?_append (root : Node S) (p q : Path) :
    root.get? (p ++ q) = (root.get? p).bind (fun a => a.get? q) := by
  induction p generalizing root with
  | nil => rfl
  | cons k ks ih =>
    simp only [List.cons_append, get?_cons]
    cases mapGet k root.children with
    | none => rfl
    | some c => simpa using ih c

theorem get?_congr_children {a b : Node S} (h : a.children = b.children) (k : Key)
    (ks : Path) : a.get? (k :: ks) = b.get? (k :: ks) := by
  rw [get?_cons, get?_cons, h]

/-- Reading at or below the place that was written. -/
theorem get?_modify_append (f : Node S → Node S) :
    ∀ (p : Path) (root a : Node S) (rest : Path), root.get? p = some a →
      (root.modify f p).get? (p ++ rest) = (f a).get? rest := by
  intro p
  induction p with
  | nil =>
    intro root a rest h
    simp only [get?_nil, Option.some.injEq] at h
    subst h
    rfl
  | cons k ks ih =>
    intro root a rest h
    rw [get?_cons] at h
    cases hc : mapGet k root.children with
    | none => simp [hc] at h
    | some c =>
      simp only [hc, Option.some_bind] at h
      simp only [Node.modify, hc, List.cons_append, get?_cons, children_withChildren,
        mapGet_mapSet_self, Option.some_bind]
      exact ih c a rest h

theorem get?_modify_self (f : Node S → Node S) (p : Path) (root a : Node S)
    (h : root.get? p = some a) : (root.modify f p).get? p = some (f a) := by
  have := get?_modify_append f p root a [] h
  simpa using this

/-- Reading off the written path. -/
theorem get?_modify_off (f : Node S → Node S) :
    ∀ (p q : Path) (root : Node S), ¬ q <+: p → ¬ p <+: q →
      (root.modify f p).get? q = root.get? q := by
  intro p
  induction p with
  | nil => intro q root _ h; exact absurd List.nil_prefix h
  | cons k ks ih =>
    intro q root h1 h2
    cases q with
    | nil => exact absurd List.nil_prefix h1
    | cons k' qs =>
      simp only [Node.modify]
      cases hc : mapGet k root.children with
      | none => rfl
      | some c =>
        simp only [get?_cons, children_withChildren]
        by_cases hk : k' = k
        · subst hk
          rw [mapGet_mapSet_self, hc]
          simp only [Option.some_bind]
          apply ih qs c
          · intro h; exact h1 (List.cons_prefix_cons.mpr ⟨rfl, h⟩)
          · intro h; exact h2 (List.cons_prefix_cons.mpr ⟨rfl, h⟩)
        · rw [mapGet_mapSet_ne _ _ _ _ hk]

/-- Reading strictly above the place that was written: the node there keeps its fields
and its keys. -/
theorem get?_modify_above (f : Node S → Node S) :
    ∀ (p q : Path) (root a : Node S), q <+: p → q ≠ p → root.get? p = some a →
      ∃ b b', root.get? q = some b ∧ (root.modify f p).get? q = some b' ∧
        b'.score = b.score ∧ b'.numPlayers = b.numPlayers ∧ b'.State = b.State ∧
        b'.visits = b.visits ∧ b'.policy = b.policy ∧
        (∀ k, (mapGet k b'.children).isSome = (mapGet k b.children).isSome) := by
  intro p
  induction p with
  | nil =>
    intro q root a h1 h2 _
    exact absurd (List.prefix_nil.mp h1) h2
  | cons k ks ih =>
    intro q root a h1 h2 h3
    rw [get?_cons] at h3
    cases hc : mapGet k root.children with
    | none => simp [hc] at h3
    | some c =>
      simp only [hc, Option.some_bind] at h3
      cases q with
      | nil =>
        refine ⟨root, _, rfl, rfl, ?_, ?_, ?_, ?_, ?_, ?_⟩
        all_goals simp only [Node.modify, hc, score_withChildren, numPlayers_withChildren,
          State_withChildren, visits_withChildren, policy_withChildren,
          children_withChildren]
        intro k'
        by_cases hk : k' = k
        · subst hk
          simp [mapGet_mapSet_self, hc]
        · rw [mapGet_mapSet_ne _ _ _ _ hk]
      | cons k' qs =>
        obtain ⟨hk, hqs⟩ := List.cons_prefix_cons.mp h1
        subst hk
        have hne : qs ≠ ks := fun e => h2 (by rw [e])
        obtain ⟨b, b', e1, e2, rest⟩ := ih qs c a hqs hne h3
        refine ⟨b, b', ?_, ?_, rest⟩
        · simp only [get?_cons, hc, Option.some_bind]; exact e1
        · simp only [Node.modify, hc, get?_cons, children_withChildren, mapGet_mapSet_self,
            Option.some_bind]
          exact e2

/-- Writing a node with the same children leaves every other place as it was. -/
theorem get?_modify_keep (f : Node S → Node S) (p q : Path) (root a : Node S)
    (ha : root.get? p = some a) (hf : (f a).children = a.children) (hq : ¬ q <+: p) :
    (root.modify f p).get? q = root.get? q := by
  by_cases hp : p <+: q
  · obtain ⟨rest, rfl⟩ := hp
    rw [get?_modify_append f p root a rest ha, get?_append, ha]
    simp only [Option.some_bind]
    cases rest with
    | nil => exact absurd (by simp) hq
    | cons k ks => exact get?_congr_children hf k ks
  · exact get?_modify_off f p q root hq hp

end pointers

/-! ### Backpropagate -/

section backpropagate

variable {S : Type}

theorem Parent_nil : Parent ([] : Path) = none := rfl

theorem Parent_concat (p : Path) (k : Key) : Parent (p ++ [k]) = some p := by
  simp [Parent]

theorem IsRoot_iff (p : Path) : IsRoot p = true ↔ p = [] := by
  cases p <;> simp [IsRoot, Parent]

theorem bump_of_lt (player : Nat) (score : F64) (b : Node S) (h : player < b.score.length) :
    ∃ old, b.Score player = some old ∧
      b.SetScore player (F64.add old score) =
        some (b.withScore (b.score.set player (F64.add old score))) ∧
      (b.withScore (b.score.set player (F64.add old score))).AddVisit =
        b.bump player score ∧
      (b.bump player score).score = b.score.set player (F64.add old score) := by
  have hs : b.Score player = some (b.score.get ⟨player, h⟩) := List.get?_eq_get h
  refine ⟨_, hs, by simp [Node.SetScore, h], ?_, ?_⟩
  · simp only [Node.bump, hs]
  · simp only [Node.bump, hs, Node.AddVisit, score_withVisits, score_withScore]

theorem children_bump (player : Nat) (score : F64) (b : Node S) :
    (b.bump player score).children = b.children := by
  unfold Node.bump
  cases b.Score player <;> simp [Node.AddVisit]

theorem fields_bump (player : Nat) (score : F64) (b : Node S) :
    (b.bump player score).State = b.State ∧
      (b.bump player score).numPlayers = b.numPlayers ∧
      (b.bump player score).policy = b.policy := by
  unfold Node.bump
  cases b.Score player <;> simp [Node.AddVisit]

theorem visits_bump (player : Nat) (score : F64) (b : Node S) (h : player < b.score.length) :
    (b.bump player score).visits = b.visits + 1 := by
  obtain ⟨old, hs, _⟩ := bump_of_lt player score b h
  simp [Node.bump, hs, Node.AddVisit]

theorem score_bump_congr (player : Nat) (score : F64) (a b : Node S)
    (h : a.score = b.score) : (a.bump player score).score = (b.bump player score).score := by
  unfold Node.bump Node.Score
  rw [h]
  cases b.score.get? player <;> simp [Node.AddVisit, h]

theorem get?_of_prefix {root a : Node S} {p q : Path} (h : root.get? p = some a)
    (hq : q <+: p) : ∃ b, root.get? q = some b := by
  obtain ⟨rest, rfl⟩ := hq
  rw [get?_append] at h
  cases hb : root.get? q with
  | none => simp [hb] at h
  | some b => exact ⟨b, rfl⟩

/-- The loop of `Backpropagate` returns, and bumps exactly the nodes from the start node
up to the root. -/
theorem BackpropagateLoop_spec (player : Nat) (score : F64) :
    ∀ (n : Nat) (p : Path) (root : Node S), p.length = n →
      (∀ q, q <+: p → ∃ b, root.get? q = some b ∧ player < b.score.length) →
      ∃ root', UCTPolicy.BackpropagateLoop player score (n + 1) root (some p) = some root' ∧
        BumpedAlong player score p root root' := by
  intro n
  induction n with
  | zero =>
    intro p root hlen hq
    have hp : p = [] := List.length_eq_zero.mp hlen
    subst hp
    obtain ⟨b, hb, hlt⟩ := hq [] List.nil_prefix
    simp only [get?_nil, Option.some.injEq] at hb
    subst hb
    obtain ⟨old, h1, h2, h3, _⟩ := bump_of_lt player score root hlt
    refine ⟨root.bump player score, ?_, ?_, ?_⟩
    · simp only [UCTPolicy.BackpropagateLoop, get?_nil, h1, h2, Node.modify, h3, Parent_nil]
    · intro q hq'
      have : q = [] := List.prefix_nil.mp hq'
      subst this
      obtain ⟨f1, f2, f3⟩ := fields_bump player score root
      exact ⟨root, _, rfl, rfl, rfl, visits_bump player score root hlt, f1, f2, f3,
        fun k => by rw [children_bump]⟩
    · intro q hq'
      cases q with
      | nil => exact absurd List.nil_prefix hq'
      | cons k ks => exact get?_congr_children (children_bump player score root) k ks
  | succ n ih =>
    intro p root hlen hq
    rcases List.eq_nil_or_concat p with hp | ⟨p', k, hp⟩
    · subst hp; simp at hlen
    · rw [List.concat_eq_append] at hp
      subst hp
      have hlen' : p'.length = n := by simpa using hlen
      obtain ⟨a, ha, hlt⟩ := hq (p' ++ [k]) (List.prefix_refl _)
      obtain ⟨old, h1, h2, h3, _⟩ := bump_of_lt player score a hlt
      have hne : ∀ q, q <+: p' → q ≠ p' ++ [k] := by
        intro q hq' e
        have := hq'.length_le
        rw [e] at this
        simp at this
      have habove := fun q (hq' : q <+: p') =>
        get?_modify_above (fun _ => a.bump player score) (p' ++ [k]) q root a
          (hq'.trans (List.prefix_append _ _)) (hne q hq') ha
      obtain ⟨root', hr, hb1, hb2⟩ := ih p' (root.modify (fun _ => a.bump player score)
        (p' ++ [k])) hlen' (by
          intro q hq'
          obtain ⟨b, b', e1, e2, e3, _⟩ := habove q hq'
          obtain ⟨b0, hb0, hlt0⟩ := hq q (hq'.trans (List.prefix_append _ _))
          rw [e1] at hb0
          simp only [Option.some.injEq] at hb0
          subst hb0
          exact ⟨b', e2, by rw [e3]; exact hlt0⟩)
      refine ⟨root', ?_, ?_, ?_⟩
      · rw [UCTPolicy.BackpropagateLoop]
        simp only [ha, h1, h2, h3, Parent_concat]
        exact hr
      · intro q hq'
        rcases List.prefix_concat_iff.mp hq' with e | hq''
        · subst e
          have hnp : ¬ (p' ++ [k]) <+: p' := fun h => by
            have := h.length_le
            simp at this
          obtain ⟨f1, f2, f3⟩ := fields_bump player score a
          refine ⟨a, a.bump player score, ha, ?_, rfl, visits_bump player score a hlt, f1, f2,
            f3, fun k' => by rw [children_bump]⟩
          rw [hb2 _ hnp]
          exact get?_modify_self _ _ _ _ ha
        · obtain ⟨b1, b', e1, e2, e3, e4, e5, e6, e7, e8⟩ := hb1 q hq''
          obtain ⟨b, b1', g1, g2, g3, g4, g5, g6, g7, g8⟩ := habove q hq''
          rw [e1] at g2
          simp only [Option.some.injEq] at g2
          subst g2
          refine ⟨b, b', g1, e2, ?_, ?_, ?_, ?_, ?_, ?_⟩
          · rw [e3]; exact score_bump_congr player score _ _ g3
          · rw [e4, g6]
          · rw [e5, g5]
          · rw [e6, g4]
          · rw [e7, g7]
          · intro k'; rw [e8, g8]
      · intro q hq'
        have hq'' : ¬ q <+: p' := fun h => hq' (h.trans (List.prefix_append _ _))
        rw [hb2 q hq'']
        exact get?_modify_keep _ _ _ _ _ ha (children_bump player score a) hq'

/-- `Backpropagate` from the node at `path` returns the tree bumped along `path`. -/
theorem Backpropagate_spec [State S] (root node : Node S) (path : Path) (score : F64)
    (hnode : root.get? path = some node)
    (hidx : ∀ q b, q <+: path → root.get? q = some b → node.Player < b.score.length) :
    ∃ root', UCTPolicy.Backpropagate root path score = some root' ∧
      BumpedAlong node.Player score path root root' := by
  unfold UCTPolicy.Backpropagate
  rw [hnode]
  apply BackpropagateLoop_spec node.Player score path.length path root rfl
  intro q hq
  obtain ⟨b, hb⟩ := get?_of_prefix hnode hq
  exact ⟨b, hb, hidx q b hq hb⟩

/-- C2: `Backpropagate(n, s)`, for a node `n` in a tree whose score vectors on the way to
the root have an entry for `n`'s player, adds `s` to the score of `n.Player()` and 1 to
the visits at `n` and at every ancestor of `n` up to the root.  The player is `n`'s at
every ancestor. -/
theorem Backpropagate_adds [State S] (root node : Node S) (path : Path) (s : F64)
    (hnode : root.get? path = some node)
    (hidx : ∀ q b, q <+: path → root.get? q = some b → node.Player < b.ScoreVector.length) :
    ∃ root', UCTPolicy.Backpropagate root path s = some root' ∧
      ∀ q, q <+: path → ∃ b b' old, root.get? q = some b ∧ root'.get? q = some b' ∧
        b.Score node.Player = some old ∧ b'.Score node.Player = some (F64.add old s) ∧
        b'.Visits = b.Visits + 1 := by
  obtain ⟨root', hr, hb, _⟩ := Backpropagate_spec root node path s hnode hidx
  refine ⟨root', hr, fun q hq => ?_⟩
  obtain ⟨b, b', e1, e2, e3, e4, _⟩ := hb q hq
  have hlt := hidx q b hq e1
  obtain ⟨old, h1, _, _, h4⟩ := bump_of_lt node.Player s b hlt
  refine ⟨b, b', old, e1, e2, h1, ?_, e4⟩
  have hlt' : node.Player < b.score.length := hlt
  simp [Node.Score, e3, h4, hlt']

end backpropagate

/-- C2 at a child of a root, the child holding a state of player 1 in a two-player tree. -/
theorem Backpropagate_adds_witness :
    ∃ root', UCTPolicy.Backpropagate conflictOther [Key.str "a"] (F64.fin 1) = some root' ∧
      ∀ q, q <+: [Key.str "a"] → ∃ b b' old, conflictOther.get? q = some b ∧
        root'.get? q = some b' ∧
        b.Score (twoPlayerNode 1 (some ⟨0, true⟩) []).Player = some old ∧
        b'.Score (twoPlayerNode 1 (some ⟨0, true⟩) []).Player =
          some (F64.add old (F64.fin 1)) ∧
        b'.Visits = b.Visits + 1 :=
  Backpropagate_adds conflictOther (twoPlayerNode 1 (some ⟨0, true⟩) []) [Key.str "a"]
    (F64.fin 1) rfl (by
      intro q b hq hb
      have hq' : q = [] ∨ q = [Key.str "a"] := by
        rcases List.prefix_concat_iff.mp (show q <+: [] ++ [Key.str "a"] from hq) with h | h
        · exact Or.inr h
        · exact Or.inl (List.prefix_nil.mp h)
      rcases hq' with h | h
      · subst h
        simp only [get?_nil, Option.some.injEq] at hb
        subst hb
        decide
      · subst h
        have : conflictOther.get? [Key.str "a"] =
            some (twoPlayerNode 1 (some ⟨0, true⟩) []) := rfl
        rw [this] at hb
        simp only [Option.some.injEq] at hb
        subst hb
        decide)

/-! ### Float values in the selection -/

theorem F64.isFinite_iff (x : F64) : x.isFinite = true ↔ ∃ q, x = F64.fin q := by
  cases x <;> simp [F64.isFinite]

theorem F64.isGood_of_isFinite {x : F64} (h : x.isFinite = true) : x.isGood = true := by
  cases x <;> simp_all [F64.isFinite, F64.isGood]

theorem F64.div_fin (a b : ℚ) (hb : b ≠ 0) : F64.div (F64.fin a) (F64.fin b) =
    F64.fin (a / b) := by
  simp [F64.div, hb]

theorem F64.le_ofInt_zero (v : Int) : F64.le (F64.ofInt v) (F64.fin 0) = decide (v ≤ 0) := by
  simp [F64.ofInt, F64.le]

theorem F64.eq_ofInt_one (v : Int) : F64.eq (F64.ofInt v) (F64.fin 1) = decide (v = 1) := by
  simp only [F64.ofInt, F64.eq, F64.fin.injEq]
  congr 1
  simp only [eq_iff_iff]
  exact_mod_cast Iff.rfl

theorem F64.add_good_fin {u b : F64} (hu : u.isGood = true) (hb : b.isFinite = true) :
    (F64.add u b).isGood = true := by
  obtain ⟨q, rfl⟩ := (F64.isFinite_iff b).mp hb
  cases u <;> simp_all [F64.isGood, F64.add]

theorem F64.ge_ninf_of_good {x : F64} (h : x.isGood = true) : F64.ge x F64.ninf = true := by
  cases x <;> simp_all [F64.isGood, F64.ge, F64.le]

theorem F64.sub_ninf_le {u : F64} (h : u.isGood = true) :
    F64.le (F64.sub F64.ninf u) epsilon = true := by
  cases u <;> simp_all [F64.isGood, F64.sub, F64.neg, F64.add, F64.le, epsilon]

/-- The confidence bound of a child is `+Inf` or finite when the statistics are sound:
the score entry exists and is finite, the parent has a visit, the exploration parameter
is finite, and the logarithm of a number from 1 on is not negative. -/
theorem UpperConfidenceBound_good {S : Type} (m : MathFns) (root b c : Node S) (n : Path)
    (k : Key) (e : F64) (player : Nat) (hb : root.get? n = some b)
    (hc : root.get? (n ++ [k]) = some c) (hlen : player < c.score.length)
    (hfin : ∀ x ∈ c.score, x.isFinite = true) (hpv : 1 ≤ b.visits)
    (he : e.isFinite = true) (hlog : ∀ x : ℚ, 1 ≤ x → 0 ≤ m.logQ x) :
    ∃ u, UpperConfidenceBound m root (n ++ [k]) e player = some u ∧ u.isGood = true := by
  unfold UpperConfidenceBound
  rw [hc]
  simp only
  split
  · exact ⟨F64.pinf, rfl, rfl⟩
  · rename_i hguard
    simp only [Bool.or_eq_true, not_or, F64.le_ofInt_zero, Node.Visits, decide_eq_true_eq,
      not_le] at hguard
    have hv : 0 < c.visits := hguard.1.2
    have hsc : c.Score player = some (c.score.get ⟨player, hlen⟩) := List.get?_eq_get hlen
    obtain ⟨sq, hsq⟩ := (F64.isFinite_iff _).mp (hfin _ (List.get_mem c.score player hlen))
    obtain ⟨eq, rfl⟩ := (F64.isFinite_iff _).mp he
    have hvq : ((c.visits : Int) : ℚ) ≠ 0 := by
      have : (0 : ℚ) < (c.visits : ℚ) := by exact_mod_cast hv
      exact ne_of_gt this
    have hpq : (1 : ℚ) ≤ (b.visits : ℚ) := by exact_mod_cast hpv
    have hlogv : m.Log (F64.ofInt b.visits) = F64.fin (m.logQ (b.visits : ℚ)) := by
      have h1 : ¬ ((b.visits : ℚ) < 0) := by linarith
      have h2 : ¬ ((b.visits : ℚ) = 0) := by linarith
      simp [MathFns.Log, F64.ofInt, h1, h2]
    have hnn : ¬ (2 * m.logQ (b.visits : ℚ) / (c.visits : ℚ) < 0) := by
      have h1 := hlog _ hpq
      have h2 : (0 : ℚ) < (c.visits : ℚ) := by exact_mod_cast hv
      have : 0 ≤ 2 * m.logQ (b.visits : ℚ) / (c.visits : ℚ) := by positivity
      linarith
    simp only [hsc, Parent_concat, Option.some_bind, hb, Node.Visits, hlogv, hsq]
    refine ⟨_, rfl, ?_⟩
    simp only [F64.ofInt, F64.mul, F64.div_fin _ _ hvq, MathFns.Sqrt, hnn, if_false]
    by_cases hlt : F64.lt (F64.fin eq) (F64.fin 0) = true
    · simp [hlt, F64.mul, F64.add, F64.isGood]
    · simp [hlt, F64.mul, F64.add, F64.isGood]

/-! ### selectBestChild -/

theorem floatMapGet_valid (keys : List Key) (x : F64) (mx : List (F64 × List Key))
    (h : ∀ yl ∈ mx, ∀ k ∈ yl.2, k ∈ keys) : ∀ k ∈ floatMapGet x mx, k ∈ keys := by
  induction mx with
  | nil => intro k hk; simp [floatMapGet] at hk
  | cons yl mx ih =>
    obtain ⟨y, l⟩ := yl
    intro k hk
    simp only [floatMapGet] at hk
    split at hk
    · exact h (y, l) (List.mem_cons_self _ _) k hk
    · exact ih (fun yl' h' => h yl' (List.mem_cons_of_mem _ h')) k hk

theorem floatMapSet_valid (keys : List Key) (x : F64) (l : List Key)
    (mx : List (F64 × List Key)) (hl : ∀ k ∈ l, k ∈ keys)
    (h : ∀ yl ∈ mx, ∀ k ∈ yl.2, k ∈ keys) :
    ∀ yl ∈ floatMapSet x l mx, ∀ k ∈ yl.2, k ∈ keys := by
  induction mx with
  | nil =>
    intro yl hyl
    simp only [floatMapSet, List.mem_singleton] at hyl
    subst hyl
    exact hl
  | cons yl0 mx ih =>
    obtain ⟨y, l0⟩ := yl0
    intro yl hyl
    simp only [floatMapSet] at hyl
    split at hyl
    · rcases List.mem_cons.mp hyl with e | e
      · subst e; exact hl
      · exact h yl (List.mem_cons_of_mem _ e)
    · rcases List.mem_cons.mp hyl with e | e
      · subst e; exact h (y, l0) (List.mem_cons_self _ _)
      · exact ih (fun yl' h' => h yl' (List.mem_cons_of_mem _ h')) yl e

/-- A round of the loop keeps the held keys among the keys of the node. -/
theorem selectBestChildStep_valid {S : Type} [State S] (m : MathFns) (root : Node S)
    (path : Path) (e : F64) (player : Nat) (keys : List Key) (st st' : BestState)
    (entry : Key × Node S) (hk : entry.1 ∈ keys) (hst : st.Valid keys)
    (h : selectBestChildStep m root path e player st entry = some st') : st'.Valid keys := by
  unfold selectBestChildStep at h
  split at h
  · exact absurd h (by simp)
  · simp only at h
    split at h
    · simp only [Option.some.injEq] at h
      subst h
      split
      · refine ⟨hk, ?_⟩
        apply floatMapSet_valid
        · intro k hk'
          rcases List.mem_append.mp hk' with h1 | h1
          · exact floatMapGet_valid keys _ _
              (floatMapSet_valid keys _ _ _ (by simp) hst.2) k h1
          · simp only [List.mem_singleton] at h1
            rw [h1]; exact hk
        · exact floatMapSet_valid keys _ _ _ (by simp) hst.2
      · refine ⟨hst.1, ?_⟩
        apply floatMapSet_valid
        · intro k hk'
          rcases List.mem_append.mp hk' with h1 | h1
          · exact floatMapGet_valid keys _ _ hst.2 k h1
          · simp only [List.mem_singleton] at h1
            rw [h1]; exact hst.1
        · exact hst.2
    · simp only [Option.some.injEq] at h
      subst h
      exact hst

/-- The first round of the loop, on a child with a comparable value, records its key. -/
theorem selectBestChildStep_first {S : Type} [State S] (m : MathFns) (root : Node S)
    (path : Path) (e : F64) (player : Nat) (keys : List Key) (entry : Key × Node S) (u : F64)
    (hk : entry.1 ∈ keys)
    (hu : UpperConfidenceBound m root (path ++ [entry.1]) e player = some u)
    (hgood : u.isGood = true)
    (hbias : ∀ s, entry.2.State = some s → (State.Bias s).isFinite = true) :
    ∃ st', selectBestChildStep m root path e player
        { maxUCB := F64.ninf, maxIndex := Key.nil, maxima := [] } entry = some st' ∧
      st'.Valid keys := by
  have hb : (match entry.2.State with
      | some s => State.Bias s
      | none => F64.fin 0).isFinite = true := by
    cases hs : entry.2.State with
    | none => rfl
    | some s => exact hbias s hs
  unfold selectBestChildStep
  simp only [hu, F64.ge_ninf_of_good (F64.add_good_fin hgood hb), F64.sub_ninf_le hgood,
    if_true]
  refine ⟨_, rfl, hk, ?_⟩
  apply floatMapSet_valid
  · intro k hk'
    rcases List.mem_append.mp hk' with h1 | h1
    · exact floatMapGet_valid keys _ _ (floatMapSet_valid keys _ _ _ (by simp) (by simp)) k h1
    · simp only [List.mem_singleton] at h1
      rw [h1]; exact hk
  · exact floatMapSet_valid keys _ _ _ (by simp) (by simp)

theorem selectBestChildLoop_valid {S : Type} [State S] (m : MathFns) (root : Node S)
    (path : Path) (e : F64) (player : Nat) (keys : List Key) :
    ∀ (l : List (Key × Node S)) (st : BestState), st.Valid keys →
      (∀ entry ∈ l, entry.1 ∈ keys ∧
        ∃ u, UpperConfidenceBound m root (path ++ [entry.1]) e player = some u) →
      ∃ st', selectBestChildLoop m root path e player st l = some st' ∧ st'.Valid keys := by
  intro l
  induction l with
  | nil => intro st hst _; exact ⟨st, rfl, hst⟩
  | cons entry l ih =>
    intro st hst hall
    obtain ⟨hk, u, hu⟩ := hall entry (List.mem_cons_self _ _)
    have hstep : ∃ st1, selectBestChildStep m root path e player st entry = some st1 := by
      unfold selectBestChildStep
      simp only [hu]
      split
      · exact ⟨_, rfl⟩
      · exact ⟨_, rfl⟩
    obtain ⟨st1, h1⟩ := hstep
    have hv := selectBestChildStep_valid m root path e player keys st st1 entry hk hst h1
    obtain ⟨st', h2, hv'⟩ := ih st1 hv (fun en hen => hall en (List.mem_cons_of_mem _ hen))
    exact ⟨st', by simp only [selectBestChildLoop, h1]; exact h2, hv'⟩

/-- On a node with children whose values are all comparable, `selectBestChild` returns
a key of the node and the pointer to the child under it. -/
theorem selectBestChild_child {S : Type} [State S] (m : MathFns) (ord : MapOrder) (rnd : Rand)
    (root b : Node S) (path : Path) (e : F64) (hb : root.get? path = some b)
    (hleaf : b.IsLeaf = false)
    (hgood : ∀ entry ∈ b.children,
      ∃ u, UpperConfidenceBound m root (path ++ [entry.1]) e b.Player = some u ∧
        u.isGood = true)
    (hbias : ∀ entry ∈ b.children, ∀ s, entry.2.State = some s →
      (State.Bias s).isFinite = true) :
    ∃ k rnd', selectBestChild m ord rnd root path e = some ((k, some (path ++ [k])), rnd') ∧
      k ∈ mapKeys b.children := by
  have hperm := ord.isPerm (rnd 0) b.children
  have hin : ∀ en ∈ ord.perm (rnd 0) b.children, en ∈ b.children := fun en hen =>
    hperm.mem_iff.mp hen
  have hmem : ∀ en ∈ b.children, en.1 ∈ mapKeys b.children := fun en hen =>
    List.mem_map.mpr ⟨en, hen, rfl⟩
  have hptr : ∀ k, k ∈ mapKeys b.children → childPtr b path k = some (path ++ [k]) := by
    intro k hk
    simp [childPtr, (mapGet_isSome_iff k b.children).mpr hk]
  have hloop : ∃ st', selectBestChildLoop m root path e b.Player
      { maxUCB := F64.ninf, maxIndex := Key.nil, maxima := [] }
      (ord.perm (rnd 0) b.children) = some st' ∧ st'.Valid (mapKeys b.children) := by
    cases hch : ord.perm (rnd 0) b.children with
    | nil =>
      have hlen := hperm.length_eq
      rw [hch] at hlen
      cases hc : b.children with
      | nil => simp [Node.IsLeaf, hc] at hleaf
      | cons x xs => simp [hc] at hlen
    | cons entry rest =>
      have hen : entry ∈ b.children := hin entry (by rw [hch]; exact List.mem_cons_self _ _)
      obtain ⟨u, hu, hug⟩ := hgood entry hen
      obtain ⟨st1, h1, hv1⟩ := selectBestChildStep_first m root path e b.Player
        (mapKeys b.children) entry u (hmem entry hen) hu hug (hbias entry hen)
      obtain ⟨st', h2, hv'⟩ := selectBestChildLoop_valid m root path e b.Player
        (mapKeys b.children) rest st1 hv1 (fun en hen' => by
          have hin' : en ∈ b.children :=
            hin en (by rw [hch]; exact List.mem_cons_of_mem _ hen')
          obtain ⟨u', hu', _⟩ := hgood en hin'
          exact ⟨hmem en hin', u', hu'⟩)
      exact ⟨st', by simp only [selectBestChildLoop, h1]; exact h2, hv'⟩
  obtain ⟨st', h2, hv'⟩ := hloop
  unfold selectBestChild
  rw [hb]
  simp only [hleaf, Bool.false_eq_true, if_false, h2]
  split
  · split
    · rename_i k hk
      have hk' : k ∈ floatMapGet st'.maxUCB st'.maxima := List.get?_mem hk
      have hkk := floatMapGet_valid _ _ _ hv'.2 k hk'
      exact ⟨k, _, by rw [hptr k hkk], hkk⟩
    · exact ⟨st'.maxIndex, _, by rw [hptr _ hv'.1], hv'.1⟩
  · exact ⟨st'.maxIndex, _, by rw [hptr _ hv'.1], hv'.1⟩

/-! ### Expand -/

section expand

variable {S : Type}

theorem height_pos (b : Node S) : 1 ≤ b.height := by
  cases b; simp [Node.height]

theorem height_lt_of_mem : ∀ (l : List (Key × Node S)) (kc : Key × Node S), kc ∈ l →
    kc.2.height ≤ Node.heightChildren l := by
  intro l
  induction l with
  | nil => intro kc h; simp at h
  | cons x l ih =>
    obtain ⟨k, c⟩ := x
    intro kc h
    simp only [Node.heightChildren]
    rcases List.mem_cons.mp h with e | e
    · subst e; exact le_max_left _ _
    · exact le_trans (ih kc e) (le_max_right _ _)

theorem height_child_lt {b c : Node S} {k : Key} (h : mapGet k b.children = some c) :
    c.height < b.height := by
  have := height_lt_of_mem b.children (k, c) (mapGet_mem h)
  cases b
  simp only [Node.height, Node.children] at this ⊢
  omega

theorem randomAction_mem {α : Type} (rnd : Rand) (actions : List (Key × α))
    (h : actions ≠ []) :
    ∃ k v, (k, v) ∈ actions ∧ randomAction rnd actions = ((k, some v), rnd.next) := by
  have hpos : 0 < actions.length := List.length_pos.mpr h
  have hlt : rnd 0 % actions.length < actions.length := Nat.mod_lt _ hpos
  have hget : actions.get? (rnd 0 % actions.length) =
      some (actions.get ⟨rnd 0 % actions.length, hlt⟩) := List.get?_eq_get hlt
  refine ⟨(actions.get ⟨_, hlt⟩).1, (actions.get ⟨_, hlt⟩).2, List.get_mem _ _ _, ?_⟩
  simp only [randomAction, hpos, if_true, hget]

/-- On a node with a state and an untried legal action, `Expand` attaches a new child
under such an action and returns the pointer to it. -/
theorem Expand_spec [State S] (rnd : Rand) (root a : Node S) (n : Path) (s : S)
    (ha : root.get? n = some a) (hs : a.State = some s) (hex : a.IsExhausted = false)
    (hN : 1 ≤ a.numPlayers) :
    ∃ index action, (index, action) ∈ State.LegalActions s ∧
      mapGet index a.children = none ∧
      UCTPolicy.Expand rnd root n =
        some ((root.modify
          (fun nd => nd.SetChild index (newChild a.NumPlayers (action (State.Copy s)))) n,
          n ++ [index]), rnd.next) := by
  have hne : (State.LegalActions s).filter (fun ka => (a.GetChild ka.1).isNone) ≠ [] := by
    simp only [Node.IsExhausted, hs, List.all_eq_false] at hex
    obtain ⟨ka, hka, hnone⟩ := hex
    intro hnil
    have : ka ∈ (State.LegalActions s).filter (fun ka => (a.GetChild ka.1).isNone) := by
      refine List.mem_filter.mpr ⟨hka, ?_⟩
      simp only [Node.GetChild]
      cases h : mapGet ka.1 a.children <;> simp_all
    rw [hnil] at this
    simp at this
  obtain ⟨k, v, hmem, hra⟩ := randomAction_mem rnd _ hne
  obtain ⟨h1, h2⟩ := List.mem_filter.mp hmem
  refine ⟨k, v, h1, ?_, ?_⟩
  · simp only [Node.GetChild, Option.isNone_iff_eq_none] at h2
    exact h2
  · have hnew : (Node.NewNode a.NumPlayers : Node S × Bool) =
        ((Node.NewNode a.NumPlayers : Node S × Bool).1, false) := by
      have : ¬ a.numPlayers ≤ 0 := by omega
      simp [Node.NewNode, Node.NumPlayers, this]
    unfold UCTPolicy.Expand
    simp only [ha, hs, hra]
    rw [hnew]
    rfl

theorem NodeOK_newChild [State S] (N : Nat) (st : S) (hp : State.Policy st ≠ Policy.nil) :
    NodeOK N (newChild N st : Node S) := by
  refine ⟨?_, ?_, ?_, ?_, ?_, ?_⟩
  · simp [newChild]
  · simp [newChild]
  · intro x hx
    simp only [newChild, score_withPolicy, score_withState, score_NewNode] at hx
    rw [List.eq_of_mem_replicate hx]
    rfl
  · simp [newChild]
  · simpa [newChild] using hp
  · simp [newChild]

theorem children_newChild [State S] (N : Nat) (st : S) :
    (newChild N st : Node S).children = [] := by
  simp [newChild]

theorem get?_newChild [State S] (N : Nat) (st : S) (q : Path) (b : Node S)
    (h : (newChild N st : Node S).get? q = some b) : q = [] ∧ b = newChild N st := by
  cases q with
  | nil =>
    simp only [get?_nil, Option.some.injEq] at h
    exact ⟨rfl, h.symm⟩
  | cons k ks => simp [get?_cons, children_newChild] at h

theorem NodeOK_of_fields {N : Nat} {b b' : Node S} (h : NodeOK N b)
    (h1 : b'.score = b.score) (h2 : b'.numPlayers = b.numPlayers) (h3 : b'.State = b.State)
    (h4 : b'.visits = b.visits) (h5 : b'.policy = b.policy) : NodeOK N b' :=
  ⟨by rw [h1]; exact h.score_len, by rw [h2]; exact h.numPlayers_eq,
    by rw [h1]; exact h.score_fin, by rw [h3]; exact h.state, by rw [h5]; exact h.policy,
    by rw [h4]; exact h.visits_nonneg⟩

theorem SearchInv_weaken [State S] {N : Nat} {s0 : S} {root : Node S} (p : Path)
    (h : SearchInv N s0 none root) : SearchInv N s0 (some p) root := by
  obtain ⟨h1, h2, h3, h4⟩ := h
  refine ⟨h1, h2, h3, fun q b hq => ⟨(h4 q b hq).1, fun _ => ?_⟩⟩
  exact (h4 q b hq).2 (fun p' hp' => by simp at hp')

/-- The invariant after `Expand` has attached a child under the node at `n`: the new
child and the nodes above it await `Backpropagate`. -/
theorem SearchInv_expand [State S] {N : Nat} {s0 : S} {root a : Node S} {n : Path} {s : S}
    {index : Key} {action : S → S} (hinv : SearchInv N s0 none root)
    (ha : root.get? n = some a) (hs : a.State = some s)
    (hmem : (index, action) ∈ State.LegalActions s)
    (hnone : mapGet index a.children = none)
    (hpol : ∀ t : S, State.Policy t ≠ Policy.nil) :
    SearchInv N s0 (some (n ++ [index]))
      (root.modify
        (fun nd => nd.SetChild index (newChild a.NumPlayers (action (State.Copy s)))) n) ∧
    Grows root (root.modify
        (fun nd => nd.SetChild index (newChild a.NumPlayers (action (State.Copy s)))) n) ∧
    (root.modify
        (fun nd => nd.SetChild index (newChild a.NumPlayers (action (State.Copy s)))) n).get?
      (n ++ [index]) = some (newChild a.NumPlayers (action (State.Copy s))) := by
  obtain ⟨i1, i2, i3, i4⟩ := hinv
  have haN : a.NumPlayers = N := (i4 n a ha).1.numPlayers_eq
  rw [haN]
  set c : Node S := newChild N (action (State.Copy s)) with hc
  set f : Node S → Node S := fun nd => nd.SetChild index c with hf
  have hcOK : NodeOK N c := NodeOK_newChild N _ (hpol _)
  have hnew : (root.modify f n).get? (n ++ [index]) = some c := by
    rw [get?_modify_append f n root a [index] ha]
    simp [hf, get?_cons, get?_nil, mapGet_mapSet_self]
  -- reading below the expanded node
  have hbelow : ∀ rest b, (root.modify f n).get? (n ++ rest) = some b → rest ≠ [] →
      (rest = [index] ∧ b = c) ∨ root.get? (n ++ rest) = some b := by
    intro rest b hb hrest
    rw [get?_modify_append f n root a rest ha] at hb
    cases rest with
    | nil => exact absurd rfl hrest
    | cons k' rest' =>
      by_cases hk : k' = index
      · subst hk
        simp only [hf, get?_cons, children_SetChild, mapGet_mapSet_self,
          Option.some_bind] at hb
        obtain ⟨e1, e2⟩ := get?_newChild N _ rest' b hb
        exact Or.inl ⟨by rw [e1], e2⟩
      · right
        rw [get?_append, ha]
        simp only [hf, get?_cons, children_SetChild, mapGet_mapSet_ne _ _ _ _ hk] at hb
        simpa [get?_cons] using hb
  refine ⟨⟨?_, ?_, ?_, ?_⟩, ?_, hnew⟩
  · cases n with
    | nil =>
      simp only [get?_nil, Option.some.injEq] at ha
      subst ha
      simpa [Node.modify, hf] using i1
    | cons k ks =>
      obtain ⟨b, b', e1, e2, _, _, e5, _⟩ := get?_modify_above f (k :: ks) [] root a
        List.nil_prefix (by simp) ha
      simp only [get?_nil, Option.some.injEq] at e1 e2
      subst e1 e2
      rw [e5]; exact i1
  · cases n with
    | nil =>
      simp only [get?_nil, Option.some.injEq] at ha
      subst ha
      simpa [Node.modify, hf] using i2
    | cons k ks =>
      obtain ⟨b, b', e1, e2, _, _, _, _, e7, _⟩ := get?_modify_above f (k :: ks) [] root a
        List.nil_prefix (by simp) ha
      simp only [get?_nil, Option.some.injEq] at e1 e2
      subst e1 e2
      rw [e7]; exact i2
  · intro k hk
    cases n with
    | nil =>
      simp only [get?_nil, Option.some.injEq] at ha
      subst ha
      simp only [Node.modify, hf, children_SetChild] at hk
      by_cases hki : k = index
      · subst hki
        rw [i1] at hs
        simp only [Option.some.injEq] at hs
        subst hs
        exact List.mem_map.mpr ⟨(k, action), hmem, rfl⟩
      · rw [mapGet_mapSet_ne _ _ _ _ hki] at hk
        exact i3 k hk
    | cons k0 ks =>
      obtain ⟨b, b', e1, e2, _, _, _, _, _, e8⟩ := get?_modify_above f (k0 :: ks) [] root a
        List.nil_prefix (by simp) ha
      simp only [get?_nil, Option.some.injEq] at e1 e2
      subst e1 e2
      rw [e8] at hk
      exact i3 k hk
  · intro q b hb
    by_cases hnq : n <+: q
    · obtain ⟨rest, rfl⟩ := hnq
      cases rest with
      | nil =>
        simp only [List.append_nil] at hb ⊢
        rw [get?_modify_self f n root a ha] at hb
        simp only [Option.some.injEq] at hb
        subst hb
        refine ⟨NodeOK_of_fields (i4 n a ha).1 (by simp [hf]) (by simp [hf]) (by simp [hf])
          (by simp [hf]) (by simp [hf]), fun hex => ?_⟩
        exact absurd (List.prefix_append n [index]) (hex _ rfl)
      | cons k' rest' =>
        rcases hbelow (k' :: rest') b hb (by simp) with ⟨e1, e2⟩ | hold
        · rw [e1, e2]
          exact ⟨hcOK, fun hex => absurd (List.prefix_refl _) (hex _ rfl)⟩
        · exact ⟨(i4 _ b hold).1, fun _ => (i4 _ b hold).2 (fun p' hp' => by simp at hp')⟩
    · by_cases hqn : q <+: n
      · have hne : q ≠ n := fun e => hnq (e ▸ List.prefix_refl _)
        obtain ⟨b0, b', e1, e2, f1, f2, f3, f4, f5, _⟩ :=
          get?_modify_above f n q root a hqn hne ha
        rw [hb] at e2
        simp only [Option.some.injEq] at e2
        subst e2
        refine ⟨NodeOK_of_fields (i4 q b0 e1).1 f1 f2 f3 f4 f5, fun hex => ?_⟩
        exact absurd (hqn.trans (List.prefix_append _ _)) (hex _ rfl)
      · rw [get?_modify_off f n q root hqn hnq] at hb
        exact ⟨(i4 q b hb).1, fun _ => (i4 q b hb).2 (fun p' hp' => by simp at hp')⟩
  · intro q hq
    by_cases hnq : n <+: q
    · obtain ⟨rest, rfl⟩ := hnq
      rw [get?_modify_append f n root a rest ha]
      rw [get?_append, ha] at hq
      simp only [Option.some_bind] at hq
      cases rest with
      | nil => rfl
      | cons k' rest' =>
        by_cases hk : k' = index
        · subst hk
          simp [get?_cons, hnone] at hq
        · simpa [hf, get?_cons, mapGet_mapSet_ne _ _ _ _ hk] using hq
    · by_cases hqn : q <+: n
      · have hne : q ≠ n := fun e => hnq (e ▸ List.prefix_refl _)
        obtain ⟨b0, b', e1, e2, _⟩ := get?_modify_above f n q root a hqn hne ha
        rw [e2]; rfl
      · rw [get?_modify_off f n q root hqn hnq]
        exact hq

end expand

/-! ### Select -/

section select

variable {S : Type}

theorem legal_ne_nil_of_loop [State S] {N : Nat} {s0 s : S} {root b : Node S} {n : Path}
    (hinv : SearchInv N s0 none root) (hleg : State.LegalActions s0 ≠ [])
    (hb : root.get? n = some b) (hs : b.State = some s)
    (hcond : (IsRoot n || !b.IsTerminal) = true) : State.LegalActions s ≠ [] := by
  by_cases hr : IsRoot n = true
  · have hn : n = [] := (IsRoot_iff n).mp hr
    subst hn
    simp only [get?_nil, Option.some.injEq] at hb
    subst hb
    rw [hinv.1] at hs
    simp only [Option.some.injEq] at hs
    subst hs
    exact hleg
  · simp only [hr, Bool.false_or, Bool.not_eq_true', Node.IsTerminal, hs] at hcond
    intro hnil
    simp [hnil] at hcond

theorem not_leaf_of_exhausted [State S] {s : S} {b : Node S} (hs : b.State = some s)
    (hleg : State.LegalActions s ≠ []) (hex : b.IsExhausted = true) : b.IsLeaf = false := by
  simp only [Node.IsExhausted, hs, List.all_eq_true] at hex
  cases hl : State.LegalActions s with
  | nil => exact absurd hl hleg
  | cons ka rest =>
    have := hex ka (by rw [hl]; exact List.mem_cons_self _ _)
    cases hc : b.children with
    | nil => simp [hc] at this
    | cons x xs => simp [Node.IsLeaf, hc]

/-- In a tree that satisfies the invariant, `selectBestChild` on a node with children
returns one of its keys and the pointer to the child. -/
theorem selectBestChild_inv [State S] (m : MathFns) (ord : MapOrder) {N : Nat} {s0 : S} {root b : Node S}
    {n : Path} (e : F64) (rnd : Rand) (A : SearchAssumptions S m N)
    (he : e.isFinite = true) (hinv : SearchInv N s0 none root) (hb : root.get? n = some b)
    (hleaf : b.IsLeaf = false) :
    ∃ k rnd' c, selectBestChild m ord rnd root n e = some ((k, some (n ++ [k])), rnd') ∧
      mapGet k b.children = some c := by
  have hOK := (hinv.2.2.2 n b hb)
  have hvis : 1 ≤ b.visits := (hOK.2 (fun p hp => by simp at hp)).2 hleaf
  have hplayer : b.Player < N := by
    unfold Node.Player
    cases hs : b.State with
    | none =>
      have := hOK.1.state
      simp [hs] at this
    | some s => exact A.player_lt s
  obtain ⟨k, rnd', hsel, hk⟩ := selectBestChild_child m ord rnd root b n e hb hleaf
    (fun entry hen => by
      have hkey : entry.1 ∈ mapKeys b.children := List.mem_map.mpr ⟨entry, hen, rfl⟩
      have hsome := (mapGet_isSome_iff entry.1 b.children).mpr hkey
      obtain ⟨c, hc⟩ := Option.isSome_iff_exists.mp hsome
      have hcget : root.get? (n ++ [entry.1]) = some c := by
        rw [get?_append, hb]
        simp [get?_cons, hc, get?_nil]
      have hcOK := (hinv.2.2.2 _ c hcget).1
      exact UpperConfidenceBound_good m root b c n entry.1 e b.Player hb hcget
        (by rw [hcOK.score_len]; exact hplayer) hcOK.score_fin hvis he A.log_nonneg)
    (fun entry _ s' _ => A.bias_fin s')
  obtain ⟨c, hc⟩ := Option.isSome_iff_exists.mp ((mapGet_isSome_iff k b.children).mpr hk)
  exact ⟨k, rnd', c, hsel, hc⟩

/-- The walk of `Select` from a node of a tree that satisfies the invariant ends, with
enough fuel, at a node of the tree or at a new child. -/
theorem SelectLoop_spec [State S] (m : MathFns) (ord : MapOrder) {N : Nat} {s0 : S} {root : Node S} (e : F64)
    (A : SearchAssumptions S m N) (he : e.isFinite = true)
    (hleg : State.LegalActions s0 ≠ []) (hinv : SearchInv N s0 none root) :
    ∀ (h : Nat) (n : Path) (b : Node S) (rnd : Rand), root.get? n = some b → b.height ≤ h →
      ∃ fuel root1 p rnd1 node,
        UCTPolicy.SelectLoop m ord e fuel rnd root (some n) = some ((root1, some p), rnd1) ∧
        SearchInv N s0 (some p) root1 ∧ Grows root root1 ∧ root1.get? p = some node ∧
        n <+: p ∧ (n = [] → p ≠ []) := by
  intro h
  induction h with
  | zero =>
    intro n b rnd _ hh
    have := height_pos b
    omega
  | succ h ih =>
    intro n b rnd hb hh
    have hOK := (hinv.2.2.2 n b hb).1
    obtain ⟨s, hs⟩ := Option.isSome_iff_exists.mp hOK.state
    by_cases hcond : (IsRoot n || !b.IsTerminal) = true
    · have hlegs := legal_ne_nil_of_loop hinv hleg hb hs hcond
      by_cases hex : b.IsExhausted = true
      · have hleaf := not_leaf_of_exhausted hs hlegs hex
        obtain ⟨k, rnd', c, hsel, hc⟩ := selectBestChild_inv m ord e rnd A he hinv hb hleaf
        have hcget : root.get? (n ++ [k]) = some c := by
          rw [get?_append, hb]
          simp [get?_cons, hc, get?_nil]
        have hch : c.height ≤ h := by
          have := height_child_lt hc
          omega
        obtain ⟨fuel, root1, p, rnd1, node, h1, h2, h3, h4, h5, _⟩ :=
          ih (n ++ [k]) c rnd' hcget hch
        refine ⟨fuel + 1, root1, p, rnd1, node, ?_, h2, h3, h4,
          (List.prefix_append n [k]).trans h5, fun _ hp => ?_⟩
        · rw [UCTPolicy.SelectLoop]
          simp only [hb, hcond, if_true, hex, Bool.not_true, Bool.false_eq_true, if_false,
            hsel]
          exact h1
        · subst hp
          have := List.prefix_nil.mp h5
          simp at this
      · have hex' : b.IsExhausted = false := by simpa using hex
        have hN : 1 ≤ b.numPlayers := by
          rw [hOK.numPlayers_eq]
          have := A.player_lt s0
          omega
        obtain ⟨index, action, hmem, hnone, hexp⟩ := Expand_spec rnd root b n s hb hs hex' hN
        obtain ⟨g1, g2, g3⟩ := SearchInv_expand hinv hb hs hmem hnone A.policy
        refine ⟨1, _, n ++ [index], rnd.next, _, ?_, g1, g2, g3, List.prefix_append _ _,
          fun _ => by simp⟩
        rw [UCTPolicy.SelectLoop]
        simp only [hb, hcond, if_true, hex', Bool.not_false, hexp]
    · refine ⟨1, root, n, rnd, b, ?_, SearchInv_weaken n hinv, fun q hq => hq, hb,
        List.prefix_refl _, fun hn => ?_⟩
      · rw [UCTPolicy.SelectLoop]
        simp only [hb, hcond, Bool.false_eq_true, if_false]
      · subst hn
        simp [IsRoot, Parent] at hcond

end select

/-! ### More fuel gives the same result -/

section fuel

variable {S : Type}

theorem rollout_mono [State S] : ∀ (f f' : Nat) (rnd : Rand) (s : S) (r : S × Rand),
    f ≤ f' → rollout f rnd s = some r → rollout f' rnd s = some r := by
  intro f
  induction f with
  | zero => intro f' rnd s r _ h; simp [rollout] at h
  | succ f ih =>
    intro f' rnd s r hle h
    obtain ⟨g, rfl⟩ : ∃ g, f' = g + 1 := ⟨f' - 1, by omega⟩
    rw [rollout] at h ⊢
    by_cases hl : (State.LegalActions s).length ≤ 0
    · simp only [hl, if_true] at h ⊢
      exact h
    · simp only [hl, if_false] at h ⊢
      obtain ⟨k, a, rnd', hra⟩ : ∃ k a rnd',
          randomAction rnd (State.LegalActions s) = ((k, a), rnd') := ⟨_, _, _, rfl⟩
      rw [hra] at h ⊢
      cases a with
      | none => simp at h
      | some action => exact ih g rnd' _ r (by omega) h

theorem SelectLoop_mono [State S] (m : MathFns) (ord : MapOrder) (e : F64) :
    ∀ (f f' : Nat) (rnd : Rand) (root : Node S) (n : Option Path)
      (r : (Node S × Option Path) × Rand), f ≤ f' →
      UCTPolicy.SelectLoop m ord e f rnd root n = some r →
      UCTPolicy.SelectLoop m ord e f' rnd root n = some r := by
  intro f
  induction f with
  | zero =>
    intro f' rnd root n r _ h
    cases n with
    | none =>
      cases f' <;> simpa [UCTPolicy.SelectLoop] using h
    | some n => simp [UCTPolicy.SelectLoop] at h
  | succ f ih =>
    intro f' rnd root n r hle h
    obtain ⟨g, rfl⟩ : ∃ g, f' = g + 1 := ⟨f' - 1, by omega⟩
    cases n with
    | none => simpa [UCTPolicy.SelectLoop] using h
    | some n =>
      rw [UCTPolicy.SelectLoop] at h ⊢
      cases hb : root.get? n with
      | none => simp [hb] at h
      | some b =>
        simp only [hb] at h ⊢
        split
        · rename_i hc
          simp only [hc, if_true] at h
          split
          · rename_i hx
            simpa [hx] using h
          · rename_i hx
            simp only [hx, if_false] at h
            cases hsel : selectBestChild m ord rnd root n e with
            | none => simp [hsel] at h
            | some x =>
              obtain ⟨⟨k, n'⟩, rnd'⟩ := x
              simp only [hsel] at h ⊢
              exact ih g rnd' root n' r (by omega) h
        · rename_i hc
          simpa [hc] using h

theorem expandAll_mono [State S] : ∀ (f f' : Nat) (rnd : Rand) (root : Node S) (path : Path)
    (r : Node S × Rand), f ≤ f' →
    DeterminizationPolicy.expandAll f rnd root path = some r →
    DeterminizationPolicy.expandAll f' rnd root path = some r := by
  intro f
  induction f with
  | zero => intro f' rnd root path r _ h; simp [DeterminizationPolicy.expandAll] at h
  | succ f ih =>
    intro f' rnd root path r hle h
    obtain ⟨g, rfl⟩ : ∃ g, f' = g + 1 := ⟨f' - 1, by omega⟩
    rw [DeterminizationPolicy.expandAll] at h ⊢
    cases hb : root.get? path with
    | none => simp [hb] at h
    | some b =>
      simp only [hb] at h ⊢
      split
      · rename_i hx
        simp only [hx, if_true] at h
        cases hp : b.policy with
        | nil => simp [hp] at h
        | UCTPolicy =>
          simp only [hp] at h ⊢
          cases hexp : UCTPolicy.Expand rnd root path with
          | none => simp [hexp] at h
          | some x =>
            obtain ⟨⟨root', q⟩, rnd'⟩ := x
            simp only [hexp] at h ⊢
            exact ih g rnd' root' path r (by omega) h
        | DeterminizationPolicy cp =>
          simp only [hp] at h ⊢
          cases hexp : UCTPolicy.Expand rnd root path with
          | none => simp [hexp] at h
          | some x =>
            obtain ⟨⟨root', q⟩, rnd'⟩ := x
            simp only [hexp] at h ⊢
            exact ih g rnd' root' path r (by omega) h
      · rename_i hx
        simpa [hx] using h

theorem Policy_Select_mono [State S] (p : Policy) (m : MathFns) (ord : MapOrder) (f f' : Nat) (rnd : Rand)
    (root : Node S) (path : Path) (e : F64) (r : (Node S × Option Path) × Rand)
    (hle : f ≤ f') (h : p.Select m ord f rnd root path e = some r) :
    p.Select m ord f' rnd root path e = some r := by
  cases p with
  | nil => simp [Policy.Select] at h
  | UCTPolicy =>
    simp only [Policy.Select, UCTPolicy.Select] at h ⊢
    exact SelectLoop_mono m ord e f f' rnd root _ r hle h
  | DeterminizationPolicy cp =>
    simp only [Policy.Select, DeterminizationPolicy.Select] at h ⊢
    cases hb : root.get? path with
    | none => simp [hb] at h
    | some b =>
      simp only [hb] at h ⊢
      split
      · rename_i hx
        simpa [hx] using h
      · rename_i hx
        simp only [hx, if_false] at h
        cases hexp : DeterminizationPolicy.expandAll f rnd root path with
        | none => simp [hexp] at h
        | some x =>
          rw [expandAll_mono f f' rnd root path x hle hexp]
          simpa [hexp] using h

theorem Simulate_mono [State S] (f f' : Nat) (rnd : Rand) (root : Node S) (path : Path)
    (r : F64 × Rand) (hle : f ≤ f') (h : UCTPolicy.Simulate f rnd root path = some r) :
    UCTPolicy.Simulate f' rnd root path = some r := by
  unfold UCTPolicy.Simulate at h ⊢
  cases hb : root.get? path with
  | none => simp [hb] at h
  | some b =>
    simp only [hb] at h ⊢
    cases hs : b.State with
    | none => simp [hs] at h
    | some s =>
      simp only [hs] at h ⊢
      cases hr : rollout f rnd (State.Copy s) with
      | none => simp [hr] at h
      | some x =>
        rw [rollout_mono f f' rnd _ x hle hr]
        simpa [hr] using h

theorem Policy_Simulate_mono [State S] (p : Policy) (f f' : Nat) (rnd : Rand)
    (root : Node S) (path : Path) (r : F64 × Rand) (hle : f ≤ f')
    (h : p.Simulate f rnd root path = some r) : p.Simulate f' rnd root path = some r := by
  cases p with
  | nil => simp [Policy.Simulate] at h
  | UCTPolicy => exact Simulate_mono f f' rnd root path r hle h
  | DeterminizationPolicy cp => exact Simulate_mono f f' rnd root path r hle h

/-- A round of `Search` that returns is a selection, a simulation and a
backpropagation that return. -/
theorem searchRound_eq_some [State S] (m : MathFns) (ord : MapOrder) (f : Nat) (e : F64) (rnd : Rand)
    (root : Node S) (r : Node S × Rand) :
    searchRound m ord f e rnd root = some r ↔
      ∃ root1 path rnd1 node score,
        root.policy.Select m ord f rnd root [] e = some ((root1, some path), rnd1) ∧
        root1.get? path = some node ∧
        node.policy.Simulate f rnd1 root1 path = some (score, r.2) ∧
        node.policy.Backpropagate root1 path score = some r.1 := by
  unfold searchRound
  constructor
  · intro h
    split at h
    · exact absurd h (by simp)
    · exact absurd h (by simp)
    · rename_i root1 path rnd1 hsel
      cases hn : root1.get? path with
      | none => simp [hn] at h
      | some node =>
        simp only [hn] at h
        cases hsim : node.policy.Simulate f rnd1 root1 path with
        | none => simp [hsim] at h
        | some x =>
          obtain ⟨score, rnd2⟩ := x
          simp only [hsim] at h
          cases hbp : node.policy.Backpropagate root1 path score with
          | none => simp [hbp] at h
          | some root2 =>
            simp only [hbp, Option.some.injEq] at h
            subst h
            exact ⟨root1, path, rnd1, node, score, hsel, hn, hsim, hbp⟩
  · rintro ⟨root1, path, rnd1, node, score, hsel, hn, hsim, hbp⟩
    simp only [hsel, hn, hsim, hbp]

theorem searchRound_mono [State S] (m : MathFns) (ord : MapOrder) (f f' : Nat) (e : F64) (rnd : Rand)
    (root : Node S) (r : Node S × Rand) (hle : f ≤ f')
    (h : searchRound m ord f e rnd root = some r) : searchRound m ord f' e rnd root = some r := by
  rw [searchRound_eq_some] at h ⊢
  obtain ⟨root1, path, rnd1, node, score, hsel, hn, hsim, hbp⟩ := h
  exact ⟨root1, path, rnd1, node, score, Policy_Select_mono _ m ord f f' rnd root [] e _ hle hsel,
    hn, Policy_Simulate_mono _ f f' rnd1 root1 path _ hle hsim, hbp⟩

theorem searchLoop_mono [State S] (m : MathFns) (ord : MapOrder) (f f' : Nat) (e : F64) (hle : f ≤ f') :
    ∀ (level : Nat) (rnd : Rand) (root : Node S) (r : Node S × Rand),
      searchLoop m ord f e level rnd root = some r → searchLoop m ord f' e level rnd root = some r := by
  intro level
  induction level with
  | zero => intro rnd root r h; simpa [searchLoop] using h
  | succ level ih =>
    intro rnd root r h
    rw [searchLoop] at h ⊢
    cases hr : searchRound m ord f e rnd root with
    | none => simp [hr] at h
    | some x =>
      rw [searchRound_mono m ord f f' e rnd root x hle hr]
      simp only [hr] at h
      exact ih _ _ r h

end fuel

/-! ### One round of Search, and the loop -/

section search

variable {S : Type}

theorem mem_set_finite {l : List F64} {i : Nat} {v x : F64}
    (hl : ∀ y ∈ l, y.isFinite = true) (hv : v.isFinite = true) (hx : x ∈ l.set i v) :
    x.isFinite = true := by
  rcases List.mem_or_eq_of_mem_set hx with h | h
  · exact hl x h
  · rw [h]; exact hv

theorem F64.add_finite {a b : F64} (ha : a.isFinite = true) (hb : b.isFinite = true) :
    (F64.add a b).isFinite = true := by
  obtain ⟨x, rfl⟩ := (F64.isFinite_iff a).mp ha
  obtain ⟨y, rfl⟩ := (F64.isFinite_iff b).mp hb
  rfl

/-- The invariant after `Backpropagate` has bumped the selected node and the nodes above
it with a finite score. -/
theorem SearchInv_backpropagate [State S] {N : Nat} {s0 : S} {root1 root2 : Node S}
    {p : Path} {player : Nat} {score : F64} (hinv : SearchInv N s0 (some p) root1)
    (hb : BumpedAlong player score p root1 root2) (hfin : score.isFinite = true)
    (hpl : player < N) : SearchInv N s0 none root2 ∧ Grows root1 root2 := by
  obtain ⟨i1, i2, i3, i4⟩ := hinv
  obtain ⟨hb1, hb2⟩ := hb
  obtain ⟨r1, r2, e1, e2, _, _, e5, _, e7, e8⟩ := hb1 [] List.nil_prefix
  simp only [get?_nil, Option.some.injEq] at e1 e2
  subst e1 e2
  refine ⟨⟨by rw [e5]; exact i1, by rw [e7]; exact i2, fun k hk => i3 k (by rw [← e8]; exact hk),
    fun q b' hq => ?_⟩, fun q hq => ?_⟩
  · by_cases hqp : q <+: p
    · obtain ⟨b, b'', g1, g2, g3, g4, g5, g6, g7, _⟩ := hb1 q hqp
      rw [hq] at g2
      simp only [Option.some.injEq] at g2
      subst g2
      have hOK := (i4 q b g1).1
      have hlt : player < b.score.length := by rw [hOK.score_len]; exact hpl
      obtain ⟨old, h1, _, _, h4⟩ := bump_of_lt player score b hlt
      have hold : old.isFinite = true := hOK.score_fin old (List.get?_mem h1)
      have hv := hOK.visits_nonneg
      refine ⟨⟨?_, by rw [g6]; exact hOK.numPlayers_eq, ?_, by rw [g5]; exact hOK.state,
        by rw [g7]; exact hOK.policy, by rw [g4]; omega⟩, fun _ => ⟨fun _ => ?_, fun _ => ?_⟩⟩
      · rw [g3, h4, List.length_set]; exact hOK.score_len
      · intro x hx
        rw [g3, h4] at hx
        exact mem_set_finite hOK.score_fin (F64.add_finite hold hfin) hx
      · rw [g4]; omega
      · rw [g4]; omega
    · rw [hb2 q hqp] at hq
      exact ⟨(i4 q b' hq).1, fun _ => (i4 q b' hq).2 (fun p' hp' => by
        simp only [Option.some.injEq] at hp'
        subst hp'
        exact hqp)⟩
  · by_cases hqp : q <+: p
    · obtain ⟨b, b'', _, g2, _⟩ := hb1 q hqp
      rw [g2]; rfl
    · rw [hb2 q hqp]; exact hq

theorem Grows_trans {a b c : Node S} (h1 : Grows a b) (h2 : Grows b c) : Grows a c :=
  fun q hq => h2 q (h1 q hq)

theorem Grows_child {a b : Node S} {k : Key} (h : Grows a b)
    (hk : (mapGet k a.children).isSome = true) : (mapGet k b.children).isSome = true := by
  have h1 : (a.get? [k]).isSome = true := by
    obtain ⟨c, hc⟩ := Option.isSome_iff_exists.mp hk
    simp [get?_cons, hc, get?_nil]
  have h2 := h [k] h1
  cases hm : mapGet k b.children with
  | none => simp [get?_cons, hm] at h2
  | some c => rfl

theorem Simulate_finite [State S] {m : MathFns} {N : Nat} (A : SearchAssumptions S m N)
    (rnd : Rand) (root node : Node S) (path : Path) (s : S)
    (hnode : root.get? path = some node) (hs : node.State = some s) :
    ∃ f score rnd', UCTPolicy.Simulate f rnd root path = some (score, rnd') ∧
      score.isFinite = true := by
  obtain ⟨f, hf⟩ := A.rollout_ends (State.Copy s) rnd
  obtain ⟨⟨st, rnd'⟩, hr⟩ := Option.isSome_iff_exists.mp hf
  refine ⟨f, F64.div (F64.add (F64.fin 0) (State.Score st (State.Player st))) (F64.ofInt 1),
    rnd', by simp only [UCTPolicy.Simulate, hnode, hs, hr], ?_⟩
  obtain ⟨x, hx⟩ := (F64.isFinite_iff _).mp (A.score_fin st (State.Player st))
  rw [hx]
  simp [F64.add, F64.ofInt, F64.div, F64.isFinite]

/-- One round of `Search` on a tree that satisfies the invariant returns, with enough
fuel, a tree that satisfies it, and whose root has a child. -/
theorem searchRound_spec [State S] (m : MathFns) (ord : MapOrder) {N : Nat} {s0 : S} {root : Node S} (e : F64)
    (A : SearchAssumptions S m N) (he : e.isFinite = true)
    (hleg : State.LegalActions s0 ≠ []) (hinv : SearchInv N s0 none root) (rnd : Rand) :
    ∃ F root2 rnd2, searchRound m ord F e rnd root = some (root2, rnd2) ∧
      SearchInv N s0 none root2 ∧ Grows root root2 ∧
      ∃ k, (mapGet k root2.children).isSome = true := by
  obtain ⟨f1, root1, p, rnd1, node, h1, h2, h3, h4, _, h6⟩ :=
    SelectLoop_spec m ord e A he hleg hinv root.height [] root rnd rfl (le_refl _)
  have hOK := (h2.2.2.2 p node h4).1
  obtain ⟨s, hs⟩ := Option.isSome_iff_exists.mp hOK.state
  obtain ⟨f2, score, rnd2, hsim, hfin⟩ := Simulate_finite A rnd1 root1 node p s h4 hs
  have hpl : node.Player < N := by
    simp only [Node.Player, hs]
    exact A.player_lt s
  obtain ⟨root2, hbp, hbump⟩ := Backpropagate_spec root1 node p score h4
    (fun q b _ hb => by rw [(h2.2.2.2 q b hb).1.score_len]; exact hpl)
  obtain ⟨g1, g2⟩ := SearchInv_backpropagate h2 hbump hfin hpl
  refine ⟨max f1 f2, root2, rnd2, ?_, g1, Grows_trans h3 g2, ?_⟩
  · rw [searchRound_eq_some]
    refine ⟨root1, p, rnd1, node, score, ?_, h4, ?_, ?_⟩
    · rw [hinv.2.1]
      exact SelectLoop_mono m ord e f1 _ rnd root _ _ (le_max_left _ _) h1
    · apply Policy_Simulate_mono _ f2 _ rnd1 root1 p _ (le_max_right _ _)
      cases hp : node.policy with
      | nil => exact absurd hp hOK.policy
      | UCTPolicy => exact hsim
      | DeterminizationPolicy cp => exact hsim
    · cases hp : node.policy with
      | nil => exact absurd hp hOK.policy
      | UCTPolicy => exact hbp
      | DeterminizationPolicy cp => exact hbp
  · cases p with
    | nil => exact absurd rfl (h6 rfl)
    | cons k ks =>
      refine ⟨k, ?_⟩
      have : (root1.get? [k]).isSome = true := by
        obtain ⟨b, hb⟩ := get?_of_prefix h4 (show [k] <+: k :: ks from ⟨ks, rfl⟩)
        rw [hb]; rfl
      have h' := g2 [k] this
      cases hm : mapGet k root2.children with
      | none => simp [get?_cons, hm] at h'
      | some c => rfl

/-- The loop of `Search` returns, with enough fuel, a tree that satisfies the invariant,
and whose root has a child after at least one round. -/
theorem searchLoop_spec [State S] (m : MathFns) (ord : MapOrder) {N : Nat} {s0 : S} (e : F64)
    (A : SearchAssumptions S m N) (he : e.isFinite = true)
    (hleg : State.LegalActions s0 ≠ []) :
    ∀ (level : Nat) (rnd : Rand) (root : Node S), SearchInv N s0 none root →
      ∃ F root' rnd', searchLoop m ord F e level rnd root = some (root', rnd') ∧
        SearchInv N s0 none root' ∧ Grows root root' ∧
        (1 ≤ level → ∃ k, (mapGet k root'.children).isSome = true) := by
  intro level
  induction level with
  | zero =>
    intro rnd root hinv
    exact ⟨0, root, rnd, rfl, hinv, fun q hq => hq, fun h => absurd h (by omega)⟩
  | succ level ih =>
    intro rnd root hinv
    obtain ⟨F1, root1, rnd1, h1, h2, h3, k, hk⟩ := searchRound_spec m ord e A he hleg hinv rnd
    obtain ⟨F2, root', rnd', g1, g2, g3, _⟩ := ih rnd1 root1 h2
    refine ⟨max F1 F2, root', rnd', ?_, g2, Grows_trans h3 g3,
      fun _ => ⟨k, Grows_child g3 hk⟩⟩
    rw [searchLoop, searchRound_mono m ord F1 _ e rnd root _ (le_max_left _ _) h1]
    exact searchLoop_mono m ord F2 _ e (le_max_right _ _) level rnd1 root1 _ g1

theorem SearchInv_init [State S] (N : Nat) (init : S) (actions : List (Key × (S → S))) :
    SearchInv N (State.Copy init) none (NewMultiplayerMCTS N init actions).1.tree.root := by
  have hroot : (NewMultiplayerMCTS N init actions).1.tree.root =
      ((Node.NewNode N : Node S × Bool).1).withState (some (State.Copy init)) := rfl
  rw [hroot]
  refine ⟨by simp, by simp, fun k hk => by simp at hk, fun q b hq => ?_⟩
  cases q with
  | cons k ks => simp [get?_cons] at hq
  | nil =>
    simp only [get?_nil, Option.some.injEq] at hq
    subst hq
    refine ⟨⟨by simp, by simp, ?_, by simp, by simp, by simp⟩, fun _ =>
      ⟨fun h => absurd rfl h, fun h => ?_⟩⟩
    · intro x hx
      simp only [score_withState, score_NewNode] at hx
      rw [List.eq_of_mem_replicate hx]
      rfl
    · simp [Node.IsLeaf] at h

end search

/-! ### Search -/

/-- C1, as amended: for an orchestrator built by `NewMultiplayerMCTS` whose root state (the
copy of the initial state) has a legal action, at least one round, an exploration
parameter that is finite and of magnitude at most `2^900`, and a `State` implementation
whose playouts end, whose player indices are below the player count, whose states all
declare a policy, whose biases are finite and whose scores are finite and of magnitude at
most `2^900`, `Search` returns (with enough fuel, and then whatever the fuel) a key that is
a legal-action key of the root state and the key of a child of the root; it is not the
empty key unless the empty key is itself a legal-action key of the root state.
`math.Log` is taken to be non-negative from 1 on.  The two bounds keep the `float64`
values of the search finite: a sum of scores that has reached `2^954` absorbs a summand
of at most `2^900`, and the exploration term is the parameter times a square root below
10, so that the exact sums and products of `F64` stand for values that `float64` can
hold. -/
theorem Search_returns_child_key {S : Type} [State S] (m : MathFns) (ord : MapOrder) (N : Nat) (init : S)
    (actions : List (Key × (S → S))) (level : Int) (e : F64) (rnd : Rand)
    (hlevel : 1 ≤ level)
    (hlegal : State.LegalActions (State.Copy init) ≠ [])
    (hroll : ∀ (s : S) (r : Rand), ∃ f, (rollout f r s).isSome = true)
    (hplayer : ∀ s : S, State.Player s < N)
    (hpolicy : ∀ s : S, State.Policy s ≠ Policy.nil)
    (hscore : ∀ (s : S) (p : Nat), ∃ x : ℚ, State.Score s p = F64.fin x ∧ |x| ≤ 2 ^ 900)
    (hbias : ∀ s : S, (State.Bias s).isFinite = true)
    (hexpl : ∃ x : ℚ, e = F64.fin x ∧ |x| ≤ 2 ^ 900)
    (hlog : ∀ x : ℚ, 1 ≤ x → 0 ≤ m.logQ x) :
    ∃ F, ∀ fuel, F ≤ fuel → ∃ key root rnd',
      (NewMultiplayerMCTS N init actions).1.Search m ord fuel rnd level e =
        some (key, mapGet key actions) ∧
      searchLoop m ord fuel e level.toNat rnd (NewMultiplayerMCTS N init actions).1.tree.root =
        some (root, rnd') ∧
      key ∈ mapKeys (State.LegalActions (State.Copy init)) ∧
      key ∈ mapKeys root.children ∧
      (emptyKey ∉ mapKeys (State.LegalActions (State.Copy init)) → key ≠ emptyKey) := by
  have hfin : ∀ (s : S) (p : Nat), (State.Score s p).isFinite = true := fun s p => by
    obtain ⟨x, hx, _⟩ := hscore s p
    rw [hx]
    rfl
  have he : e.isFinite = true := by
    obtain ⟨x, hx, _⟩ := hexpl
    rw [hx]
    rfl
  have A : SearchAssumptions S m N := ⟨hplayer, hpolicy, hfin, hbias, hroll, hlog⟩
  obtain ⟨F, root, rnd', h1, h2, _, h4⟩ := searchLoop_spec m ord e A he hlegal level.toNat rnd
    (NewMultiplayerMCTS N init actions).1.tree.root (SearchInv_init N init actions)
  obtain ⟨k0, hk0⟩ := h4 (by omega)
  have hleaf : root.IsLeaf = false := by
    cases hc : root.children with
    | nil => simp [hc] at hk0
    | cons x xs => simp [Node.IsLeaf, hc]
  obtain ⟨key, rnd2, c, hsel, hc⟩ := selectBestChild_inv m ord (F64.fin 0) rnd' A rfl h2
    (get?_nil root) hleaf
  have hsome : (mapGet key root.children).isSome = true := by rw [hc]; rfl
  have hkey := h2.2.2.1 key hsome
  refine ⟨F, fun fuel hfuel => ⟨key, root, rnd', ?_,
    searchLoop_mono m ord F fuel e hfuel _ _ _ _ h1, hkey,
    (mapGet_isSome_iff key root.children).mp hsome, fun hempty hk => hempty (hk ▸ hkey)⟩⟩
  simp only [MultiplayerMCTS.Search, searchLoop_mono m ord F fuel e hfuel _ _ _ _ h1, hsel]
  rfl

/-- C1, as amended, at the one-move game `coinState`. -/
theorem Search_returns_child_key_witness :
    ∃ F, ∀ fuel, F ≤ fuel → ∃ key root rnd',
      (NewMultiplayerMCTS 1 ({ done := false } : coinState) []).1.Search testMath testOrder fuel
        (fun _ => 0) 1000 (F64.fin 1) = some (key, mapGet key []) ∧
      searchLoop testMath testOrder fuel (F64.fin 1) (1000 : Int).toNat (fun _ => 0)
        (NewMultiplayerMCTS 1 ({ done := false } : coinState) []).1.tree.root =
        some (root, rnd') ∧
      key ∈ mapKeys (State.LegalActions (State.Copy ({ done := false } : coinState))) ∧
      key ∈ mapKeys root.children ∧
      (emptyKey ∉ mapKeys (State.LegalActions (State.Copy ({ done := false } : coinState))) →
        key ≠ emptyKey) :=
  Search_returns_child_key testMath testOrder 1 ({ done := false } : coinState) [] 1000 (F64.fin 1)
    (fun _ => 0) (by decide) (by simp [State.LegalActions, State.Copy])
    (fun s r => ⟨2, by
      cases s with
      | mk d =>
        cases d
        · simp [rollout, randomAction, State.LegalActions, Nat.mod_one]
        · simp [rollout, State.LegalActions]⟩)
    (fun _ => by simp [State.Player]) (fun _ => by simp [State.Policy])
    (fun _ _ => ⟨0, rfl, by norm_num⟩) (fun _ => rfl) ⟨1, rfl, by norm_num⟩
    (fun _ _ => le_refl _)

/-- C1 as stated fails.  With the empty string as the only legal-action key, `Search`
returns the empty key.  It also has no result when a state declares the nil policy, and
returns the nil key, which is no legal-action key, when a bias is `NaN`. -/
theorem Search_returns_child_key_counterexample :
    (State.LegalActions (State.Copy
        ({ done := false, key := emptyKey, bias := F64.fin 0, policy := Policy.UCTPolicy } :
          oneMoveState))).length = 1 ∧
    (NewMultiplayerMCTS 1
        ({ done := false, key := emptyKey, bias := F64.fin 0, policy := Policy.UCTPolicy } :
          oneMoveState) []).1.Search testMath testOrder 2 (fun _ => 0) 1 (F64.fin 0) =
      some (emptyKey, none) ∧
    (∀ fuel, (NewMultiplayerMCTS 1
        ({ done := false, key := Key.str "a", bias := F64.fin 0, policy := Policy.nil } :
          oneMoveState) []).1.Search testMath testOrder fuel (fun _ => 0) 1 (F64.fin 0) = none) ∧
    (NewMultiplayerMCTS 1
        ({ done := false, key := Key.str "a", bias := F64.nan, policy := Policy.UCTPolicy } :
          oneMoveState) []).1.Search testMath testOrder 2 (fun _ => 0) 1 (F64.fin 0) =
      some (Key.nil, none) :=
  ⟨rfl, rfl, fun fuel => by cases fuel <;> rfl, rfl⟩

/-! ### The draw of selectBestChild -/

theorem F64.eq_self_or_nan (x : F64) : F64.eq x x = true ∨ x = F64.nan := by
  cases x <;> simp [F64.eq]

theorem floatMapGet_nan (mx : List (F64 × List Key)) : floatMapGet F64.nan mx = [] := by
  induction mx with
  | nil => rfl
  | cons yl mx ih =>
    obtain ⟨y, l⟩ := yl
    have : F64.eq y F64.nan = false := by cases y <;> rfl
    simp [floatMapGet, this, ih]

theorem floatMapGet_floatMapSet (x : F64) (l : List Key) (mx : List (F64 × List Key))
    (hx : F64.eq x x = true) : floatMapGet x (floatMapSet x l mx) = l := by
  induction mx with
  | nil => simp [floatMapSet, floatMapGet, hx]
  | cons yl mx ih =>
    obtain ⟨y, l'⟩ := yl
    by_cases h : F64.eq y x = true
    · simp [floatMapSet, floatMapGet, h]
    · simp [floatMapSet, floatMapGet, h, ih]

theorem TiesOK_append (st : BestState) (h : st.TiesOK) :
    BestState.TiesOK { st with
      maxima := floatMapSet st.maxUCB (floatMapGet st.maxUCB st.maxima ++ [st.maxIndex])
        st.maxima } := by
  intro k hk
  simp only at hk
  rcases F64.eq_self_or_nan st.maxUCB with hx | hx
  · rw [floatMapGet_floatMapSet _ _ _ hx] at hk
    rcases List.mem_append.mp hk with h1 | h1
    · exact h k h1
    · simpa using h1
  · rw [hx, floatMapGet_nan] at hk
    simp at hk

theorem TiesOK_reset (u : F64) (i : Key) (mx : List (F64 × List Key)) :
    BestState.TiesOK { maxUCB := u, maxIndex := i, maxima := floatMapSet u [] mx } := by
  intro k hk
  simp only at hk
  rcases F64.eq_self_or_nan u with hx | hx
  · rw [floatMapGet_floatMapSet _ _ _ hx] at hk
    simp at hk
  · rw [hx, floatMapGet_nan] at hk
    simp at hk

theorem selectBestChildStep_ties {S : Type} [State S] (m : MathFns) (root : Node S)
    (path : Path) (e : F64) (player : Nat) (st st' : BestState) (entry : Key × Node S)
    (hst : st.TiesOK) (h : selectBestChildStep m root path e player st entry = some st') :
    st'.TiesOK := by
  unfold selectBestChildStep at h
  split at h
  · exact absurd h (by simp)
  · simp only at h
    split at h
    · simp only [Option.some.injEq] at h
      subst h
      split
      · exact TiesOK_append _ (TiesOK_reset _ _ _)
      · exact TiesOK_append _ hst
    · simp only [Option.some.injEq] at h
      subst h
      exact hst

theorem selectBestChildLoop_ties {S : Type} [State S] (m : MathFns) (root : Node S)
    (path : Path) (e : F64) (player : Nat) :
    ∀ (l : List (Key × Node S)) (st st' : BestState), st.TiesOK →
      selectBestChildLoop m root path e player st l = some st' → st'.TiesOK := by
  intro l
  induction l with
  | nil =>
    intro st st' hst h
    simp only [selectBestChildLoop, Option.some.injEq] at h
    subst h
    exact hst
  | cons entry l ih =>
    intro st st' hst h
    simp only [selectBestChildLoop] at h
    cases h1 : selectBestChildStep m root path e player st entry with
    | none => simp [h1] at h
    | some st1 =>
      rw [h1] at h
      exact ih st1 st' (selectBestChildStep_ties m root path e player st st1 entry hst h1) h

/-- Whatever is drawn, `selectBestChild` on a node with children returns the key
`maxIndex` that its loop ends with, and the child pointer of that key. -/
theorem selectBestChild_maxIndex {S : Type} [State S] (m : MathFns) (ord : MapOrder)
    (rnd : Rand) (root b : Node S) (path : Path) (e : F64) (st : BestState)
    (hb : root.get? path = some b) (hleaf : b.IsLeaf = false)
    (hloop : selectBestChildLoop m root path e b.Player
      { maxUCB := F64.ninf, maxIndex := Key.nil, maxima := [] }
      (ord.perm (rnd 0) b.children) = some st) :
    ∃ rnd', selectBestChild m ord rnd root path e =
      some ((st.maxIndex, childPtr b path st.maxIndex), rnd') := by
  have hties : st.TiesOK := selectBestChildLoop_ties m root path e b.Player _ _ st
    (by intro k hk; simp [floatMapGet] at hk) hloop
  unfold selectBestChild
  rw [hb]
  simp only [hleaf, Bool.false_eq_true, if_false, hloop]
  split
  · split
    · rename_i k hk
      have hk' : k ∈ floatMapGet st.maxUCB st.maxima := List.get?_mem hk
      rw [hties k hk']
      exact ⟨_, rfl⟩
    · exact ⟨_, rfl⟩
  · exact ⟨_, rfl⟩

/-! ### The confidence bound below the root -/

theorem F64.clamp_eq_max (e : F64) :
    (if F64.lt e (F64.fin 0) then F64.fin 0 else e) = F64.max e (F64.fin 0) := by
  cases e <;> simp [F64.lt, F64.max]

theorem F64.max_of_lt_zero {e : F64} (h : F64.lt e (F64.fin 0) = true) :
    F64.max e (F64.fin 0) = F64.fin 0 := by
  rw [← F64.clamp_eq_max, if_pos h]

theorem F64.add_fin_zero (x : F64) : F64.add x (F64.fin 0) = x := by
  cases x <;> simp [F64.add]

/-- The exploration term vanishes under a zero factor when the parent has been visited. -/
theorem exploration_term_zero (m : MathFns) (pv v : Int) (hpv : 1 ≤ pv) (hv : 1 ≤ v)
    (hlog : ∀ x : ℚ, 1 ≤ x → 0 ≤ m.logQ x) :
    F64.mul (F64.fin 0)
      (m.Sqrt (F64.div (F64.mul (F64.fin 2) (m.Log (F64.ofInt pv))) (F64.ofInt v))) =
      F64.fin 0 := by
  have hvq : ((v : Int) : ℚ) ≠ 0 := by
    have : (0 : ℚ) < (v : ℚ) := by exact_mod_cast (by omega : 0 < v)
    exact ne_of_gt this
  have hpq : (1 : ℚ) ≤ (pv : ℚ) := by exact_mod_cast hpv
  have hlogv : m.Log (F64.ofInt pv) = F64.fin (m.logQ (pv : ℚ)) := by
    have h1 : ¬ ((pv : ℚ) < 0) := by linarith
    have h2 : ¬ ((pv : ℚ) = 0) := by linarith
    simp [MathFns.Log, F64.ofInt, h1, h2]
  have hnn : ¬ (2 * m.logQ (pv : ℚ) / (v : ℚ) < 0) := by
    have h1 := hlog _ hpq
    have h2 : (0 : ℚ) < (v : ℚ) := by exact_mod_cast (by omega : 0 < v)
    have : 0 ≤ 2 * m.logQ (pv : ℚ) / (v : ℚ) := by positivity
    linarith
  rw [hlogv]
  simp [F64.ofInt, F64.mul, F64.div_fin _ _ hvq, MathFns.Sqrt, hnn]

/-- The value of `UpperConfidenceBound` past its guard. -/
theorem UpperConfidenceBound_eq {S : Type} (m : MathFns) (root node parent : Node S)
    (path pp : Path) (e : F64) (p : Nat) (s : F64)
    (hnode : root.get? path = some node) (hpp : Parent path = some pp)
    (hparent : root.get? pp = some parent) (hv : 1 ≤ node.Visits)
    (hone : ¬ (node.Visits = 1 ∧ IsRoot pp = true)) (hs : node.Score p = some s) :
    UpperConfidenceBound m root path e p =
      some (F64.add (F64.div s (F64.ofInt node.Visits))
        (F64.mul (F64.max e (F64.fin 0))
          (m.Sqrt (F64.div (F64.mul (F64.fin 2) (m.Log (F64.ofInt parent.Visits)))
            (F64.ofInt node.Visits))))) := by
  have hroot : IsRoot path = false := by simp [IsRoot, hpp]
  have hguard : (IsRoot path || F64.le (F64.ofInt node.Visits) (F64.fin 0) ||
      (F64.eq (F64.ofInt node.Visits) (F64.fin 1) && !IsRoot path &&
        IsRoot pp)) = false := by
    rw [hroot, F64.le_ofInt_zero, F64.eq_ofInt_one]
    have h1 : ¬ node.Visits ≤ 0 := by omega
    by_cases h2 : node.Visits = 1
    · have h3 : IsRoot pp = false := by
        cases h : IsRoot pp
        · rfl
        · exact absurd ⟨h2, h⟩ hone
      simp [h1, h3]
    · simp [h1, h2]
  unfold UpperConfidenceBound
  simp only [hnode, hguard, Bool.false_eq_true, if_false, hs, hpp, Option.some_bind, hparent,
    F64.clamp_eq_max]

/-- C11, as amended: for a non-root node with at least one visit that is not a one-visit
child of a root, and a player `p` that indexes its score vector,
`UpperConfidenceBound(e, p)` is `score[p]/visits + max(e, 0) * sqrt(2 * ln(parent.visits)
/ visits)`, and a negative exploration parameter gives the same value as the exploration
parameter 0; when the parent has at least one visit, that value is `score[p]/visits`.
`math.Log` is taken to be non-negative from 1 on. -/
theorem UpperConfidenceBound_formula {S : Type} (m : MathFns) (root node parent : Node S)
    (path pp : Path) (e : F64) (p : Nat) (s : F64)
    (hnode : root.get? path = some node) (hpp : Parent path = some pp)
    (hparent : root.get? pp = some parent) (hv : 1 ≤ node.Visits)
    (hone : ¬ (node.Visits = 1 ∧ IsRoot pp = true)) (hs : node.Score p = some s) :
    UpperConfidenceBound m root path e p =
      some (F64.add (F64.div s (F64.ofInt node.Visits))
        (F64.mul (F64.max e (F64.fin 0))
          (m.Sqrt (F64.div (F64.mul (F64.fin 2) (m.Log (F64.ofInt parent.Visits)))
            (F64.ofInt node.Visits))))) ∧
    (F64.lt e (F64.fin 0) = true →
      UpperConfidenceBound m root path e p =
        UpperConfidenceBound m root path (F64.fin 0) p ∧
      (1 ≤ parent.Visits → (∀ x : ℚ, 1 ≤ x → 0 ≤ m.logQ x) →
        UpperConfidenceBound m root path e p =
          some (F64.div s (F64.ofInt node.Visits)))) := by
  have h := UpperConfidenceBound_eq m root node parent path pp e p s hnode hpp hparent hv
    hone hs
  have h0 := UpperConfidenceBound_eq m root node parent path pp (F64.fin 0) p s hnode hpp
    hparent hv hone hs
  refine ⟨h, fun hneg => ⟨?_, fun hpv hlog => ?_⟩⟩
  · rw [h, h0, F64.max_of_lt_zero hneg]
    rfl
  · rw [h, F64.max_of_lt_zero hneg, exploration_term_zero m _ _ hpv hv hlog,
      F64.add_fin_zero]

/-- C11, as amended, at the child `"b"` of the fixture `oneVisitRoot` and the exploration
parameter -1. -/
theorem UpperConfidenceBound_formula_witness :
    UpperConfidenceBound testMath oneVisitRoot [Key.str "b"] (F64.fin (-1)) 0 =
      some (F64.add (F64.div (F64.fin 2) (F64.ofInt (statNode 2 2 []).Visits))
        (F64.mul (F64.max (F64.fin (-1)) (F64.fin 0))
          (testMath.Sqrt (F64.div (F64.mul (F64.fin 2)
            (testMath.Log (F64.ofInt oneVisitRoot.Visits)))
            (F64.ofInt (statNode 2 2 []).Visits))))) ∧
    (F64.lt (F64.fin (-1)) (F64.fin 0) = true →
      UpperConfidenceBound testMath oneVisitRoot [Key.str "b"] (F64.fin (-1)) 0 =
        UpperConfidenceBound testMath oneVisitRoot [Key.str "b"] (F64.fin 0) 0 ∧
      (1 ≤ oneVisitRoot.Visits → (∀ x : ℚ, 1 ≤ x → 0 ≤ testMath.logQ x) →
        UpperConfidenceBound testMath oneVisitRoot [Key.str "b"] (F64.fin (-1)) 0 =
          some (F64.div (F64.fin 2) (F64.ofInt (statNode 2 2 []).Visits)))) :=
  UpperConfidenceBound_formula testMath oneVisitRoot (statNode 2 2 []) oneVisitRoot
    [Key.str "b"] [] (F64.fin (-1)) 0 (F64.fin 2) rfl rfl rfl (by decide) (by decide) rfl

/-- C11 as stated fails: the child of the never visited root `unvisitedParent` has two
visits and the score 1, and its confidence bound under the exploration parameter -1 is
`NaN`, not `1/2`. -/
theorem UpperConfidenceBound_formula_counterexample :
    unvisitedParent.get? [Key.str "a"] = some (statNode 1 2 []) ∧
    IsRoot [Key.str "a"] = false ∧ (statNode 1 2 []).Visits = 2 ∧
    (statNode 1 2 []).Score 0 = some (F64.fin 1) ∧
    (∀ m : MathFns,
      UpperConfidenceBound m unvisitedParent [Key.str "a"] (F64.fin (-1)) 0 = some F64.nan ∧
      UpperConfidenceBound m unvisitedParent [Key.str "a"] (F64.fin (-1)) 0 ≠
        some (F64.div (F64.fin 1) (F64.ofInt 2))) ∧
    F64.div (F64.fin 1) (F64.ofInt 2) = F64.fin (1 / 2) := by
  have hdiv : F64.div (F64.fin 1) (F64.ofInt 2) = F64.fin (1 / 2) := by
    simp [F64.div, F64.ofInt]
  refine ⟨rfl, rfl, rfl, rfl, fun m => ⟨rfl, ?_⟩, hdiv⟩
  have h : UpperConfidenceBound m unvisitedParent [Key.str "a"] (F64.fin (-1)) 0 =
      some F64.nan := rfl
  rw [h, hdiv]
  simp

/-! ### selectBestChild returns a child -/

theorem F64.good_of_add_good {u b : F64} (h : (F64.add u b).isGood = true) :
    u.isGood = true := by
  cases u <;> cases b <;> simp_all [F64.add, F64.isGood]

theorem F64.ge_ninf_of_add_good {u b : F64} (h : (F64.add u b).isGood = true) :
    F64.ge (F64.add u b) F64.ninf = true := F64.ge_ninf_of_good h

/-- A round of the loop keeps `maxIndex` among the keys of the node. -/
theorem selectBestChildStep_maxIndex {S : Type} [State S] (m : MathFns) (root : Node S)
    (path : Path) (e : F64) (player : Nat) (keys : List Key) (st st' : BestState)
    (entry : Key × Node S) (hk : entry.1 ∈ keys) (hst : st.maxIndex ∈ keys)
    (h : selectBestChildStep m root path e player st entry = some st') :
    st'.maxIndex ∈ keys := by
  unfold selectBestChildStep at h
  split at h
  · exact absurd h (by simp)
  · simp only at h
    split at h
    · simp only [Option.some.injEq] at h
      subst h
      split
      · exact hk
      · exact hst
    · simp only [Option.some.injEq] at h
      subst h
      exact hst

/-- The first round of the loop, on a child whose value is neither `NaN` nor `-Inf`,
records the key of the child. -/
theorem selectBestChildStep_first_value {S : Type} [State S] (m : MathFns) (root : Node S)
    (path : Path) (e : F64) (player : Nat) (entry : Key × Node S) (u : F64)
    (hu : UpperConfidenceBound m root (path ++ [entry.1]) e player = some u)
    (hgood : (F64.add u entry.2.bias).isGood = true) :
    ∃ st', selectBestChildStep m root path e player
        { maxUCB := F64.ninf, maxIndex := Key.nil, maxima := [] } entry = some st' ∧
      st'.maxIndex = entry.1 := by
  have h1 := F64.ge_ninf_of_good hgood
  have h2 := F64.sub_ninf_le (F64.good_of_add_good hgood)
  simp only [Node.bias] at h1
  unfold selectBestChildStep
  simp only [hu, h1, h2, if_true]
  exact ⟨_, rfl, rfl⟩

theorem selectBestChildLoop_maxIndex {S : Type} [State S] (m : MathFns) (root : Node S)
    (path : Path) (e : F64) (player : Nat) (keys : List Key) :
    ∀ (l : List (Key × Node S)) (st : BestState), st.maxIndex ∈ keys →
      (∀ entry ∈ l, entry.1 ∈ keys ∧
        ∃ u, UpperConfidenceBound m root (path ++ [entry.1]) e player = some u) →
      ∃ st', selectBestChildLoop m root path e player st l = some st' ∧
        st'.maxIndex ∈ keys := by
  intro l
  induction l with
  | nil => intro st hst _; exact ⟨st, rfl, hst⟩
  | cons entry l ih =>
    intro st hst hall
    obtain ⟨hk, u, hu⟩ := hall entry (List.mem_cons_self _ _)
    have hstep : ∃ st1, selectBestChildStep m root path e player st entry = some st1 := by
      unfold selectBestChildStep
      simp only [hu]
      split
      · exact ⟨_, rfl⟩
      · exact ⟨_, rfl⟩
    obtain ⟨st1, h1⟩ := hstep
    have hv := selectBestChildStep_maxIndex m root path e player keys st st1 entry hk hst h1
    obtain ⟨st', h2, hv'⟩ := ih st1 hv (fun en hen => hall en (List.mem_cons_of_mem _ hen))
    exact ⟨st', by simp only [selectBestChildLoop, h1]; exact h2, hv'⟩

theorem perm_ne_nil {α : Type} {l l' : List α} (h : l'.Perm l) (hl : l ≠ []) : l' ≠ [] := by
  intro h'
  rw [h'] at h
  exact hl (List.Perm.eq_nil h.symm)

theorem children_ne_nil_of_not_leaf {S : Type} {b : Node S} (h : b.IsLeaf = false) :
    b.children ≠ [] := by
  intro hc
  simp [Node.IsLeaf, hc] at h

/-- C15, as amended: on a node with at least one child, all of whose children have a
value `ucb + bias` that is defined and neither `NaN` nor `-Inf`, `selectBestChild`
returns, for every iteration order and every draw, a key of the child map together with
the pointer to the child stored under that key, never a nil child; the key is not the
empty string unless a child is stored under the empty string. -/
theorem selectBestChild_returns_child {S : Type} [State S] (m : MathFns) (ord : MapOrder)
    (rnd : Rand) (root b : Node S) (path : Path) (e : F64)
    (hb : root.get? path = some b) (hleaf : b.IsLeaf = false)
    (hval : ∀ entry ∈ b.children,
      ∃ u, UpperConfidenceBound m root (path ++ [entry.1]) e b.Player = some u ∧
        (F64.add u entry.2.bias).isGood = true) :
    ∃ k c rnd', selectBestChild m ord rnd root path e = some ((k, some (path ++ [k])), rnd') ∧
      b.GetChild k = some c ∧ root.get? (path ++ [k]) = some c ∧
      k ∈ mapKeys b.children ∧ (emptyKey ∉ mapKeys b.children → k ≠ emptyKey) := by
  have hperm := ord.isPerm (rnd 0) b.children
  have hin : ∀ en ∈ ord.perm (rnd 0) b.children, en ∈ b.children := fun en hen =>
    hperm.mem_iff.mp hen
  have hmem : ∀ en ∈ b.children, en.1 ∈ mapKeys b.children := fun en hen =>
    List.mem_map.mpr ⟨en, hen, rfl⟩
  have hloop : ∃ st', selectBestChildLoop m root path e b.Player
      { maxUCB := F64.ninf, maxIndex := Key.nil, maxima := [] }
      (ord.perm (rnd 0) b.children) = some st' ∧ st'.maxIndex ∈ mapKeys b.children := by
    cases hch : ord.perm (rnd 0) b.children with
    | nil => exact absurd hch (perm_ne_nil hperm (children_ne_nil_of_not_leaf hleaf))
    | cons entry rest =>
      have hen : entry ∈ b.children := hin entry (by rw [hch]; exact List.mem_cons_self _ _)
      obtain ⟨u, hu, hug⟩ := hval entry hen
      obtain ⟨st1, h1, hv1⟩ := selectBestChildStep_first_value m root path e b.Player
        entry u hu hug
      obtain ⟨st', h2, hv'⟩ := selectBestChildLoop_maxIndex m root path e b.Player
        (mapKeys b.children) rest st1 (by rw [hv1]; exact hmem entry hen) (fun en hen' => by
          have hin' : en ∈ b.children :=
            hin en (by rw [hch]; exact List.mem_cons_of_mem _ hen')
          obtain ⟨u', hu', _⟩ := hval en hin'
          exact ⟨hmem en hin', u', hu'⟩)
      exact ⟨st', by simp only [selectBestChildLoop, h1]; exact h2, hv'⟩
  obtain ⟨st, hst, hk⟩ := hloop
  obtain ⟨rnd', hsel⟩ := selectBestChild_maxIndex m ord rnd root b path e st hb hleaf hst
  have hsome := (mapGet_isSome_iff st.maxIndex b.children).mpr hk
  obtain ⟨c, hc⟩ := Option.isSome_iff_exists.mp hsome
  refine ⟨st.maxIndex, c, rnd', ?_, hc, ?_, hk, fun hempty hke => hempty (hke ▸ hk)⟩
  · rw [hsel]
    simp [childPtr, hsome]
  · rw [get?_append, hb]
    simp [get?_cons, hc, get?_nil]

/-- C15, as amended, at the root `oneVisitRoot`. -/
theorem selectBestChild_returns_child_witness :
    ∃ k c rnd',
      selectBestChild testMath testOrder (fun _ => 0) oneVisitRoot [] (F64.fin 0) =
        some ((k, some ([] ++ [k])), rnd') ∧
      oneVisitRoot.GetChild k = some c ∧ oneVisitRoot.get? ([] ++ [k]) = some c ∧
      k ∈ mapKeys oneVisitRoot.children ∧
      (emptyKey ∉ mapKeys oneVisitRoot.children → k ≠ emptyKey) :=
  selectBestChild_returns_child testMath testOrder (fun _ => 0) oneVisitRoot oneVisitRoot []
    (F64.fin 0) rfl rfl (by
      intro entry hentry
      simp only [oneVisitRoot, statNode, Node.children, List.mem_cons, List.mem_singleton,
        List.not_mem_nil, or_false] at hentry
      rcases hentry with h | h
      · subst h; exact ⟨F64.pinf, rfl, rfl⟩
      · subst h
        exact ⟨_, UpperConfidenceBound_eq testMath oneVisitRoot (statNode 2 2 []) oneVisitRoot
          [Key.str "b"] [] (F64.fin 0) 0 (F64.fin 2) rfl rfl rfl (by decide) (by decide) rfl,
          by norm_num [F64.div, F64.ofInt, F64.mul, F64.add, F64.max, F64.lt, MathFns.Sqrt,
            MathFns.Log, testMath, Node.Visits, Node.visits, oneVisitRoot, statNode, Node.bias,
            Node.State, F64.isGood]⟩)

/-! ### selectBestChild at the fixtures -/

theorem perm_pair {α : Type} {l : List α} {x y : α} (h : l.Perm [x, y]) :
    l = [x, y] ∨ l = [y, x] := by
  have hlen : l.length = 2 := h.length_eq
  obtain ⟨p, q, rfl⟩ := List.length_eq_two.mp hlen
  have hp : p ∈ [x, y] := h.mem_iff.mp (List.mem_cons_self _ _)
  simp only [List.mem_cons, List.mem_singleton, List.not_mem_nil, or_false] at hp
  rcases hp with rfl | rfl
  · left
    have h1 : [q].Perm [y] := (List.perm_cons p).mp h
    rw [List.perm_singleton.mp h1]
  · right
    have h1 : [p, q].Perm [p, x] := h.trans (List.Perm.swap p x [])
    have h2 : [q].Perm [x] := (List.perm_cons p).mp h1
    rw [List.perm_singleton.mp h2]

/-- Evaluation of `selectBestChild` at a root with two children, from the outcome of its
loop in the two iteration orders. -/
theorem selectBestChild_pair {S : Type} [State S] (m : MathFns) (ord : MapOrder) (rnd : Rand)
    (root : Node S) (x y : Key × Node S) (e : F64) (k : Key) (hc : root.children = [x, y])
    (h1 : (selectBestChildLoop m root [] e root.Player
      { maxUCB := F64.ninf, maxIndex := Key.nil, maxima := [] } [x, y]).map
        BestState.maxIndex = some k)
    (h2 : (selectBestChildLoop m root [] e root.Player
      { maxUCB := F64.ninf, maxIndex := Key.nil, maxima := [] } [y, x]).map
        BestState.maxIndex = some k) :
    ∃ rnd', selectBestChild m ord rnd root [] e = some ((k, childPtr root [] k), rnd') := by
  have hleaf : root.IsLeaf = false := by simp [Node.IsLeaf, hc]
  have hperm := ord.isPerm (rnd 0) root.children
  rw [hc] at hperm
  have hloop : (selectBestChildLoop m root [] e root.Player
      { maxUCB := F64.ninf, maxIndex := Key.nil, maxima := [] }
      (ord.perm (rnd 0) root.children)).map BestState.maxIndex = some k := by
    rw [hc]
    rcases perm_pair hperm with h | h
    · rw [h]; exact h1
    · rw [h]; exact h2
  cases hst : selectBestChildLoop m root [] e root.Player
      { maxUCB := F64.ninf, maxIndex := Key.nil, maxima := [] }
      (ord.perm (rnd 0) root.children) with
  | none => simp [hst] at hloop
  | some st =>
    rw [hst] at hloop
    simp only [Option.map_some', Option.some.injEq] at hloop
    obtain ⟨rnd', hsel⟩ := selectBestChild_maxIndex m ord rnd root root [] e st rfl hleaf hst
    exact ⟨rnd', by rw [hsel, hloop]⟩

/-- The confidence bound under the exploration parameter 0, past the guard, is the mean
score when the parent has been visited. -/
theorem UpperConfidenceBound_zero {S : Type} (m : MathFns) (root node parent : Node S)
    (path pp : Path) (p : Nat) (s : F64)
    (hnode : root.get? path = some node) (hpp : Parent path = some pp)
    (hparent : root.get? pp = some parent) (hv : 1 ≤ node.Visits)
    (hone : ¬ (node.Visits = 1 ∧ IsRoot pp = true)) (hs : node.Score p = some s)
    (hpv : 1 ≤ parent.Visits) (hlog : ∀ x : ℚ, 1 ≤ x → 0 ≤ m.logQ x) :
    UpperConfidenceBound m root path (F64.fin 0) p =
      some (F64.div s (F64.ofInt node.Visits)) := by
  rw [UpperConfidenceBound_eq m root node parent path pp (F64.fin 0) p s hnode hpp hparent hv
    hone hs]
  have hmax : F64.max (F64.fin 0) (F64.fin 0) = F64.fin 0 := by simp [F64.max, F64.lt]
  rw [hmax, exploration_term_zero m _ _ hpv hv hlog, F64.add_fin_zero]

theorem testMath_log (x : ℚ) (_ : 1 ≤ x) : 0 ≤ testMath.logQ x := le_refl _

theorem biasedRoot_a :
    UpperConfidenceBound testMath biasedRoot [Key.str "a"] (F64.fin 0) 0 =
      some (F64.fin 0) := by
  rw [UpperConfidenceBound_zero testMath biasedRoot (biasNode 0 2 (F64.fin 5)) biasedRoot
    [Key.str "a"] [] 0 (F64.fin 0) rfl rfl rfl (by decide) (by decide) rfl (by decide)
    testMath_log]
  simp [F64.div, F64.ofInt, Node.Visits, biasNode, Node.visits]

theorem biasedRoot_b :
    UpperConfidenceBound testMath biasedRoot [Key.str "b"] (F64.fin 0) 0 =
      some (F64.fin 3) := by
  rw [UpperConfidenceBound_zero testMath biasedRoot (biasNode 6 2 (F64.fin 0)) biasedRoot
    [Key.str "b"] [] 0 (F64.fin 6) rfl rfl rfl (by decide) (by decide) rfl (by decide)
    testMath_log]
  norm_num [F64.div, F64.ofInt, Node.Visits, biasNode, Node.visits]

theorem biasedRoot_select (ord : MapOrder) (rnd : Rand) :
    ∃ rnd', selectBestChild testMath ord rnd biasedRoot [] (F64.fin 0) =
      some ((Key.str "b", some [Key.str "b"]), rnd') := by
  have hp : biasedRoot.Player = 0 := rfl
  obtain ⟨rnd', h⟩ := selectBestChild_pair testMath ord rnd biasedRoot
    (Key.str "a", biasNode 0 2 (F64.fin 5)) (Key.str "b", biasNode 6 2 (F64.fin 0))
    (F64.fin 0) (Key.str "b") rfl
    (by
      rw [hp]
      simp [selectBestChildLoop, selectBestChildStep, biasedRoot_a, biasedRoot_b, biasNode,
        Node.State, State.Bias, F64.add, F64.ge, F64.le, F64.sub, F64.neg, epsilon,
        floatMapSet, floatMapGet, F64.eq]
      norm_num)
    (by
      rw [hp]
      simp [selectBestChildLoop, selectBestChildStep, biasedRoot_a, biasedRoot_b, biasNode,
        Node.State, State.Bias, F64.add, F64.ge, F64.le, F64.sub, F64.neg, epsilon,
        floatMapSet, floatMapGet, F64.eq]
      norm_num)
  exact ⟨rnd', h⟩

/-! ### Greedy selection -/

/-- What a round of the loop of `selectBestChild` does to `maxUCB` and `maxIndex`. -/
theorem selectBestChildStep_fields {S : Type} [State S] (m : MathFns) (root : Node S)
    (path : Path) (e : F64) (player : Nat) (st : BestState) (entry : Key × Node S) (ucb : F64)
    (hu : UpperConfidenceBound m root (path ++ [entry.1]) e player = some ucb) :
    ∃ st', selectBestChildStep m root path e player st entry = some st' ∧
      st'.maxUCB = (if (F64.ge (F64.add ucb entry.2.bias) st.maxUCB &&
        F64.le (F64.sub st.maxUCB ucb) epsilon) = true then ucb else st.maxUCB) ∧
      st'.maxIndex = (if (F64.ge (F64.add ucb entry.2.bias) st.maxUCB &&
        F64.le (F64.sub st.maxUCB ucb) epsilon) = true then entry.1 else st.maxIndex) := by
  unfold selectBestChildStep
  by_cases h1 : F64.ge (F64.add ucb entry.2.bias) st.maxUCB = true
  · by_cases h2 : F64.le (F64.sub st.maxUCB ucb) epsilon = true
    · simp only [h1, h2, Bool.and_self, if_true]
      simp only [Node.bias] at h1
      simp only [hu, h1, if_true]
      refine ⟨_, rfl, ?_, ?_⟩ <;> simp [h2]
    · simp only [h1, h2, Bool.and_false, Bool.false_eq_true, if_false]
      simp only [Node.bias] at h1
      simp only [hu, h1, if_true]
      refine ⟨_, rfl, ?_, ?_⟩ <;> simp [h2]
  · simp only [h1, Bool.false_and, Bool.false_eq_true, if_false]
    simp only [Node.bias] at h1
    simp only [hu, h1, Bool.false_eq_true, if_false]
    exact ⟨_, rfl, rfl, rfl⟩

/-- The loop of `selectBestChild` over children of finite confidence bound and zero bias
ends with the key of a largest bound among the children seen. -/
theorem selectBestChildLoop_greedy {S : Type} [State S] (m : MathFns) (root : Node S)
    (path : Path) (e : F64) (player : Nat) (val : Key → ℚ) :
    ∀ (l : List (Key × Node S)) (st : BestState) (seen : List Key),
      (∀ entry ∈ l,
        UpperConfidenceBound m root (path ++ [entry.1]) e player =
          some (F64.fin (val entry.1)) ∧ entry.2.bias = F64.fin 0) →
      ((seen = [] ∧ st.maxUCB = F64.ninf) ∨
        (st.maxIndex ∈ seen ∧ st.maxUCB = F64.fin (val st.maxIndex) ∧
          ∀ k ∈ seen, val k ≤ val st.maxIndex)) →
      ∃ st', selectBestChildLoop m root path e player st l = some st' ∧
        ((seen ++ l.map Prod.fst = [] ∧ st'.maxUCB = F64.ninf) ∨
          (st'.maxIndex ∈ seen ++ l.map Prod.fst ∧ st'.maxUCB = F64.fin (val st'.maxIndex) ∧
            ∀ k ∈ seen ++ l.map Prod.fst, val k ≤ val st'.maxIndex)) := by
  intro l
  induction l with
  | nil =>
    intro st seen _ hinv
    exact ⟨st, rfl, by simpa using hinv⟩
  | cons entry l ih =>
    intro st seen hall hinv
    obtain ⟨hu, hbias⟩ := hall entry (List.mem_cons_self _ _)
    obtain ⟨st1, h1, hmax, hidx⟩ := selectBestChildStep_fields m root path e player st entry _ hu
    rw [hbias] at hmax hidx
    have hinv1 : (seen ++ [entry.1] = [] ∧ st1.maxUCB = F64.ninf) ∨
        (st1.maxIndex ∈ seen ++ [entry.1] ∧ st1.maxUCB = F64.fin (val st1.maxIndex) ∧
          ∀ k ∈ seen ++ [entry.1], val k ≤ val st1.maxIndex) := by
      right
      rcases hinv with ⟨hs, hninf⟩ | ⟨hm, hval, hle⟩
      · have hc : (F64.ge (F64.add (F64.fin (val entry.1)) (F64.fin 0)) st.maxUCB &&
            F64.le (F64.sub st.maxUCB (F64.fin (val entry.1))) epsilon) = true := by
          rw [hninf]
          simp [F64.add, F64.ge, F64.le, F64.sub, F64.neg, epsilon]
        rw [if_pos hc] at hmax hidx
        rw [hidx, hmax, hs]
        simp
      · by_cases hc : (F64.ge (F64.add (F64.fin (val entry.1)) (F64.fin 0)) st.maxUCB &&
            F64.le (F64.sub st.maxUCB (F64.fin (val entry.1))) epsilon) = true
        · rw [if_pos hc] at hmax hidx
          rw [hval] at hc
          simp only [F64.add, F64.ge, F64.le, add_zero, Bool.and_eq_true,
            decide_eq_true_eq] at hc
          rw [hidx, hmax]
          refine ⟨by simp, rfl, fun k hk => ?_⟩
          rcases List.mem_append.mp hk with h | h
          · exact le_trans (hle k h) hc.1
          · simp only [List.mem_singleton] at h
            rw [h]
        · rw [if_neg hc] at hmax hidx
          rw [hidx, hmax]
          refine ⟨List.mem_append_left _ hm, hval, fun k hk => ?_⟩
          rcases List.mem_append.mp hk with h | h
          · exact hle k h
          · simp only [List.mem_singleton] at h
            rw [h]
            rw [hval] at hc
            simp only [F64.add, F64.ge, F64.le, F64.sub, F64.neg, epsilon, add_zero,
              Bool.and_eq_true, decide_eq_true_eq, not_and] at hc
            by_contra hlt
            have hlt' : val st.maxIndex ≤ val entry.1 := le_of_lt (lt_of_not_ge hlt)
            exact hc hlt' (by linarith)
    obtain ⟨st', h2, hinv'⟩ := ih st1 (seen ++ [entry.1])
      (fun en hen => hall en (List.mem_cons_of_mem _ hen)) hinv1
    refine ⟨st', by simp only [selectBestChildLoop, h1]; exact h2, ?_⟩
    simpa [List.append_assoc] using hinv'

/-- The confidence bound under the exploration parameter 0 and the mean score of a child
with a finite score and a visit that is not inflated by the guard. -/
theorem child_greedy_value {S : Type} [State S] (m : MathFns) (root b c : Node S) (path : Path)
    (k : Key) (p : Nat) (q : ℚ) (hb : root.get? path = some b)
    (hc : mapGet k b.children = some c) (hv : 1 ≤ c.Visits)
    (hone : IsRoot path = true → c.Visits ≠ 1) (hpv : 1 ≤ b.Visits)
    (hs : c.Score p = some (F64.fin q)) (hlog : ∀ x : ℚ, 1 ≤ x → 0 ≤ m.logQ x) :
    UpperConfidenceBound m root (path ++ [k]) (F64.fin 0) p =
      some (F64.fin (q / (c.Visits : ℚ))) ∧
    c.meanScore p = some (F64.fin (q / (c.Visits : ℚ))) := by
  have hcget : root.get? (path ++ [k]) = some c := by
    rw [get?_append, hb]
    simp [get?_cons, hc, get?_nil]
  have hvq : ((c.Visits : Int) : ℚ) ≠ 0 := by
    have : (0 : ℚ) < (c.Visits : ℚ) := by exact_mod_cast (by omega : 0 < c.Visits)
    exact ne_of_gt this
  have hdiv : F64.div (F64.fin q) (F64.ofInt c.Visits) = F64.fin (q / (c.Visits : ℚ)) := by
    rw [F64.ofInt, F64.div_fin _ _ hvq]
  constructor
  · rw [UpperConfidenceBound_zero m root c b (path ++ [k]) path p (F64.fin q) hcget
      (Parent_concat path k) hb hv (fun h => hone h.2 h.1) hs hpv hlog, hdiv]
  · simp only [Node.meanScore, hs, hdiv]

/-- C13, as amended: on a node with at least one visit whose children all have at least
one visit, a finite score for the player of the node and zero bias, and, when the node is
a root, no child with exactly one visit, `selectBestChild(0)` returns, for every iteration
order and every draw, a child whose mean score `score[p]/visits`, for the player `p` of
the selecting node, is maximal among the children.  `math.Log` is taken to be
non-negative from 1 on. -/
theorem selectBestChild_greedy {S : Type} [State S] (m : MathFns) (ord : MapOrder) (rnd : Rand)
    (root b : Node S) (path : Path)
    (hb : root.get? path = some b) (hleaf : b.IsLeaf = false)
    (hvisits : ∀ entry ∈ b.children, 1 ≤ entry.2.Visits)
    (hbias : ∀ entry ∈ b.children, entry.2.bias = F64.fin 0)
    (hone : IsRoot path = true → ∀ entry ∈ b.children, entry.2.Visits ≠ 1)
    (hpv : 1 ≤ b.Visits)
    (hfin : ∀ entry ∈ b.children, ∃ q, entry.2.Score b.Player = some (F64.fin q))
    (hlog : ∀ x : ℚ, 1 ≤ x → 0 ≤ m.logQ x) :
    ∃ k c x rnd',
      selectBestChild m ord rnd root path (F64.fin 0) = some ((k, some (path ++ [k])), rnd') ∧
      b.GetChild k = some c ∧ c.meanScore b.Player = some x ∧
      ∀ k' c', b.GetChild k' = some c' →
        ∃ x', c'.meanScore b.Player = some x' ∧ F64.le x' x = true := by
  -- the value of every child
  have hchild : ∀ k c, mapGet k b.children = some c → ∃ q : ℚ,
      UpperConfidenceBound m root (path ++ [k]) (F64.fin 0) b.Player = some (F64.fin q) ∧
      c.meanScore b.Player = some (F64.fin q) := by
    intro k c hc
    have hmem := mapGet_mem hc
    obtain ⟨q, hq⟩ := hfin (k, c) hmem
    exact ⟨_, child_greedy_value m root b c path k b.Player q hb hc (hvisits (k, c) hmem)
      (fun h => hone h (k, c) hmem) hpv hq hlog⟩
  have hkey : ∀ k ∈ mapKeys b.children, ∃ c, mapGet k b.children = some c := fun k hk =>
    Option.isSome_iff_exists.mp ((mapGet_isSome_iff k b.children).mpr hk)
  let val : Key → ℚ := fun k =>
    match UpperConfidenceBound m root (path ++ [k]) (F64.fin 0) b.Player with
    | some (F64.fin q) => q
    | _ => 0
  have hval : ∀ k c, mapGet k b.children = some c →
      UpperConfidenceBound m root (path ++ [k]) (F64.fin 0) b.Player =
        some (F64.fin (val k)) ∧ c.meanScore b.Player = some (F64.fin (val k)) := by
    intro k c hc
    obtain ⟨q, h1, h2⟩ := hchild k c hc
    have : val k = q := by simp only [val, h1]
    rw [this]
    exact ⟨h1, h2⟩
  -- the loop
  have hperm := ord.isPerm (rnd 0) b.children
  have hin : ∀ en ∈ ord.perm (rnd 0) b.children, en ∈ b.children := fun en hen =>
    hperm.mem_iff.mp hen
  obtain ⟨st, hst, hinv⟩ := selectBestChildLoop_greedy m root path (F64.fin 0) b.Player val
    (ord.perm (rnd 0) b.children) { maxUCB := F64.ninf, maxIndex := Key.nil, maxima := [] } []
    (fun en hen => by
      have hmem := hin en hen
      obtain ⟨c, hc⟩ := hkey en.1 (List.mem_map.mpr ⟨en, hmem, rfl⟩)
      exact ⟨(hval en.1 c hc).1, hbias en hmem⟩)
    (Or.inl ⟨rfl, rfl⟩)
  have hne : ord.perm (rnd 0) b.children ≠ [] :=
    perm_ne_nil hperm (children_ne_nil_of_not_leaf hleaf)
  have hkeys : ∀ k, k ∈ [] ++ (ord.perm (rnd 0) b.children).map Prod.fst ↔
      k ∈ mapKeys b.children := by
    intro k
    rw [List.nil_append]
    exact (hperm.map Prod.fst).mem_iff
  rcases hinv with ⟨hnil, _⟩ | ⟨hmem, _, hmax⟩
  · simp only [List.nil_append, List.map_eq_nil_iff] at hnil
    exact absurd hnil hne
  · have hk : st.maxIndex ∈ mapKeys b.children := (hkeys _).mp hmem
    obtain ⟨c, hc⟩ := hkey _ hk
    obtain ⟨rnd', hsel⟩ := selectBestChild_maxIndex m ord rnd root b path (F64.fin 0) st hb
      hleaf hst
    refine ⟨st.maxIndex, c, F64.fin (val st.maxIndex), rnd', ?_, hc, (hval _ c hc).2, ?_⟩
    · rw [hsel]
      simp [childPtr, hc]
    · intro k' c' hc'
      refine ⟨F64.fin (val k'), (hval k' c' hc').2, ?_⟩
      have hk' : k' ∈ mapKeys b.children := by
        apply (mapGet_isSome_iff k' b.children).mp
        simp [Node.GetChild] at hc'
        simp [hc']
      simpa [F64.le] using hmax k' ((hkeys k').mpr hk')

theorem mem_pair {α : Type} {a x y : α} (h : a ∈ [x, y]) : a = x ∨ a = y := by
  simpa using h

/-- C13, as amended, at the root `nearTieRoot`, whose two children have two visits. -/
theorem selectBestChild_greedy_witness :
    ∃ k c x rnd',
      selectBestChild testMath testOrder (fun _ => 0) nearTieRoot [] (F64.fin 0) =
        some ((k, some ([] ++ [k])), rnd') ∧
      nearTieRoot.GetChild k = some c ∧ c.meanScore nearTieRoot.Player = some x ∧
      ∀ k' c', nearTieRoot.GetChild k' = some c' →
        ∃ x', c'.meanScore nearTieRoot.Player = some x' ∧ F64.le x' x = true :=
  selectBestChild_greedy testMath testOrder (fun _ => 0) nearTieRoot nearTieRoot [] rfl rfl
    (fun entry h => by rcases mem_pair h with rfl | rfl <;> decide)
    (fun entry h => by rcases mem_pair h with rfl | rfl <;> rfl)
    (fun _ entry h => by rcases mem_pair h with rfl | rfl <;> decide)
    (by decide)
    (fun entry h => by
      rcases mem_pair h with rfl | rfl
      · exact ⟨2, rfl⟩
      · exact ⟨2000001 / 1000000, rfl⟩)
    testMath_log

theorem oneVisitRoot_a :
    UpperConfidenceBound testMath oneVisitRoot [Key.str "a"] (F64.fin 0) 0 = some F64.pinf := by
  simp [UpperConfidenceBound, oneVisitRoot, statNode, Node.get?, mapGet, Node.children,
    IsRoot, Parent, Node.Visits, Node.visits, F64.ofInt, F64.le, F64.eq]

theorem oneVisitRoot_b :
    UpperConfidenceBound testMath oneVisitRoot [Key.str "b"] (F64.fin 0) 0 =
      some (F64.fin 1) := by
  rw [UpperConfidenceBound_zero testMath oneVisitRoot (statNode 2 2 []) oneVisitRoot
    [Key.str "b"] [] 0 (F64.fin 2) rfl rfl rfl (by decide) (by decide) rfl (by decide)
    testMath_log]
  norm_num [F64.div, F64.ofInt, Node.Visits, statNode, Node.visits]

/-- C13 as stated fails: the children of the root `oneVisitRoot` have one and two visits,
no state and so zero bias, and the mean scores 0 and 1; in either iteration order and
for every draw `selectBestChild(0)` returns the child `"a"` of mean score 0, whose
confidence bound the guard for one-visit children of a root sets to `+Inf`. -/
theorem selectBestChild_greedy_counterexample :
    (∀ entry ∈ oneVisitRoot.children, 1 ≤ entry.2.Visits ∧ entry.2.bias = F64.fin 0) ∧
    (statNode 0 1 []).meanScore oneVisitRoot.Player = some (F64.fin 0) ∧
    (statNode 2 2 []).meanScore oneVisitRoot.Player = some (F64.fin 1) ∧
    F64.le (F64.fin 1) (F64.fin 0) = false ∧
    ∀ (ord : MapOrder) (rnd : Rand), ∃ rnd',
      selectBestChild testMath ord rnd oneVisitRoot [] (F64.fin 0) =
        some ((Key.str "a", some [Key.str "a"]), rnd') := by
  refine ⟨fun entry h => ?_, ?_, ?_, ?_, fun ord rnd => ?_⟩
  · rcases mem_pair h with rfl | rfl <;> exact ⟨by decide, rfl⟩
  · norm_num [Node.meanScore, Node.Score, statNode, Node.score, oneVisitRoot, Node.Player,
      Node.State, F64.div, F64.ofInt, Node.Visits, Node.visits]
  · norm_num [Node.meanScore, Node.Score, statNode, Node.score, oneVisitRoot, Node.Player,
      Node.State, F64.div, F64.ofInt, Node.Visits, Node.visits]
  · simp [F64.le]
  · have hp : oneVisitRoot.Player = 0 := rfl
    exact selectBestChild_pair testMath ord rnd oneVisitRoot
      (Key.str "a", statNode 0 1 []) (Key.str "b", statNode 2 2 [])
      (F64.fin 0) (Key.str "a") rfl
      (by
        rw [hp]
        simp [selectBestChildLoop, selectBestChildStep, oneVisitRoot_a, oneVisitRoot_b,
          statNode, Node.State, F64.add, F64.ge, F64.le, F64.sub, F64.neg, epsilon,
          floatMapSet, floatMapGet, F64.eq])
      (by
        rw [hp]
        simp [selectBestChildLoop, selectBestChildStep, oneVisitRoot_a, oneVisitRoot_b,
          statNode, Node.State, F64.add, F64.ge, F64.le, F64.sub, F64.neg, epsilon,
          floatMapSet, floatMapGet, F64.eq])

/-! ### selectBestChild: bias, ties, sentinel, leaves -/

theorem biasedRoot_values :
    childValue testMath biasedRoot [] (F64.fin 0) biasedRoot.Player (Key.str "a") =
      some (F64.fin 5) ∧
    childValue testMath biasedRoot [] (F64.fin 0) biasedRoot.Player (Key.str "b") =
      some (F64.fin 3) := by
  have hp : biasedRoot.Player = 0 := rfl
  constructor
  · simp [childValue, hp, biasedRoot_a]
    simp [biasedRoot, statNode, biasNode, Node.get?, mapGet, Node.children, Node.bias,
      Node.State, State.Bias, F64.add]
  · simp [childValue, hp, biasedRoot_b]
    simp [biasedRoot, statNode, biasNode, Node.get?, mapGet, Node.children, Node.bias,
      Node.State, State.Bias, F64.add]

/-- C12 fails on the code.  The children of the root `biasedRoot` have the values
`ucb + bias` 5 (under `"a"`: mean score 0, bias 5) and 3 (under `"b"`: mean score 3, bias
0); in either iteration order and for every draw `selectBestChild(0)` returns the child
`"b"`, whose value is 2 below the maximum. -/
theorem selectBestChild_forgets_bias :
    childValue testMath biasedRoot [] (F64.fin 0) biasedRoot.Player (Key.str "a") =
      some (F64.fin 5) ∧
    childValue testMath biasedRoot [] (F64.fin 0) biasedRoot.Player (Key.str "b") =
      some (F64.fin 3) ∧
    F64.le (F64.sub (F64.fin 5) (F64.fin 3)) epsilon = false ∧
    ∀ (ord : MapOrder) (rnd : Rand), ∃ rnd',
      selectBestChild testMath ord rnd biasedRoot [] (F64.fin 0) =
        some ((Key.str "b", some [Key.str "b"]), rnd') :=
  ⟨biasedRoot_values.1, biasedRoot_values.2,
    by norm_num [F64.le, F64.sub, F64.add, F64.neg, epsilon], biasedRoot_select⟩

theorem nearTieRoot_a :
    UpperConfidenceBound testMath nearTieRoot [Key.str "a"] (F64.fin 0) 0 =
      some (F64.fin 1) := by
  rw [UpperConfidenceBound_zero testMath nearTieRoot (statNode 2 2 []) nearTieRoot
    [Key.str "a"] [] 0 (F64.fin 2) rfl rfl rfl (by decide) (by decide) rfl (by decide)
    testMath_log]
  norm_num [F64.div, F64.ofInt, Node.Visits, statNode, Node.visits]

theorem nearTieRoot_b :
    UpperConfidenceBound testMath nearTieRoot [Key.str "b"] (F64.fin 0) 0 =
      some (F64.fin (2000001 / 2000000)) := by
  rw [UpperConfidenceBound_zero testMath nearTieRoot (statNode (2000001 / 1000000) 2 [])
    nearTieRoot [Key.str "b"] [] 0 (F64.fin (2000001 / 1000000)) rfl rfl rfl (by decide)
    (by decide) rfl (by decide) testMath_log]
  norm_num [F64.div, F64.ofInt, Node.Visits, statNode, Node.visits]

/-- C14 fails on the code.  The children of the root `nearTieRoot` have the values 1
(under `"a"`) and 1.0000005 (under `"b"`), both within `1e-6` of the maximum; in either
iteration order and for every draw `selectBestChild(0)` returns the child `"b"`, so no
draw returns the child `"a"`. -/
theorem selectBestChild_draw_has_no_choice :
    childValue testMath nearTieRoot [] (F64.fin 0) nearTieRoot.Player (Key.str "a") =
      some (F64.fin 1) ∧
    childValue testMath nearTieRoot [] (F64.fin 0) nearTieRoot.Player (Key.str "b") =
      some (F64.fin (2000001 / 2000000)) ∧
    F64.le (F64.sub (F64.fin (2000001 / 2000000)) (F64.fin 1)) epsilon = true ∧
    ∀ (ord : MapOrder) (rnd : Rand), ∃ rnd',
      selectBestChild testMath ord rnd nearTieRoot [] (F64.fin 0) =
        some ((Key.str "b", some [Key.str "b"]), rnd') := by
  have hp : nearTieRoot.Player = 0 := rfl
  refine ⟨?_, ?_, by norm_num [F64.le, F64.sub, F64.add, F64.neg, epsilon],
    fun ord rnd => ?_⟩
  · simp [childValue, hp, nearTieRoot_a]
    simp [nearTieRoot, statNode, Node.get?, mapGet, Node.children, Node.bias, Node.State,
      F64.add]
  · simp [childValue, hp, nearTieRoot_b]
    simp [nearTieRoot, statNode, Node.get?, mapGet, Node.children, Node.bias, Node.State,
      F64.add]
  · exact selectBestChild_pair testMath ord rnd nearTieRoot
      (Key.str "a", statNode 2 2 []) (Key.str "b", statNode (2000001 / 1000000) 2 [])
      (F64.fin 0) (Key.str "b") rfl
      (by
        rw [hp]
        simp [selectBestChildLoop, selectBestChildStep, nearTieRoot_a, nearTieRoot_b,
          statNode, Node.State, F64.add, F64.ge, F64.le, F64.sub, F64.neg, epsilon,
          floatMapSet, floatMapGet, F64.eq]
        norm_num)
      (by
        rw [hp]
        simp [selectBestChildLoop, selectBestChildStep, nearTieRoot_a, nearTieRoot_b,
          statNode, Node.State, F64.add, F64.ge, F64.le, F64.sub, F64.neg, epsilon,
          floatMapSet, floatMapGet, F64.eq]
        norm_num)

/-- Evaluation of `selectBestChild` at a root with one child, from the outcome of its
loop. -/
theorem selectBestChild_single {S : Type} [State S] (m : MathFns) (ord : MapOrder)
    (rnd : Rand) (root : Node S) (x : Key × Node S) (e : F64) (k : Key)
    (hc : root.children = [x])
    (h1 : (selectBestChildLoop m root [] e root.Player
      { maxUCB := F64.ninf, maxIndex := Key.nil, maxima := [] } [x]).map
        BestState.maxIndex = some k) :
    ∃ rnd', selectBestChild m ord rnd root [] e = some ((k, childPtr root [] k), rnd') := by
  have hleaf : root.IsLeaf = false := by simp [Node.IsLeaf, hc]
  have hperm := ord.isPerm (rnd 0) root.children
  rw [hc] at hperm
  have hl : ord.perm (rnd 0) root.children = [x] := by
    rw [hc]
    exact List.perm_singleton.mp hperm
  cases hst : selectBestChildLoop m root [] e root.Player
      { maxUCB := F64.ninf, maxIndex := Key.nil, maxima := [] }
      (ord.perm (rnd 0) root.children) with
  | none =>
    rw [hl] at hst
    simp [hst] at h1
  | some st =>
    have h1' := h1
    rw [← hl, hst] at h1'
    simp only [Option.map_some', Option.some.injEq] at h1'
    obtain ⟨rnd', hsel⟩ := selectBestChild_maxIndex m ord rnd root root [] e st rfl hleaf hst
    exact ⟨rnd', by rw [hsel, h1']⟩

theorem emptyKeyRoot_value :
    UpperConfidenceBound testMath emptyKeyRoot [emptyKey] (F64.fin 0) 0 =
      some (F64.fin 1) := by
  rw [UpperConfidenceBound_zero testMath emptyKeyRoot (statNode 2 2 []) emptyKeyRoot
    [emptyKey] [] 0 (F64.fin 2) rfl rfl rfl (by decide) (by decide) rfl (by decide)
    testMath_log]
  norm_num [F64.div, F64.ofInt, Node.Visits, statNode, Node.visits]

theorem ninfRoot_value :
    UpperConfidenceBound testMath ninfRoot [Key.str "a"] (F64.fin 0) 0 = some F64.ninf := by
  rw [UpperConfidenceBound_zero testMath ninfRoot
    (Node.mk [F64.ninf] 1 none 2 [] Policy.UCTPolicy) ninfRoot
    [Key.str "a"] [] 0 F64.ninf rfl rfl rfl (by decide) (by decide) rfl (by decide)
    testMath_log]
  norm_num [F64.div, F64.ofInt, Node.Visits, Node.visits, F64.signedInf]

/-- C15 as stated fails.  The only child of the root `emptyKeyRoot` is stored under the
empty string and has the value 1: `selectBestChild(0)` returns the empty key with it.
The only child of the root `ninfRoot` has the value `-Inf`, which is not `NaN`:
`selectBestChild(0)` returns the nil key and a nil child. -/
theorem selectBestChild_returns_child_counterexample :
    childValue testMath emptyKeyRoot [] (F64.fin 0) emptyKeyRoot.Player emptyKey =
      some (F64.fin 1) ∧
    (∀ (ord : MapOrder) (rnd : Rand), ∃ rnd',
      selectBestChild testMath ord rnd emptyKeyRoot [] (F64.fin 0) =
        some ((emptyKey, some [emptyKey]), rnd')) ∧
    childValue testMath ninfRoot [] (F64.fin 0) ninfRoot.Player (Key.str "a") =
      some F64.ninf ∧
    (∀ (ord : MapOrder) (rnd : Rand), ∃ rnd',
      selectBestChild testMath ord rnd ninfRoot [] (F64.fin 0) =
        some ((Key.nil, none), rnd')) := by
  have hp : emptyKeyRoot.Player = 0 := rfl
  have hp' : ninfRoot.Player = 0 := rfl
  refine ⟨?_, fun ord rnd => ?_, ?_, fun ord rnd => ?_⟩
  · simp [childValue, hp, emptyKeyRoot_value]
    simp [emptyKeyRoot, statNode, Node.get?, mapGet, Node.children, Node.bias, Node.State,
      F64.add]
  · exact selectBestChild_single testMath ord rnd emptyKeyRoot (emptyKey, statNode 2 2 [])
      (F64.fin 0) emptyKey rfl
      (by
        rw [hp]
        simp [selectBestChildLoop, selectBestChildStep, emptyKeyRoot_value,
          statNode, Node.State, F64.add, F64.ge, F64.le, F64.sub, F64.neg, epsilon,
          floatMapSet, floatMapGet, F64.eq])
  · simp [childValue, hp', ninfRoot_value]
    simp [ninfRoot, statNode, Node.get?, mapGet, Node.children, Node.bias, Node.State,
      F64.add]
  · exact selectBestChild_single testMath ord rnd ninfRoot
      (Key.str "a", Node.mk [F64.ninf] 1 none 2 [] Policy.UCTPolicy)
      (F64.fin 0) Key.nil rfl
      (by
        rw [hp']
        simp [selectBestChildLoop, selectBestChildStep, ninfRoot_value,
          Node.State, F64.add, F64.ge, F64.le, F64.sub, F64.neg, epsilon,
          floatMapSet, floatMapGet, F64.eq])

/-! ### selectBestChild on a leaf -/

/-- C16: on a node without children `selectBestChild` returns, for every exploration
parameter, the empty string and a pointer to a node equal to the node; it draws nothing
and writes nothing. -/
theorem selectBestChild_leaf {S : Type} [State S] (m : MathFns) (ord : MapOrder) (rnd : Rand)
    (root node : Node S) (path : Path) (e : F64)
    (hnode : root.get? path = some node) (hleaf : node.IsLeaf = true) :
    ∃ p, selectBestChild m ord rnd root path e = some ((emptyKey, some p), rnd) ∧
      root.get? p = some node := by
  refine ⟨path, ?_, hnode⟩
  unfold selectBestChild
  simp only [hnode, hleaf, if_true]

/-- C16 at the leaf under `"a"` of the root `oneVisitRoot`. -/
theorem selectBestChild_leaf_witness :
    ∃ p, selectBestChild testMath testOrder (fun _ => 0) oneVisitRoot [Key.str "a"]
        (F64.fin 0) = some ((emptyKey, some p), fun _ => 0) ∧
      oneVisitRoot.get? p = some (statNode 0 1 []) :=
  selectBestChild_leaf testMath testOrder (fun _ => 0) oneVisitRoot (statNode 0 1 [])
    [Key.str "a"] (F64.fin 0) rfl rfl

/-! ### Expand, claim by claim -/

theorem get?_concat_of_child {S : Type} (root a c : Node S) (n : Path) (k : Key)
    (ha : root.get? n = some a) (hc : mapGet k a.children = some c) :
    root.get? (n ++ [k]) = some c := by
  rw [get?_append, ha]
  simp [get?_cons, hc, get?_nil]

/-- C19: on a node with at least one player that holds a state with a legal-action key
without a child, `Expand` attaches, for every draw, one new child under such a key, keeps
every other child and every other place of the tree, and returns the pointer to the new
child: its state is the action applied to a copy of the state of the node, its parent is
the node, its player count is that of the node, its visits are 0, its scores are all 0
and it has no children. -/
theorem Expand_attaches_child {S : Type} [State S] (rnd : Rand) (root a : Node S) (n : Path)
    (s : S) (ha : root.get? n = some a) (hs : a.State = some s)
    (huntried : ∃ ka ∈ State.LegalActions s, a.GetChild ka.1 = none)
    (hN : 1 ≤ a.NumPlayers) :
    ∃ index action root' a' child,
      UCTPolicy.Expand rnd root n = some ((root', n ++ [index]), rnd.next) ∧
      (index, action) ∈ State.LegalActions s ∧ a.GetChild index = none ∧
      root' = root.modify (fun nd => nd.SetChild index child) n ∧
      root'.get? (n ++ [index]) = some child ∧ Parent (n ++ [index]) = some n ∧
      child.State = some (action (State.Copy s)) ∧
      child.policy = State.Policy (action (State.Copy s)) ∧
      child.NumPlayers = a.NumPlayers ∧ child.Visits = 0 ∧
      child.ScoreVector = List.replicate a.NumPlayers (F64.fin 0) ∧ child.IsLeaf = true ∧
      root'.get? n = some a' ∧ a'.GetChild index = some child ∧
      (∀ k, k ≠ index → a'.GetChild k = a.GetChild k) ∧
      a'.ScoreVector = a.ScoreVector ∧ a'.Visits = a.Visits ∧ a'.State = a.State ∧
      a'.NumPlayers = a.NumPlayers ∧ a'.policy = a.policy ∧
      (∀ q, ¬ q <+: n → ¬ n <+: q → root'.get? q = root.get? q) := by
  have hex : a.IsExhausted = false := by
    obtain ⟨ka, hka, hnone⟩ := huntried
    simp only [Node.IsExhausted, hs, List.all_eq_false]
    refine ⟨ka, hka, ?_⟩
    simp only [Node.GetChild] at hnone
    simp [hnone]
  obtain ⟨index, action, hmem, hnone, hexp⟩ := Expand_spec rnd root a n s ha hs hex hN
  have hself := get?_modify_self
    (fun nd => nd.SetChild index (newChild a.NumPlayers (action (State.Copy s)))) n root a ha
  refine ⟨index, action, _, a.SetChild index (newChild a.NumPlayers (action (State.Copy s))),
    newChild a.NumPlayers (action (State.Copy s)), hexp, hmem, hnone, rfl, ?_,
    Parent_concat n index, ?_, ?_, ?_, ?_, ?_, ?_, hself, ?_, ?_, ?_, ?_, ?_, ?_, ?_, ?_⟩
  · exact get?_concat_of_child _ _ _ n index hself (by simp [mapGet_mapSet_self])
  · simp [newChild]
  · simp [newChild]
  · simp [newChild, Node.NumPlayers]
  · simp [newChild, Node.Visits]
  · simp [newChild, Node.ScoreVector, Node.NumPlayers]
  · simp [newChild, Node.IsLeaf]
  · simp [Node.GetChild, mapGet_mapSet_self]
  · intro k hk
    simp [Node.GetChild, mapGet_mapSet_ne _ _ _ _ hk]
  · simp [Node.ScoreVector, Node.SetChild]
  · simp [Node.Visits, Node.SetChild]
  · simp [Node.SetChild]
  · simp [Node.NumPlayers, Node.SetChild]
  · simp [Node.SetChild]
  · intro q h1 h2
    exact get?_modify_off _ n q root h1 h2

/-- C20: on a node that holds a state all of whose legal-action keys have a child,
`Expand` returns the pointer it was given, leaves the tree as it is and draws nothing. -/
theorem Expand_exhausted {S : Type} [State S] (rnd : Rand) (root a : Node S) (n : Path) (s : S)
    (ha : root.get? n = some a) (hs : a.State = some s)
    (hall : ∀ ka ∈ State.LegalActions s, (a.GetChild ka.1).isSome = true) :
    UCTPolicy.Expand rnd root n = some ((root, n), rnd) := by
  have hnil : (State.LegalActions s).filter (fun ka => (a.GetChild ka.1).isNone) = [] := by
    apply List.filter_eq_nil_iff.mpr
    intro ka hka
    have := hall ka hka
    cases h : a.GetChild ka.1 <;> simp_all
  unfold UCTPolicy.Expand
  simp only [ha, hs, hnil, randomAction, List.length_nil, lt_self_iff_false, if_false]

/-! ### Select, claim by claim -/

theorem not_terminal_of_not_exhausted {S : Type} [State S] {a : Node S}
    (h : a.IsExhausted = false) : ∃ s, a.State = some s ∧ a.IsTerminal = false := by
  cases hs : a.State with
  | none => simp [Node.IsExhausted, hs] at h
  | some s =>
    refine ⟨s, rfl, ?_⟩
    simp only [Node.IsExhausted, hs, List.all_eq_false] at h
    obtain ⟨ka, hka, _⟩ := h
    simp only [Node.IsTerminal, hs]
    cases hl : State.LegalActions s with
    | nil => rw [hl] at hka; simp at hka
    | cons x xs => simp

/-- A result that `Select` reaches from the end of a walk, it reaches from its start. -/
theorem SelectLoop_of_walk {S : Type} [State S] (m : MathFns) (ord : MapOrder) (e : F64)
    (root : Node S) (r : (Node S × Option Path) × Rand) (x y : Path × Rand)
    (hwalk : Relation.ReflTransGen (SelectDescends m ord e root) x y)
    (hy : ∃ F, ∀ fuel, F ≤ fuel → UCTPolicy.SelectLoop m ord e fuel y.2 root (some y.1) = some r) :
    ∃ F, ∀ fuel, F ≤ fuel → UCTPolicy.SelectLoop m ord e fuel x.2 root (some x.1) = some r := by
  induction hwalk using Relation.ReflTransGen.head_induction_on with
  | refl => exact hy
  | head hstep _ ih =>
    obtain ⟨node, k, hnode, hcond, hexh, hsel⟩ := hstep
    obtain ⟨F, hF⟩ := ih
    refine ⟨F + 1, fun fuel hfuel => ?_⟩
    obtain ⟨f, rfl⟩ : ∃ f, fuel = f + 1 := ⟨fuel - 1, by omega⟩
    simp only [UCTPolicy.SelectLoop, hnode, hcond, if_true, hexh, Bool.not_true,
      Bool.false_eq_true, if_false, hsel]
    exact hF f (by omega)

/-- C17: when the walk of `Select` from the start node, descending by `selectBestChild`
from nodes that pass the loop condition and are exhausted, reaches a node that is not
exhausted, `Select` returns (with enough fuel, and then whatever the fuel) what `Expand`
does at that node: the tree with a new child attached there under an untried
legal-action key, and the pointer to that child; the start node itself is such a node
when it is not exhausted.  On a start node that is not a root and is terminal, `Select`
returns the start node and the tree as it is. -/
theorem Select_expands_first_unexhausted {S : Type} [State S] (m : MathFns) (ord : MapOrder)
    (e : F64) (root : Node S) :
    (∀ (n0 n : Path) (rnd0 rnd : Rand) (a : Node S),
      Relation.ReflTransGen (SelectDescends m ord e root) (n0, rnd0) (n, rnd) →
      root.get? n = some a → a.IsExhausted = false → 1 ≤ a.NumPlayers →
      ∃ s index action, a.State = some s ∧ (index, action) ∈ State.LegalActions s ∧
        a.GetChild index = none ∧
        ∃ F, ∀ fuel, F ≤ fuel →
          UCTPolicy.Select m ord fuel rnd0 root n0 e =
            some ((root.modify (fun nd =>
                nd.SetChild index (newChild a.NumPlayers (action (State.Copy s)))) n,
              some (n ++ [index])), rnd.next)) ∧
    (∀ (n : Path) (rnd : Rand) (a : Node S) (fuel : Nat),
      root.get? n = some a → IsRoot n = false → a.IsTerminal = true → 1 ≤ fuel →
      UCTPolicy.Select m ord fuel rnd root n e = some ((root, some n), rnd)) := by
  constructor
  · intro n0 n rnd0 rnd a hwalk ha hex hN
    obtain ⟨s, hs, hterm⟩ := not_terminal_of_not_exhausted hex
    obtain ⟨index, action, hmem, hnone, hexp⟩ := Expand_spec rnd root a n s ha hs hex hN
    refine ⟨s, index, action, hs, hmem, hnone, ?_⟩
    exact SelectLoop_of_walk m ord e root _ (n0, rnd0) (n, rnd) hwalk
      ⟨1, fun fuel hfuel => by
        obtain ⟨f, rfl⟩ : ∃ f, fuel = f + 1 := ⟨fuel - 1, by omega⟩
        simp only [UCTPolicy.SelectLoop, ha, hterm, Bool.not_false, Bool.or_true, if_true,
          hex, hexp]⟩
  · intro n rnd a fuel ha hroot hterm hfuel
    obtain ⟨f, rfl⟩ : ∃ f, fuel = f + 1 := ⟨fuel - 1, by omega⟩
    simp only [UCTPolicy.Select, UCTPolicy.SelectLoop, ha, hroot, hterm, Bool.not_true,
      Bool.or_self, Bool.false_eq_true, if_false]

/-- On a root that is a leaf and exhausted, a round of the loop of `Select` ends in the
state it began in, and no amount of fuel gives a result. -/
theorem Select_terminal_root {S : Type} [State S] (m : MathFns) (ord : MapOrder) (e : F64)
    (root : Node S) (hleaf : root.IsLeaf = true) (hex : root.IsExhausted = true) :
    ∀ (fuel : Nat) (rnd : Rand),
      UCTPolicy.SelectLoop m ord e (fuel + 1) rnd root (some []) =
        UCTPolicy.SelectLoop m ord e fuel rnd root (some []) ∧
      UCTPolicy.Select m ord fuel rnd root [] e = none := by
  have hstep : ∀ (fuel : Nat) (rnd : Rand),
      UCTPolicy.SelectLoop m ord e (fuel + 1) rnd root (some []) =
        UCTPolicy.SelectLoop m ord e fuel rnd root (some []) := by
    intro fuel rnd
    have hsel : selectBestChild m ord rnd root [] e = some ((emptyKey, some []), rnd) := by
      unfold selectBestChild
      simp only [get?_nil, hleaf, if_true]
    have hr : IsRoot [] = true := rfl
    rw [UCTPolicy.SelectLoop]
    simp only [get?_nil, hr, Bool.true_or, if_true, hex, Bool.not_true, Bool.false_eq_true,
      if_false, hsel]
  intro fuel rnd
  refine ⟨hstep fuel rnd, ?_⟩
  induction fuel with
  | zero => rfl
  | succ f ih =>
    simp only [UCTPolicy.Select] at ih ⊢
    rw [hstep f rnd]
    exact ih

/-- C18 fails on the code.  On a root without children whose state has no legal action
(`coinRootFinal`), and on a root without children and without state (`bareRoot`), every
round of the loop of `Select` ends in the state it began in: `selectBestChild` returns
the root itself, and `Select` has no result whatever the fuel. -/
theorem Select_loops_at_terminal_root (m : MathFns) (ord : MapOrder) (e : F64) (fuel : Nat)
    (rnd : Rand) :
    coinRootFinal.IsTerminal = true ∧
    selectBestChild m ord rnd coinRootFinal [] e = some ((emptyKey, some []), rnd) ∧
    UCTPolicy.SelectLoop m ord e (fuel + 1) rnd coinRootFinal (some []) =
      UCTPolicy.SelectLoop m ord e fuel rnd coinRootFinal (some []) ∧
    UCTPolicy.Select m ord fuel rnd coinRootFinal [] e = none ∧
    bareRoot.State = none ∧
    UCTPolicy.SelectLoop m ord e (fuel + 1) rnd bareRoot (some []) =
      UCTPolicy.SelectLoop m ord e fuel rnd bareRoot (some []) ∧
    UCTPolicy.Select m ord fuel rnd bareRoot [] e = none :=
  ⟨rfl, rfl, (Select_terminal_root m ord e coinRootFinal rfl rfl fuel rnd).1,
    (Select_terminal_root m ord e coinRootFinal rfl rfl fuel rnd).2, rfl,
    (Select_terminal_root m ord e bareRoot rfl rfl fuel rnd).1,
    (Select_terminal_root m ord e bareRoot rfl rfl fuel rnd).2⟩

/-- C17 at the root `walkRoot`, where the walk descends once before it expands, and at
the final child of the root `coinRootExpanded`. -/
theorem Select_expands_first_unexhausted_witness :
    (∃ s index action,
      (Node.mk [F64.fin 0] 1
        (some { done := false, key := Key.str "b", bias := F64.fin 0,
                policy := Policy.UCTPolicy }) 0 [] Policy.UCTPolicy :
          Node oneMoveState).State = some s ∧
      (index, action) ∈ State.LegalActions s ∧
      (Node.mk [F64.fin 0] 1
        (some { done := false, key := Key.str "b", bias := F64.fin 0,
                policy := Policy.UCTPolicy }) 0 [] Policy.UCTPolicy :
          Node oneMoveState).GetChild index = none ∧
      ∃ F, ∀ fuel, F ≤ fuel →
        UCTPolicy.Select testMath testOrder fuel (fun _ => 0) walkRoot [] (F64.fin 1) =
          some ((walkRoot.modify (fun nd =>
              nd.SetChild index (newChild 1 (action (State.Copy s)))) [Key.str "a"],
            some ([Key.str "a"] ++ [index])), Rand.next (Rand.next (fun _ => 0)))) ∧
    UCTPolicy.Select testMath testOrder 1 (fun _ => 0) coinRootExpanded [Key.str "flip"]
        (F64.fin 1) = some ((coinRootExpanded, some [Key.str "flip"]), fun _ => 0) :=
  ⟨(Select_expands_first_unexhausted testMath testOrder (F64.fin 1) walkRoot).1
      [] [Key.str "a"] (fun _ => 0) (Rand.next (fun _ => 0)) _
      (Relation.ReflTransGen.single ⟨walkRoot, Key.str "a", rfl, rfl, rfl, rfl⟩)
      rfl rfl (by decide),
    (Select_expands_first_unexhausted testMath testOrder (F64.fin 1) coinRootExpanded).2
      [Key.str "flip"] (fun _ => 0) _ 1 rfl rfl rfl (le_refl 1)⟩

/-- C19 at the root `coinRoot`, whose only legal action is untried. -/
theorem Expand_attaches_child_witness :
    ∃ index action root' a' child,
      UCTPolicy.Expand (fun _ => 0) coinRoot [] =
        some ((root', [] ++ [index]), Rand.next (fun _ => 0)) ∧
      (index, action) ∈ State.LegalActions ({ done := false } : coinState) ∧
      coinRoot.GetChild index = none ∧
      root' = coinRoot.modify (fun nd => nd.SetChild index child) [] ∧
      root'.get? ([] ++ [index]) = some child ∧ Parent ([] ++ [index]) = some [] ∧
      child.State = some (action (State.Copy ({ done := false } : coinState))) ∧
      child.policy = State.Policy (action (State.Copy ({ done := false } : coinState))) ∧
      child.NumPlayers = coinRoot.NumPlayers ∧ child.Visits = 0 ∧
      child.ScoreVector = List.replicate coinRoot.NumPlayers (F64.fin 0) ∧
      child.IsLeaf = true ∧
      root'.get? [] = some a' ∧ a'.GetChild index = some child ∧
      (∀ k, k ≠ index → a'.GetChild k = coinRoot.GetChild k) ∧
      a'.ScoreVector = coinRoot.ScoreVector ∧ a'.Visits = coinRoot.Visits ∧
      a'.State = coinRoot.State ∧ a'.NumPlayers = coinRoot.NumPlayers ∧
      a'.policy = coinRoot.policy ∧
      (∀ q, ¬ q <+: [] → ¬ [] <+: q → root'.get? q = coinRoot.get? q) :=
  Expand_attaches_child (fun _ => 0) coinRoot coinRoot [] { done := false } rfl rfl
    ⟨(Key.str "flip", fun _ => { done := true }), by simp [State.LegalActions], rfl⟩
    (by decide)

/-- C20 at the root `coinRootExpanded`, whose only legal action has a child. -/
theorem Expand_exhausted_witness :
    UCTPolicy.Expand (fun _ => 0) coinRootExpanded [] =
      some ((coinRootExpanded, []), fun _ => 0) :=
  Expand_exhausted (fun _ => 0) coinRootExpanded coinRootExpanded [] { done := false } rfl rfl
    (by
      intro ka hka
      simp only [State.LegalActions, Bool.false_eq_true, if_false, List.mem_singleton] at hka
      subst hka
      rfl)

/-! ### Constructors -/

/-- C26: `NewNode`, `NewTree` and `NewMultiplayerMCTS` return the error `ZeroPlayerCount`
exactly when the player count is 0, and the root of the tree that `NewTree` returns holds
the initial state it was given. -/
theorem constructors_error_iff {S : Type} [State S] (numPlayers : Nat) (init : S)
    (actions : List (Key × (S → S))) :
    ((Node.NewNode numPlayers : Node S × Bool).2 = true ↔ numPlayers = 0) ∧
    ((NewTree numPlayers init actions).2 = true ↔ numPlayers = 0) ∧
    ((NewMultiplayerMCTS numPlayers init actions).2 = true ↔ numPlayers = 0) ∧
    (NewTree numPlayers init actions).1.root.State = some init ∧
    (NewTree numPlayers init actions).1.possibleActions = actions ∧
    (NewMultiplayerMCTS numPlayers init actions).1.tree =
      (NewTree numPlayers (State.Copy init) actions).1 := by
  refine ⟨?_, ?_, ?_, ?_, ?_, ?_⟩
  · simp [Node.NewNode]
  · simp [NewTree, Node.NewNode]
  · simp [NewMultiplayerMCTS, NewTree, Node.NewNode]
  · simp [NewTree, Node.NewNode, Node.withState, Node.State]
  · simp [NewTree]
  · simp [NewMultiplayerMCTS, NewTree]

/-- C27: for a player count of at least 1, the node that `NewNode` returns has one score
0 per player, no visits, no state, no children and the confidence-bound policy; as the
root of its own tree it has no parent; it is a leaf, terminal and exhausted; and no error
comes with it. -/
theorem NewNode_fresh {S : Type} [State S] (numPlayers : Nat) (h : 1 ≤ numPlayers) :
    ((Node.NewNode numPlayers : Node S × Bool).1).ScoreVector.length = numPlayers ∧
    (∀ p, p < numPlayers →
      ((Node.NewNode numPlayers : Node S × Bool).1).Score p = some (F64.fin 0)) ∧
    ((Node.NewNode numPlayers : Node S × Bool).1).NumPlayers = numPlayers ∧
    ((Node.NewNode numPlayers : Node S × Bool).1).Visits = 0 ∧
    ((Node.NewNode numPlayers : Node S × Bool).1).State = none ∧
    ((Node.NewNode numPlayers : Node S × Bool).1).get? [] =
      some (Node.NewNode numPlayers : Node S × Bool).1 ∧
    Parent [] = none ∧ IsRoot [] = true ∧
    ((Node.NewNode numPlayers : Node S × Bool).1).children = [] ∧
    ((Node.NewNode numPlayers : Node S × Bool).1).IsLeaf = true ∧
    ((Node.NewNode numPlayers : Node S × Bool).1).IsTerminal = true ∧
    ((Node.NewNode numPlayers : Node S × Bool).1).IsExhausted = true ∧
    ((Node.NewNode numPlayers : Node S × Bool).1).policy = Policy.UCTPolicy ∧
    (Node.NewNode numPlayers : Node S × Bool).2 = false := by
  refine ⟨?_, ?_, rfl, rfl, rfl, rfl, rfl, rfl, rfl, rfl, rfl, rfl, rfl, ?_⟩
  · simp [Node.ScoreVector]
  · intro p hp
    simp [Node.Score, List.getElem?_replicate, hp]
  · simp [Node.NewNode]
    omega

/-- C27 at the one-player node of the node tests. -/
theorem NewNode_fresh_witness :
    ((Node.NewNode 1 : Node simpleStateImplementation × Bool).1).ScoreVector.length = 1 ∧
    (∀ p, p < 1 →
      ((Node.NewNode 1 : Node simpleStateImplementation × Bool).1).Score p =
        some (F64.fin 0)) ∧
    ((Node.NewNode 1 : Node simpleStateImplementation × Bool).1).NumPlayers = 1 ∧
    ((Node.NewNode 1 : Node simpleStateImplementation × Bool).1).Visits = 0 ∧
    ((Node.NewNode 1 : Node simpleStateImplementation × Bool).1).State = none ∧
    ((Node.NewNode 1 : Node simpleStateImplementation × Bool).1).get? [] =
      some (Node.NewNode 1 : Node simpleStateImplementation × Bool).1 ∧
    Parent [] = none ∧ IsRoot [] = true ∧
    ((Node.NewNode 1 : Node simpleStateImplementation × Bool).1).children = [] ∧
    ((Node.NewNode 1 : Node simpleStateImplementation × Bool).1).IsLeaf = true ∧
    ((Node.NewNode 1 : Node simpleStateImplementation × Bool).1).IsTerminal = true ∧
    ((Node.NewNode 1 : Node simpleStateImplementation × Bool).1).IsExhausted = true ∧
    ((Node.NewNode 1 : Node simpleStateImplementation × Bool).1).policy =
      Policy.UCTPolicy ∧
    (Node.NewNode 1 : Node simpleStateImplementation × Bool).2 = false :=
  NewNode_fresh 1 (le_refl 1)

/-! ### Simulate -/

theorem F64.zero_add_div_one (x : F64) :
    F64.div (F64.add (F64.fin 0) x) (F64.ofInt 1) = x := by
  cases x <;> simp [F64.add, F64.div, F64.ofInt, F64.signedInf]

/-- The playout loop from a state of a game that ends: with enough fuel it returns a
state without legal actions that legal actions lead to. -/
theorem rollout_of_measure {S : Type} [State S] (measure : S → Nat)
    (hdec : ∀ a : S, ∀ ka ∈ State.LegalActions a, measure (ka.2 a) < measure a) :
    ∀ (n : Nat) (s : S) (rnd : Rand), measure s ≤ n →
      ∃ t rnd', (∀ fuel, n + 1 ≤ fuel → rollout fuel rnd s = some (t, rnd')) ∧
        Relation.ReflTransGen PlayoutStep s t ∧ State.LegalActions t = [] ∧
        (State.LegalActions s = [] → t = s ∧ rnd' = rnd) := by
  intro n
  induction n with
  | zero =>
    intro s rnd hs
    have hnil : State.LegalActions s = [] := by
      cases hl : State.LegalActions s with
      | nil => rfl
      | cons ka rest =>
        have := hdec s ka (by rw [hl]; exact List.mem_cons_self _ _)
        omega
    refine ⟨s, rnd, fun fuel hfuel => ?_, Relation.ReflTransGen.refl, hnil, fun _ => ⟨rfl, rfl⟩⟩
    obtain ⟨f, rfl⟩ : ∃ f, fuel = f + 1 := ⟨fuel - 1, by omega⟩
    simp [rollout, hnil]
  | succ n ih =>
    intro s rnd hs
    by_cases hnil : State.LegalActions s = []
    · refine ⟨s, rnd, fun fuel hfuel => ?_, Relation.ReflTransGen.refl, hnil,
        fun _ => ⟨rfl, rfl⟩⟩
      obtain ⟨f, rfl⟩ : ∃ f, fuel = f + 1 := ⟨fuel - 1, by omega⟩
      simp [rollout, hnil]
    · obtain ⟨k, v, hmem, hra⟩ := randomAction_mem rnd _ hnil
      have hlt := hdec s (k, v) hmem
      obtain ⟨t, rnd', h1, h2, h3, _⟩ := ih (v s) rnd.next (by simp only at hlt; omega)
      refine ⟨t, rnd', fun fuel hfuel => ?_,
        Relation.ReflTransGen.head ⟨(k, v), hmem, rfl⟩ h2, h3, fun h => absurd h hnil⟩
      obtain ⟨f, rfl⟩ : ∃ f, fuel = f + 1 := ⟨fuel - 1, by omega⟩
      have hlen : ¬ (State.LegalActions s).length ≤ 0 := by
        have := List.length_pos.mpr hnil
        omega
      simp only [rollout, hlen, if_false, hra]
      exact h1 f (by omega)

/-- C21: in a game whose playouts end (every legal action lowers a measure of the state),
`Simulate` at a node that holds a state returns, with enough fuel and then whatever the
fuel, `Score(Player())` of a state without legal actions that is reached from a copy of
the state of the node by applying legal actions, each chosen by a draw; when the copy has
no legal action it is that state, and when moreover the copy is the state of the node the
result is `node.State.Score(node.State.Player())`.  `Simulate` reads the tree and returns
a score: it writes nothing. -/
theorem Simulate_scores_terminal_state {S : Type} [State S] (measure : S → Nat) (rnd : Rand)
    (root node : Node S) (path : Path) (s : S)
    (hdec : ∀ a : S, ∀ ka ∈ State.LegalActions a, measure (ka.2 a) < measure a)
    (hnode : root.get? path = some node) (hs : node.State = some s) :
    ∃ t rnd' F,
      Relation.ReflTransGen PlayoutStep (State.Copy s) t ∧ State.LegalActions t = [] ∧
      (∀ fuel, F ≤ fuel →
        UCTPolicy.Simulate fuel rnd root path =
          some (State.Score t (State.Player t), rnd')) ∧
      (State.LegalActions (State.Copy s) = [] → t = State.Copy s ∧ rnd' = rnd) ∧
      (State.Copy s = s → State.LegalActions s = [] → ∀ fuel, F ≤ fuel →
        UCTPolicy.Simulate fuel rnd root path =
          some (State.Score s (State.Player s), rnd)) := by
  obtain ⟨t, rnd', h1, h2, h3, h4⟩ := rollout_of_measure measure hdec
    (measure (State.Copy s)) (State.Copy s) rnd (le_refl _)
  have hsim : ∀ fuel, measure (State.Copy s) + 1 ≤ fuel →
      UCTPolicy.Simulate fuel rnd root path =
        some (State.Score t (State.Player t), rnd') := by
    intro fuel hfuel
    simp only [UCTPolicy.Simulate, hnode, hs, h1 fuel hfuel, F64.zero_add_div_one]
  refine ⟨t, rnd', measure (State.Copy s) + 1, h2, h3, hsim, h4, fun hc hl fuel hfuel => ?_⟩
  obtain ⟨e1, e2⟩ := h4 (by rw [hc]; exact hl)
  rw [hsim fuel hfuel, e1, e2, hc]

/-- C21 at the start state of the one-move game `coinState`, which a flip ends. -/
theorem Simulate_scores_terminal_state_witness :
    ∃ t rnd' F,
      Relation.ReflTransGen PlayoutStep (State.Copy ({ done := false } : coinState)) t ∧
      State.LegalActions t = [] ∧
      (∀ fuel, F ≤ fuel →
        UCTPolicy.Simulate fuel (fun _ => 0) coinRoot [] =
          some (State.Score t (State.Player t), rnd')) ∧
      (State.LegalActions (State.Copy ({ done := false } : coinState)) = [] →
        t = State.Copy ({ done := false } : coinState) ∧ rnd' = fun _ => 0) ∧
      (State.Copy ({ done := false } : coinState) = { done := false } →
        State.LegalActions ({ done := false } : coinState) = [] → ∀ fuel, F ≤ fuel →
        UCTPolicy.Simulate fuel (fun _ => 0) coinRoot [] =
          some (State.Score ({ done := false } : coinState)
            (State.Player ({ done := false } : coinState)), fun _ => 0)) :=
  Simulate_scores_terminal_state (fun s : coinState => if s.done then 0 else 1) (fun _ => 0)
    coinRoot coinRoot [] { done := false }
    (by
      intro a ka hka
      cases a with
      | mk d =>
        cases d
        · simp only [State.LegalActions, Bool.false_eq_true, if_false,
            List.mem_singleton] at hka
          subst hka
          simp
        · simp [State.LegalActions] at hka)
    rfl rfl

/-! ### The determinization policy -/

/-- Whatever it is given, `DeterminizationPolicy.Select` returns a nil pointer when it
returns. -/
theorem DeterminizationPolicy_Select_nil {S : Type} [State S] (cp : List (Key × F64))
    (fuel : Nat) (rnd : Rand) (root : Node S) (path : Path)
    (r : (Node S × Option Path) × Rand)
    (h : DeterminizationPolicy.Select cp fuel rnd root path = some r) : r.1.2 = none := by
  unfold DeterminizationPolicy.Select at h
  cases hb : root.get? path with
  | none => simp [hb] at h
  | some b =>
    simp only [hb] at h
    split at h
    · simp only [Option.some.injEq] at h
      rw [← h]
    · cases hexp : DeterminizationPolicy.expandAll fuel rnd root path with
      | none => simp [hexp] at h
      | some x =>
        simp only [hexp, DeterminizationPolicy.sample] at h
        cases hb' : x.1.get? path with
        | none => simp [hb'] at h
        | some b' =>
          simp only [hb', Option.some.injEq] at h
          rw [← h]
          rfl

theorem abRootExpanded_pairs :
    DeterminizationPolicy.sortPairs
      (DeterminizationPolicy.pairs abProbability abRootExpanded.children) =
      [{ probability := F64.fin 0, action := Key.nil },
       { probability := F64.fin 0, action := Key.nil },
       { probability := F64.fin (3 / 10), action := Key.str "A" },
       { probability := F64.fin (7 / 10), action := Key.str "B" }] := by
  simp [DeterminizationPolicy.sortPairs, DeterminizationPolicy.pairs, abRootExpanded,
    Node.children, abProbability, DeterminizationPolicy.ChildProbability, mapGet,
    DeterminizationPolicy.insertPair, F64.lt, List.replicate]
  norm_num [DeterminizationPolicy.insertPair, F64.lt]

/-- C22 fails on the code.  On the chance node `abRootExpanded`, whose outcomes `"A"` and
`"B"` are both expanded, with the probabilities `{A: 0.3, B: 0.7}`: the sorted pairs
start with two zero pairs; for every target in `[0, 1)` the loop ends with the pointer at
the key `"B"`, also for the targets below 0.3; and for every draw `Select` returns nil. -/
theorem DeterminizationPolicy_Select_returns_nil :
    abRootExpanded.IsExhausted = true ∧
    DeterminizationPolicy.sortPairs
      (DeterminizationPolicy.pairs abProbability abRootExpanded.children) =
      [{ probability := F64.fin 0, action := Key.nil },
       { probability := F64.fin 0, action := Key.nil },
       { probability := F64.fin (3 / 10), action := Key.str "A" },
       { probability := F64.fin (7 / 10), action := Key.str "B" }] ∧
    (∀ t : ℚ, 0 ≤ t → t < 1 →
      DeterminizationPolicy.scan (F64.fin t) (F64.fin 0) none
        (DeterminizationPolicy.sortPairs
          (DeterminizationPolicy.pairs abProbability abRootExpanded.children)) =
        (F64.fin 1, some (Key.str "B"))) ∧
    (∀ (fuel : Nat) (rnd : Rand), 1 ≤ fuel →
      DeterminizationPolicy.Select abProbability fuel rnd abRootExpanded [] =
        some ((abRootExpanded, none), rnd.next)) := by
  refine ⟨rfl, abRootExpanded_pairs, fun t h0 h1 => ?_, fun fuel rnd hfuel => ?_⟩
  · rw [abRootExpanded_pairs]
    have h2 : ¬ t < 0 := not_lt.mpr h0
    have h3 : t < 0 + 0 + 3 / 10 + 7 / 10 := by linarith
    simp [DeterminizationPolicy.scan, F64.add, F64.lt, h2, h3]
    exact ⟨by norm_num, by linarith⟩
  · obtain ⟨f, rfl⟩ : ∃ f, fuel = f + 1 := ⟨fuel - 1, by omega⟩
    have hex : abRootExpanded.IsExhausted = true := rfl
    have hexp : DeterminizationPolicy.expandAll (f + 1) rnd abRootExpanded [] =
        some (abRootExpanded, rnd) := by
      simp [DeterminizationPolicy.expandAll, get?_nil, hex]
    have hlen : ¬ abRootExpanded.children.length ≤ 0 := by decide
    simp [DeterminizationPolicy.Select, get?_nil, hlen, hexp, DeterminizationPolicy.sample,
      DeterminizationPolicy.pointerChild]

/-! ### The expansion loop of the determinization policy -/

theorem untried_nil_iff {S : Type} [State S] (node : Node S) (s : S)
    (hs : node.State = some s) : untriedActions node s = [] ↔ node.IsExhausted = true := by
  simp only [untriedActions, Node.IsExhausted, hs, List.filter_eq_nil_iff, List.all_eq_true,
    Node.GetChild]
  constructor
  · intro h ka hka
    have := h ka hka
    cases hg : mapGet ka.1 node.children <;> simp_all
  · intro h ka hka
    have := h ka hka
    cases hg : mapGet ka.1 node.children <;> simp_all

theorem untried_SetChild_lt {S : Type} [State S] (node child : Node S) (s : S) (index : Key)
    (action : S → S) (hmem : (index, action) ∈ State.LegalActions s)
    (hnone : mapGet index node.children = none) :
    (untriedActions (node.SetChild index child) s).length < (untriedActions node s).length := by
  have hsub : untriedActions (node.SetChild index child) s =
      (untriedActions node s).filter
        (fun ka => ((node.SetChild index child).GetChild ka.1).isNone) := by
    simp only [untriedActions, List.filter_filter]
    apply List.filter_congr
    intro ka _
    simp only [Node.GetChild, children_SetChild]
    by_cases hk : ka.1 = index
    · rw [hk, mapGet_mapSet_self]
      simp
    · rw [mapGet_mapSet_ne _ _ _ _ hk]
      simp
  rw [hsub]
  apply List.length_filter_lt_length_iff_exists.mpr
  refine ⟨(index, action), ?_, ?_⟩
  · simp only [untriedActions, List.mem_filter, Node.GetChild, hnone, Option.isNone_none,
      and_true]
    exact hmem
  · simp [Node.GetChild, mapGet_mapSet_self]

/-- The expansion loop on a node with a state, a policy and at least one player: with
enough fuel it returns a tree in which the node is exhausted and has kept its fields and
its earlier children. -/
theorem expandAll_spec {S : Type} [State S] (path : Path) (s : S) :
    ∀ (n : Nat) (rnd : Rand) (root node : Node S), root.get? path = some node →
      node.State = some s → node.policy ≠ Policy.nil → 1 ≤ node.NumPlayers →
      (untriedActions node s).length ≤ n →
      ∃ root' node' rnd',
        (∀ fuel, n + 1 ≤ fuel →
          DeterminizationPolicy.expandAll fuel rnd root path = some (root', rnd')) ∧
        root'.get? path = some node' ∧ node'.IsExhausted = true ∧
        (∀ k c, node.GetChild k = some c → node'.GetChild k = some c) ∧
        node'.State = node.State ∧ node'.score = node.score ∧ node'.visits = node.visits ∧
        node'.numPlayers = node.numPlayers ∧ node'.policy = node.policy ∧
        (∀ q, ¬ q <+: path → ¬ path <+: q → root'.get? q = root.get? q) := by
  intro n
  induction n with
  | zero =>
    intro rnd root node hnode hs _ _ hu
    have hex : node.IsExhausted = true :=
      (untried_nil_iff node s hs).mp (List.length_eq_zero.mp (by omega))
    refine ⟨root, node, rnd, fun fuel hfuel => ?_, hnode, hex, fun _ _ h => h, rfl, rfl, rfl,
      rfl, rfl, fun _ _ _ => rfl⟩
    obtain ⟨f, rfl⟩ : ∃ f, fuel = f + 1 := ⟨fuel - 1, by omega⟩
    simp [DeterminizationPolicy.expandAll, hnode, hex]
  | succ n ih =>
    intro rnd root node hnode hs hpol hN hu
    by_cases hex : node.IsExhausted = true
    · refine ⟨root, node, rnd, fun fuel hfuel => ?_, hnode, hex, fun _ _ h => h, rfl, rfl,
        rfl, rfl, rfl, fun _ _ _ => rfl⟩
      obtain ⟨f, rfl⟩ : ∃ f, fuel = f + 1 := ⟨fuel - 1, by omega⟩
      simp [DeterminizationPolicy.expandAll, hnode, hex]
    · have hex' : node.IsExhausted = false := by simpa using hex
      obtain ⟨index, action, hmem, hnone, hexp⟩ :=
        Expand_spec rnd root node path s hnode hs hex' hN
      set child : Node S := newChild node.NumPlayers (action (State.Copy s)) with hchild
      have hnode1 := get?_modify_self (fun nd => nd.SetChild index child) path root node hnode
      have hlt := untried_SetChild_lt node child s index action hmem hnone
      obtain ⟨root', node', rnd', h1, h2, h3, h4, h5, h6, h7, h8, h9, h10⟩ :=
        ih rnd.next (root.modify (fun nd => nd.SetChild index child) path)
          (node.SetChild index child) hnode1 (by simpa [Node.SetChild] using hs)
          (by simpa [Node.SetChild] using hpol) (by simpa [Node.SetChild, Node.NumPlayers] using hN)
          (by omega)
      refine ⟨root', node', rnd', fun fuel hfuel => ?_, h2, h3, fun k c hc => ?_,
        by rw [h5]; simp [Node.SetChild], by rw [h6]; simp [Node.SetChild],
        by rw [h7]; simp [Node.SetChild], by rw [h8]; simp [Node.SetChild],
        by rw [h9]; simp [Node.SetChild], fun q hq1 hq2 => ?_⟩
      · obtain ⟨f, rfl⟩ : ∃ f, fuel = f + 1 := ⟨fuel - 1, by omega⟩
        rw [DeterminizationPolicy.expandAll]
        simp only [hnode, hex', Bool.not_false, if_true, hexp]
        cases hp : node.policy with
        | nil => exact absurd hp hpol
        | UCTPolicy => exact h1 f (by omega)
        | DeterminizationPolicy cp => exact h1 f (by omega)
      · apply h4
        simp only [Node.GetChild, children_SetChild] at hc ⊢
        have hk : k ≠ index := by
          intro hk
          rw [hk, hnone] at hc
          simp at hc
        rw [mapGet_mapSet_ne _ _ _ _ hk]
        exact hc
      · rw [h10 q hq1 hq2]
        exact get?_modify_off _ path q root hq1 hq2

/-- C23: on a node that holds a state, has a policy and at least one player and is not
both a leaf and exhausted, `DeterminizationPolicy.Select` returns, with enough fuel and
then whatever the fuel; in the tree it leaves, every legal-action key of the state of the
node has a child (the node is exhausted), the children the node had are unchanged, and so
are its other fields and every place of the tree off the path of the node. -/
theorem DeterminizationPolicy_Select_expands_all {S : Type} [State S]
    (cp : List (Key × F64)) (rnd : Rand) (root node : Node S) (path : Path) (s : S)
    (hnode : root.get? path = some node) (hs : node.State = some s)
    (hnot : ¬ (node.IsLeaf = true ∧ node.IsExhausted = true))
    (hpol : node.policy ≠ Policy.nil) (hN : 1 ≤ node.NumPlayers) :
    ∃ F root' node' rnd' ptr,
      (∀ fuel, F ≤ fuel →
        DeterminizationPolicy.Select cp fuel rnd root path = some ((root', ptr), rnd')) ∧
      root'.get? path = some node' ∧ node'.IsExhausted = true ∧
      (∀ ka ∈ State.LegalActions s, (node'.GetChild ka.1).isSome = true) ∧
      (∀ k c, node.GetChild k = some c → node'.GetChild k = some c) ∧
      node'.State = node.State ∧ node'.ScoreVector = node.ScoreVector ∧
      node'.Visits = node.Visits ∧
      (∀ q, ¬ q <+: path → ¬ path <+: q → root'.get? q = root.get? q) := by
  obtain ⟨root', node', rnd', h1, h2, h3, h4, h5, h6, h7, _, _, h10⟩ :=
    expandAll_spec path s (untriedActions node s).length rnd root node hnode hs hpol hN
      (le_refl _)
  have hall : ∀ ka ∈ State.LegalActions s, (node'.GetChild ka.1).isSome = true := by
    have h3' := h3
    simp only [Node.IsExhausted, h5, hs, List.all_eq_true] at h3'
    exact h3'
  have hcond : (decide (node.children.length ≤ 0) && node.IsExhausted) = false := by
    cases hl : node.IsLeaf with
    | false =>
      simp only [Node.IsLeaf, beq_eq_false_iff_ne, ne_eq] at hl
      have : ¬ node.children.length ≤ 0 := by omega
      simp [this]
    | true =>
      have : node.IsExhausted = false := by
        cases hx : node.IsExhausted with
        | false => rfl
        | true => exact absurd ⟨hl, hx⟩ hnot
      simp [this]
  refine ⟨(untriedActions node s).length + 1, root', node', rnd'.next,
    DeterminizationPolicy.pointerChild node' path
      (DeterminizationPolicy.scan rnd'.float64 (F64.fin 0) none
        (DeterminizationPolicy.sortPairs (DeterminizationPolicy.pairs cp node'.children))).2,
    fun fuel hfuel => ?_, h2, h3, hall, h4, h5, h6, h7, h10⟩
  simp only [DeterminizationPolicy.Select, hnode, hcond, Bool.false_eq_true, if_false,
    h1 fuel hfuel, DeterminizationPolicy.sample, h2]

/-- C23 at the chance node `abRoot`, which has two outcomes and no child. -/
theorem DeterminizationPolicy_Select_expands_all_witness :
    ∃ F root' node' rnd' ptr,
      (∀ fuel, F ≤ fuel →
        DeterminizationPolicy.Select abProbability fuel (fun _ => 0) abRoot [] =
          some ((root', ptr), rnd')) ∧
      root'.get? [] = some node' ∧ node'.IsExhausted = true ∧
      (∀ ka ∈ State.LegalActions ({ done := false } : abState),
        (node'.GetChild ka.1).isSome = true) ∧
      (∀ k c, abRoot.GetChild k = some c → node'.GetChild k = some c) ∧
      node'.State = abRoot.State ∧ node'.ScoreVector = abRoot.ScoreVector ∧
      node'.Visits = abRoot.Visits ∧
      (∀ q, ¬ q <+: [] → ¬ [] <+: q → root'.get? q = abRoot.get? q) :=
  DeterminizationPolicy_Select_expands_all abProbability (fun _ => 0) abRoot abRoot []
    { done := false } rfl rfl (by decide) (by decide) (by decide)

/-! ### SetChild and RemoveChild on pointers -/

theorem write_same {S : Type} (h : Heap S) (a : Nat) (c : Cell S) : h.write a c a = some c := by
  simp [Heap.write]

theorem write_other {S : Type} (h : Heap S) (a b : Nat) (c : Cell S) (hne : b ≠ a) :
    h.write a c b = h b := by
  simp [Heap.write, hne]

theorem length_mapSet {α : Type} (k : Key) (a : α) (m : List (Key × α)) :
    (mapSet k a m).length =
      if (mapGet k m).isSome then m.length else m.length + 1 := by
  induction m with
  | nil => simp [mapSet, mapGet]
  | cons x m ih =>
    obtain ⟨k', a'⟩ := x
    by_cases h : k' = k
    · simp [mapSet, mapGet, h]
    · simp only [mapSet, mapGet, h, if_false, List.length_cons, ih]
      split <;> rfl

theorem mapGet_mapDelete_self {α : Type} (k : Key) (m : List (Key × α)) :
    mapGet k (mapDelete k m) = none := by
  induction m with
  | nil => rfl
  | cons x m ih =>
    obtain ⟨k', a'⟩ := x
    by_cases h : k' = k
    · simp [mapDelete, h, ih]
    · simp [mapDelete, mapGet, h, ih]

theorem mapGet_mapDelete_ne {α : Type} (k k' : Key) (m : List (Key × α)) (hne : k' ≠ k) :
    mapGet k' (mapDelete k m) = mapGet k' m := by
  induction m with
  | nil => rfl
  | cons x m ih =>
    obtain ⟨k'', a'⟩ := x
    by_cases h : k'' = k
    · have h2 : ¬ k'' = k' := fun e => hne (e.symm.trans h)
      simp only [mapDelete, mapGet, h, if_true, ih]
      rw [← h, if_neg h2]
    · by_cases h3 : k'' = k'
      · subst h3
        simp only [mapDelete, h, if_false, mapGet, if_true]
      · simp only [mapDelete, h, if_false, mapGet, h3, ih]

theorem mapDelete_of_not_mem {α : Type} (k : Key) (m : List (Key × α))
    (h : k ∉ mapKeys m) : mapDelete k m = m := by
  induction m with
  | nil => rfl
  | cons x m ih =>
    obtain ⟨k', a'⟩ := x
    simp only [mapKeys, List.map_cons, List.mem_cons, not_or] at h
    have h1 : ¬ k' = k := fun e => h.1 e.symm
    simp only [mapDelete, h1, if_false]
    rw [ih h.2]

theorem length_mapDelete {α : Type} (k : Key) (m : List (Key × α))
    (hnd : (mapKeys m).Nodup) (hk : (mapGet k m).isSome = true) :
    (mapDelete k m).length + 1 = m.length := by
  induction m with
  | nil => simp [mapGet] at hk
  | cons x m ih =>
    obtain ⟨k', a'⟩ := x
    simp only [mapKeys, List.map_cons, List.nodup_cons] at hnd
    by_cases h : k' = k
    · subst h
      simp only [mapDelete, if_true, List.length_cons]
      rw [mapDelete_of_not_mem k' m hnd.1]
    · simp only [mapGet, h, if_false] at hk
      simp only [mapDelete, h, if_false, List.length_cons]
      rw [ih hnd.2 hk]

/-- C28: after `p.SetChild(k, c)` on two nodes in memory, `p.GetChild(k)` is `c`,
`c.Parent()` is `p`, every other key of `p` maps to the child it mapped to, the score,
visits and state of `p` are unchanged, and the child map of `p` has one more entry when
`k` was no key of it and as many as before otherwise.  The fields of `c` other than its
parent and all other nodes are unchanged too. -/
theorem SetChild_frame {S : Type} (h : Heap S) (p c : Nat) (k : Key) (pn cn : Cell S)
    (hp : h p = some pn) (hc : h c = some cn) :
    ∃ h' pn' cn', h.SetChild p k c = some h' ∧ h' p = some pn' ∧ h' c = some cn' ∧
      h'.GetChild p k = some c ∧ h'.Parent c = some p ∧
      (∀ k', k' ≠ k → h'.GetChild p k' = h.GetChild p k') ∧
      pn'.score = pn.score ∧ pn'.visits = pn.visits ∧ pn'.State = pn.State ∧
      pn'.numPlayers = pn.numPlayers ∧ pn'.policy = pn.policy ∧
      pn'.children.length =
        (if (h.GetChild p k).isSome then pn.children.length else pn.children.length + 1) ∧
      cn'.score = cn.score ∧ cn'.visits = cn.visits ∧ cn'.State = cn.State ∧
      (c ≠ p → cn'.children = cn.children ∧ pn'.parent = pn.parent) ∧
      (∀ a, a ≠ p → a ≠ c → h' a = h a) := by
  by_cases hcp : c = p
  · subst hcp
    have e : cn = pn := by
      rw [hp] at hc
      exact (Option.some.inj hc).symm
    subst e
    refine ⟨(h.write c { cn with parent := some c }).write c
        { cn with parent := some c, children := mapSet k c cn.children },
      { cn with parent := some c, children := mapSet k c cn.children },
      { cn with parent := some c, children := mapSet k c cn.children }, ?_, ?_, ?_, ?_, ?_, ?_,
      rfl, rfl, rfl, rfl, rfl, ?_, rfl, rfl, rfl, fun hne => absurd rfl hne, ?_⟩
    · simp only [Heap.SetChild, hc, write_same]
    · simp [Heap.write]
    · simp [Heap.write]
    · simp [Heap.GetChild, Heap.write, mapGet_mapSet_self]
    · simp [Heap.Parent, Heap.write]
    · intro k' hk'
      simp [Heap.GetChild, Heap.write, hc, mapGet_mapSet_ne _ _ _ _ hk']
    · simp only [Heap.GetChild, hc]
      exact length_mapSet k c cn.children
    · intro a ha _
      simp [Heap.write, ha]
  · have hpc : p ≠ c := fun e => hcp e.symm
    refine ⟨(h.write c { cn with parent := some p }).write p
        { pn with children := mapSet k c pn.children },
      { pn with children := mapSet k c pn.children }, { cn with parent := some p },
      ?_, ?_, ?_, ?_, ?_, ?_, rfl, rfl, rfl, rfl, rfl, ?_, rfl, rfl, rfl, fun _ => ⟨rfl, rfl⟩,
      ?_⟩
    · simp only [Heap.SetChild, hc, write_other _ _ _ _ hpc, hp]
    · simp [Heap.write]
    · simp [Heap.write, hcp]
    · simp [Heap.GetChild, Heap.write, mapGet_mapSet_self]
    · simp [Heap.Parent, Heap.write, hcp]
    · intro k' hk'
      simp [Heap.GetChild, Heap.write, hp, mapGet_mapSet_ne _ _ _ _ hk']
    · simp only [Heap.GetChild, hp]
      exact length_mapSet k c pn.children
    · intro a ha hac
      simp [Heap.write, ha, hac]

/-- C28 at two of the three fresh nodes of `threeNodes`. -/
theorem SetChild_frame_witness :
    ∃ h' pn' cn', threeNodes.SetChild 0 (Key.str "0") 1 = some h' ∧ h' 0 = some pn' ∧
      h' 1 = some cn' ∧
      h'.GetChild 0 (Key.str "0") = some 1 ∧ h'.Parent 1 = some 0 ∧
      (∀ k', k' ≠ Key.str "0" → h'.GetChild 0 k' = threeNodes.GetChild 0 k') ∧
      pn'.score = (Cell.NewNode 1 : Cell simpleStateImplementation).score ∧
      pn'.visits = (Cell.NewNode 1 : Cell simpleStateImplementation).visits ∧
      pn'.State = (Cell.NewNode 1 : Cell simpleStateImplementation).State ∧
      pn'.numPlayers = (Cell.NewNode 1 : Cell simpleStateImplementation).numPlayers ∧
      pn'.policy = (Cell.NewNode 1 : Cell simpleStateImplementation).policy ∧
      pn'.children.length =
        (if (threeNodes.GetChild 0 (Key.str "0")).isSome
          then (Cell.NewNode 1 : Cell simpleStateImplementation).children.length
          else (Cell.NewNode 1 : Cell simpleStateImplementation).children.length + 1) ∧
      cn'.score = (Cell.NewNode 1 : Cell simpleStateImplementation).score ∧
      cn'.visits = (Cell.NewNode 1 : Cell simpleStateImplementation).visits ∧
      cn'.State = (Cell.NewNode 1 : Cell simpleStateImplementation).State ∧
      ((1 : Nat) ≠ 0 →
        cn'.children = (Cell.NewNode 1 : Cell simpleStateImplementation).children ∧
        pn'.parent = (Cell.NewNode 1 : Cell simpleStateImplementation).parent) ∧
      (∀ a, a ≠ 0 → a ≠ 1 → h' a = threeNodes a) :=
  SetChild_frame threeNodes 0 1 (Key.str "0") (Cell.NewNode 1) (Cell.NewNode 1) rfl rfl

/-- C29: after `p.RemoveChild(k)` on a node in memory whose child map holds nodes,
`p.GetChild(k)` is nil and every other key of `p` maps to the child it mapped to; when `k`
was a key of `p`, the child map has one entry less and the parent of the removed child is
nil; when `k` was no key of `p`, nothing in memory has changed.  The score, visits and
state of `p` are unchanged. -/
theorem RemoveChild_frame {S : Type} (h : Heap S) (p : Nat) (k : Key) (pn : Cell S)
    (hp : h p = some pn) (hkeys : (mapKeys pn.children).Nodup)
    (halloc : ∀ c, h.GetChild p k = some c → (h c).isSome = true) :
    ∃ h' pn', h.RemoveChild p k = some h' ∧ h' p = some pn' ∧
      h'.GetChild p k = none ∧
      (∀ k', k' ≠ k → h'.GetChild p k' = h.GetChild p k') ∧
      (∀ c, h.GetChild p k = some c →
        pn'.children.length + 1 = pn.children.length ∧ h'.Parent c = none ∧
        ∀ a, a ≠ p → a ≠ c → h' a = h a) ∧
      (h.GetChild p k = none → h' = h) ∧
      pn'.score = pn.score ∧ pn'.visits = pn.visits ∧ pn'.State = pn.State := by
  cases hg : mapGet k pn.children with
  | none =>
    have hgc : h.GetChild p k = none := by simp [Heap.GetChild, hp, hg]
    refine ⟨h, pn, ?_, hp, hgc, fun _ _ => rfl, fun c hc => ?_, fun _ => rfl, rfl, rfl, rfl⟩
    · simp only [Heap.RemoveChild, hp, hg]
    · rw [hgc] at hc
      exact absurd hc (by simp)
  | some c =>
    have hgc : h.GetChild p k = some c := by simp [Heap.GetChild, hp, hg]
    obtain ⟨cn, hc⟩ := Option.isSome_iff_exists.mp (halloc c hgc)
    have hlen := length_mapDelete k pn.children hkeys (by rw [hg]; rfl)
    by_cases hcp : c = p
    · subst hcp
      have e : cn = pn := by
        rw [hp] at hc
        exact (Option.some.inj hc).symm
      subst e
      refine ⟨(h.write c { cn with parent := none }).write c
          { cn with parent := none, children := mapDelete k cn.children },
        { cn with parent := none, children := mapDelete k cn.children }, ?_, ?_, ?_,
        ?_, fun c' hc' => ?_, fun hn => ?_, rfl, rfl, rfl⟩
      · simp only [Heap.RemoveChild, hc, hg, write_same]
      · simp [Heap.write]
      · simp [Heap.GetChild, Heap.write, mapGet_mapDelete_self]
      · intro k' hk'
        simp [Heap.GetChild, Heap.write, hc, mapGet_mapDelete_ne _ _ _ hk']
      · rw [hgc] at hc'
        have e : c' = c := (Option.some.inj hc').symm
        subst e
        refine ⟨hlen, ?_, fun a ha _ => ?_⟩
        · simp [Heap.Parent, Heap.write]
        · simp [Heap.write, ha]
      · rw [hgc] at hn
        exact absurd hn (by simp)
    · have hpc : p ≠ c := fun e => hcp e.symm
      refine ⟨(h.write c { cn with parent := none }).write p
          { pn with children := mapDelete k pn.children },
        { pn with children := mapDelete k pn.children }, ?_, ?_, ?_, ?_,
        fun c' hc' => ?_, fun hn => ?_, rfl, rfl, rfl⟩
      · simp only [Heap.RemoveChild, hp, hg, hc, write_other _ _ _ _ hpc]
      · simp [Heap.write]
      · simp [Heap.GetChild, Heap.write, mapGet_mapDelete_self]
      · intro k' hk'
        simp [Heap.GetChild, Heap.write, hp, mapGet_mapDelete_ne _ _ _ hk']
      · rw [hgc] at hc'
        have e : c' = c := (Option.some.inj hc').symm
        subst e
        refine ⟨hlen, ?_, fun a ha hac => ?_⟩
        · simp [Heap.Parent, Heap.write, hcp]
        · simp [Heap.write, ha, hac]
      · rw [hgc] at hn
        exact absurd hn (by simp)

/-! ### The parent back-reference -/

theorem BackReference_of_Linked {S : Type} (h : Heap S) (hl : h.Linked) : h.BackReference := by
  obtain ⟨h1, h2, h3⟩ := hl
  intro c p cn pn hc hp
  constructor
  · intro hpar
    obtain ⟨k, hk⟩ := h3 c cn p pn hc hpar hp
    exact ⟨k, hk, fun k' hk' => h2 p pn k' k c hp hk' hk⟩
  · rintro ⟨k, hk, _⟩
    obtain ⟨cn', hc', hpar⟩ := h1 p pn k c hp hk
    rw [hc] at hc'
    rw [Option.some.inj hc']
    exact hpar

theorem Linked_of_Fresh {S : Type} (h : Heap S) (hf : h.Fresh) : h.Linked := by
  refine ⟨fun p pn k c hp hk => ?_, fun p pn k k' c hp hk _ => ?_,
    fun c cn p pn hc hpar _ => ?_⟩
  · rw [(hf p pn hp).2] at hk
    simp [mapGet] at hk
  · rw [(hf p pn hp).2] at hk
    simp [mapGet] at hk
  · rw [(hf c cn hc).1] at hpar
    simp at hpar

/-- The cells of the memory after `SetChild`. -/
theorem SetChild_cells {S : Type} (h : Heap S) (p c : Nat) (k : Key) (pn cn : Cell S)
    (hp : h p = some pn) (hc : h c = some cn) :
    ∃ h', h.SetChild p k c = some h' ∧
      ∀ a, h' a = (h a).map (fun n =>
        { n with parent := if a = c then some p else n.parent,
                 children := if a = p then mapSet k c n.children else n.children }) := by
  by_cases hcp : c = p
  · subst hcp
    have e : cn = pn := by
      rw [hp] at hc
      exact (Option.some.inj hc).symm
    subst e
    refine ⟨_, by simp only [Heap.SetChild, hc, write_same]; rfl, fun a => ?_⟩
    by_cases ha : a = c
    · subst ha
      simp [Heap.write, hc]
    · simp only [Heap.write, ha, if_false]
      cases h a <;> simp
  · have hpc : p ≠ c := fun e => hcp e.symm
    refine ⟨_, by simp only [Heap.SetChild, hc, write_other _ _ _ _ hpc, hp]; rfl,
      fun a => ?_⟩
    by_cases ha : a = p
    · subst ha
      simp [Heap.write, hp, hpc]
    · by_cases hac : a = c
      · subst hac
        simp [Heap.write, hc, ha]
      · simp only [Heap.write, ha, hac, if_false]
        cases h a <;> simp

/-- The cells of the memory after `RemoveChild` of a key that is there. -/
theorem RemoveChild_cells {S : Type} (h : Heap S) (p c : Nat) (k : Key) (pn cn : Cell S)
    (hp : h p = some pn) (hk : mapGet k pn.children = some c) (hc : h c = some cn) :
    ∃ h', h.RemoveChild p k = some h' ∧
      ∀ a, h' a = (h a).map (fun n =>
        { n with parent := if a = c then none else n.parent,
                 children := if a = p then mapDelete k n.children else n.children }) := by
  by_cases hcp : c = p
  · subst hcp
    have e : cn = pn := by
      rw [hp] at hc
      exact (Option.some.inj hc).symm
    subst e
    refine ⟨_, by simp only [Heap.RemoveChild, hc, hk, write_same]; rfl, fun a => ?_⟩
    by_cases ha : a = c
    · subst ha
      simp [Heap.write, hc]
    · simp only [Heap.write, ha, if_false]
      cases h a <;> simp
  · have hpc : p ≠ c := fun e => hcp e.symm
    refine ⟨_, by simp only [Heap.RemoveChild, hp, hk, hc, write_other _ _ _ _ hpc]; rfl,
      fun a => ?_⟩
    by_cases ha : a = p
    · subst ha
      simp [Heap.write, hp, hpc]
    · by_cases hac : a = c
      · subst hac
        simp [Heap.write, hc, ha]
      · simp only [Heap.write, ha, hac, if_false]
        cases h a <;> simp

theorem Linked_SetChild {S : Type} (h : Heap S) (p c : Nat) (k : Key) (pn cn : Cell S)
    (hl : h.Linked) (hp : h p = some pn) (hc : h c = some cn)
    (hk : mapGet k pn.children = none) (hpar : cn.parent = none) :
    ∃ h', h.SetChild p k c = some h' ∧ h'.Linked := by
  obtain ⟨l1, l2, l3⟩ := hl
  obtain ⟨h', hset, hcells⟩ := SetChild_cells h p c k pn cn hp hc
  have hcell : ∀ a n', h' a = some n' → ∃ n, h a = some n ∧
      n'.parent = (if a = c then some p else n.parent) ∧
      n'.children = (if a = p then mapSet k c n.children else n.children) := by
    intro a n' ha
    rw [hcells a] at ha
    cases hn : h a with
    | none => simp [hn] at ha
    | some n =>
      simp only [hn, Option.map_some', Option.some.injEq] at ha
      exact ⟨n, rfl, by rw [← ha], by rw [← ha]⟩
  have hcell' : ∀ a n, h a = some n → ∃ n', h' a = some n' ∧
      n'.parent = (if a = c then some p else n.parent) ∧
      n'.children = (if a = p then mapSet k c n.children else n.children) := by
    intro a n ha
    exact ⟨_, by rw [hcells a, ha]; rfl, rfl, rfl⟩
  -- a child stored in the old memory is not `c`
  have hnotc : ∀ q qn j d dn, h q = some qn → mapGet j qn.children = some d →
      h d = some dn → dn.parent = some q → d ≠ c := by
    intro q qn j d dn _ _ hd hdp e
    subst e
    rw [hc] at hd
    rw [← Option.some.inj hd, hpar] at hdp
    simp at hdp
  refine ⟨h', hset, ?_, ?_, ?_⟩
  · intro q qn' j d hq hj
    obtain ⟨qn, hqn, _, hch⟩ := hcell q qn' hq
    rw [hch] at hj
    by_cases hqp : q = p
    · subst hqp
      rw [hp] at hqn
      have e := Option.some.inj hqn
      subst e
      simp only [if_true] at hj
      by_cases hjk : j = k
      · subst hjk
        rw [mapGet_mapSet_self] at hj
        have e := Option.some.inj hj
        subst e
        obtain ⟨cn', hc', hpar', _⟩ := hcell' _ cn hc
        exact ⟨cn', hc', by rw [hpar']; simp⟩
      · rw [mapGet_mapSet_ne _ _ _ _ hjk] at hj
        obtain ⟨dn, hd, hdp⟩ := l1 q pn j d hp hj
        have hne := hnotc q pn j d dn hp hj hd hdp
        obtain ⟨dn', hd', hpar', _⟩ := hcell' d dn hd
        exact ⟨dn', hd', by rw [hpar', if_neg hne]; exact hdp⟩
    · simp only [hqp, if_false] at hj
      obtain ⟨dn, hd, hdp⟩ := l1 q qn j d hqn hj
      have hne := hnotc q qn j d dn hqn hj hd hdp
      obtain ⟨dn', hd', hpar', _⟩ := hcell' d dn hd
      exact ⟨dn', hd', by rw [hpar', if_neg hne]; exact hdp⟩
  · intro q qn' j j' d hq hj hj'
    obtain ⟨qn, hqn, _, hch⟩ := hcell q qn' hq
    rw [hch] at hj hj'
    by_cases hqp : q = p
    · subst hqp
      rw [hp] at hqn
      have e := Option.some.inj hqn
      subst e
      simp only [if_true] at hj hj'
      by_cases hjk : j = k
      · by_cases hjk' : j' = k
        · rw [hjk, hjk']
        · exfalso
          subst hjk
          rw [mapGet_mapSet_self] at hj
          have e := Option.some.inj hj
          subst e
          rw [mapGet_mapSet_ne _ _ _ _ hjk'] at hj'
          obtain ⟨dn, hd, hdp⟩ := l1 q pn j' _ hp hj'
          exact hnotc q pn j' _ dn hp hj' hd hdp rfl
      · by_cases hjk' : j' = k
        · exfalso
          subst hjk'
          rw [mapGet_mapSet_self] at hj'
          have e := Option.some.inj hj'
          subst e
          rw [mapGet_mapSet_ne _ _ _ _ hjk] at hj
          obtain ⟨dn, hd, hdp⟩ := l1 q pn j _ hp hj
          exact hnotc q pn j _ dn hp hj hd hdp rfl
        · rw [mapGet_mapSet_ne _ _ _ _ hjk] at hj
          rw [mapGet_mapSet_ne _ _ _ _ hjk'] at hj'
          exact l2 q pn j j' d hp hj hj'
    · simp only [hqp, if_false] at hj hj'
      exact l2 q qn j j' d hqn hj hj'
  · intro d dn' q qn' hd hdp hq
    obtain ⟨dn, hdn, hpar', _⟩ := hcell d dn' hd
    obtain ⟨qn, hqn, _, hch⟩ := hcell q qn' hq
    rw [hpar'] at hdp
    by_cases hdc : d = c
    · subst hdc
      simp only [if_true, Option.some.injEq] at hdp
      subst hdp
      rw [hp] at hqn
      have e := Option.some.inj hqn
      subst e
      exact ⟨k, by rw [hch]; simp [mapGet_mapSet_self]⟩
    · simp only [hdc, if_false] at hdp
      obtain ⟨j, hj⟩ := l3 d dn q qn hdn hdp hqn
      refine ⟨j, ?_⟩
      rw [hch]
      by_cases hqp : q = p
      · subst hqp
        rw [hp] at hqn
        have e := Option.some.inj hqn
        subst e
        have hjk : j ≠ k := by
          intro e
          rw [e, hk] at hj
          simp at hj
        simp only [if_true]
        rw [mapGet_mapSet_ne _ _ _ _ hjk]
        exact hj
      · simp only [hqp, if_false]
        exact hj

theorem Linked_RemoveChild {S : Type} (h : Heap S) (p : Nat) (k : Key) (pn : Cell S)
    (hl : h.Linked) (hp : h p = some pn) :
    ∃ h', h.RemoveChild p k = some h' ∧ h'.Linked := by
  cases hk : mapGet k pn.children with
  | none => exact ⟨h, by simp only [Heap.RemoveChild, hp, hk], hl⟩
  | some c =>
    obtain ⟨l1, l2, l3⟩ := hl
    obtain ⟨cn, hc, hcp⟩ := l1 p pn k c hp hk
    obtain ⟨h', hrem, hcells⟩ := RemoveChild_cells h p c k pn cn hp hk hc
    have hcell : ∀ a n', h' a = some n' → ∃ n, h a = some n ∧
        n'.parent = (if a = c then none else n.parent) ∧
        n'.children = (if a = p then mapDelete k n.children else n.children) := by
      intro a n' ha
      rw [hcells a] at ha
      cases hn : h a with
      | none => simp [hn] at ha
      | some n =>
        simp only [hn, Option.map_some', Option.some.injEq] at ha
        exact ⟨n, rfl, by rw [← ha], by rw [← ha]⟩
    have hcell' : ∀ a n, h a = some n → ∃ n', h' a = some n' ∧
        n'.parent = (if a = c then none else n.parent) ∧
        n'.children = (if a = p then mapDelete k n.children else n.children) := by
      intro a n ha
      exact ⟨_, by rw [hcells a, ha]; rfl, rfl, rfl⟩
    -- what a map holds after the call, it held before
    have hold : ∀ q qn' j d, h' q = some qn' → mapGet j qn'.children = some d →
        ∃ qn, h q = some qn ∧ mapGet j qn.children = some d ∧ (q = p → j ≠ k) := by
      intro q qn' j d hq hj
      obtain ⟨qn, hqn, _, hch⟩ := hcell q qn' hq
      rw [hch] at hj
      by_cases hqp : q = p
      · subst hqp
        simp only [if_true] at hj
        have hjk : j ≠ k := by
          intro e
          rw [e, mapGet_mapDelete_self] at hj
          simp at hj
        rw [mapGet_mapDelete_ne _ _ _ hjk] at hj
        exact ⟨qn, hqn, hj, fun _ => hjk⟩
      · simp only [hqp, if_false] at hj
        exact ⟨qn, hqn, hj, fun e => absurd e hqp⟩
    -- the removed child is stored nowhere after the call
    have hgone : ∀ q qn' j, h' q = some qn' → mapGet j qn'.children ≠ some c := by
      intro q qn' j hq hj
      obtain ⟨qn, hqn, hj', hjk⟩ := hold q qn' j c hq hj
      obtain ⟨cn', hc', hcq⟩ := l1 q qn j c hqn hj'
      rw [hc] at hc'
      rw [← Option.some.inj hc', hcp] at hcq
      have hqp : p = q := Option.some.inj hcq
      subst hqp
      rw [hp] at hqn
      have e := Option.some.inj hqn
      subst e
      exact hjk rfl (l2 p pn j k c hp hj' hk)
    refine ⟨h', hrem, ?_, ?_, ?_⟩
    · intro q qn' j d hq hj
      obtain ⟨qn, hqn, hj', _⟩ := hold q qn' j d hq hj
      obtain ⟨dn, hd, hdp⟩ := l1 q qn j d hqn hj'
      have hne : d ≠ c := by
        intro e
        subst e
        exact hgone q qn' j hq hj
      obtain ⟨dn', hd', hpar', _⟩ := hcell' d dn hd
      exact ⟨dn', hd', by rw [hpar', if_neg hne]; exact hdp⟩
    · intro q qn' j j' d hq hj hj'
      obtain ⟨qn, hqn, hj1, _⟩ := hold q qn' j d hq hj
      obtain ⟨qn2, hqn2, hj2, _⟩ := hold q qn' j' d hq hj'
      rw [hqn] at hqn2
      have e := Option.some.inj hqn2
      subst e
      exact l2 q qn j j' d hqn hj1 hj2
    · intro d dn' q qn' hd hdp hq
      obtain ⟨dn, hdn, hpar', _⟩ := hcell d dn' hd
      obtain ⟨qn, hqn, _, hch⟩ := hcell q qn' hq
      rw [hpar'] at hdp
      by_cases hdc : d = c
      · simp [hdc] at hdp
      · simp only [hdc, if_false] at hdp
        obtain ⟨j, hj⟩ := l3 d dn q qn hdn hdp hqn
        refine ⟨j, ?_⟩
        rw [hch]
        by_cases hqp : q = p
        · subst hqp
          rw [hp] at hqn
          have e := Option.some.inj hqn
          subst e
          have hjk : j ≠ k := by
            intro e
            rw [e, hk] at hj
            exact hdc (Option.some.inj hj).symm
          simp only [if_true]
          rw [mapGet_mapDelete_ne _ _ _ hjk]
          exact hj
        · simp only [hqp, if_false]
          exact hj

theorem Linked_run {S : Type} : ∀ (ops : List TreeOp) (h : Heap S), h.Linked →
    h.Careful ops → ∃ h', h.run ops = some h' ∧ h'.Linked := by
  intro ops
  induction ops with
  | nil => intro h hl _; exact ⟨h, rfl, hl⟩
  | cons op ops ih =>
    intro h hl hcare
    obtain ⟨hatt, hrest⟩ := hcare
    have hstep : ∃ h1, h.apply op = some h1 ∧ h1.Linked := by
      cases op with
      | SetChild p k c =>
        obtain ⟨a1, a2, a3, a4⟩ := hatt
        obtain ⟨pn, hp⟩ := Option.isSome_iff_exists.mp a1
        obtain ⟨cn, hc⟩ := Option.isSome_iff_exists.mp a2
        simp only [Heap.GetChild, hp] at a3
        simp only [Heap.Parent, hc] at a4
        exact Linked_SetChild h p c k pn cn hl hp hc a3 a4
      | RemoveChild p k =>
        obtain ⟨pn, hp⟩ := Option.isSome_iff_exists.mp hatt
        exact Linked_RemoveChild h p k pn hl hp
    obtain ⟨h1, e1, hl1⟩ := hstep
    obtain ⟨h', e2, hl'⟩ := ih h1 hl1 (hrest h1 e1)
    exact ⟨h', by simp only [Heap.run, e1]; exact e2, hl'⟩

/-- C30, as amended: starting from fresh nodes, after every sequence of calls of
`RemoveChild` and of calls of `SetChild` that attach a node without parent under a key
that the receiving node does not have, the calls all return and a node `c` has the parent
`p` exactly when `c` is stored in the child map of `p`, under exactly one key. -/
theorem parent_back_reference {S : Type} (h : Heap S) (ops : List TreeOp) (hf : h.Fresh)
    (hcare : h.Careful ops) : ∃ h', h.run ops = some h' ∧ h'.BackReference := by
  obtain ⟨h', e, hl⟩ := Linked_run ops h (Linked_of_Fresh h hf) hcare
  exact ⟨h', e, BackReference_of_Linked h' hl⟩

/-- C29 at the node 0 of `attachedNodes` and the key of its child. -/
theorem RemoveChild_frame_witness :
    ∃ h' pn', attachedNodes.RemoveChild 0 (Key.str "0") = some h' ∧ h' 0 = some pn' ∧
      h'.GetChild 0 (Key.str "0") = none ∧
      (∀ k', k' ≠ Key.str "0" → h'.GetChild 0 k' = attachedNodes.GetChild 0 k') ∧
      (∀ c, attachedNodes.GetChild 0 (Key.str "0") = some c →
        pn'.children.length + 1 =
          ({ (Cell.NewNode 1 : Cell simpleStateImplementation) with
            children := [(Key.str "0", 1)] }).children.length ∧
        h'.Parent c = none ∧ ∀ a, a ≠ 0 → a ≠ c → h' a = attachedNodes a) ∧
      (attachedNodes.GetChild 0 (Key.str "0") = none → h' = attachedNodes) ∧
      pn'.score = ({ (Cell.NewNode 1 : Cell simpleStateImplementation) with
        children := [(Key.str "0", 1)] }).score ∧
      pn'.visits = ({ (Cell.NewNode 1 : Cell simpleStateImplementation) with
        children := [(Key.str "0", 1)] }).visits ∧
      pn'.State = ({ (Cell.NewNode 1 : Cell simpleStateImplementation) with
        children := [(Key.str "0", 1)] }).State :=
  RemoveChild_frame attachedNodes 0 (Key.str "0") _ rfl (by simp [mapKeys])
    (by
      intro c hc
      have e : c = 1 := (Option.some.inj hc).symm
      subst e
      rfl)

theorem threeNodes_fresh : threeNodes.Fresh := by
  intro a n ha
  simp only [threeNodes] at ha
  split at ha
  · rw [← Option.some.inj ha]
    exact ⟨rfl, rfl⟩
  · simp at ha

/-- C30, as amended, at the three fresh nodes of `threeNodes`: the node 1 is attached to
the node 0, the node 2 to the node 1, and the node 1 is removed again. -/
theorem parent_back_reference_witness :
    ∃ h', threeNodes.run [TreeOp.SetChild 0 (Key.str "a") 1, TreeOp.SetChild 1 (Key.str "b") 2,
        TreeOp.RemoveChild 0 (Key.str "a")] = some h' ∧ h'.BackReference :=
  parent_back_reference threeNodes _ threeNodes_fresh
    ⟨⟨rfl, rfl, rfl, rfl⟩, fun h1 e1 => by
      have e := (Option.some.inj e1).symm
      subst e
      exact ⟨⟨rfl, rfl, rfl, rfl⟩, fun h2 e2 => by
        have e := (Option.some.inj e2).symm
        subst e
        exact ⟨rfl, fun _ _ => trivial⟩⟩⟩

/-- C30 as stated fails, in each of the three cases it names.  From the three fresh nodes
of `threeNodes`: when `SetChild` overwrites the key `"a"` of the node 0, the node 1 stored
there before keeps the parent 0 and is stored under no key of the node 0; when the node 1
is attached to the node 0 under a second key, it is stored there under two keys; when the
node 1 is attached to the second parent 2, the node 0 still stores it without being its
parent. -/
theorem parent_back_reference_counterexample :
    (∃ h', threeNodes.run [TreeOp.SetChild 0 (Key.str "a") 1,
        TreeOp.SetChild 0 (Key.str "a") 2] = some h' ∧
      h'.Parent 1 = some 0 ∧ (∀ k, h'.GetChild 0 k ≠ some 1) ∧ ¬ h'.BackReference) ∧
    (∃ h', threeNodes.run [TreeOp.SetChild 0 (Key.str "a") 1,
        TreeOp.SetChild 0 (Key.str "b") 1] = some h' ∧
      h'.Parent 1 = some 0 ∧ h'.GetChild 0 (Key.str "a") = some 1 ∧
      h'.GetChild 0 (Key.str "b") = some 1 ∧ ¬ h'.BackReference) ∧
    (∃ h', threeNodes.run [TreeOp.SetChild 0 (Key.str "a") 1,
        TreeOp.SetChild 2 (Key.str "a") 1] = some h' ∧
      h'.Parent 1 = some 2 ∧ h'.GetChild 0 (Key.str "a") = some 1 ∧ ¬ h'.BackReference) := by
  refine ⟨⟨_, rfl, rfl, ?_, ?_⟩, ⟨_, rfl, rfl, rfl, rfl, ?_⟩, ⟨_, rfl, rfl, rfl, ?_⟩⟩
  · intro k
    by_cases hk : Key.str "a" = k
    · subst hk
      decide
    · simp [Heap.GetChild, Heap.write, mapSet, mapGet, hk, Cell.NewNode, threeNodes]
  · intro hbr
    have h1 := (hbr 1 0 _ _ rfl rfl).mp rfl
    obtain ⟨k, hk, _⟩ := h1
    by_cases hka : Key.str "a" = k
    · subst hka
      simp [mapSet, mapGet, Cell.NewNode] at hk
    · simp [mapSet, mapGet, Cell.NewNode, hka] at hk
  · intro hbr
    have h1 := (hbr 1 0 _ _ rfl rfl).mp rfl
    obtain ⟨k, _, huniq⟩ := h1
    have ha := huniq (Key.str "a") rfl
    have hb := huniq (Key.str "b") rfl
    rw [← hb] at ha
    exact absurd ha (by decide)
  · intro hbr
    have h1 := (hbr 1 0 _ _ rfl rfl).mpr ⟨Key.str "a", rfl, fun k hk => by
      by_cases hka : Key.str "a" = k
      · exact hka.symm
      · simp [mapSet, mapGet, Cell.NewNode, hka] at hk⟩
    exact absurd h1 (by decide)

/-! ### The root during a search -/

theorem visits_modify_cons {S : Type} (f : Node S → Node S) (root : Node S) (k : Key)
    (ks : Path) : (root.modify f (k :: ks)).visits = root.visits := by
  simp only [Node.modify]
  cases mapGet k root.children <;> simp

theorem ScoreOK_of_get? {S : Type} : ∀ (path : Path) (root b : Node S),
    root.ScoreOK = true → root.get? path = some b → b.ScoreOK = true := by
  intro path
  induction path with
  | nil =>
    intro root b h hb
    simp only [get?_nil, Option.some.injEq] at hb
    rw [← hb]; exact h
  | cons k ks ih =>
    intro root b h hb
    rw [get?_cons] at hb
    cases hc : mapGet k root.children with
    | none => simp [hc] at hb
    | some c =>
      simp only [hc, Option.some_bind] at hb
      exact ih c b (ScoreOK_of_mapGet h hc) hb

theorem ScoreOK_modify {S : Type} (f : Node S → Node S) : ∀ (path : Path) (root : Node S),
    root.ScoreOK = true →
    (∀ b, root.get? path = some b → b.ScoreOK = true → (f b).ScoreOK = true) →
    (root.modify f path).ScoreOK = true := by
  intro path
  induction path with
  | nil =>
    intro root h hf
    exact hf root rfl h
  | cons k ks ih =>
    intro root h hf
    simp only [Node.modify]
    cases hc : mapGet k root.children with
    | none => simpa using h
    | some c =>
      simp only
      have hch := ScoreOK_of_mapGet h hc
      have hmod := ih c hch (fun b hb hbo => hf b (by rw [get?_cons, hc]; exact hb) hbo)
      have := ScoreOK_SetChild root (Node.modify f c ks) k h hmod
      simpa [Node.SetChild] using this

theorem ScoreOK_newChild {S : Type} [State S] (n : Nat) (st : S) :
    (newChild n st : Node S).ScoreOK = true := by
  rw [ScoreOK_iff]
  simp [newChild]

/-- `Expand` leaves the visits of the root of the tree and the shape of the score
vectors as they are. -/
theorem Expand_root {S : Type} [State S] (rnd : Rand) (root : Node S) (path : Path)
    (r : (Node S × Path) × Rand) (h : UCTPolicy.Expand rnd root path = some r) :
    r.1.1.visits = root.visits ∧ (root.ScoreOK = true → r.1.1.ScoreOK = true) := by
  unfold UCTPolicy.Expand at h
  cases hb : root.get? path with
  | none => simp [hb] at h
  | some b =>
    simp only [hb] at h
    cases hs : b.State with
    | none => simp [hs] at h
    | some s =>
      simp only [hs] at h
      split at h
      · simp only [Option.some.injEq] at h
        rw [← h]
        exact ⟨rfl, id⟩
      · rename_i index action rnd' _
        split at h
        · simp at h
        · rename_i n hn
          simp only [Option.some.injEq] at h
          rw [← h]
          simp only
          have hn' : n = (Node.NewNode b.NumPlayers : Node S × Bool).1 := by
            rw [hn]
          constructor
          · cases path with
            | nil =>
              simp only [get?_nil, Option.some.injEq] at hb
              subst hb
              simp [Node.modify, Node.SetChild]
            | cons k ks => exact visits_modify_cons _ _ _ _
          · intro hroot
            apply ScoreOK_modify _ path root hroot
            intro b' _ hb'
            apply ScoreOK_SetChild _ _ _ hb'
            rw [hn']
            exact ScoreOK_newChild b.NumPlayers (action (State.Copy s))

theorem SelectLoop_root {S : Type} [State S] (m : MathFns) (ord : MapOrder) (e : F64) :
    ∀ (fuel : Nat) (rnd : Rand) (root : Node S) (n : Option Path)
      (r : (Node S × Option Path) × Rand),
      UCTPolicy.SelectLoop m ord e fuel rnd root n = some r →
      r.1.1.visits = root.visits ∧ (root.ScoreOK = true → r.1.1.ScoreOK = true) := by
  intro fuel
  induction fuel with
  | zero =>
    intro rnd root n r h
    cases n with
    | none =>
      simp only [UCTPolicy.SelectLoop, Option.some.injEq] at h
      rw [← h]; exact ⟨rfl, id⟩
    | some p => simp [UCTPolicy.SelectLoop] at h
  | succ f ih =>
    intro rnd root n r h
    cases n with
    | none =>
      simp only [UCTPolicy.SelectLoop, Option.some.injEq] at h
      rw [← h]; exact ⟨rfl, id⟩
    | some p =>
      rw [UCTPolicy.SelectLoop] at h
      cases hb : root.get? p with
      | none => simp [hb] at h
      | some b =>
        simp only [hb] at h
        split at h
        · split at h
          · cases hexp : UCTPolicy.Expand rnd root p with
            | none => simp [hexp] at h
            | some x =>
              obtain ⟨⟨root', q⟩, rnd'⟩ := x
              simp only [hexp, Option.some.injEq] at h
              rw [← h]
              exact Expand_root rnd root p _ hexp
          · cases hsel : selectBestChild m ord rnd root p e with
            | none => simp [hsel] at h
            | some x =>
              obtain ⟨⟨k, n'⟩, rnd'⟩ := x
              simp only [hsel] at h
              exact ih rnd' root n' r h
        · simp only [Option.some.injEq] at h
          rw [← h]; exact ⟨rfl, id⟩

theorem ScoreOK_withScore_set {S : Type} (b : Node S) (i : Nat) (v : F64)
    (h : b.ScoreOK = true) : ((b.withScore (b.score.set i v)).AddVisit).ScoreOK = true := by
  rw [ScoreOK_iff] at h ⊢
  simpa [Node.AddVisit] using h

/-- The loop of `Backpropagate`, when it returns, has counted one visit at the root of
the tree and kept the shape of the score vectors. -/
theorem BackpropagateLoop_root {S : Type} (player : Nat) (score : F64) :
    ∀ (fuel : Nat) (root : Node S) (n : Path) (root' : Node S),
      UCTPolicy.BackpropagateLoop player score fuel root (some n) = some root' →
      root'.visits = root.visits + 1 ∧ (root.ScoreOK = true → root'.ScoreOK = true) := by
  intro fuel
  induction fuel with
  | zero => intro root n root' h; simp [UCTPolicy.BackpropagateLoop] at h
  | succ f ih =>
    intro root n root' h
    rw [UCTPolicy.BackpropagateLoop] at h
    cases hb : root.get? n with
    | none => simp [hb] at h
    | some b =>
      simp only [hb] at h
      cases hsc : b.Score player with
      | none => simp [hsc] at h
      | some old =>
        simp only [hsc] at h
        cases hset : b.SetScore player (F64.add old score) with
        | none => simp [hset] at h
        | some node1 =>
          simp only [hset] at h
          have hnode1 : node1 = b.withScore (b.score.set player (F64.add old score)) := by
            unfold Node.SetScore at hset
            split at hset
            · exact (Option.some.inj hset).symm
            · simp at hset
          have hok : root.ScoreOK = true →
              (root.modify (fun _ => node1.AddVisit) n).ScoreOK = true := by
            intro hroot
            apply ScoreOK_modify _ n root hroot
            intro b' hb' hbo
            rw [hb] at hb'
            rw [← Option.some.inj hb'] at hbo
            rw [hnode1]
            exact ScoreOK_withScore_set b _ _ hbo
          cases n with
          | nil =>
            have hp : Parent ([] : Path) = none := rfl
            rw [hp] at h
            cases f <;>
              simp only [UCTPolicy.BackpropagateLoop, Option.some.injEq] at h
            all_goals
              rw [← h]
              refine ⟨?_, hok⟩
              simp only [get?_nil, Option.some.injEq] at hb
              subst hb
              simp [Node.modify, hnode1, Node.AddVisit]
          | cons k ks =>
            have hp : Parent (k :: ks) = some (k :: ks).dropLast := by simp [Parent]
            rw [hp] at h
            obtain ⟨h1, h2⟩ := ih _ _ root' h
            refine ⟨?_, fun hroot => h2 (hok hroot)⟩
            rw [h1, visits_modify_cons]

theorem searchRound_root {S : Type} [State S] (m : MathFns) (ord : MapOrder) (fuel : Nat)
    (e : F64) (rnd : Rand) (root : Node S) (r : Node S × Rand)
    (h : searchRound m ord fuel e rnd root = some r) :
    r.1.visits = root.visits + 1 ∧ (root.ScoreOK = true → r.1.ScoreOK = true) := by
  obtain ⟨root1, path, rnd1, node, score, hsel, hnode, _, hback⟩ :=
    (searchRound_eq_some m ord fuel e rnd root r).mp h
  have h1 : root1.visits = root.visits ∧ (root.ScoreOK = true → root1.ScoreOK = true) := by
    cases hp : root.policy with
    | nil => simp [hp, Policy.Select] at hsel
    | UCTPolicy =>
      simp only [hp, Policy.Select, UCTPolicy.Select] at hsel
      exact SelectLoop_root m ord e fuel rnd root _ _ hsel
    | DeterminizationPolicy cp =>
      simp only [hp, Policy.Select] at hsel
      have := DeterminizationPolicy_Select_nil cp fuel rnd root [] _ hsel
      simp at this
  have h2 : r.1.visits = root1.visits + 1 ∧ (root1.ScoreOK = true → r.1.ScoreOK = true) := by
    have hb : UCTPolicy.Backpropagate root1 path score = some r.1 := by
      cases hp : node.policy with
      | nil => simp [hp, Policy.Backpropagate] at hback
      | UCTPolicy => simpa [hp, Policy.Backpropagate] using hback
      | DeterminizationPolicy cp => simpa [hp, Policy.Backpropagate] using hback
    simp only [UCTPolicy.Backpropagate, hnode] at hb
    exact BackpropagateLoop_root _ _ _ _ _ _ hb
  exact ⟨by rw [h2.1, h1.1], fun hr => h2.2 (h1.2 hr)⟩

/-- The loop of `Search`, when it returns, has counted one visit at the root per round
and kept the shape of the score vectors. -/
theorem searchLoop_root {S : Type} [State S] (m : MathFns) (ord : MapOrder) (fuel : Nat)
    (e : F64) : ∀ (level : Nat) (rnd : Rand) (root : Node S) (r : Node S × Rand),
      searchLoop m ord fuel e level rnd root = some r →
      r.1.visits = root.visits + level ∧ (root.ScoreOK = true → r.1.ScoreOK = true) := by
  intro level
  induction level with
  | zero =>
    intro rnd root r h
    simp only [searchLoop, Option.some.injEq] at h
    rw [← h]
    exact ⟨by simp, id⟩
  | succ l ih =>
    intro rnd root r h
    simp only [searchLoop] at h
    cases hr : searchRound m ord fuel e rnd root with
    | none => simp [hr] at h
    | some x =>
      obtain ⟨root1, rnd1⟩ := x
      simp only [hr] at h
      obtain ⟨a1, a2⟩ := searchRound_root m ord fuel e rnd root _ hr
      obtain ⟨b1, b2⟩ := ih rnd1 root1 r h
      refine ⟨?_, fun hroot => b2 (a2 hroot)⟩
      rw [b1, a1]
      push_cast
      ring

theorem SearchInv_fresh {S : Type} [State S] (N : Nat) (s0 : S) (r : Node S)
    (hstate : r.State = some s0) (hpol : r.policy = Policy.UCTPolicy)
    (hch : r.children = []) (hlen : r.score.length = N) (hnum : r.numPlayers = N)
    (hfin : ∀ x ∈ r.score, x.isFinite = true) (hvis : 0 ≤ r.visits) :
    SearchInv N s0 none r := by
  refine ⟨hstate, hpol, fun k hk => by simp [hch] at hk, fun q b hq => ?_⟩
  cases q with
  | cons k ks => simp [get?_cons, hch] at hq
  | nil =>
    simp only [get?_nil, Option.some.injEq] at hq
    subst hq
    refine ⟨⟨hlen, hnum, hfin, by simp [hstate], by simp [hpol], hvis⟩, fun _ =>
      ⟨fun h => absurd rfl h, fun h => ?_⟩⟩
    simp [Node.IsLeaf, hch] at h

theorem Copy_fresh_root {S : Type} [State S] (N : Nat) (init : S)
    (actions : List (Key × (S → S))) :
    ∃ r, (NewMultiplayerMCTS N init actions).1.tree.root.Copy = some r ∧
      r.State = some (State.Copy (State.Copy init)) ∧ r.policy = Policy.UCTPolicy ∧
      r.children = [] ∧ r.score.length = N ∧ r.numPlayers = N ∧
      (∀ x ∈ r.score, x.isFinite = true) ∧ r.visits = 0 ∧ r.ScoreOK = true := by
  have hroot : (NewMultiplayerMCTS N init actions).1.tree.root =
      ((Node.NewNode N : Node S × Bool).1).withState (some (State.Copy init)) := rfl
  rw [hroot]
  have hs : (((Node.NewNode N : Node S × Bool).1).withState
      (some (State.Copy init))).ScoreOK = true := by
    rw [ScoreOK_iff]; simp [ScoreOK_NewNode]
  obtain ⟨r, h1, h2, h3, h4, h5, h6, h7, h8, _⟩ := Merge_ok
    (Node.NewNode (((Node.NewNode N : Node S × Bool).1).withState
      (some (State.Copy init))).NumPlayers : Node S × Bool).1
    (((Node.NewNode N : Node S × Bool).1).withState (some (State.Copy init)))
    (by simp [mergeGetErrors, Node.NumPlayers]) (ScoreOK_NewNode _) hs
  simp only [Node.mergeLoop, children_withState, Option.some.injEq] at h2
  have hnp : (((Node.NewNode N : Node S × Bool).1).withState
      (some (State.Copy init))).NumPlayers = N := by simp [Node.NumPlayers]
  rw [hnp] at h1 h3 h4 h5 h6 h7 h2
  refine ⟨r, by simp [Node.Copy, hnp, h1], ?_, ?_, ?_, ?_, ?_, ?_, ?_, h8⟩
  · simpa using h6
  · simpa using h7
  · rw [← h2]; simp
  · rw [h3]; simp
  · simpa [Node.NumPlayers] using h4
  · intro x hx
    rw [h3] at hx
    simp at hx
    obtain ⟨_, hx⟩ := hx
    rw [hx]
    rfl
  · simpa using h5

theorem parallelWorker_spec {S : Type} [State S] (m : MathFns) (ord : MapOrder) {N : Nat}
    (init : S) (actions : List (Key × (S → S))) (e : F64) (level : Nat)
    (A : SearchAssumptions S m N) (he : e.isFinite = true)
    (hleg : State.LegalActions (State.Copy (State.Copy init)) ≠ []) (rnd : Rand) :
    ∃ F t, (∀ fuel, F ≤ fuel →
        parallelWorker m ord fuel e level rnd (NewMultiplayerMCTS N init actions).1.tree =
          some t) ∧
      t.root.visits = level ∧ t.root.ScoreOK = true ∧ t.root.numPlayers = N ∧
      t.root.State = some (State.Copy (State.Copy init)) := by
  obtain ⟨r, h1, h2, h3, h4, h5, h6, h7, h8, h9⟩ := Copy_fresh_root N init actions
  obtain ⟨F, root', rnd', g1, g2, _, _⟩ := searchLoop_spec m ord e A he hleg level rnd r
    (SearchInv_fresh N _ r h2 h3 h4 h5 h6 h7 (by omega))
  obtain ⟨v1, v2⟩ := searchLoop_root m ord F e level rnd r _ g1
  refine ⟨F, { possibleActions := actions, root := root' }, fun fuel hfuel => ?_, ?_, v2 h9,
    (g2.2.2.2 [] root' (get?_nil _)).1.numPlayers_eq, g2.1⟩
  · have hc : (NewMultiplayerMCTS N init actions).1.tree.Copy =
        some { possibleActions := actions, root := r } := by
      simp only [Tree.Copy, Tree.Root, h1]
      rfl
    simp only [parallelWorker, hc, Tree.Root,
      searchLoop_mono m ord F fuel e hfuel _ _ _ _ g1]
  · simpa [h8] using v1

theorem parallelWorkers_spec {S : Type} [State S] (m : MathFns) (ord : MapOrder) {N : Nat}
    (init : S) (actions : List (Key × (S → S))) (e : F64) (level : Nat)
    (A : SearchAssumptions S m N) (he : e.isFinite = true)
    (hleg : State.LegalActions (State.Copy (State.Copy init)) ≠ []) (rnds : Nat → Rand) :
    ∀ threads : List Nat, ∃ F trees, (∀ fuel, F ≤ fuel →
        parallelWorkers m ord fuel e level rnds (NewMultiplayerMCTS N init actions).1.tree
          threads = some trees) ∧
      trees.length = threads.length ∧
      ∀ t ∈ trees, t.root.visits = level ∧ t.root.ScoreOK = true ∧ t.root.numPlayers = N ∧
        t.root.State = some (State.Copy (State.Copy init)) := by
  intro threads
  induction threads with
  | nil => exact ⟨0, [], fun _ _ => rfl, rfl, fun t ht => by simp at ht⟩
  | cons threadno rest ih =>
    obtain ⟨F1, t, h1, h2⟩ := parallelWorker_spec m ord init actions e level A he hleg
      (rnds threadno)
    obtain ⟨F2, ts, g1, g2, g3⟩ := ih
    refine ⟨max F1 F2, t :: ts, fun fuel hfuel => ?_, by simp [g2], fun x hx => ?_⟩
    · simp only [parallelWorkers, h1 fuel (le_trans (le_max_left _ _) hfuel),
        g1 fuel (le_trans (le_max_right _ _) hfuel)]
    · rcases List.mem_cons.mp hx with hx | hx
      · rw [hx]; exact h2
      · exact g3 x hx

theorem mergeTrees_spec {S : Type} [State S] (N : Nat) (s : S) :
    ∀ (trees : List (Tree S)) (tree : Tree S), tree.root.ScoreOK = true →
      tree.root.numPlayers = N → tree.root.State = some s →
      (∀ t ∈ trees, t.root.ScoreOK = true ∧ t.root.numPlayers = N ∧
        ∃ s', t.root.State = some s' ∧ State.Player s' = State.Player s) →
      ∃ tree', mergeTrees tree trees = some tree' ∧
        tree'.root.visits = tree.root.visits + (trees.map (fun t => t.root.visits)).sum ∧
        tree'.possibleActions = tree.possibleActions := by
  intro trees
  induction trees with
  | nil => intro tree _ _ _ _; exact ⟨tree, rfl, by simp, rfl⟩
  | cons t rest ih =>
    intro tree h1 h2 h3 h4
    obtain ⟨p1, p2, s', p3, p4⟩ := h4 t (List.mem_cons_self _ _)
    have hg : mergeGetErrors tree.root t.root = none := by
      simp [mergeGetErrors, Node.NumPlayers, Node.Player, h2, p2, h3, p3, p4]
    obtain ⟨r, q1, _, _, q4, q5, q6, _, q8, _⟩ := Merge_ok tree.root t.root hg h1 p1
    obtain ⟨tree', r1, r2, r3⟩ := ih { tree with root := r } q8 (by simpa [h2] using q4)
      (by simpa [h3] using q6) (fun x hx => h4 x (List.mem_cons_of_mem _ hx))
    refine ⟨tree', ?_, ?_, r3⟩
    · simp only [mergeTrees, Tree.Merge, Tree.Root, q1, r1]
    · rw [r2]
      simp only [q5, List.map_cons, List.sum_cons]
      ring

theorem sum_map_const_visits {S : Type} (n : Int) : ∀ trees : List (Tree S),
    (∀ t ∈ trees, t.root.visits = n) →
    (trees.map (fun t => t.root.visits)).sum = trees.length * n := by
  intro trees
  induction trees with
  | nil => intro _; simp
  | cons t rest ih =>
    intro h
    simp only [List.map_cons, List.sum_cons, List.length_cons,
      h t (List.mem_cons_self _ _), ih (fun x hx => h x (List.mem_cons_of_mem _ hx))]
    push_cast
    ring

/-- What `RootParallelSearch` would count if `Tree.Merge` merged the node that
`other.Root()` points to (as written, the call does not type-check, and C24 has no
program to hold of).  Read sequentially, every one of the `numThreads` workers gets a tree
whose root has `level` visits, and the tree they are merged into (the tree of the
receiver, which is a value, so that the caller's orchestrator is not this one) then has a
root with the sum of these visits, `numThreads * level`, whatever the order in which the
trees arrive.  The root state of the workers has a legal action and the player of the root
state, the `State` implementation has playouts that end, player indices below the player
count, a policy at every state, finite biases and scores of magnitude at most `2^900`,
the exploration parameter has magnitude at most `2^900`, and `math.Log` is taken to be
non-negative from 1 on. -/
theorem parallelTree_root_visits {S : Type} [State S] (m : MathFns) (ord : MapOrder)
    (N : Nat) (init : S) (actions : List (Key × (S → S))) (numThreads : Nat) (level : Int)
    (e : F64) (rnds : Nat → Rand)
    (hlegal : State.LegalActions (State.Copy (State.Copy init)) ≠ [])
    (hcopy : State.Player (State.Copy (State.Copy init)) = State.Player (State.Copy init))
    (hroll : ∀ (s : S) (r : Rand), ∃ f, (rollout f r s).isSome = true)
    (hplayer : ∀ s : S, State.Player s < N)
    (hpolicy : ∀ s : S, State.Policy s ≠ Policy.nil)
    (hscore : ∀ (s : S) (p : Nat), ∃ x : ℚ, State.Score s p = F64.fin x ∧ |x| ≤ 2 ^ 900)
    (hbias : ∀ s : S, (State.Bias s).isFinite = true)
    (hexpl : ∃ x : ℚ, e = F64.fin x ∧ |x| ≤ 2 ^ 900)
    (hlog : ∀ x : ℚ, 1 ≤ x → 0 ≤ m.logQ x) :
    ∃ F trees, trees.length = numThreads ∧ (∀ t ∈ trees, t.root.Visits = (level.toNat : Int)) ∧
      ∀ fuel, F ≤ fuel →
        parallelWorkers m ord fuel e level.toNat rnds (NewMultiplayerMCTS N init actions).1.tree
          (List.range numThreads) = some trees ∧
        ∀ arrival : MapOrder, ∃ tree,
          (NewMultiplayerMCTS N init actions).1.parallelTree m ord arrival fuel rnds numThreads
            level e = some tree ∧
          tree.root.Visits = (trees.map (fun t => t.root.Visits)).sum ∧
          tree.root.Visits = (numThreads : Int) * (level.toNat : Int) := by
  have hfin : ∀ (s : S) (p : Nat), (State.Score s p).isFinite = true := fun s p => by
    obtain ⟨x, hx, _⟩ := hscore s p
    rw [hx]
    rfl
  have he : e.isFinite = true := by
    obtain ⟨x, hx, _⟩ := hexpl
    rw [hx]
    rfl
  have A : SearchAssumptions S m N := ⟨hplayer, hpolicy, hfin, hbias, hroll, hlog⟩
  obtain ⟨F, trees, h1, h2, h3⟩ := parallelWorkers_spec m ord init actions e level.toNat A he
    hlegal rnds (List.range numThreads)
  rw [List.length_range] at h2
  refine ⟨F, trees, h2, fun t ht => (h3 t ht).1, fun fuel hfuel => ⟨h1 fuel hfuel,
    fun arrival => ?_⟩⟩
  have hperm := arrival.isPerm 0 trees
  have hroot : (NewMultiplayerMCTS N init actions).1.tree.root =
      ((Node.NewNode N : Node S × Bool).1).withState (some (State.Copy init)) := rfl
  obtain ⟨tree, g1, g2, _⟩ := mergeTrees_spec N (State.Copy init) (arrival.perm 0 trees)
    (NewMultiplayerMCTS N init actions).1.tree
    (by rw [hroot, ScoreOK_iff]; simp [ScoreOK_NewNode]) (by rw [hroot]; simp)
    (by rw [hroot]; simp)
    (fun t ht => ⟨(h3 t (hperm.mem_iff.mp ht)).2.1, (h3 t (hperm.mem_iff.mp ht)).2.2.1,
      _, (h3 t (hperm.mem_iff.mp ht)).2.2.2, hcopy⟩)
  have hsum : ((arrival.perm 0 trees).map (fun t => t.root.visits)).sum =
      (trees.map (fun t => t.root.visits)).sum := (hperm.map _).sum_eq
  have hv0 : (NewMultiplayerMCTS N init actions).1.tree.root.visits = 0 := by
    rw [hroot]; simp
  rw [hsum, hv0, zero_add] at g2
  refine ⟨tree, ?_, g2, ?_⟩
  · simp only [MultiplayerMCTS.parallelTree, h1 fuel hfuel, g1]
  · show tree.root.visits = _
    rw [g2, sum_map_const_visits (level.toNat : Int) trees (fun t ht => (h3 t ht).1), h2]

/-- The count of `parallelTree_root_visits` at the one-move game `coinState`: four workers
of ten rounds each. -/
theorem parallelTree_root_visits_example :
    ∃ F trees, trees.length = 4 ∧ (∀ t ∈ trees, t.root.Visits = ((10 : Int).toNat : Int)) ∧
      ∀ fuel, F ≤ fuel →
        parallelWorkers testMath testOrder fuel (F64.fin 1) (10 : Int).toNat (fun _ _ => 0)
          (NewMultiplayerMCTS 1 ({ done := false } : coinState) []).1.tree
          (List.range 4) = some trees ∧
        ∀ arrival : MapOrder, ∃ tree,
          (NewMultiplayerMCTS 1 ({ done := false } : coinState) []).1.parallelTree testMath
            testOrder arrival fuel (fun _ _ => 0) 4 10 (F64.fin 1) = some tree ∧
          tree.root.Visits = (trees.map (fun t => t.root.Visits)).sum ∧
          tree.root.Visits = ((4 : Nat) : Int) * ((10 : Int).toNat : Int) :=
  parallelTree_root_visits testMath testOrder 1 ({ done := false } : coinState) [] 4 10
    (F64.fin 1) (fun _ _ => 0) (by simp [State.LegalActions, State.Copy]) rfl
    (fun s r => ⟨2, by
      cases s with
      | mk d =>
        cases d
        · simp [rollout, randomAction, State.LegalActions, Nat.mod_one]
        · simp [rollout, State.LegalActions]⟩)
    (fun _ => by simp [State.Player]) (fun _ => by simp [State.Policy])
    (fun _ _ => ⟨0, rfl, by norm_num⟩) (fun _ => rfl) ⟨1, rfl, by norm_num⟩
    (fun _ _ => le_refl _)

/-- C33: every terminal node is exhausted, whatever children it has: a node whose state is
absent or has no legal action has `IsExhausted` true; and a node is exhausted exactly
when its state is absent or every legal-action key of its state is a key of its child
map. -/
theorem IsExhausted_iff {S : Type} [State S] (node : Node S) :
    (node.IsTerminal = true → node.IsExhausted = true) ∧
    (node.State = none → node.IsTerminal = true ∧ node.IsExhausted = true) ∧
    (∀ s, node.State = some s → State.LegalActions s = [] →
      node.IsTerminal = true ∧ node.IsExhausted = true) ∧
    (node.IsExhausted = true ↔
      node.State = none ∨
        ∃ s, node.State = some s ∧
          ∀ ka ∈ State.LegalActions s, ka.1 ∈ mapKeys node.children) := by
  cases hs : node.State with
  | none => simp [Node.IsTerminal, Node.IsExhausted, hs]
  | some s =>
    simp only [Node.IsTerminal, Node.IsExhausted, hs, List.all_eq_true, mapGet_isSome_iff,
      Option.some.injEq, false_or, exists_eq_left', reduceCtorEq, false_implies, true_and]
    refine ⟨fun h ka hka => ?_, fun t ht hl => ?_, trivial⟩
    · have : State.LegalActions s = [] := by simpa using h
      rw [this] at hka
      simp at hka
    · subst ht
      simp [hl]

theorem allNodes_of_get? {S : Type} (p : Node S → Bool) : ∀ (path : Path) (root b : Node S),
    Node.allNodes p root = true → root.get? path = some b → Node.allNodes p b = true := by
  intro path
  induction path with
  | nil =>
    intro root b h hb
    simp only [get?_nil, Option.some.injEq] at hb
    rw [← hb]; exact h
  | cons k ks ih =>
    intro root b h hb
    rw [get?_cons] at hb
    cases hc : mapGet k root.children with
    | none => simp [hc] at hb
    | some c =>
      simp only [hc, Option.some_bind] at hb
      exact ih c b (allNodes_of_mapGet p h hc) hb

theorem allNodes_SetChild {S : Type} (p : Node S → Bool)
    (hp : ∀ (n : Node S) (c : List (Key × Node S)), p (n.withChildren c) = p n)
    (n c : Node S) (k : Key) (hn : Node.allNodes p n = true)
    (hc : Node.allNodes p c = true) : Node.allNodes p (n.SetChild k c) = true := by
  rw [allNodes_iff] at hn ⊢
  refine ⟨by rw [Node.SetChild, hp]; exact hn.1, ?_⟩
  simpa [Node.SetChild] using allChildren_mapSet p k c n.children hc hn.2

theorem allNodes_modify {S : Type} (p : Node S → Bool)
    (hp : ∀ (n : Node S) (c : List (Key × Node S)), p (n.withChildren c) = p n)
    (f : Node S → Node S) : ∀ (path : Path) (root : Node S),
    Node.allNodes p root = true →
    (∀ b, root.get? path = some b → Node.allNodes p b = true →
      Node.allNodes p (f b) = true) →
    Node.allNodes p (root.modify f path) = true := by
  intro path
  induction path with
  | nil =>
    intro root h hf
    exact hf root rfl h
  | cons k ks ih =>
    intro root h hf
    simp only [Node.modify]
    cases hc : mapGet k root.children with
    | none => simpa using h
    | some c =>
      simp only
      have hch := allNodes_of_mapGet p h hc
      have hmod := ih c hch (fun b hb hbo => hf b (by rw [get?_cons, hc]; exact hb) hbo)
      have := allNodes_SetChild p hp root (Node.modify f c ks) k h hmod
      simpa [Node.SetChild] using this

theorem randomAction_some_mem {α : Type} (rnd rnd' : Rand) (actions : List (Key × α))
    (k : Key) (v : α) (h : randomAction rnd actions = ((k, some v), rnd')) :
    (k, v) ∈ actions := by
  unfold randomAction at h
  split at h
  · split at h
    · rename_i k' v' hget
      simp only [Prod.mk.injEq, Option.some.injEq] at h
      obtain ⟨⟨h1, h2⟩, _⟩ := h
      subst h1 h2
      exact List.get?_mem hget
    · simp at h
  · simp at h

/-- What a call of `Expand` that returns has done: nothing, or attached a new child to
the node under a legal-action key that had none. -/
theorem Expand_cases {S : Type} [State S] (rnd : Rand) (root : Node S) (path : Path)
    (r : (Node S × Path) × Rand) (h : UCTPolicy.Expand rnd root path = some r) :
    ∃ b s, root.get? path = some b ∧ b.State = some s ∧
      ((r.1.1 = root ∧ r.1.2 = path) ∨
        ∃ index action, (index, action) ∈ State.LegalActions s ∧
          mapGet index b.children = none ∧ 1 ≤ b.numPlayers ∧
          r.1.1 = root.modify
            (fun nd => nd.SetChild index (newChild b.NumPlayers (action (State.Copy s))))
            path ∧
          r.1.2 = path ++ [index]) := by
  unfold UCTPolicy.Expand at h
  cases hb : root.get? path with
  | none => simp [hb] at h
  | some b =>
    simp only [hb] at h
    cases hs : b.State with
    | none => simp [hs] at h
    | some s =>
      simp only [hs] at h
      refine ⟨b, s, rfl, hs, ?_⟩
      split at h
      · simp only [Option.some.injEq] at h
        left
        rw [← h]
        exact ⟨rfl, rfl⟩
      · rename_i index action rnd' hra
        have hmem := randomAction_some_mem _ _ _ _ _ hra
        obtain ⟨h1, h2⟩ := List.mem_filter.mp hmem
        split at h
        · simp at h
        · rename_i n hn
          simp only [Option.some.injEq] at h
          right
          refine ⟨index, action, h1, ?_, ?_, ?_, ?_⟩
          · simpa [Node.GetChild] using h2
          · by_contra h0
            have h0' : b.numPlayers = 0 := by omega
            simp [Node.NewNode, Node.NumPlayers, h0'] at hn
          · have hn' : n = (Node.NewNode b.NumPlayers : Node S × Bool).1 := by rw [hn]
            rw [← h, hn']
            rfl
          · rw [← h]

theorem PolicyOK_newChild {S : Type} [State S] (n : Nat) (st : S) :
    (newChild n st : Node S).PolicyOK = true := by
  unfold Node.PolicyOK
  rw [allNodes_iff]
  simp [newChild, Node.allChildren]

/-- The trees that `Expand` grows from the tree of `NewTree`: the root keeps the initial
state and the policy of `NewNode`, and the policies below the root are resolved. -/
theorem expandRun_policy {S : Type} [State S] (init : S) :
    ∀ (steps : List (Rand × Path)) (root root' : Node S),
      root.State = some init → root.policy = Policy.UCTPolicy →
      (∀ kc ∈ root.children, kc.2.PolicyOK = true) →
      expandRun root steps = some root' →
      root'.State = some init ∧ root'.policy = Policy.UCTPolicy ∧
        ∀ kc ∈ root'.children, kc.2.PolicyOK = true := by
  intro steps
  induction steps with
  | nil =>
    intro root root' h1 h2 h3 h
    simp only [expandRun, Option.some.injEq] at h
    subst h
    exact ⟨h1, h2, h3⟩
  | cons step rest ih =>
    obtain ⟨rnd, path⟩ := step
    intro root root' h1 h2 h3 h
    simp only [expandRun] at h
    cases hexp : UCTPolicy.Expand rnd root path with
    | none => simp [hexp] at h
    | some r =>
      obtain ⟨⟨root1, q⟩, rnd1⟩ := r
      simp only [hexp] at h
      obtain ⟨b, s, hb, hs, hcase⟩ := Expand_cases rnd root path _ hexp
      rcases hcase with ⟨e1, _⟩ | ⟨index, action, _, _, _, e1, _⟩
      · simp only at e1
        subst e1
        exact ih _ _ h1 h2 h3 h
      · simp only at e1
        refine ih root1 root' ?_ ?_ ?_ h
        · rw [e1]
          cases path with
          | nil => simpa [Node.modify, Node.SetChild] using h1
          | cons k ks =>
            simp only [Node.modify]
            cases mapGet k root.children <;> simpa using h1
        · rw [e1]
          cases path with
          | nil => simpa [Node.modify, Node.SetChild] using h2
          | cons k ks =>
            simp only [Node.modify]
            cases mapGet k root.children <;> simpa using h2
        · have hall : Node.allChildren (fun n =>
              match n.State with
              | none => true
              | some s => decide (n.policy = State.Policy s)) root.children = true :=
            (allChildren_iff _ _).mpr h3
          have hp : ∀ (n : Node S) (c : List (Key × Node S)),
              (fun n : Node S =>
                match n.State with
                | none => true
                | some s => decide (n.policy = State.Policy s)) (n.withChildren c) =
              (fun n : Node S =>
                match n.State with
                | none => true
                | some s => decide (n.policy = State.Policy s)) n := by
            intro n c
            simp
          rw [e1]
          apply (allChildren_iff _ _).mp
          cases path with
          | nil =>
            simp only [Node.modify, Node.SetChild, children_withChildren]
            exact allChildren_mapSet _ _ _ _ (PolicyOK_newChild _ _) hall
          | cons k ks =>
            simp only [Node.modify]
            cases hc : mapGet k root.children with
            | none => simpa using hall
            | some c =>
              simp only [children_withChildren]
              refine allChildren_mapSet _ _ _ _ ?_ hall
              have hcok : c.PolicyOK = true := h3 (k, c) (mapGet_mem hc)
              exact allNodes_modify _ hp _ ks c hcok (fun b' _ hb' =>
                allNodes_SetChild _ hp _ _ _ hb' (PolicyOK_newChild _ _))

/-- The part of C32 that the code keeps: in every tree produced by `NewTree` and grown by
`Expand`, each node below the root that holds a state has the policy that its state
declares.  The root holds the initial state and still has the confidence-bound policy
that `NewNode` gave it. -/
theorem Expand_resolves_policy {S : Type} [State S] (numPlayers : Nat) (init : S)
    (actions : List (Key × (S → S))) (steps : List (Rand × Path)) (root' : Node S)
    (h : expandRun (NewTree numPlayers init actions).1.root steps = some root') :
    root'.State = some init ∧ root'.policy = Policy.UCTPolicy ∧
    ∀ q b s, q ≠ [] → root'.get? q = some b → b.State = some s →
      b.policy = State.Policy s := by
  have hroot : (NewTree numPlayers init actions).1.root =
      ((Node.NewNode numPlayers : Node S × Bool).1).withState (some init) := rfl
  obtain ⟨h1, h2, h3⟩ := expandRun_policy init steps _ root' (by rw [hroot]; simp)
    (by rw [hroot]; simp) (by rw [hroot]; simp) h
  refine ⟨h1, h2, fun q b s hq hb hs => ?_⟩
  cases q with
  | nil => exact absurd rfl hq
  | cons k ks =>
    rw [get?_cons] at hb
    cases hc : mapGet k root'.children with
    | none => simp [hc] at hb
    | some c =>
      simp only [hc, Option.some_bind] at hb
      have hbok := allNodes_of_get? _ ks c b (h3 (k, c) (mapGet_mem hc)) hb
      rw [allNodes_iff] at hbok
      simpa [hs] using hbok.1

/-- The resolution of `Expand_resolves_policy` on the tree of the chance game `abState`
after one call of `Expand` at the root. -/
theorem Expand_resolves_policy_example :
    ∃ root', expandRun (NewTree 1 ({ done := false } : abState) []).1.root
        [(fun _ => 0, [])] = some root' ∧
      (root'.get? [Key.str "A"]).isSome = true ∧
      root'.State = some ({ done := false } : abState) ∧
      root'.policy = Policy.UCTPolicy ∧
      ∀ q b s, q ≠ [] → root'.get? q = some b → b.State = some s →
        b.policy = State.Policy s :=
  ⟨((NewTree 1 ({ done := false } : abState) []).1.root).SetChild (Key.str "A")
      (newChild 1 { done := true }), rfl, rfl,
    Expand_resolves_policy 1 ({ done := false } : abState) [] [(fun _ => 0, [])] _ rfl⟩

/-- C32 fails on the code: `NewTree` stores the initial state and never reads its policy,
so the root of every tree has the confidence-bound policy that `NewNode` gave it, whatever
the state declares.  At a state of the chance game `abState`, which declares the
determinization policy, the policy of the root is not the declared one, while the child
that `Expand` creates under this root holds a state and has the policy that this state
declares: `Expand` resolves the policy and `NewTree` does not. -/
theorem NewTree_skips_declared_policy :
    (∀ (S : Type) [State S] (numPlayers : Nat) (init : S) (actions : List (Key × (S → S))),
      (NewTree numPlayers init actions).1.root.State = some init ∧
      (NewTree numPlayers init actions).1.root.policy = Policy.UCTPolicy) ∧
    State.Policy ({ done := false } : abState) = Policy.DeterminizationPolicy abProbability ∧
    (NewTree 1 ({ done := false } : abState) []).1.root.policy ≠
      State.Policy ({ done := false } : abState) ∧
    ∃ root' c, expandRun (NewTree 1 ({ done := false } : abState) []).1.root
        [(fun _ => 0, [])] = some root' ∧
      root'.get? [Key.str "A"] = some c ∧
      c.State = some ({ done := true } : abState) ∧
      c.policy = State.Policy ({ done := true } : abState) := by
  refine ⟨fun S _ numPlayers init actions => ⟨rfl, rfl⟩, rfl, ?_, ?_⟩
  · intro h
    cases h
  · exact ⟨((NewTree 1 ({ done := false } : abState) []).1.root).SetChild (Key.str "A")
      (newChild 1 { done := true }), newChild 1 { done := true }, rfl, rfl, rfl, rfl⟩

/-- A property of trees that every write of the loop of `Backpropagate` keeps is kept by
the loop. -/
theorem BackpropagateLoop_preserves {S : Type} (P : Node S → Prop) (player : Nat)
    (score : F64)
    (hstep : ∀ (root b : Node S) (n : Path) (v : F64), P root → root.get? n = some b →
      P (root.modify (fun _ => (b.withScore (b.score.set player v)).AddVisit) n)) :
    ∀ (fuel : Nat) (root : Node S) (n : Option Path) (root' : Node S), P root →
      UCTPolicy.BackpropagateLoop player score fuel root n = some root' → P root' := by
  intro fuel
  induction fuel with
  | zero =>
    intro root n root' hP h
    cases n with
    | none =>
      simp only [UCTPolicy.BackpropagateLoop, Option.some.injEq] at h
      rw [← h]; exact hP
    | some p => simp [UCTPolicy.BackpropagateLoop] at h
  | succ f ih =>
    intro root n root' hP h
    cases n with
    | none =>
      simp only [UCTPolicy.BackpropagateLoop, Option.some.injEq] at h
      rw [← h]; exact hP
    | some p =>
      rw [UCTPolicy.BackpropagateLoop] at h
      cases hb : root.get? p with
      | none => simp [hb] at h
      | some b =>
        simp only [hb] at h
        cases hsc : b.Score player with
        | none => simp [hsc] at h
        | some old =>
          simp only [hsc] at h
          cases hset : b.SetScore player (F64.add old score) with
          | none => simp [hset] at h
          | some node1 =>
            simp only [hset] at h
            have hnode1 : node1 = b.withScore (b.score.set player (F64.add old score)) := by
              unfold Node.SetScore at hset
              split at hset
              · exact (Option.some.inj hset).symm
              · simp at hset
            rw [hnode1] at h
            exact ih _ _ root' (hstep root b p _ hP hb) h

theorem mem_of_mem_mapDelete {α : Type} (k : Key) (x : Key × α) :
    ∀ m : List (Key × α), x ∈ mapDelete k m → x ∈ m := by
  intro m
  induction m with
  | nil => intro h; simp [mapDelete] at h
  | cons y m ih =>
    obtain ⟨k', a'⟩ := y
    intro h
    simp only [mapDelete] at h
    split at h
    · exact List.mem_cons_of_mem _ (ih h)
    · rcases List.mem_cons.mp h with e | e
      · rw [e]; exact List.mem_cons_self _ _
      · exact List.mem_cons_of_mem _ (ih e)

theorem ScoreOK_RemoveChild {S : Type} (n : Node S) (k : Key) (hn : n.ScoreOK = true) :
    (n.RemoveChild k).ScoreOK = true := by
  unfold Node.RemoveChild
  split
  · rw [ScoreOK_iff] at hn ⊢
    refine ⟨by simpa using hn.1, fun kc hkc => hn.2 kc ?_⟩
    simp only [children_withChildren] at hkc
    exact mem_of_mem_mapDelete _ _ _ hkc
  · exact hn

/-- C31: the score vector of a node that `NewNode` returns has one entry per player, and
in a tree where every node has one score entry per player, every node still has after
`SetScore`, `AddVisit`, `SetChild` (of such a tree) or `RemoveChild` at any node of the
tree, after `Expand` and `Backpropagate` at any node, in the copy that `Copy` returns, and
after a `Merge` with such a tree into any node, whether `Merge` returns an error or not.
`Copy` and `Merge` return on such trees. -/
theorem score_length_invariant {S : Type} [State S] (root : Node S)
    (h : root.ScoreOK = true) :
    (∀ n : Nat, ((Node.NewNode n : Node S × Bool).1).ScoreVector.length =
        ((Node.NewNode n : Node S × Bool).1).NumPlayers ∧
      ((Node.NewNode n : Node S × Bool).1).ScoreOK = true) ∧
    (∀ q b, root.get? q = some b → b.ScoreVector.length = b.NumPlayers) ∧
    (∀ path node player score node', root.get? path = some node →
      node.SetScore player score = some node' →
      (root.modify (fun _ => node') path).ScoreOK = true) ∧
    (∀ path, (root.modify Node.AddVisit path).ScoreOK = true) ∧
    (∀ path k child, child.ScoreOK = true →
      (root.modify (fun n => n.SetChild k child) path).ScoreOK = true) ∧
    (∀ path k, (root.modify (fun n => n.RemoveChild k) path).ScoreOK = true) ∧
    (∀ rnd path r, UCTPolicy.Expand rnd root path = some r → r.1.1.ScoreOK = true) ∧
    (∀ path score root', UCTPolicy.Backpropagate root path score = some root' →
      root'.ScoreOK = true) ∧
    (∃ c, root.Copy = some c ∧ c.ScoreOK = true) ∧
    (∀ path node other, root.get? path = some node → other.ScoreOK = true →
      ∃ r e, Node.Merge node other = some (r, e) ∧
        (root.modify (fun _ => r) path).ScoreOK = true) := by
  refine ⟨fun n => ⟨by simp [Node.ScoreVector, Node.NumPlayers], ScoreOK_NewNode n⟩,
    fun q b hb => ?_, fun path node player score node' hnode hset => ?_, fun path => ?_,
    fun path k child hc => ?_, fun path k => ?_, fun rnd path r hr => ?_,
    fun path score root' hb => ?_, ?_, fun path node other hnode ho => ?_⟩
  · exact ((ScoreOK_iff b).mp (ScoreOK_of_get? q root b h hb)).1
  · apply ScoreOK_modify _ path root h
    intro b hb hbo
    rw [hnode] at hb
    rw [← Option.some.inj hb] at hbo
    unfold Node.SetScore at hset
    split at hset
    · rw [← Option.some.inj hset]
      rw [ScoreOK_iff] at hbo ⊢
      simpa using hbo
    · simp at hset
  · apply ScoreOK_modify _ path root h
    intro b _ hbo
    rw [ScoreOK_iff] at hbo ⊢
    simpa [Node.AddVisit] using hbo
  · apply ScoreOK_modify _ path root h
    intro b _ hbo
    exact ScoreOK_SetChild b child k hbo hc
  · apply ScoreOK_modify _ path root h
    intro b _ hbo
    exact ScoreOK_RemoveChild b k hbo
  · exact (Expand_root rnd root path r hr).2 h
  · unfold UCTPolicy.Backpropagate at hb
    cases hn : root.get? path with
    | none => simp [hn] at hb
    | some node =>
      simp only [hn] at hb
      exact (BackpropagateLoop_root _ _ _ _ _ _ hb).2 h
  · obtain ⟨c, hc, _, hc2, _⟩ := Copy_total root h
    exact ⟨c, hc, hc2⟩
  · obtain ⟨r, e, hr, hr2, _⟩ := Merge_total other node ho (ScoreOK_of_get? path root node h hnode)
    exact ⟨r, e, hr, ScoreOK_modify _ path root h (fun _ _ _ => hr2)⟩

/-- C31 on the tree `coinRootExpanded`, a root with one child. -/
theorem score_length_invariant_witness :
    (∀ n : Nat, ((Node.NewNode n : Node coinState × Bool).1).ScoreVector.length =
        ((Node.NewNode n : Node coinState × Bool).1).NumPlayers ∧
      ((Node.NewNode n : Node coinState × Bool).1).ScoreOK = true) ∧
    (∀ q b, coinRootExpanded.get? q = some b → b.ScoreVector.length = b.NumPlayers) ∧
    (∀ path node player score node', coinRootExpanded.get? path = some node →
      node.SetScore player score = some node' →
      (coinRootExpanded.modify (fun _ => node') path).ScoreOK = true) ∧
    (∀ path, (coinRootExpanded.modify Node.AddVisit path).ScoreOK = true) ∧
    (∀ path k child, child.ScoreOK = true →
      (coinRootExpanded.modify (fun n => n.SetChild k child) path).ScoreOK = true) ∧
    (∀ path k, (coinRootExpanded.modify (fun n => n.RemoveChild k) path).ScoreOK = true) ∧
    (∀ rnd path r, UCTPolicy.Expand rnd coinRootExpanded path = some r →
      r.1.1.ScoreOK = true) ∧
    (∀ path score root', UCTPolicy.Backpropagate coinRootExpanded path score = some root' →
      root'.ScoreOK = true) ∧
    (∃ c, coinRootExpanded.Copy = some c ∧ c.ScoreOK = true) ∧
    (∀ path node other, coinRootExpanded.get? path = some node → other.ScoreOK = true →
      ∃ r e, Node.Merge node other = some (r, e) ∧
        (coinRootExpanded.modify (fun _ => r) path).ScoreOK = true) :=
  score_length_invariant coinRootExpanded (by decide)

theorem score_bump_other {S : Type} (b : Node S) (player : Nat) (score : F64) (i : Nat)
    (hi : i ≠ player) : (b.bump player score).score.get? i = b.score.get? i ∧
      (b.bump player score).score.length = b.score.length := by
  unfold Node.bump
  split
  · exact ⟨rfl, rfl⟩
  · simp only [Node.AddVisit, score_withVisits, score_withScore, List.length_set,
      List.get?_eq_getElem?, and_true]
    rw [List.getElem?_set_ne (Ne.symm hi)]

/-- C37: `Backpropagate(n, s)`, for a node `n` in a tree whose score vectors on the way to
the root have an entry for the player of `n`, returns, and changes nothing except the
visits and the score entry of that player at the nodes on the path from `n` to the root:
every place off that path holds the node it held, and a node on the path keeps the length
of its score vector, the score entries of all other players, its state, its player
count, its policy and the keys of its child map.  The parent of a node is its place in
the tree, which no node changes. -/
theorem Backpropagate_frame {S : Type} [State S] (root node : Node S) (path : Path)
    (s : F64) (hnode : root.get? path = some node)
    (hidx : ∀ q b, q <+: path → root.get? q = some b →
      node.Player < b.ScoreVector.length) :
    ∃ root', UCTPolicy.Backpropagate root path s = some root' ∧
      (∀ q, ¬ q <+: path → root'.get? q = root.get? q) ∧
      (∀ q, (root'.get? q).isSome = (root.get? q).isSome) ∧
      ∀ q, q <+: path → ∃ b b', root.get? q = some b ∧ root'.get? q = some b' ∧
        b'.ScoreVector.length = b.ScoreVector.length ∧
        (∀ i, i ≠ node.Player → b'.Score i = b.Score i) ∧
        b'.State = b.State ∧ b'.NumPlayers = b.NumPlayers ∧ b'.policy = b.policy ∧
        (∀ k, (b'.GetChild k).isSome = (b.GetChild k).isSome) := by
  obtain ⟨root', h1, h2, h3⟩ := Backpropagate_spec root node path s hnode hidx
  refine ⟨root', h1, h3, fun q => ?_, fun q hq => ?_⟩
  · by_cases hq : q <+: path
    · obtain ⟨b, b', e1, e2, _⟩ := h2 q hq
      rw [e1, e2]
      rfl
    · rw [h3 q hq]
  · obtain ⟨b, b', e1, e2, e3, _, e5, e6, e7, e8⟩ := h2 q hq
    refine ⟨b, b', e1, e2, ?_, fun i hi => ?_, e5, e6, e7, e8⟩
    · simp only [Node.ScoreVector, e3]
      exact (score_bump_other b node.Player s (node.Player + 1) (by omega)).2
    · simp only [Node.Score, e3]
      exact (score_bump_other b node.Player s i hi).1

/-- C37 at a child of a root, the child holding a state of player 1 in a two-player tree. -/
theorem Backpropagate_frame_witness :
    ∃ root', UCTPolicy.Backpropagate conflictOther [Key.str "a"] (F64.fin 1) = some root' ∧
      (∀ q, ¬ q <+: [Key.str "a"] → root'.get? q = conflictOther.get? q) ∧
      (∀ q, (root'.get? q).isSome = (conflictOther.get? q).isSome) ∧
      ∀ q, q <+: [Key.str "a"] → ∃ b b', conflictOther.get? q = some b ∧
        root'.get? q = some b' ∧
        b'.ScoreVector.length = b.ScoreVector.length ∧
        (∀ i, i ≠ (twoPlayerNode 1 (some ⟨0, true⟩) []).Player → b'.Score i = b.Score i) ∧
        b'.State = b.State ∧ b'.NumPlayers = b.NumPlayers ∧ b'.policy = b.policy ∧
        (∀ k, (b'.GetChild k).isSome = (b.GetChild k).isSome) :=
  Backpropagate_frame conflictOther (twoPlayerNode 1 (some ⟨0, true⟩) []) [Key.str "a"]
    (F64.fin 1) rfl (by
      intro q b hq hb
      have hq' : q = [] ∨ q = [Key.str "a"] := by
        rcases List.prefix_concat_iff.mp (show q <+: [] ++ [Key.str "a"] from hq) with h | h
        · exact Or.inr h
        · exact Or.inl (List.prefix_nil.mp h)
      rcases hq' with h | h
      · subst h
        simp only [get?_nil, Option.some.injEq] at hb
        subst hb
        decide
      · subst h
        have : conflictOther.get? [Key.str "a"] =
            some (twoPlayerNode 1 (some ⟨0, true⟩) []) := rfl
        rw [this] at hb
        simp only [Option.some.injEq] at hb
        subst hb
        decide)

/-- C40 fails on the code.  `ZeroPlayerCount.Error` formats its own receiver with `%v`,
and the receiver implements `error`, so formatting it calls `Error` on the same value
again: whatever the depth allowed, the call does not return, for every receiver, the node
of `NewNode(0)` included.  The `Error` methods of the merge errors, which format numbers,
return. -/
theorem ZeroPlayerCount_Error_never_returns :
    (∀ (fuel : Nat) (zpc : Node simpleStateImplementation),
      ZeroPlayerCount.Error fuel zpc = none) ∧
    (∀ fuel : Nat, ZeroPlayerCount.Error fuel
      (Node.NewNode 0 : Node simpleStateImplementation × Bool).1 = none) ∧
    (Node.NewNode 0 : Node simpleStateImplementation × Bool).2 = true ∧
    (∀ (fuel : Nat) (zpc : Node simpleStateImplementation),
      ZeroPlayerCount.Error (fuel + 1) zpc =
        match ZeroPlayerCount.Error fuel zpc with
        | none => none
        | some v => some ("can't create node with zero players: " ++ v)) ∧
    (∀ e : MergeError, (MergeError.Error e).isSome = true) := by
  have h : ∀ (fuel : Nat) (zpc : Node simpleStateImplementation),
      ZeroPlayerCount.Error fuel zpc = none := by
    intro fuel
    induction fuel with
    | zero => intro zpc; rfl
    | succ f ih =>
      intro zpc
      simp [ZeroPlayerCount.Error, fmtVerbV, ih zpc]
  refine ⟨h, fun fuel => h fuel _, rfl, fun fuel zpc => rfl, fun e => ?_⟩
  cases e <;> rfl

theorem size_eq {S : Type} (n : Node S) : n.size = Node.sizeChildren n.children + 1 := by
  cases n; simp [Node.size, Node.children]

theorem sizeChildren_mapSet_none {S : Type} (k : Key) (c : Node S) :
    ∀ l : List (Key × Node S), mapGet k l = none →
      Node.sizeChildren (mapSet k c l) = Node.sizeChildren l + c.size := by
  intro l
  induction l with
  | nil => intro _; simp [mapSet, Node.sizeChildren]
  | cons x l ih =>
    obtain ⟨k', c'⟩ := x
    intro h
    by_cases hk : k' = k
    · simp [mapGet, hk] at h
    · have h' : mapGet k l = none := by simpa [mapGet, hk] using h
      simp only [mapSet, hk, if_false, Node.sizeChildren, ih h']
      omega

theorem sizeChildren_mapSet_some {S : Type} (k : Key) (c c0 : Node S) :
    ∀ l : List (Key × Node S), mapGet k l = some c0 →
      Node.sizeChildren (mapSet k c l) + c0.size = Node.sizeChildren l + c.size := by
  intro l
  induction l with
  | nil => intro h; simp [mapGet] at h
  | cons x l ih =>
    obtain ⟨k', c'⟩ := x
    intro h
    by_cases hk : k' = k
    · simp only [mapGet, hk, if_true, Option.some.injEq] at h
      subst h
      simp only [mapSet, hk, if_true, Node.sizeChildren]
      omega
    · have h' : mapGet k l = some c0 := by simpa [mapGet, hk] using h
      have := ih h'
      simp only [mapSet, hk, if_false, Node.sizeChildren]
      omega

/-- The size of a tree after a write through a pointer. -/
theorem size_modify {S : Type} (f : Node S → Node S) : ∀ (path : Path) (root b : Node S),
    root.get? path = some b →
    (root.modify f path).size + b.size = root.size + (f b).size := by
  intro path
  induction path with
  | nil =>
    intro root b h
    simp only [get?_nil, Option.some.injEq] at h
    subst h
    simp only [Node.modify]
    omega
  | cons k ks ih =>
    intro root b h
    rw [get?_cons] at h
    cases hc : mapGet k root.children with
    | none => simp [hc] at h
    | some c =>
      simp only [hc, Option.some_bind] at h
      have h1 := ih c b h
      have h2 := sizeChildren_mapSet_some k (Node.modify f c ks) c root.children hc
      simp only [Node.modify, hc]
      rw [size_eq (root.withChildren _), size_eq root, children_withChildren]
      omega

theorem size_newChild {S : Type} [State S] (n : Nat) (st : S) :
    (newChild n st : Node S).size = 1 := by
  rw [size_eq, children_newChild]
  rfl

/-- A call of `Expand` that returns leaves the tree as it is or adds one node. -/
theorem Expand_size {S : Type} [State S] (rnd : Rand) (root : Node S) (path : Path)
    (r : (Node S × Path) × Rand) (h : UCTPolicy.Expand rnd root path = some r) :
    r.1.1.size = root.size ∨ r.1.1.size = root.size + 1 := by
  obtain ⟨b, s, hb, _, hcase⟩ := Expand_cases rnd root path r h
  rcases hcase with ⟨e1, _⟩ | ⟨index, action, _, hnone, _, e1, _⟩
  · left; rw [e1]
  · right
    rw [e1]
    have h1 := size_modify
      (fun nd => nd.SetChild index (newChild b.NumPlayers (action (State.Copy s)))) path
      root b hb
    have h2 : (b.SetChild index (newChild b.NumPlayers (action (State.Copy s)))).size =
        b.size + 1 := by
      rw [size_eq (b.SetChild _ _), size_eq b, children_SetChild,
        sizeChildren_mapSet_none _ _ _ hnone, size_newChild]
    simp only [h2] at h1
    omega

/-- The loop of `Select`, when it returns, has left the tree as it is or made one call of
`Expand`, whose tree and pointer it returns. -/
theorem SelectLoop_cases {S : Type} [State S] (m : MathFns) (ord : MapOrder) (e : F64) :
    ∀ (fuel : Nat) (rnd : Rand) (root : Node S) (n : Option Path)
      (r : (Node S × Option Path) × Rand),
      UCTPolicy.SelectLoop m ord e fuel rnd root n = some r →
      r.1.1 = root ∨ ∃ rnd' p x, UCTPolicy.Expand rnd' root p = some x ∧
        r.1.1 = x.1.1 ∧ r.1.2 = some x.1.2 := by
  intro fuel
  induction fuel with
  | zero =>
    intro rnd root n r h
    cases n with
    | none =>
      simp only [UCTPolicy.SelectLoop, Option.some.injEq] at h
      rw [← h]; exact Or.inl rfl
    | some p => simp [UCTPolicy.SelectLoop] at h
  | succ f ih =>
    intro rnd root n r h
    cases n with
    | none =>
      simp only [UCTPolicy.SelectLoop, Option.some.injEq] at h
      rw [← h]; exact Or.inl rfl
    | some p =>
      rw [UCTPolicy.SelectLoop] at h
      cases hb : root.get? p with
      | none => simp [hb] at h
      | some b =>
        simp only [hb] at h
        split at h
        · split at h
          · cases hexp : UCTPolicy.Expand rnd root p with
            | none => simp [hexp] at h
            | some x =>
              obtain ⟨⟨root', q⟩, rnd'⟩ := x
              simp only [hexp, Option.some.injEq] at h
              rw [← h]
              exact Or.inr ⟨rnd, p, _, hexp, rfl, rfl⟩
          · cases hsel : selectBestChild m ord rnd root p e with
            | none => simp [hsel] at h
            | some x =>
              obtain ⟨⟨k, n'⟩, rnd'⟩ := x
              simp only [hsel] at h
              exact ih rnd' root n' r h
        · simp only [Option.some.injEq] at h
          rw [← h]; exact Or.inl rfl

/-- The loop of `Backpropagate` keeps the number of nodes. -/
theorem BackpropagateLoop_size {S : Type} (player : Nat) (score : F64) (fuel : Nat)
    (root : Node S) (n : Option Path) (root' : Node S)
    (h : UCTPolicy.BackpropagateLoop player score fuel root n = some root') :
    root'.size = root.size := by
  refine BackpropagateLoop_preserves (fun r => r.size = root.size) player score ?_ fuel root
    n root' rfl h
  intro r b p v hr hb
  have := size_modify (fun _ => (b.withScore (b.score.set player v)).AddVisit) p r b hb
  have h2 : ((b.withScore (b.score.set player v)).AddVisit).size = b.size := by
    rw [size_eq, size_eq b]
    simp [Node.AddVisit]
  simp only [h2] at this
  omega

/-- One round of the loop of `Search`, when it returns, has counted one visit at the root
and added at most one node. -/
theorem searchRound_size {S : Type} [State S] (m : MathFns) (ord : MapOrder) (fuel : Nat)
    (e : F64) (rnd : Rand) (root : Node S) (r : Node S × Rand)
    (h : searchRound m ord fuel e rnd root = some r) :
    root.policy = Policy.UCTPolicy ∧ (r.1.size = root.size ∨ r.1.size = root.size + 1) := by
  obtain ⟨root1, path, rnd1, node, score, hsel, hnode, _, hback⟩ :=
    (searchRound_eq_some m ord fuel e rnd root r).mp h
  have h1 : root.policy = Policy.UCTPolicy ∧
      (root1.size = root.size ∨ root1.size = root.size + 1) := by
    cases hp : root.policy with
    | nil => simp [hp, Policy.Select] at hsel
    | UCTPolicy =>
      simp only [hp, Policy.Select, UCTPolicy.Select] at hsel
      refine ⟨rfl, ?_⟩
      rcases SelectLoop_cases m ord e fuel rnd root _ _ hsel with h0 | ⟨rnd', p, x, hx, e1, _⟩
      · left; simp only at h0; rw [h0]
      · simp only at e1
        rw [e1]
        exact Expand_size rnd' root p x hx
    | DeterminizationPolicy cp =>
      simp only [hp, Policy.Select] at hsel
      have := DeterminizationPolicy_Select_nil cp fuel rnd root [] _ hsel
      simp at this
  have h2 : r.1.size = root1.size := by
    have hb : UCTPolicy.Backpropagate root1 path score = some r.1 := by
      cases hp : node.policy with
      | nil => simp [hp, Policy.Backpropagate] at hback
      | UCTPolicy => simpa [hp, Policy.Backpropagate] using hback
      | DeterminizationPolicy cp => simpa [hp, Policy.Backpropagate] using hback
    simp only [UCTPolicy.Backpropagate, hnode] at hb
    exact BackpropagateLoop_size _ _ _ _ _ _ hb
  rw [h2]
  exact h1

theorem searchLoop_size {S : Type} [State S] (m : MathFns) (ord : MapOrder) (fuel : Nat)
    (e : F64) : ∀ (level : Nat) (rnd : Rand) (root : Node S) (r : Node S × Rand),
      searchLoop m ord fuel e level rnd root = some r →
      root.size ≤ r.1.size ∧ r.1.size ≤ root.size + level := by
  intro level
  induction level with
  | zero =>
    intro rnd root r h
    simp only [searchLoop, Option.some.injEq] at h
    rw [← h]
    exact ⟨le_refl _, le_refl _⟩
  | succ l ih =>
    intro rnd root r h
    rw [searchLoop] at h
    cases hr : searchRound m ord fuel e rnd root with
    | none => simp [hr] at h
    | some x =>
      obtain ⟨root1, rnd1⟩ := x
      simp only [hr] at h
      have h1 := (searchRound_size m ord fuel e rnd root _ hr).2
      have h2 := ih rnd1 root1 r h
      simp only at h1
      omega

mutual
theorem allNodes_mono {S : Type} (p q : Node S → Bool)
    (h : ∀ x, p x = true → q x = true) :
    ∀ n : Node S, Node.allNodes p n = true → Node.allNodes q n = true
  | Node.mk sc np st v c pol, hn => by
    simp only [Node.allNodes, Bool.and_eq_true] at hn ⊢
    exact ⟨h _ hn.1, allChildren_mono p q h c hn.2⟩
theorem allChildren_mono {S : Type} (p q : Node S → Bool)
    (h : ∀ x, p x = true → q x = true) :
    ∀ l : List (Key × Node S), Node.allChildren p l = true → Node.allChildren q l = true
  | [], _ => by simp [Node.allChildren]
  | (_, c) :: rest, hl => by
    simp only [Node.allChildren, Bool.and_eq_true] at hl ⊢
    exact ⟨allNodes_mono p q h c hl.1, allChildren_mono p q h rest hl.2⟩
end

theorem IndexOK_at {S : Type} [State S] (n : Nat) (root b : Node S) (q : Path)
    (h : root.IndexOK n = true) (hb : root.get? q = some b) :
    b.numPlayers = n ∧ b.score.length = n ∧ (1 ≤ n → b.Player < n) ∧
      b.IndexOK n = true := by
  have hb' := allNodes_of_get? _ q root b h hb
  have := ((allNodes_iff _ b).mp hb').1
  simp only [Bool.and_eq_true, beq_iff_eq] at this
  refine ⟨this.1.1, this.1.2, fun hn => ?_, hb'⟩
  unfold Node.Player
  cases hs : b.State with
  | none => exact hn
  | some s => simpa [hs] using this.2

theorem ScoreOK_of_IndexOK {S : Type} [State S] (n : Nat) (root : Node S)
    (h : root.IndexOK n = true) : root.ScoreOK = true := by
  refine allNodes_mono _ _ (fun x hx => ?_) root h
  simp only [Bool.and_eq_true, beq_iff_eq] at hx ⊢
  rw [hx.1.1, hx.1.2]

theorem selectBestChildLoop_some {S : Type} [State S] (m : MathFns) (root : Node S)
    (path : Path) (e : F64) (player : Nat) :
    ∀ (l : List (Key × Node S)) (st : BestState),
      (∀ entry ∈ l, ∃ u, UpperConfidenceBound m root (path ++ [entry.1]) e player = some u) →
      ∃ st', selectBestChildLoop m root path e player st l = some st' := by
  intro l
  induction l with
  | nil => intro st _; exact ⟨st, rfl⟩
  | cons entry l ih =>
    intro st hall
    obtain ⟨u, hu⟩ := hall entry (List.mem_cons_self _ _)
    have hstep : ∃ st1, selectBestChildStep m root path e player st entry = some st1 := by
      unfold selectBestChildStep
      simp only [hu]
      split
      · exact ⟨_, rfl⟩
      · exact ⟨_, rfl⟩
    obtain ⟨st1, h1⟩ := hstep
    obtain ⟨st', h2⟩ := ih st1 (fun en hen => hall en (List.mem_cons_of_mem _ hen))
    exact ⟨st', by simp only [selectBestChildLoop, h1]; exact h2⟩

/-- In a tree with score vectors long enough for the player of the node, the confidence
bound of every child of the node is computed: no index is out of range. -/
theorem UpperConfidenceBound_some {S : Type} [State S] (m : MathFns) (n : Nat)
    (root b : Node S) (path : Path) (e : F64) (k : Key) (hn : 1 ≤ n)
    (h : root.IndexOK n = true) (hb : root.get? path = some b)
    (hk : (mapGet k b.children).isSome = true) :
    ∃ u, UpperConfidenceBound m root (path ++ [k]) e b.Player = some u := by
  obtain ⟨c, hc⟩ := Option.isSome_iff_exists.mp hk
  have hget : root.get? (path ++ [k]) = some c := by
    rw [get?_append, hb]
    simp [get?_cons, hc, get?_nil]
  obtain ⟨_, hlen, _, _⟩ := IndexOK_at n root c _ h hget
  have hpl := (IndexOK_at n root b path h hb).2.2.1 hn
  have hsc : ∃ x, c.Score b.Player = some x := by
    have hlt : b.Player < c.score.length := by omega
    exact ⟨c.score.get ⟨b.Player, hlt⟩, List.get?_eq_get hlt⟩
  obtain ⟨x, hx⟩ := hsc
  have hpar : (Parent (path ++ [k])).bind root.get? = some b := by
    rw [Parent_concat]
    simpa using hb
  unfold UpperConfidenceBound
  rw [hget]
  simp only
  split
  · exact ⟨_, rfl⟩
  · rw [hx, hpar]
    exact ⟨_, rfl⟩

theorem selectBestChild_some {S : Type} [State S] (m : MathFns) (ord : MapOrder)
    (rnd : Rand) (n : Nat) (root b : Node S) (path : Path) (e : F64) (hn : 1 ≤ n)
    (h : root.IndexOK n = true) (hb : root.get? path = some b) :
    ∃ r, selectBestChild m ord rnd root path e = some r := by
  have hperm := ord.isPerm (rnd 0) b.children
  obtain ⟨st', h2⟩ := selectBestChildLoop_some m root path e b.Player
    (ord.perm (rnd 0) b.children) { maxUCB := F64.ninf, maxIndex := Key.nil, maxima := [] }
    (fun entry hen => UpperConfidenceBound_some m n root b path e entry.1 hn h hb
      ((mapGet_isSome_iff _ _).mpr
        (List.mem_map.mpr ⟨entry, hperm.mem_iff.mp hen, rfl⟩)))
  unfold selectBestChild
  rw [hb]
  simp only [h2]
  split
  · exact ⟨_, rfl⟩
  · split
    · split
      · exact ⟨_, rfl⟩
      · exact ⟨_, rfl⟩
    · exact ⟨_, rfl⟩

theorem Expand_some {S : Type} [State S] (rnd : Rand) (root b : Node S) (path : Path)
    (s : S) (hb : root.get? path = some b) (hs : b.State = some s)
    (hN : 1 ≤ b.numPlayers) : ∃ r, UCTPolicy.Expand rnd root path = some r := by
  have hnew : (Node.NewNode b.NumPlayers : Node S × Bool) =
      ((Node.NewNode b.NumPlayers : Node S × Bool).1, false) := by
    have : ¬ b.numPlayers ≤ 0 := by omega
    simp [Node.NewNode, Node.NumPlayers, this]
  unfold UCTPolicy.Expand
  simp only [hb, hs]
  split
  · exact ⟨_, rfl⟩
  · rw [hnew]
    exact ⟨_, rfl⟩

/-- C39: in a tree where every node has the player count `n ≥ 1`, a score vector of
length `n` and, when it holds a state, a state whose player is below `n`, no score vector
is indexed out of range: `Backpropagate` from every node returns; `selectBestChild` at
every node returns, and so does `UpperConfidenceBound` of every child for the player of
the node; `Merge` of a tree with one score entry per player into every node returns; and
at no node does `NewNode(node.NumPlayers())` give the error on which `Expand` panics, so
`Expand` returns at every node that holds a state. -/
theorem index_safety {S : Type} [State S] (m : MathFns) (ord : MapOrder) (n : Nat)
    (root : Node S) (hn : 1 ≤ n) (h : root.IndexOK n = true) :
    (∀ path node score, root.get? path = some node →
      ∃ root', UCTPolicy.Backpropagate root path score = some root') ∧
    (∀ rnd path node e, root.get? path = some node →
      (∃ r, selectBestChild m ord rnd root path e = some r) ∧
      ∀ k, (node.GetChild k).isSome = true →
        ∃ u, UpperConfidenceBound m root (path ++ [k]) e node.Player = some u) ∧
    (∀ path node other, root.get? path = some node → other.ScoreOK = true →
      ∃ r e, Node.Merge node other = some (r, e)) ∧
    (∀ path node, root.get? path = some node →
      (Node.NewNode node.NumPlayers : Node S × Bool).2 = false) ∧
    (∀ rnd path node s, root.get? path = some node → node.State = some s →
      ∃ r, UCTPolicy.Expand rnd root path = some r) := by
  refine ⟨fun path node score hnode => ?_, fun rnd path node e hnode => ⟨?_, fun k hk => ?_⟩,
    fun path node other hnode ho => ?_, fun path node hnode => ?_,
    fun rnd path node s hnode hs => ?_⟩
  · obtain ⟨root', h1, _⟩ := Backpropagate_spec root node path score hnode
      (fun q b _ hb => by
        have h1 := (IndexOK_at n root b q h hb).2.1
        have h2 := (IndexOK_at n root node path h hnode).2.2.1 hn
        omega)
    exact ⟨root', h1⟩
  · exact selectBestChild_some m ord rnd n root node path e hn h hnode
  · exact UpperConfidenceBound_some m n root node path e k hn h hnode hk
  · obtain ⟨r, e, hr, _⟩ := Merge_total other node ho
      (ScoreOK_of_IndexOK n node (IndexOK_at n root node path h hnode).2.2.2)
    exact ⟨r, e, hr⟩
  · have := (IndexOK_at n root node path h hnode).1
    have h0 : ¬ node.numPlayers ≤ 0 := by omega
    simp [Node.NewNode, Node.NumPlayers, h0]
  · exact Expand_some rnd root node path s hnode hs
      (by rw [(IndexOK_at n root node path h hnode).1]; exact hn)

/-- C39 on the two-player tree `conflictOther`, whose child holds a state of player 1. -/
theorem index_safety_witness :
    (∀ path node score, conflictOther.get? path = some node →
      ∃ root', UCTPolicy.Backpropagate conflictOther path score = some root') ∧
    (∀ rnd path node e, conflictOther.get? path = some node →
      (∃ r, selectBestChild testMath testOrder rnd conflictOther path e = some r) ∧
      ∀ k, (node.GetChild k).isSome = true →
        ∃ u, UpperConfidenceBound testMath conflictOther (path ++ [k]) e node.Player =
          some u) ∧
    (∀ path node other, conflictOther.get? path = some node → other.ScoreOK = true →
      ∃ r e, Node.Merge node other = some (r, e)) ∧
    (∀ path node, conflictOther.get? path = some node →
      (Node.NewNode node.NumPlayers : Node simpleStateImplementation × Bool).2 = false) ∧
    (∀ rnd path node s, conflictOther.get? path = some node → node.State = some s →
      ∃ r, UCTPolicy.Expand rnd conflictOther path = some r) :=
  index_safety testMath testOrder 2 conflictOther (by decide) (by decide)

theorem KeepsPolicies_refl {S : Type} (node : Node S) : KeepsPolicies node node :=
  fun _ b hb => ⟨b, hb, rfl⟩

theorem KeepsPolicies_trans {S : Type} {a b c : Node S} (h1 : KeepsPolicies a b)
    (h2 : KeepsPolicies b c) : KeepsPolicies a c := by
  intro q x hx
  obtain ⟨y, hy, e1⟩ := h1 q x hx
  obtain ⟨z, hz, e2⟩ := h2 q y hy
  exact ⟨z, hz, by rw [e2, e1]⟩

theorem KeepsPolicies_of_fields {S : Type} (a b : Node S) (hp : b.policy = a.policy)
    (hc : b.children = a.children) : KeepsPolicies a b := by
  intro q x hx
  cases q with
  | nil =>
    simp only [get?_nil, Option.some.injEq] at hx
    subst hx
    exact ⟨b, rfl, hp⟩
  | cons k ks =>
    rw [get?_congr_children hc]
    exact ⟨x, hx, rfl⟩

/-- Storing under `k` a child that keeps the policies of the child stored there (if
any) keeps the policies of the node. -/
theorem KeepsPolicies_SetChild {S : Type} (node c' : Node S) (k : Key)
    (h : ∀ c, mapGet k node.children = some c → KeepsPolicies c c') :
    KeepsPolicies node (node.SetChild k c') := by
  intro q x hx
  cases q with
  | nil =>
    simp only [get?_nil, Option.some.injEq] at hx
    subst hx
    exact ⟨_, rfl, by simp⟩
  | cons k' ks =>
    rw [get?_cons] at hx
    rw [get?_cons, children_SetChild]
    by_cases hk : k' = k
    · subst hk
      rw [mapGet_mapSet_self]
      cases hc : mapGet k' node.children with
      | none => simp [hc] at hx
      | some c =>
        simp only [hc, Option.some_bind] at hx
        exact h c hc ks x hx
    · rw [mapGet_mapSet_ne _ _ _ _ hk]
      exact ⟨x, hx, rfl⟩

theorem AllUCT_SetChild {S : Type} (n c : Node S) (k : Key) (hn : n.AllUCT = true)
    (hc : c.AllUCT = true) : (n.SetChild k c).AllUCT = true :=
  allNodes_SetChild _ (fun _ _ => by simp) n c k hn hc

theorem AllUCT_NewNode {S : Type} (n : Nat) :
    ((Node.NewNode n : Node S × Bool).1).AllUCT = true := by
  unfold Node.AllUCT
  rw [allNodes_iff]
  simp [Node.allChildren]

mutual
/-- `Merge` keeps the policy of every node of the receiver, and gives the nodes it adds
the confidence-bound policy. -/
theorem Merge_policy {S : Type} [State S] :
    ∀ (other node r : Node S) (e : Option MergeError),
      Node.Merge node other = some (r, e) →
      KeepsPolicies node r ∧ (node.AllUCT = true → r.AllUCT = true)
  | Node.mk oscore onum ostate ovisits ochildren opolicy, node, r, e, h => by
    rw [Merge_eq] at h
    split at h
    · simp only [Option.some.injEq, Prod.mk.injEq] at h
      rw [← h.1]
      exact ⟨KeepsPolicies_refl _, id⟩
    · split at h
      · exact absurd h (by simp)
      · rename_i sc _
        simp only at h
        split at h
        · exact absurd h (by simp)
        · rename_i node3 hloop
          simp only [Option.some.injEq, Prod.mk.injEq] at h
          rw [← h.1]
          simp only [Node.children] at hloop
          obtain ⟨h1, h2⟩ := mergeLoop_policy ochildren _ node3 hloop
          refine ⟨KeepsPolicies_trans (KeepsPolicies_of_fields _ _ ?_ ?_) h1,
            fun hn => h2 ?_⟩
          · split <;> simp
          · split <;> simp
          · unfold Node.AllUCT at hn ⊢
            rw [allNodes_iff] at hn ⊢
            split <;> simpa using hn
/-- The loop of `Merge` keeps the policy of every node of the receiver, and gives the
nodes it adds the confidence-bound policy. -/
theorem mergeLoop_policy {S : Type} [State S] :
    ∀ (l : List (Key × Node S)) (node r : Node S), Node.mergeLoop node l = some r →
      KeepsPolicies node r ∧ (node.AllUCT = true → r.AllUCT = true)
  | [], node, r, h => by
    simp only [Node.mergeLoop, Option.some.injEq] at h
    rw [← h]
    exact ⟨KeepsPolicies_refl _, id⟩
  | (k, oc) :: rest, node, r, h => by
    rw [Node.mergeLoop] at h
    cases hget : mapGet k node.children with
    | none =>
      simp only [hget] at h
      cases hm : Node.Merge (Node.NewNode oc.NumPlayers).1 oc with
      | none => simp [hm] at h
      | some x =>
        obtain ⟨otherCopy, e'⟩ := x
        simp only [hm] at h
        obtain ⟨_, c2⟩ := Merge_policy oc _ otherCopy e' hm
        obtain ⟨h1, h2⟩ := mergeLoop_policy rest _ r h
        exact ⟨KeepsPolicies_trans
          (KeepsPolicies_SetChild node otherCopy k (fun c hc => by simp [hget] at hc)) h1,
          fun hn => h2 (AllUCT_SetChild _ _ _ hn (c2 (AllUCT_NewNode _)))⟩
    | some child =>
      simp only [hget] at h
      cases hm : Node.Merge child oc with
      | none => simp [hm] at h
      | some x =>
        obtain ⟨child', e'⟩ := x
        simp only [hm] at h
        obtain ⟨c1, c2⟩ := Merge_policy oc child child' e' hm
        obtain ⟨h1, h2⟩ := mergeLoop_policy rest _ r h
        exact ⟨KeepsPolicies_trans
          (KeepsPolicies_SetChild node child' k (fun c hc => by
            rw [hget] at hc
            rw [← Option.some.inj hc]
            exact c1)) h1,
          fun hn => h2 (AllUCT_SetChild _ _ _ hn
            (c2 (allNodes_of_mapGet _ hn hget)))⟩
end

/-- C38: `Copy` does not carry policies over.  On a tree with one score entry per player,
`Copy` returns a tree whose nodes all have the confidence-bound policy, whatever the
policies of the nodes of `n`, and so has the worker tree that `Tree.Copy` returns; and a
`Merge` into `n` that returns, with or without an error, leaves at every place of `n` a
node with the policy that the node there had. -/
theorem Copy_drops_policies {S : Type} [State S] (n : Node S) (hn : n.ScoreOK = true) :
    (∃ c, n.Copy = some c ∧ c.AllUCT = true ∧
      ∀ q b, c.get? q = some b → b.policy = Policy.UCTPolicy) ∧
    (∀ actions : List (Key × (S → S)),
      ∃ t, Tree.Copy { possibleActions := actions, root := n } = some t ∧
        ∀ q b, t.root.get? q = some b → b.policy = Policy.UCTPolicy) ∧
    (∀ other r e, Node.Merge n other = some (r, e) →
      r.policy = n.policy ∧
      ∀ q b, n.get? q = some b → ∃ b', r.get? q = some b' ∧ b'.policy = b.policy) := by
  obtain ⟨c, hc, hm, _, _⟩ := Copy_total n hn
  have hall : c.AllUCT = true := (Merge_policy n _ c none hm).2 (AllUCT_NewNode _)
  have hat : ∀ q b, c.get? q = some b → b.policy = Policy.UCTPolicy := by
    intro q b hb
    have := allNodes_of_get? _ q c b hall hb
    rw [allNodes_iff] at this
    simpa using this.1
  refine ⟨⟨c, hc, hall, hat⟩, fun actions => ⟨{ possibleActions := actions, root := c }, ?_,
    hat⟩, fun other r e hr => ?_⟩
  · simp [Tree.Copy, Tree.Root, hc]
  · have h1 := (Merge_policy other n r e hr).1
    obtain ⟨b', hb', e1⟩ := h1 [] n rfl
    simp only [get?_nil, Option.some.injEq] at hb'
    subst hb'
    exact ⟨e1, h1⟩

/-- C38 on the chance node `abRootExpanded`, whose nodes all have the determinization
policy. -/
theorem Copy_drops_policies_witness :
    (∃ c, abRootExpanded.Copy = some c ∧ c.AllUCT = true ∧
      ∀ q b, c.get? q = some b → b.policy = Policy.UCTPolicy) ∧
    (∀ actions : List (Key × (abState → abState)),
      ∃ t, Tree.Copy { possibleActions := actions, root := abRootExpanded } = some t ∧
        ∀ q b, t.root.get? q = some b → b.policy = Policy.UCTPolicy) ∧
    (∀ other r e, Node.Merge abRootExpanded other = some (r, e) →
      r.policy = abRootExpanded.policy ∧
      ∀ q b, abRootExpanded.get? q = some b →
        ∃ b', r.get? q = some b' ∧ b'.policy = b.policy) :=
  Copy_drops_policies abRootExpanded (by
    rw [ScoreOK_iff]
    refine ⟨rfl, fun kc hkc => ?_⟩
    simp only [abRootExpanded, Node.children, List.mem_cons, List.mem_singleton,
      List.not_mem_nil, or_false] at hkc
    rcases hkc with h | h <;> (rw [h]; exact ScoreOK_newChild _ _))

theorem VisitsOK_iff {S : Type} (n : Node S) :
    n.VisitsOK = true ↔
      childVisits n.children ≤ n.visits ∧ ∀ kc ∈ n.children, kc.2.VisitsOK = true := by
  unfold Node.VisitsOK
  rw [allNodes_iff, allChildren_iff]
  simp

theorem childVisits_nil {S : Type} : childVisits ([] : List (Key × Node S)) = 0 := rfl

theorem childVisits_cons {S : Type} (k : Key) (c : Node S) (l : List (Key × Node S)) :
    childVisits ((k, c) :: l) = c.visits + childVisits l := by
  simp [childVisits]

theorem childVisits_mapSet_none {S : Type} (k : Key) (c : Node S) :
    ∀ l : List (Key × Node S), mapGet k l = none →
      childVisits (mapSet k c l) = childVisits l + c.visits := by
  intro l
  induction l with
  | nil => intro _; simp [mapSet, childVisits]
  | cons x l ih =>
    obtain ⟨k', c'⟩ := x
    intro h
    by_cases hk : k' = k
    · simp [mapGet, hk] at h
    · have h' : mapGet k l = none := by simpa [mapGet, hk] using h
      simp only [mapSet, hk, if_false, childVisits_cons, ih h']
      ring

theorem childVisits_mapSet_some {S : Type} (k : Key) (c c0 : Node S) :
    ∀ l : List (Key × Node S), mapGet k l = some c0 →
      childVisits (mapSet k c l) = childVisits l - c0.visits + c.visits := by
  intro l
  induction l with
  | nil => intro h; simp [mapGet] at h
  | cons x l ih =>
    obtain ⟨k', c'⟩ := x
    intro h
    by_cases hk : k' = k
    · simp only [mapGet, hk, if_true, Option.some.injEq] at h
      subst h
      simp only [mapSet, hk, if_true, childVisits_cons]
      ring
    · have h' : mapGet k l = some c0 := by simpa [mapGet, hk] using h
      simp only [mapSet, hk, if_false, childVisits_cons, ih h']
      ring

theorem mapSet_mapSet {α : Type} (k : Key) (a b : α) :
    ∀ l : List (Key × α), mapSet k a (mapSet k b l) = mapSet k a l := by
  intro l
  induction l with
  | nil => simp [mapSet]
  | cons x l ih =>
    obtain ⟨k', c'⟩ := x
    by_cases hk : k' = k
    · simp [mapSet, hk]
    · simp [mapSet, hk, ih]

mutual
theorem VisitsOK_nonneg {S : Type} : ∀ n : Node S, n.VisitsOK = true → 0 ≤ n.visits
  | Node.mk sc np st v c pol, hn => by
    rw [VisitsOK_iff] at hn
    have := childVisits_nonneg c hn.2
    simp only [Node.children, Node.visits] at hn ⊢
    omega
theorem childVisits_nonneg {S : Type} : ∀ l : List (Key × Node S),
    (∀ kc ∈ l, kc.2.VisitsOK = true) → 0 ≤ childVisits l
  | [], _ => by simp [childVisits]
  | (k, c) :: rest, hl => by
    rw [childVisits_cons]
    have h1 := VisitsOK_nonneg c (hl (k, c) (List.mem_cons_self _ _))
    have h2 := childVisits_nonneg rest (fun kc h => hl kc (List.mem_cons_of_mem _ h))
    omega
end

theorem VisitsOK_NewNode {S : Type} (n : Nat) :
    ((Node.NewNode n : Node S × Bool).1).VisitsOK = true := by
  rw [VisitsOK_iff]
  simp [childVisits]

theorem VisitsOK_children_SetChild {S : Type} (n c : Node S) (k : Key)
    (hn : ∀ kc ∈ n.children, kc.2.VisitsOK = true) (hc : c.VisitsOK = true) :
    ∀ kc ∈ (n.SetChild k c).children, kc.2.VisitsOK = true := by
  intro kc hkc
  rw [children_SetChild] at hkc
  rcases mem_mapSet hkc with h | h
  · rw [h]; exact hc
  · exact hn kc h

mutual
/-- `Merge` of two trees in which every node has at least the visits of its children
leaves such a tree, whose root has at most the visits of the two roots together. -/
theorem Merge_visits {S : Type} [State S] :
    ∀ (other node r : Node S) (e : Option MergeError), node.VisitsOK = true →
      other.VisitsOK = true → Node.Merge node other = some (r, e) →
      r.VisitsOK = true ∧ r.visits ≤ node.visits + other.visits
  | Node.mk oscore onum ostate ovisits ochildren opolicy, node, r, e, hn, ho, h => by
    have hnn := VisitsOK_nonneg _ ho
    have ho' := (VisitsOK_iff _).mp ho
    have hn' := (VisitsOK_iff _).mp hn
    simp only [Node.children, Node.visits] at ho' hnn
    rw [Merge_eq] at h
    split at h
    · simp only [Option.some.injEq, Prod.mk.injEq] at h
      rw [← h.1]
      refine ⟨hn, ?_⟩
      simp only [Node.visits]
      omega
    · split at h
      · exact absurd h (by simp)
      · rename_i sc _
        simp only at h
        split at h
        · exact absurd h (by simp)
        · rename_i node3 hloop
          simp only [Option.some.injEq, Prod.mk.injEq] at h
          rw [← h.1]
          simp only [Node.children] at hloop
          obtain ⟨h1, h2, h3⟩ := mergeLoop_visits ochildren _ node3 ho'.2
            (by split <;> simpa using hn'.2) hloop
          have hv : node3.visits = node.visits + ovisits := by
            rw [h3]
            split <;> simp only [visits_withState, visits_withVisits, Node.Visits] <;> rfl
          have hc : childVisits node3.children ≤ childVisits node.children +
              childVisits ochildren := by
            refine le_trans h2 (le_of_eq ?_)
            split <;> simp
          refine ⟨(VisitsOK_iff _).mpr ⟨?_, h1⟩, ?_⟩
          · rw [hv]
            have := hn'.1
            have := ho'.1
            omega
          · rw [hv]
            simp [Node.visits]
/-- The loop of `Merge`: the children of the receiver gain at most the visits of the
children it is given. -/
theorem mergeLoop_visits {S : Type} [State S] :
    ∀ (l : List (Key × Node S)) (node r : Node S), (∀ kc ∈ l, kc.2.VisitsOK = true) →
      (∀ kc ∈ node.children, kc.2.VisitsOK = true) → Node.mergeLoop node l = some r →
      (∀ kc ∈ r.children, kc.2.VisitsOK = true) ∧
        childVisits r.children ≤ childVisits node.children + childVisits l ∧
        r.visits = node.visits
  | [], node, r, _, hn, h => by
    simp only [Node.mergeLoop, Option.some.injEq] at h
    rw [← h]
    exact ⟨hn, by simp [childVisits_nil], rfl⟩
  | (k, oc) :: rest, node, r, hl, hn, h => by
    have hoc : oc.VisitsOK = true := hl (k, oc) (List.mem_cons_self _ _)
    have hrest : ∀ kc ∈ rest, kc.2.VisitsOK = true := fun kc hk =>
      hl kc (List.mem_cons_of_mem _ hk)
    rw [Node.mergeLoop] at h
    cases hget : mapGet k node.children with
    | none =>
      simp only [hget] at h
      cases hm : Node.Merge (Node.NewNode oc.NumPlayers).1 oc with
      | none => simp [hm] at h
      | some x =>
        obtain ⟨otherCopy, e'⟩ := x
        simp only [hm] at h
        obtain ⟨c1, c2⟩ := Merge_visits oc _ otherCopy e' (VisitsOK_NewNode _) hoc hm
        obtain ⟨h1, h2, h3⟩ := mergeLoop_visits rest _ r hrest
          (VisitsOK_children_SetChild node otherCopy k hn c1) h
        refine ⟨h1, ?_, by rw [h3]; simp⟩
        rw [children_SetChild, childVisits_mapSet_none _ _ _ hget] at h2
        rw [childVisits_cons]
        simp only [visits_NewNode, zero_add] at c2
        omega
    | some child =>
      simp only [hget] at h
      cases hm : Node.Merge child oc with
      | none => simp [hm] at h
      | some x =>
        obtain ⟨child', e'⟩ := x
        simp only [hm] at h
        obtain ⟨c1, c2⟩ := Merge_visits oc child child' e' (hn (k, child) (mapGet_mem hget))
          hoc hm
        obtain ⟨h1, h2, h3⟩ := mergeLoop_visits rest _ r hrest
          (VisitsOK_children_SetChild node child' k hn c1) h
        refine ⟨h1, ?_, by rw [h3]; simp⟩
        rw [children_SetChild, childVisits_mapSet_some _ _ _ _ hget] at h2
        rw [childVisits_cons]
        omega
end

/-- A write that keeps the visits of the node written and the invariant below it keeps
the invariant of the tree. -/
theorem VisitsOK_modify {S : Type} (f : Node S → Node S) : ∀ (path : Path) (root : Node S),
    root.VisitsOK = true →
    (∀ b, root.get? path = some b → b.VisitsOK = true →
      (f b).VisitsOK = true ∧ (f b).visits = b.visits) →
    (root.modify f path).VisitsOK = true ∧ (root.modify f path).visits = root.visits := by
  intro path
  induction path with
  | nil =>
    intro root h hf
    exact hf root rfl h
  | cons k ks ih =>
    intro root h hf
    simp only [Node.modify]
    cases hc : mapGet k root.children with
    | none => exact ⟨h, rfl⟩
    | some c =>
      simp only
      have h' := (VisitsOK_iff _).mp h
      obtain ⟨i1, i2⟩ := ih c (h'.2 (k, c) (mapGet_mem hc))
        (fun b hb hbo => hf b (by rw [get?_cons, hc]; exact hb) hbo)
      refine ⟨(VisitsOK_iff _).mpr ⟨?_, fun kc hkc => ?_⟩, by simp⟩
      · rw [children_withChildren, childVisits_mapSet_some _ _ _ _ hc, i2]
        simpa using h'.1
      · rw [children_withChildren] at hkc
        rcases mem_mapSet hkc with e | e
        · rw [e]; exact i1
        · exact h'.2 kc e

theorem VisitsOK_newChild {S : Type} [State S] (n : Nat) (st : S) :
    (newChild n st : Node S).VisitsOK = true := by
  rw [VisitsOK_iff, children_newChild]
  simp [childVisits, newChild]

/-- `Expand` keeps the invariant: the child it adds has no visit. -/
theorem Expand_visits {S : Type} [State S] (rnd : Rand) (root : Node S) (path : Path)
    (r : (Node S × Path) × Rand) (hroot : root.VisitsOK = true)
    (h : UCTPolicy.Expand rnd root path = some r) : r.1.1.VisitsOK = true := by
  obtain ⟨b, s, hb, _, hcase⟩ := Expand_cases rnd root path r h
  rcases hcase with ⟨e1, _⟩ | ⟨index, action, _, hnone, _, e1, _⟩
  · rw [e1]; exact hroot
  · rw [e1]
    refine (VisitsOK_modify _ path root hroot (fun b' hb' hbo => ?_)).1
    rw [hb] at hb'
    rw [← Option.some.inj hb'] at hbo ⊢
    have hbo' := (VisitsOK_iff _).mp hbo
    refine ⟨(VisitsOK_iff _).mpr ⟨?_, ?_⟩, by simp⟩
    · rw [children_SetChild, childVisits_mapSet_none _ _ _ hnone]
      have : (newChild b.NumPlayers (action (State.Copy s)) : Node S).visits = 0 := by
        simp [newChild]
      rw [this]
      simpa using hbo'.1
    · exact VisitsOK_children_SetChild b _ index hbo'.2 (VisitsOK_newChild _ _)

/-- A property of the tree and the pointer of the loop of `Backpropagate` that every
round of the loop keeps holds when the loop ends. -/
theorem BackpropagateLoop_invariant {S : Type} (P : Node S → Option Path → Prop)
    (player : Nat) (score : F64)
    (hstep : ∀ (root b : Node S) (n : Path) (v : F64), P root (some n) →
      root.get? n = some b →
      P (root.modify (fun _ => (b.withScore (b.score.set player v)).AddVisit) n)
        (Parent n)) :
    ∀ (fuel : Nat) (root : Node S) (n : Option Path) (root' : Node S), P root n →
      UCTPolicy.BackpropagateLoop player score fuel root n = some root' → P root' none := by
  intro fuel
  induction fuel with
  | zero =>
    intro root n root' hP h
    cases n with
    | none =>
      simp only [UCTPolicy.BackpropagateLoop, Option.some.injEq] at h
      rw [← h]; exact hP
    | some p => simp [UCTPolicy.BackpropagateLoop] at h
  | succ f ih =>
    intro root n root' hP h
    cases n with
    | none =>
      simp only [UCTPolicy.BackpropagateLoop, Option.some.injEq] at h
      rw [← h]; exact hP
    | some p =>
      rw [UCTPolicy.BackpropagateLoop] at h
      cases hb : root.get? p with
      | none => simp [hb] at h
      | some b =>
        simp only [hb] at h
        cases hsc : b.Score player with
        | none => simp [hsc] at h
        | some old =>
          simp only [hsc] at h
          cases hset : b.SetScore player (F64.add old score) with
          | none => simp [hset] at h
          | some node1 =>
            simp only [hset] at h
            have hnode1 : node1 = b.withScore (b.score.set player (F64.add old score)) := by
              unfold Node.SetScore at hset
              split at hset
              · exact (Option.some.inj hset).symm
              · simp at hset
            rw [hnode1] at h
            exact ih _ _ root' (hstep root b p _ hP hb) h

theorem DebtOK_of_VisitsOK {S : Type} : ∀ (path : Path) (root b : Node S),
    root.VisitsOK = true → root.get? path = some b → root.DebtOK path := by
  intro path
  induction path with
  | nil =>
    intro root b h _
    have h' := (VisitsOK_iff _).mp h
    exact ⟨by have := h'.1; omega, h'.2⟩
  | cons k ks ih =>
    intro root b h hb
    have h' := (VisitsOK_iff _).mp h
    rw [get?_cons] at hb
    cases hc : mapGet k root.children with
    | none => simp [hc] at hb
    | some c =>
      simp only [hc, Option.some_bind] at hb
      refine ⟨h'.1, c, hc, ih c b (h'.2 (k, c) (mapGet_mem hc)) hb, fun kc hkc => ?_⟩
      rcases mem_mapSet hkc with e | e
      · rw [e]; exact VisitsOK_NewNode 0
      · exact h'.2 kc e

theorem mem_mapSet_other {α : Type} (k : Key) (a b : α) (x : Key × α) :
    ∀ l : List (Key × α), x ∈ mapSet k a l → x = (k, a) ∨ x ∈ mapSet k b l := by
  intro l
  induction l with
  | nil => intro h; left; simpa [mapSet] using h
  | cons y l ih =>
    obtain ⟨k', c'⟩ := y
    intro h
    by_cases hk : k' = k
    · simp only [mapSet, hk, if_true, List.mem_cons] at h ⊢
      rcases h with e | e
      · exact Or.inl e
      · exact Or.inr (Or.inr e)
    · simp only [mapSet, hk, if_false, List.mem_cons] at h ⊢
      rcases h with e | e
      · exact Or.inr (Or.inl e)
      · rcases ih e with e' | e'
        · exact Or.inl e'
        · exact Or.inr (Or.inr e')

/-- One round of the loop of `Backpropagate` moves the debt from the node to its
parent. -/
theorem DebtOK_step {S : Type} (X : Node S) : ∀ (n : Path) (root b : Node S),
    root.DebtOK n → root.get? n = some b → X.visits = b.visits + 1 →
    X.children = b.children → (root.modify (fun _ => X) n).VisitsInv (Parent n) := by
  intro n
  induction n with
  | nil =>
    intro root b hd hb hv hc
    simp only [get?_nil, Option.some.injEq] at hb
    subst hb
    obtain ⟨d1, d2⟩ := hd
    show X.VisitsOK = true
    rw [VisitsOK_iff, hc, hv]
    exact ⟨d1, d2⟩
  | cons k ks ih =>
    intro root b hd hb hv hc
    obtain ⟨d1, c, hget, d2, d3⟩ := hd
    rw [get?_cons, hget] at hb
    simp only [Option.some_bind] at hb
    simp only [Node.modify, hget]
    cases ks with
    | nil =>
      simp only [get?_nil, Option.some.injEq] at hb
      subst hb
      obtain ⟨e1, e2⟩ := d2
      show (root.withChildren (mapSet k X root.children)).DebtOK []
      refine ⟨?_, fun kc hkc => ?_⟩
      · rw [children_withChildren, childVisits_mapSet_some _ _ _ _ hget, hv]
        simp only [visits_withChildren]
        omega
      · rw [children_withChildren] at hkc
        rcases mem_mapSet_other k X (Node.NewNode 0).1 kc _ hkc with e | e
        · rw [e]
          rw [VisitsOK_iff, hc, hv]
          exact ⟨e1, e2⟩
        · exact d3 kc e
    | cons k2 ks' =>
      have hi := ih c b d2 hb hv hc
      have hp : Parent (k :: k2 :: ks') = some (k :: (k2 :: ks').dropLast) := by
        simp [Parent]
      have hp2 : Parent (k2 :: ks') = some (k2 :: ks').dropLast := by simp [Parent]
      rw [hp]
      rw [hp2] at hi
      show (root.withChildren (mapSet k (Node.modify (fun _ => X) c (k2 :: ks'))
        root.children)).DebtOK (k :: (k2 :: ks').dropLast)
      refine ⟨?_, Node.modify (fun _ => X) c (k2 :: ks'), ?_, hi, ?_⟩
      · rw [children_withChildren, childVisits_mapSet_some _ _ _ _ hget,
          visits_modify_cons]
        simpa using d1
      · simp [mapGet_mapSet_self]
      · rw [children_withChildren, mapSet_mapSet]
        exact d3

/-- `Backpropagate` keeps the invariant. -/
theorem Backpropagate_visits {S : Type} [State S] (root root' : Node S) (path : Path)
    (score : F64) (hroot : root.VisitsOK = true)
    (h : UCTPolicy.Backpropagate root path score = some root') : root'.VisitsOK = true := by
  unfold UCTPolicy.Backpropagate at h
  cases hn : root.get? path with
  | none => simp [hn] at h
  | some node =>
    simp only [hn] at h
    exact BackpropagateLoop_invariant Node.VisitsInv node.Player score
      (fun r b n v hP hb => DebtOK_step _ n r b hP hb (by simp [Node.AddVisit]) (by
        simp [Node.AddVisit]))
      _ root (some path) root' (DebtOK_of_VisitsOK path root node hroot hn) h

theorem statsAt_nil {S : Type} [State S] (x : Node S) : statsAt x [] = some x.stats := rfl

theorem statsAt_cons {S : Type} [State S] (x : Node S) (k : Key) (ks : Path) :
    statsAt x (k :: ks) = (mapGet k x.children).bind (fun c => statsAt c ks) := by
  unfold statsAt
  rw [get?_cons]
  cases mapGet k x.children <;> rfl

theorem mergeStatsAt_none_right (a : Option NodeStats) : mergeStatsAt a none = a := by
  cases a <;> rfl

theorem mergeStatsAt_none_left (b : Option NodeStats) : mergeStatsAt none b = b := by
  cases b <;> rfl

theorem CopyKeepsPlayer_iff {S : Type} [State S] (n : Node S) :
    n.CopyKeepsPlayer = true ↔
      (∀ s, n.State = some s → State.Player (State.Copy s) = State.Player s) ∧
        ∀ kc ∈ n.children, kc.2.CopyKeepsPlayer = true := by
  unfold Node.CopyKeepsPlayer
  rw [allNodes_iff, allChildren_iff]
  constructor
  · rintro ⟨h1, h2⟩
    refine ⟨fun s hs => ?_, h2⟩
    rw [hs] at h1
    simpa using h1
  · rintro ⟨h1, h2⟩
    refine ⟨?_, h2⟩
    cases hs : n.State with
    | none => rfl
    | some s => simpa using h1 s hs

/-- The copy of a tree has the statistics of the tree at every place. -/
theorem Copy_statsAt {S : Type} [State S] : ∀ (q : Path) (n c : Node S),
    n.ScoreOK = true → n.KeysOK = true → n.CopyKeepsPlayer = true → n.Copy = some c →
    statsAt c q = statsAt n q := by
  intro q
  induction q with
  | nil =>
    intro n c hS hK hP hc
    obtain ⟨c', hc', h1, h2, h3, h4, _⟩ := Copy_spec n hS hK
    rw [hc] at hc'
    rw [← Option.some.inj hc'] at h1 h2 h3 h4
    simp only [statsAt_nil, Node.stats, h1, h2, h3, h4, Option.some.injEq]
    congr 1
    cases hs : n.State with
    | none => rfl
    | some s =>
      simp only [Option.map_some', Option.some.injEq]
      exact ((CopyKeepsPlayer_iff n).mp hP).1 s hs
  | cons k ks ih =>
    intro n c hS hK hP hc
    obtain ⟨c', hc', _, _, _, _, h5, h6, _⟩ := Copy_spec n hS hK
    rw [hc] at hc'
    rw [← Option.some.inj hc'] at h5 h6
    rw [statsAt_cons, statsAt_cons]
    cases hch : mapGet k n.children with
    | none =>
      have : mapGet k c.children = none := by
        rw [mapGet_eq_none_iff, h5, ← mapGet_eq_none_iff]
        exact hch
      rw [this]
    | some ch =>
      obtain ⟨cc, hcc, hget⟩ := h6 k ch hch
      rw [hget]
      simp only [Option.some_bind]
      exact ih ch cc (ScoreOK_of_mapGet hS hch) (KeysOK_of_mapGet hK hch)
        (allNodes_of_mapGet _ hP hch) hcc

theorem Compatible_child {S : Type} [State S] {a b c oc : Node S} {k : Key}
    (h : Compatible a b) (hc : mapGet k a.children = some c)
    (hoc : mapGet k b.children = some oc) : Compatible c oc := by
  intro q x y hx hy
  refine h (k :: q) x y ?_ ?_
  · rw [get?_cons, hc]; exact hx
  · rw [get?_cons, hoc]; exact hy

/-- The statistics at every place after a merge of compatible trees. -/
theorem Merge_statsAt {S : Type} [State S] : ∀ (q : Path) (a b : Node S),
    a.ScoreOK = true → b.ScoreOK = true → b.KeysOK = true → b.CopyKeepsPlayer = true →
    Compatible a b →
    ∃ r, Node.Merge a b = some (r, none) ∧ r.ScoreOK = true ∧
      statsAt r q = mergeStatsAt (statsAt a q) (statsAt b q) := by
  intro q
  induction q with
  | nil =>
    intro a b ha hb hbK hbP hcomp
    obtain ⟨r, h1, _, h3, h4, h5, h6, _, h8, _⟩ := Merge_ok a b (hcomp [] a b rfl rfl) ha hb
    refine ⟨r, h1, h8, ?_⟩
    simp only [statsAt_nil, mergeStatsAt, NodeStats.merge, Node.stats, h3, h4, h5, h6,
      Option.some.injEq]
    congr 1
    cases hs : a.State with
    | some s => rfl
    | none =>
      simp only [Option.map_none', Option.map_map]
      cases hbs : b.State with
      | none => rfl
      | some t =>
        simp only [Option.map_some', Function.comp_apply, Option.some.injEq]
        exact ((CopyKeepsPlayer_iff b).mp hbP).1 t hbs
  | cons k ks ih =>
    intro a b ha hb hbK hbP hcomp
    have hg := hcomp [] a b rfl rfl
    obtain ⟨r, h1, _, _, _, _, _, _, h8, _⟩ := Merge_ok a b hg ha hb
    refine ⟨r, h1, h8, ?_⟩
    have hch := Merge_children a b r hg ha hb ((KeysOK_iff b).mp hbK).1 h1 k
    rw [statsAt_cons, statsAt_cons, statsAt_cons, hch]
    cases hoc : mapGet k b.children with
    | none =>
      simp only [Option.none_bind, mergeStatsAt_none_right]
    | some oc =>
      have hocS := ScoreOK_of_mapGet hb hoc
      have hocK := KeysOK_of_mapGet hbK hoc
      have hocP := allNodes_of_mapGet _ hbP hoc
      cases hc : mapGet k a.children with
      | none =>
        obtain ⟨cc, hcc, _⟩ := Copy_total oc hocS
        simp only [hcc, Option.some_bind, Option.none_bind, mergeStatsAt_none_left]
        exact Copy_statsAt ks oc cc hocS hocK hocP hcc
      | some c =>
        obtain ⟨r', e1, _, e3⟩ := ih c oc (ScoreOK_of_mapGet ha hc) hocS hocK hocP
          (Compatible_child hcomp hc hoc)
        simp only [e1, Option.map_some', Option.some_bind]
        exact e3

theorem addF64_comm (x y : F64) : F64.add x y = F64.add y x := by
  cases x <;> cases y <;> simp [F64.add, add_comm]

theorem addF64_right_comm (x y z : F64) :
    F64.add (F64.add x y) z = F64.add (F64.add x z) y := by
  cases x <;> cases y <;> cases z <;> simp [F64.add, add_right_comm]

theorem zipWith_add_comm : ∀ a b : List F64,
    List.zipWith F64.add a b = List.zipWith F64.add b a
  | [], [] => rfl
  | [], _ :: _ => rfl
  | _ :: _, [] => rfl
  | x :: a, y :: b => by
    simp only [List.zipWith_cons_cons, addF64_comm x y, zipWith_add_comm a b]

theorem zipWith_add_right_comm : ∀ a b c : List F64,
    List.zipWith F64.add (List.zipWith F64.add a b) c =
      List.zipWith F64.add (List.zipWith F64.add a c) b
  | [], _, _ => by simp
  | _ :: _, [], [] => by simp
  | _ :: _, [], _ :: _ => by simp
  | _ :: _, _ :: _, [] => by simp
  | x :: a, y :: b, z :: c => by
    simp only [List.zipWith_cons_cons, addF64_right_comm x y z,
      zipWith_add_right_comm a b c]

theorem mergeGetErrors_eq_none_iff {S : Type} [State S] (x y : Node S) :
    mergeGetErrors x y = none ↔ NodeStats.ok x.stats y.stats := by
  unfold mergeGetErrors NodeStats.ok Node.stats Node.NumPlayers Node.Player
  by_cases hnp : y.numPlayers = x.numPlayers
  · cases hx : x.State <;> cases hy : y.State <;> simp [hnp]
  · have hnp' : ¬ x.numPlayers = y.numPlayers := fun h => hnp h.symm
    simp [hnp, hnp']

theorem Compatible_symm {S : Type} [State S] {a b : Node S} (h : Compatible a b) :
    Compatible b a := by
  intro q x y hx hy
  have := (mergeGetErrors_eq_none_iff y x).mp (h q y x hy hx)
  rw [mergeGetErrors_eq_none_iff]
  exact ⟨this.1.symm, fun p p' hp hp' => (this.2 p' p hp' hp).symm⟩

/-- A tree compatible with two trees is compatible with their merge. -/
theorem Compatible_merge {S : Type} [State S] {a b t r : Node S}
    (hr : ∀ q, statsAt r q = mergeStatsAt (statsAt a q) (statsAt b q))
    (hat : Compatible a t) (hbt : Compatible b t) : Compatible r t := by
  intro q x y hx hy
  have hq := hr q
  have hxs : statsAt r q = some x.stats := by simp [statsAt, hx]
  rw [hxs] at hq
  rw [mergeGetErrors_eq_none_iff]
  cases ha : a.get? q with
  | none =>
    cases hb : b.get? q with
    | none => simp [statsAt, ha, hb, mergeStatsAt] at hq
    | some bq =>
      simp only [statsAt, ha, hb, mergeStatsAt, Option.map_none', Option.map_some',
        Option.some.injEq] at hq
      rw [hq]
      exact (mergeGetErrors_eq_none_iff bq y).mp (hbt q bq y hb hy)
  | some aq =>
    have h1 := (mergeGetErrors_eq_none_iff aq y).mp (hat q aq y ha hy)
    cases hb : b.get? q with
    | none =>
      simp only [statsAt, ha, hb, mergeStatsAt, Option.map_none', Option.map_some',
        Option.some.injEq] at hq
      rw [hq]
      exact h1
    | some bq =>
      have h2 := (mergeGetErrors_eq_none_iff bq y).mp (hbt q bq y hb hy)
      simp only [statsAt, ha, hb, mergeStatsAt, Option.map_none', Option.map_some',
        Option.some.injEq] at hq
      rw [hq]
      refine ⟨h1.1, fun p p' hp hp' => ?_⟩
      simp only [NodeStats.merge] at hp
      cases hpa : aq.stats.player with
      | some pa =>
        rw [hpa] at hp
        simp only [Option.some.injEq] at hp
        subst hp
        exact h1.2 _ _ hpa hp'
      | none =>
        rw [hpa] at hp
        exact h2.2 _ _ hp hp'

theorem core_merge_comm (sa sb : Option NodeStats) :
    (mergeStatsAt sa sb).map NodeStats.core = (mergeStatsAt sb sa).map NodeStats.core := by
  cases sa <;> cases sb <;>
    simp [mergeStatsAt, NodeStats.core, NodeStats.merge, add_comm, zipWith_add_comm]

theorem core_merge_right_comm (sc s1 s2 : Option NodeStats) :
    (mergeStatsAt (mergeStatsAt sc s1) s2).map NodeStats.core =
      (mergeStatsAt (mergeStatsAt sc s2) s1).map NodeStats.core := by
  cases sc with
  | none =>
    cases s1 <;> cases s2 <;>
      simp [mergeStatsAt, NodeStats.core, NodeStats.merge, add_comm, zipWith_add_comm]
  | some c =>
    cases s1 with
    | none => cases s2 <;> rfl
    | some a =>
      cases s2 with
      | none => rfl
      | some b =>
        simp only [mergeStatsAt, Option.map_some', NodeStats.core, NodeStats.merge,
          Option.some.injEq, Prod.mk.injEq]
        exact ⟨add_right_comm _ _ _, zipWith_add_right_comm _ _ _⟩

theorem SameStatistics_of_core {S : Type} [State S] (r1 r2 : Node S)
    (h : ∀ q, (statsAt r1 q).map NodeStats.core = (statsAt r2 q).map NodeStats.core) :
    SameStatistics r1 r2 := by
  intro q
  have hq := h q
  unfold statsAt at hq
  cases h1 : r1.get? q with
  | none =>
    cases h2 : r2.get? q with
    | none => exact ⟨rfl, fun x y hx _ => by simp at hx⟩
    | some y => simp [h1, h2] at hq
  | some x =>
    cases h2 : r2.get? q with
    | none => simp [h1, h2] at hq
    | some y =>
      simp only [h1, h2, Option.map_some', Option.some.injEq, NodeStats.core, Node.stats,
        Prod.mk.injEq] at hq
      refine ⟨rfl, fun x' y' hx hy => ?_⟩
      rw [← Option.some.inj hx, ← Option.some.inj hy]
      exact hq

/-- C36, as amended: for trees with one score entry per player, no key twice and states
that keep their player under `Copy`, which pass the checks of `Merge` (same player count,
no player-index conflict) wherever two of them both have a node: `a.Merge(b)` and
`b.Merge(a)` return no error and give trees with the same key structure and, at every
place, the same visits and the same score vector; and merging `a` then `b` into a
canonical tree `c` gives the same key structure and the same visits everywhere as merging
`b` then `a`, and the same scores when the additions of scores are exact, as they are
here. -/
theorem Merge_order_independent {S : Type} [State S] (a b c : Node S)
    (haS : a.ScoreOK = true) (haK : a.KeysOK = true) (haP : a.CopyKeepsPlayer = true)
    (hbS : b.ScoreOK = true) (hbK : b.KeysOK = true) (hbP : b.CopyKeepsPlayer = true)
    (hcS : c.ScoreOK = true)
    (hab : Compatible a b) (hca : Compatible c a) (hcb : Compatible c b) :
    (∃ r1 r2, Node.Merge a b = some (r1, none) ∧ Node.Merge b a = some (r2, none) ∧
      SameStatistics r1 r2) ∧
    ∃ m1 m12 m2 m21, Node.Merge c a = some (m1, none) ∧ Node.Merge m1 b = some (m12, none) ∧
      Node.Merge c b = some (m2, none) ∧ Node.Merge m2 a = some (m21, none) ∧
      SameStatistics m12 m21 := by
  have key : ∀ (x y : Node S), x.ScoreOK = true → y.ScoreOK = true → y.KeysOK = true →
      y.CopyKeepsPlayer = true → Compatible x y →
      ∃ r, Node.Merge x y = some (r, none) ∧ r.ScoreOK = true ∧
        ∀ q, statsAt r q = mergeStatsAt (statsAt x q) (statsAt y q) := by
    intro x y hx hy hyK hyP hxy
    obtain ⟨r, h1, h2, _⟩ := Merge_statsAt [] x y hx hy hyK hyP hxy
    refine ⟨r, h1, h2, fun q => ?_⟩
    obtain ⟨r', h1', _, h3'⟩ := Merge_statsAt q x y hx hy hyK hyP hxy
    rw [h1] at h1'
    simp only [Option.some.injEq, Prod.mk.injEq, and_true] at h1'
    rw [h1']
    exact h3'
  constructor
  · obtain ⟨r1, e1, _, s1⟩ := key a b haS hbS hbK hbP hab
    obtain ⟨r2, e2, _, s2⟩ := key b a hbS haS haK haP (Compatible_symm hab)
    refine ⟨r1, r2, e1, e2, SameStatistics_of_core r1 r2 (fun q => ?_)⟩
    rw [s1 q, s2 q]
    exact core_merge_comm _ _
  · obtain ⟨m1, e1, m1S, s1⟩ := key c a hcS haS haK haP hca
    obtain ⟨m2, e2, m2S, s2⟩ := key c b hcS hbS hbK hbP hcb
    obtain ⟨m12, e12, _, s12⟩ := key m1 b m1S hbS hbK hbP (Compatible_merge s1 hcb hab)
    obtain ⟨m21, e21, _, s21⟩ := key m2 a m2S haS haK haP
      (Compatible_merge s2 hca (Compatible_symm hab))
    refine ⟨m1, m12, m2, m21, e1, e12, e2, e21, SameStatistics_of_core m12 m21 (fun q => ?_)⟩
    rw [s12 q, s21 q, s1 q, s2 q]
    exact core_merge_right_comm _ _ _

theorem mergeScoresWith_add (other : List F64) : ∀ (is : List Nat) (score : List F64),
    mergeScoresWith F64.add other is score = mergeScores other is score := by
  intro is
  induction is with
  | nil => intro score; rfl
  | cons i is ih =>
    intro score
    rw [mergeScoresWith, mergeScores]
    cases score.get? i with
    | none => rfl
    | some a =>
      cases other.get? i with
      | none => rfl
      | some b => exact ih _

mutual
/-- With the exact addition, `Node.MergeWith` is `Node.Merge`. -/
theorem MergeWith_add {S : Type} [State S] :
    ∀ (other node : Node S), Node.MergeWith F64.add node other = Node.Merge node other
  | Node.mk oscore onum ostate ovisits ochildren opolicy, node => by
    rw [Node.MergeWith, Node.Merge]
    simp only [mergeScoresWith_add, mergeLoopWith_add ochildren]
/-- With the exact addition, `Node.mergeLoopWith` is `Node.mergeLoop`. -/
theorem mergeLoopWith_add {S : Type} [State S] :
    ∀ (l : List (Key × Node S)) (node : Node S),
      Node.mergeLoopWith F64.add node l = Node.mergeLoop node l
  | [], node => by rw [Node.mergeLoopWith, Node.mergeLoop]
  | (k, oc) :: rest, node => by
    rw [Node.mergeLoopWith, Node.mergeLoop]
    simp only [MergeWith_add oc, mergeLoopWith_add rest]
end

theorem roundQ_big : F64.roundQ (2 ^ 53 + 1) = 2 ^ 53 := by
  have hlog : Int.log 2 (|(2 : ℚ) ^ 53 + 1|) = 53 := by
    rw [abs_of_pos (by positivity), Int.log_of_one_le_right _ (by norm_num)]
    have hfl : ⌊(2 : ℚ) ^ 53 + 1⌋₊ = 2 ^ 53 + 1 := by
      have h : ((2 : ℚ) ^ 53 + 1) = ((2 ^ 53 + 1 : ℕ) : ℚ) := by norm_num
      rw [h, Nat.floor_natCast]
    rw [hfl]
    norm_cast
    exact Nat.log_eq_of_pow_le_of_lt_pow (by norm_num) (by norm_num)
  unfold F64.roundQ
  rw [hlog]
  norm_num

theorem roundQ_one : F64.roundQ 1 = 1 := by
  have hlog : Int.log 2 (|(1 : ℚ)|) = 0 := by simp
  unfold F64.roundQ
  rw [hlog]
  norm_num

theorem roundQ_zero : F64.roundQ 0 = 0 := by
  simp [F64.roundQ]

/-- C36 as stated fails for the scores of its second half: `float64` addition rounds, and
is not associative.  With the score loop of `Merge` adding as `float64` does, merging the
one-node trees with the scores `1` and `-2^53` into a canonical tree with the score `2^53`
gives the score `0` in this order (`2^53 + 1` rounds to `2^53`) and the score `1` in the
other order.  No merge returns an error, and the visits are 3 in both orders. -/
theorem Merge_order_independent_counterexample :
    ∃ m1 m12 m2 m21,
      Node.MergeWith F64.addRounded (testNode (2 ^ 53) 1 none []) (testNode 1 1 none []) =
        some (m1, none) ∧
      Node.MergeWith F64.addRounded m1 (testNode (-(2 ^ 53)) 1 none []) = some (m12, none) ∧
      Node.MergeWith F64.addRounded (testNode (2 ^ 53) 1 none [])
        (testNode (-(2 ^ 53)) 1 none []) = some (m2, none) ∧
      Node.MergeWith F64.addRounded m2 (testNode 1 1 none []) = some (m21, none) ∧
      m1.ScoreVector = [F64.fin (2 ^ 53)] ∧ m12.ScoreVector = [F64.fin 0] ∧
      m2.ScoreVector = [F64.fin 0] ∧ m21.ScoreVector = [F64.fin 1] ∧
      m12.Visits = 3 ∧ m21.Visits = 3 ∧ m12.ScoreVector ≠ m21.ScoreVector := by
  refine ⟨testNode (2 ^ 53) 2 none [], testNode 0 3 none [], testNode 0 2 none [],
    testNode 1 3 none [], ?_, ?_, ?_, ?_, rfl, rfl, rfl, rfl, rfl, rfl, ?_⟩
  · simp [Node.MergeWith, testNode, mergeGetErrors, Node.NumPlayers, Node.Player,
      mergeScoresWith, Node.mergeLoopWith, F64.addRounded, roundQ_big, roundQ_one,
      roundQ_zero, Node.Visits, Node.numPlayers, Node.State, Node.score, Node.visits,
      Node.children, Node.withScore, Node.withVisits, Node.withState]
  · simp [Node.MergeWith, testNode, mergeGetErrors, Node.NumPlayers, Node.Player,
      mergeScoresWith, Node.mergeLoopWith, F64.addRounded, roundQ_big, roundQ_one,
      roundQ_zero, Node.Visits, Node.numPlayers, Node.State, Node.score, Node.visits,
      Node.children, Node.withScore, Node.withVisits, Node.withState]
  · simp [Node.MergeWith, testNode, mergeGetErrors, Node.NumPlayers, Node.Player,
      mergeScoresWith, Node.mergeLoopWith, F64.addRounded, roundQ_big, roundQ_one,
      roundQ_zero, Node.Visits, Node.numPlayers, Node.State, Node.score, Node.visits,
      Node.children, Node.withScore, Node.withVisits, Node.withState]
  · simp [Node.MergeWith, testNode, mergeGetErrors, Node.NumPlayers, Node.Player,
      mergeScoresWith, Node.mergeLoopWith, F64.addRounded, roundQ_big, roundQ_one,
      roundQ_zero, Node.Visits, Node.numPlayers, Node.State, Node.score, Node.visits,
      Node.children, Node.withScore, Node.withVisits, Node.withState]
  · simp [Node.ScoreVector, testNode, Node.score]

/-- C36, as amended, on trees of the game `coinState`: the tree `coinRootExpanded` and the
bare root `coinRoot` as worker trees, `coinRoot` as the canonical tree. -/
theorem Merge_order_independent_witness :
    (∃ r1 r2, Node.Merge coinRootExpanded coinRoot = some (r1, none) ∧
      Node.Merge coinRoot coinRootExpanded = some (r2, none) ∧ SameStatistics r1 r2) ∧
    ∃ m1 m12 m2 m21, Node.Merge coinRoot coinRootExpanded = some (m1, none) ∧
      Node.Merge m1 coinRoot = some (m12, none) ∧
      Node.Merge coinRoot coinRoot = some (m2, none) ∧
      Node.Merge m2 coinRootExpanded = some (m21, none) ∧ SameStatistics m12 m21 :=
  Merge_order_independent coinRootExpanded coinRoot coinRoot (by decide) (by decide)
    (by decide) (by decide) (by decide) (by decide) (by decide)
    (fun q x y hx hy => by
      cases q with
      | nil =>
        simp only [get?_nil, Option.some.injEq] at hx hy
        subst hx hy
        rfl
      | cons k ks => simp [get?_cons, coinRoot, Node.children, mapGet] at hy)
    (fun q x y hx hy => by
      cases q with
      | nil =>
        simp only [get?_nil, Option.some.injEq] at hx hy
        subst hx hy
        rfl
      | cons k ks => simp [get?_cons, coinRoot, Node.children, mapGet] at hx)
    (fun q x y hx hy => by
      cases q with
      | nil =>
        simp only [get?_nil, Option.some.injEq] at hx hy
        subst hx hy
        rfl
      | cons k ks => simp [get?_cons, coinRoot, Node.children, mapGet] at hx)

/-! ### The counts of a search -/

/-- The places of a tree after a new childless node was stored under a new key of the
node at `p`: the new place, and the old places with the visits they had. -/
theorem get?_modify_SetChild_new {S : Type} (root b c : Node S) (p : Path) (index : Key)
    (hb : root.get? p = some b) (hnone : mapGet index b.children = none)
    (hc : c.children = []) :
    ∀ q x, (root.modify (fun nd => nd.SetChild index c) p).get? q = some x →
      (q = p ++ [index] ∧ x = c) ∨ ∃ y, root.get? q = some y ∧ x.visits = y.visits := by
  intro q x hx
  by_cases hpq : p <+: q
  · obtain ⟨rest, rfl⟩ := hpq
    rw [get?_modify_append _ p root b rest hb] at hx
    cases rest with
    | nil =>
      simp only [get?_nil, Option.some.injEq] at hx
      right
      refine ⟨b, by simpa using hb, ?_⟩
      rw [← hx]
      simp
    | cons k ks =>
      rw [get?_cons, children_SetChild] at hx
      by_cases hk : k = index
      · subst hk
        rw [mapGet_mapSet_self] at hx
        simp only [Option.some_bind] at hx
        cases ks with
        | nil =>
          simp only [get?_nil, Option.some.injEq] at hx
          exact Or.inl ⟨rfl, hx.symm⟩
        | cons k2 ks2 => simp [get?_cons, hc, mapGet] at hx
      · rw [mapGet_mapSet_ne _ _ _ _ hk] at hx
        right
        refine ⟨x, ?_, rfl⟩
        rw [get?_append, hb]
        simp only [Option.some_bind]
        rw [get?_cons]
        exact hx
  · by_cases hqp : q <+: p
    · have hne : q ≠ p := fun e => hpq (e ▸ List.prefix_refl _)
      obtain ⟨y, y', e1, e2, _, _, _, e6, _⟩ :=
        get?_modify_above (fun nd => nd.SetChild index c) p q root b hqp hne hb
      rw [e2] at hx
      right
      exact ⟨y, e1, by rw [← Option.some.inj hx]; exact e6⟩
    · rw [get?_modify_off _ p q root hqp hpq] at hx
      exact Or.inr ⟨x, hx, rfl⟩

theorem prefix_dropLast_of_ne {q n : Path} (h : q <+: n) (hne : q ≠ n) : q <+: n.dropLast := by
  obtain ⟨rest, rfl⟩ := h
  rcases List.eq_nil_or_concat rest with e | ⟨l, a, e⟩
  · subst e
    simp at hne
  · subst e
    rw [List.concat_eq_append, ← List.append_assoc, List.dropLast_concat]
    exact List.prefix_append _ _

/-- One round of the loop of `Backpropagate` keeps `VisitedBut`. -/
theorem VisitedBut_step {S : Type} (root b X : Node S) (n : Path)
    (hP : root.VisitedBut (some n)) (hb : root.get? n = some b)
    (hv : X.visits = b.visits + 1) (hc : X.children = b.children) :
    (root.modify (fun _ => X) n).VisitedBut (Parent n) := by
  have hkeep : ∀ rest, rest ≠ [] → (root.modify (fun _ => X) n).get? (n ++ rest) =
      root.get? (n ++ rest) := by
    intro rest hrest
    rw [get?_modify_append _ n root b rest hb, get?_append, hb]
    simp only [Option.some_bind]
    cases rest with
    | nil => exact absurd rfl hrest
    | cons k ks => rw [get?_cons, get?_cons, hc]
  have hall : ∀ q x, q ≠ [] → (root.modify (fun _ => X) n).get? q = some x →
      (q <+: n ∧ q ≠ n ∧ 0 ≤ x.visits) ∨ 1 ≤ x.visits := by
    intro q x hq hx
    by_cases hnq : n <+: q
    · obtain ⟨rest, rfl⟩ := hnq
      right
      by_cases hrest : rest = []
      · subst hrest
        rw [List.append_nil] at hx hq
        rw [get?_modify_self _ n root b hb] at hx
        have h0 := (hP n b hq hb).1 (List.prefix_refl _)
        rw [← Option.some.inj hx, hv]
        omega
      · rw [hkeep rest hrest] at hx
        refine (hP _ x hq hx).2 (fun hpre => hrest ?_)
        have := List.IsPrefix.length_le hpre
        simp only [List.length_append] at this
        exact List.length_eq_zero.mp (by omega)
    · by_cases hqn : q <+: n
      · have hne : q ≠ n := fun e => hnq (e ▸ List.prefix_refl _)
        obtain ⟨y, y', e1, e2, _, _, _, e6, _⟩ :=
          get?_modify_above (fun _ => X) n q root b hqn hne hb
        rw [e2] at hx
        left
        refine ⟨hqn, hne, ?_⟩
        rw [← Option.some.inj hx, e6]
        exact (hP q y hq e1).1 hqn
      · rw [get?_modify_off _ n q root hqn hnq] at hx
        exact Or.inr ((hP q x hq hx).2 hqn)
  cases n with
  | nil =>
    intro q x hq hx
    rcases hall q x hq hx with ⟨h1, h2, _⟩ | h
    · exact absurd (List.prefix_nil.mp h1) h2
    · exact h
  | cons k ks =>
    have hpar : Parent (k :: ks) = some (k :: ks).dropLast := by simp [Parent]
    rw [hpar]
    intro q x hq hx
    rcases hall q x hq hx with ⟨h1, h2, h3⟩ | h
    · exact ⟨fun _ => h3, fun hn => absurd (prefix_dropLast_of_ne h1 h2) hn⟩
    · exact ⟨fun _ => by omega, fun _ => h⟩

/-- `Expand` leaves a tree in which only the node it returns can be unvisited. -/
theorem Expand_VisitedBut {S : Type} [State S] (rnd : Rand) (root : Node S) (path : Path)
    (r : (Node S × Path) × Rand) (hroot : root.BelowRootVisited)
    (h : UCTPolicy.Expand rnd root path = some r) : r.1.1.VisitedBut (some r.1.2) := by
  obtain ⟨b, s, hb, _, hcase⟩ := Expand_cases rnd root path r h
  rcases hcase with ⟨e1, _⟩ | ⟨index, action, _, hnone, _, e1, e2⟩
  · rw [e1]
    intro q x hq hx
    have := hroot q x hq hx
    exact ⟨fun _ => by omega, fun _ => this⟩
  · rw [e1, e2]
    intro q x hq hx
    rcases get?_modify_SetChild_new root b _ path index hb hnone (children_newChild _ _) q x hx
      with ⟨e3, e4⟩ | ⟨y, hy, e4⟩
    · subst e3
      refine ⟨fun _ => ?_, fun hn => absurd (List.prefix_refl _) hn⟩
      rw [e4]
      simp [newChild]
    · have := hroot q y hq hy
      rw [← e4] at this
      exact ⟨fun _ => by omega, fun _ => this⟩

/-- One round of the loop of `Search` that returns keeps every node below the root
visited. -/
theorem searchRound_visited {S : Type} [State S] (m : MathFns) (ord : MapOrder) (fuel : Nat)
    (e : F64) (rnd : Rand) (root : Node S) (r : Node S × Rand)
    (hroot : root.BelowRootVisited)
    (h : searchRound m ord fuel e rnd root = some r) : r.1.BelowRootVisited := by
  obtain ⟨root1, path, rnd1, node, score, hsel, hnode, _, hback⟩ :=
    (searchRound_eq_some m ord fuel e rnd root r).mp h
  have h1 : root1.VisitedBut (some path) := by
    cases hp : root.policy with
    | nil => simp [hp, Policy.Select] at hsel
    | UCTPolicy =>
      simp only [hp, Policy.Select, UCTPolicy.Select] at hsel
      rcases SelectLoop_cases m ord e fuel rnd root _ _ hsel with h0 | ⟨rnd', p, x, hx, e1, e2⟩
      · simp only at h0
        rw [h0]
        intro q y hq hy
        have := hroot q y hq hy
        exact ⟨fun _ => by omega, fun _ => this⟩
      · simp only [Option.some.injEq] at e1 e2
        rw [e1, e2]
        exact Expand_VisitedBut rnd' root p x hroot hx
    | DeterminizationPolicy cp =>
      simp only [hp, Policy.Select] at hsel
      have := DeterminizationPolicy_Select_nil cp fuel rnd root [] _ hsel
      simp at this
  have hb : UCTPolicy.Backpropagate root1 path score = some r.1 := by
    cases hp : node.policy with
    | nil => simp [hp, Policy.Backpropagate] at hback
    | UCTPolicy => simpa [hp, Policy.Backpropagate] using hback
    | DeterminizationPolicy cp => simpa [hp, Policy.Backpropagate] using hback
  simp only [UCTPolicy.Backpropagate, hnode] at hb
  exact BackpropagateLoop_invariant (fun t n => t.VisitedBut n) _ _
    (fun t b n v hP hb' => VisitedBut_step t b _ n hP hb' (by simp [Node.AddVisit])
      (by simp [Node.AddVisit])) _ _ _ _ h1 hb

theorem searchLoop_visited {S : Type} [State S] (m : MathFns) (ord : MapOrder) (fuel : Nat)
    (e : F64) : ∀ (level : Nat) (rnd : Rand) (root : Node S) (r : Node S × Rand),
      root.BelowRootVisited → searchLoop m ord fuel e level rnd root = some r →
      r.1.BelowRootVisited := by
  intro level
  induction level with
  | zero =>
    intro rnd root r hroot h
    simp only [searchLoop, Option.some.injEq] at h
    rw [← h]
    exact hroot
  | succ l ih =>
    intro rnd root r hroot h
    rw [searchLoop] at h
    cases hr : searchRound m ord fuel e rnd root with
    | none => simp [hr] at h
    | some x =>
      obtain ⟨root1, rnd1⟩ := x
      simp only [hr] at h
      exact ih rnd1 root1 r (searchRound_visited m ord fuel e rnd root _ hroot hr) h

/-- C35: one round of the loop of `Search` that returns has selected with the
confidence-bound policy, counted exactly one visit at the root and added at most one node
to the tree; and when the loop of `Search` has run its `level` rounds on the tree of
`NewMultiplayerMCTS`, the root has `level` visits and the tree has at most `level` nodes
besides the root, each of them with at least one visit.  Both hold of every game, every
exploration parameter and every stream of draws.  The loop does run its rounds, with
enough fuel and then whatever the fuel, when the root state has a legal action and the
`State` implementation is one with which a round returns: playouts end, player indices
are below the player count, every state declares a policy, biases are finite, scores and
the exploration parameter are finite and of magnitude at most `2^900` (which keeps the
`float64` values of the search finite), with `math.Log` non-negative from 1 on. -/
theorem Search_counts {S : Type} [State S] (m : MathFns) (ord : MapOrder) (N : Nat)
    (init : S) (actions : List (Key × (S → S))) (level : Int) (e : F64) (rnd : Rand) :
    (∀ (fuel : Nat) (rnd0 : Rand) (root : Node S) (r : Node S × Rand),
      searchRound m ord fuel e rnd0 root = some r →
      root.policy = Policy.UCTPolicy ∧ r.1.Visits = root.Visits + 1 ∧
        (r.1.size = root.size ∨ r.1.size = root.size + 1)) ∧
    (∀ (fuel : Nat) (root' : Node S) (rnd' : Rand),
      searchLoop m ord fuel e level.toNat rnd (NewMultiplayerMCTS N init actions).1.tree.root =
        some (root', rnd') →
      root'.Visits = (level.toNat : Int) ∧ root'.size ≤ level.toNat + 1 ∧
        ∀ q b, q ≠ [] → root'.get? q = some b → 1 ≤ b.Visits) ∧
    (State.LegalActions (State.Copy init) ≠ [] →
      (∀ (s : S) (r : Rand), ∃ f, (rollout f r s).isSome = true) →
      (∀ s : S, State.Player s < N) →
      (∀ s : S, State.Policy s ≠ Policy.nil) →
      (∀ (s : S) (p : Nat), ∃ x : ℚ, State.Score s p = F64.fin x ∧ |x| ≤ 2 ^ 900) →
      (∀ s : S, (State.Bias s).isFinite = true) →
      (∃ x : ℚ, e = F64.fin x ∧ |x| ≤ 2 ^ 900) →
      (∀ x : ℚ, 1 ≤ x → 0 ≤ m.logQ x) →
      ∃ F, ∀ fuel, F ≤ fuel → ∃ root' rnd',
        searchLoop m ord fuel e level.toNat rnd
          (NewMultiplayerMCTS N init actions).1.tree.root = some (root', rnd')) := by
  have hroot : (NewMultiplayerMCTS N init actions).1.tree.root =
      ((Node.NewNode N : Node S × Bool).1).withState (some (State.Copy init)) := rfl
  refine ⟨fun fuel rnd0 root r hr => ⟨(searchRound_size m ord fuel e rnd0 root r hr).1,
    (searchRound_root m ord fuel e rnd0 root r hr).1,
    (searchRound_size m ord fuel e rnd0 root r hr).2⟩, fun fuel root' rnd' h => ⟨?_, ?_, ?_⟩, ?_⟩
  · have := (searchLoop_root m ord fuel e level.toNat rnd _ _ h).1
    rw [hroot] at this
    simpa [Node.Visits] using this
  · have := (searchLoop_size m ord fuel e level.toNat rnd _ _ h).2
    have hsz : (NewMultiplayerMCTS N init actions).1.tree.root.size = 1 := by
      rw [size_eq]
      rfl
    simp only [hsz] at this
    omega
  · refine searchLoop_visited m ord fuel e level.toNat rnd _ _ (fun q b hq hb => ?_) h
    rw [hroot] at hb
    cases q with
    | nil => exact absurd rfl hq
    | cons k ks => simp [get?_cons, mapGet] at hb
  · intro hlegal hroll hplayer hpolicy hscore hbias hexpl hlog
    have hfin : ∀ (s : S) (p : Nat), (State.Score s p).isFinite = true := fun s p => by
      obtain ⟨x, hx, _⟩ := hscore s p
      rw [hx]
      rfl
    have he : e.isFinite = true := by
      obtain ⟨x, hx, _⟩ := hexpl
      rw [hx]
      rfl
    have A : SearchAssumptions S m N := ⟨hplayer, hpolicy, hfin, hbias, hroll, hlog⟩
    obtain ⟨F, root', rnd', h1, _⟩ := searchLoop_spec m ord e A he hlegal level.toNat rnd
      (NewMultiplayerMCTS N init actions).1.tree.root (SearchInv_init N init actions)
    exact ⟨F, fun fuel hfuel => ⟨root', rnd', searchLoop_mono m ord F fuel e hfuel _ _ _ _ h1⟩⟩

/-- C35 at the one-move game `coinState`, with 1000 rounds: the loop returns, and the
tree it returns has the counts of the claim. -/
theorem Search_counts_witness :
    ∃ F, ∀ fuel, F ≤ fuel → ∃ root' rnd',
      searchLoop testMath testOrder fuel (F64.fin 1) (1000 : Int).toNat (fun _ => 0)
        (NewMultiplayerMCTS 1 ({ done := false } : coinState) []).1.tree.root =
        some (root', rnd') ∧
      root'.Visits = ((1000 : Int).toNat : Int) ∧ root'.size ≤ (1000 : Int).toNat + 1 ∧
      ∀ q b, q ≠ [] → root'.get? q = some b → 1 ≤ b.Visits := by
  have h := Search_counts testMath testOrder 1 ({ done := false } : coinState) [] 1000
    (F64.fin 1) (fun _ => 0)
  obtain ⟨F, hF⟩ := h.2.2 (by simp [State.LegalActions, State.Copy])
    (fun s r => ⟨2, by
      cases s with
      | mk d =>
        cases d
        · simp [rollout, randomAction, State.LegalActions, Nat.mod_one]
        · simp [rollout, State.LegalActions]⟩)
    (fun _ => by simp [State.Player]) (fun _ => by simp [State.Policy])
    (fun _ _ => ⟨0, rfl, by norm_num⟩) (fun _ => rfl) ⟨1, rfl, by norm_num⟩
    (fun _ _ => le_refl _)
  refine ⟨F, fun fuel hfuel => ?_⟩
  obtain ⟨root', rnd', hr⟩ := hF fuel hfuel
  exact ⟨root', rnd', hr, h.2.1 fuel root' rnd' hr⟩

/-! ### The visit counts in `int64` -/

theorem wrapInt64_eq (v : Int) (h1 : -(2 ^ 63) ≤ v) (h2 : v < 2 ^ 63) : wrapInt64 v = v := by
  unfold wrapInt64
  norm_num at h1 h2 ⊢
  omega

theorem Merge64_eq {S : Type} [State S] (add : F64 → F64 → F64) (node other : Node S) :
    Node.Merge64 add node other =
      match mergeGetErrors node other with
      | some err => some (node, some err)
      | none =>
        match mergeScoresWith add other.score (List.range node.NumPlayers) node.score with
        | none => none
        | some sc =>
          let node1 := (node.withScore sc).withVisits (wrapInt64 (node.visits + other.Visits))
          let node2 := if node1.State.isNone && other.State.isSome
            then node1.withState (other.State.map State.Copy) else node1
          match Node.mergeLoop64 add node2 other.children with
          | none => none
          | some node3 => some (node3, none) := by
  cases other
  rw [Node.Merge64]
  rfl

theorem visits_le_childVisits {S : Type} (k : Key) (c : Node S) (l : List (Key × Node S))
    (hget : mapGet k l = some c)
    (hl : ∀ kc ∈ mapSet k (Node.NewNode 0).1 l, kc.2.VisitsOK = true) :
    c.visits ≤ childVisits l := by
  have h1 := childVisits_mapSet_some k (Node.NewNode 0).1 c l hget
  have h2 := childVisits_nonneg _ hl
  simp only [visits_NewNode] at h1
  omega

theorem visits_le_childVisits_of_mem {S : Type} (k : Key) (c : Node S)
    (l : List (Key × Node S)) (hget : mapGet k l = some c)
    (hl : ∀ kc ∈ l, kc.2.VisitsOK = true) : c.visits ≤ childVisits l := by
  refine visits_le_childVisits k c l hget (fun kc hkc => ?_)
  rcases mem_mapSet hkc with e | e
  · rw [e]; exact VisitsOK_NewNode 0
  · exact hl kc e

mutual
/-- `Merge64` of two trees in which every node has at least the visits of its children,
and whose roots have fewer than `2^63` visits together, leaves such a tree, whose root has
at most the visits of the two roots together. -/
theorem Merge64_visits {S : Type} [State S] (add : F64 → F64 → F64) :
    ∀ (other node r : Node S) (e : Option MergeError), node.VisitsOK = true →
      other.VisitsOK = true → node.visits + other.visits < 2 ^ 63 →
      Node.Merge64 add node other = some (r, e) →
      r.VisitsOK = true ∧ r.visits ≤ node.visits + other.visits
  | Node.mk oscore onum ostate ovisits ochildren opolicy, node, r, e, hn, ho, hb, h => by
    have hnn := VisitsOK_nonneg _ ho
    have hnn' := VisitsOK_nonneg _ hn
    have ho' := (VisitsOK_iff _).mp ho
    have hn' := (VisitsOK_iff _).mp hn
    have hb' : node.visits + ovisits < 2 ^ 63 := hb
    simp only [Node.children, Node.visits] at ho' hnn
    have hw : wrapInt64 (node.visits + ovisits) = node.visits + ovisits :=
      wrapInt64_eq _ (by norm_num; omega) hb'
    rw [Merge64_eq] at h
    split at h
    · simp only [Option.some.injEq, Prod.mk.injEq] at h
      rw [← h.1]
      refine ⟨hn, ?_⟩
      simp only [Node.visits]
      omega
    · split at h
      · exact absurd h (by simp)
      · rename_i sc _
        simp only at h
        split at h
        · exact absurd h (by simp)
        · rename_i node3 hloop
          simp only [Option.some.injEq, Prod.mk.injEq] at h
          rw [← h.1]
          simp only [Node.children] at hloop
          have h0 := hn'.1
          have h0' := ho'.1
          obtain ⟨h1, h2, h3⟩ := mergeLoop64_visits add ochildren _ node3 ho'.2
            (by split <;> simpa using hn'.2)
            (by split <;> simp <;> omega) hloop
          have hv : node3.visits = node.visits + ovisits := by
            rw [h3]
            split <;> simp only [visits_withState, visits_withVisits] <;> exact hw
          have hc : childVisits node3.children ≤ childVisits node.children +
              childVisits ochildren := by
            refine le_trans h2 (le_of_eq ?_)
            split <;> simp
          refine ⟨(VisitsOK_iff _).mpr ⟨?_, h1⟩, ?_⟩
          · rw [hv]
            omega
          · rw [hv]
            simp [Node.visits]
/-- The loop of `Merge64`: the children of the receiver gain at most the visits of the
children it is given. -/
theorem mergeLoop64_visits {S : Type} [State S] (add : F64 → F64 → F64) :
    ∀ (l : List (Key × Node S)) (node r : Node S), (∀ kc ∈ l, kc.2.VisitsOK = true) →
      (∀ kc ∈ node.children, kc.2.VisitsOK = true) →
      childVisits node.children + childVisits l < 2 ^ 63 →
      Node.mergeLoop64 add node l = some r →
      (∀ kc ∈ r.children, kc.2.VisitsOK = true) ∧
        childVisits r.children ≤ childVisits node.children + childVisits l ∧
        r.visits = node.visits
  | [], node, r, _, hn, _, h => by
    simp only [Node.mergeLoop64, Option.some.injEq] at h
    rw [← h]
    exact ⟨hn, by simp [childVisits_nil], rfl⟩
  | (k, oc) :: rest, node, r, hl, hn, hb, h => by
    have hoc : oc.VisitsOK = true := hl (k, oc) (List.mem_cons_self _ _)
    have hrest : ∀ kc ∈ rest, kc.2.VisitsOK = true := fun kc hk =>
      hl kc (List.mem_cons_of_mem _ hk)
    have hocnn := VisitsOK_nonneg oc hoc
    have hrestnn := childVisits_nonneg rest hrest
    have hnnn := childVisits_nonneg node.children hn
    rw [childVisits_cons] at hb
    rw [Node.mergeLoop64] at h
    cases hget : mapGet k node.children with
    | none =>
      simp only [hget] at h
      cases hm : Node.Merge64 add (Node.NewNode oc.NumPlayers).1 oc with
      | none => simp [hm] at h
      | some x =>
        obtain ⟨otherCopy, e'⟩ := x
        simp only [hm] at h
        obtain ⟨c1, c2⟩ := Merge64_visits add oc _ otherCopy e' (VisitsOK_NewNode _) hoc
          (by simp only [visits_NewNode]; omega) hm
        simp only [visits_NewNode, zero_add] at c2
        have hset := childVisits_mapSet_none k otherCopy node.children hget
        obtain ⟨h1, h2, h3⟩ := mergeLoop64_visits add rest _ r hrest
          (VisitsOK_children_SetChild node otherCopy k hn c1)
          (by rw [children_SetChild, hset]; omega) h
        refine ⟨h1, ?_, by rw [h3]; simp⟩
        rw [children_SetChild, hset] at h2
        rw [childVisits_cons]
        omega
    | some child =>
      simp only [hget] at h
      have hch := visits_le_childVisits_of_mem k child node.children hget hn
      cases hm : Node.Merge64 add child oc with
      | none => simp [hm] at h
      | some x =>
        obtain ⟨child', e'⟩ := x
        simp only [hm] at h
        obtain ⟨c1, c2⟩ := Merge64_visits add oc child child' e'
          (hn (k, child) (mapGet_mem hget)) hoc (by omega) hm
        have hset := childVisits_mapSet_some k child' child node.children hget
        obtain ⟨h1, h2, h3⟩ := mergeLoop64_visits add rest _ r hrest
          (VisitsOK_children_SetChild node child' k hn c1)
          (by rw [children_SetChild, hset]; omega) h
        refine ⟨h1, ?_, by rw [h3]; simp⟩
        rw [children_SetChild, hset] at h2
        rw [childVisits_cons]
        omega
end

/-- A property of the tree and the pointer of the loop of `Backpropagate64` that every
round of the loop keeps holds when the loop ends. -/
theorem BackpropagateLoop64_invariant {S : Type} (P : Node S → Option Path → Prop)
    (add : F64 → F64 → F64) (player : Nat) (score : F64)
    (hstep : ∀ (root b : Node S) (n : Path) (v : F64), P root (some n) →
      root.get? n = some b →
      P (root.modify (fun _ => (b.withScore (b.score.set player v)).AddVisit64) n)
        (Parent n)) :
    ∀ (fuel : Nat) (root : Node S) (n : Option Path) (root' : Node S), P root n →
      UCTPolicy.BackpropagateLoop64 add player score fuel root n = some root' →
      P root' none := by
  intro fuel
  induction fuel with
  | zero =>
    intro root n root' hP h
    cases n with
    | none =>
      simp only [UCTPolicy.BackpropagateLoop64, Option.some.injEq] at h
      rw [← h]; exact hP
    | some p => simp [UCTPolicy.BackpropagateLoop64] at h
  | succ f ih =>
    intro root n root' hP h
    cases n with
    | none =>
      simp only [UCTPolicy.BackpropagateLoop64, Option.some.injEq] at h
      rw [← h]; exact hP
    | some p =>
      rw [UCTPolicy.BackpropagateLoop64] at h
      cases hb : root.get? p with
      | none => simp [hb] at h
      | some b =>
        simp only [hb] at h
        cases hsc : b.Score player with
        | none => simp [hsc] at h
        | some old =>
          simp only [hsc] at h
          cases hset : b.SetScore player (add old score) with
          | none => simp [hset] at h
          | some node1 =>
            simp only [hset] at h
            have hnode1 : node1 = b.withScore (b.score.set player (add old score)) := by
              unfold Node.SetScore at hset
              split at hset
              · exact (Option.some.inj hset).symm
              · simp at hset
            rw [hnode1] at h
            exact ih _ _ root' (hstep root b p _ hP hb) h

/-- While `Backpropagate` runs, the node at the pointer has at most the visits of the
root, and at least `-1`. -/
theorem DebtOK_visits_le {S : Type} : ∀ (n : Path) (root b : Node S),
    root.DebtOK n → root.get? n = some b → b.visits ≤ root.visits ∧ -1 ≤ b.visits := by
  intro n
  induction n with
  | nil =>
    intro root b hd hb
    simp only [get?_nil, Option.some.injEq] at hb
    subst hb
    obtain ⟨d1, d2⟩ := hd
    have := childVisits_nonneg _ d2
    exact ⟨le_refl _, by omega⟩
  | cons k ks ih =>
    intro root b hd hb
    obtain ⟨d1, c, hget, d2, d3⟩ := hd
    rw [get?_cons, hget] at hb
    simp only [Option.some_bind] at hb
    obtain ⟨i1, i2⟩ := ih c b d2 hb
    have := visits_le_childVisits k c root.children hget d3
    exact ⟨by omega, i2⟩

/-- `Backpropagate64` keeps the invariant in a tree whose root can count one more visit
in `int64`. -/
theorem Backpropagate64_visits {S : Type} [State S] (add : F64 → F64 → F64)
    (root root' : Node S) (path : Path) (score : F64) (hroot : root.VisitsOK = true)
    (hmax : root.visits < 2 ^ 63 - 1)
    (h : UCTPolicy.Backpropagate64 add root path score = some root') :
    root'.VisitsOK = true := by
  unfold UCTPolicy.Backpropagate64 at h
  cases hn : root.get? path with
  | none => simp [hn] at h
  | some node =>
    simp only [hn] at h
    refine (BackpropagateLoop64_invariant
      (fun t n => t.VisitsInv n ∧ (n.isSome = true → t.visits < 2 ^ 63 - 1)) add
      node.Player score (fun r b n v hP hb => ?_) _ root (some path) root'
      ⟨DebtOK_of_VisitsOK path root node hroot hn, fun _ => hmax⟩ h).1
    obtain ⟨hd, hm⟩ := hP
    have hm' := hm rfl
    obtain ⟨b1, b2⟩ := DebtOK_visits_le n r b hd hb
    have hw : wrapInt64 (b.visits + 1) = b.visits + 1 :=
      wrapInt64_eq _ (by norm_num; omega) (by omega)
    refine ⟨DebtOK_step _ n r b hd hb (by simp [Node.AddVisit64, hw])
      (by simp [Node.AddVisit64]), fun hsome => ?_⟩
    cases n with
    | nil => simp [Parent] at hsome
    | cons k ks =>
      rw [visits_modify_cons]
      exact hm'

theorem Copy64_eq {S : Type} [State S] (add : F64 → F64 → F64) (node : Node S) :
    node.Copy64 add = (Node.Merge64 add (Node.NewNode node.NumPlayers).1 node).map Prod.fst := by
  unfold Node.Copy64
  cases Node.Merge64 add (Node.NewNode node.NumPlayers).1 node with
  | none => rfl
  | some x => rfl

/-- C34, as amended: the invariant "at every node, the visits are at least the sum of the
visits of the children" holds of the tree of `NewTree`, and in a tree where it holds it
still holds after `Expand` at any node, after `Backpropagate` from any node when the root
has fewer than `2^63 - 1` visits, in the copy that `Copy` returns when the root has fewer
than `2^63` visits, and after `Merge` with a tree in which it holds when the two roots
have fewer than `2^63` visits together.  The visits are counted in `int64`, as in the
source, and the scores are added with any addition of floats. -/
theorem visits_invariant {S : Type} [State S] (add : F64 → F64 → F64) (root : Node S)
    (h : root.VisitsOK = true) :
    (∀ (N : Nat) (init : S) (actions : List (Key × (S → S))),
      (NewTree N init actions).1.root.VisitsOK = true) ∧
    (∀ q b, root.get? q = some b → childVisits b.children ≤ b.Visits) ∧
    (∀ rnd path r, UCTPolicy.Expand rnd root path = some r → r.1.1.VisitsOK = true) ∧
    (root.Visits < 2 ^ 63 - 1 → ∀ path score root',
      UCTPolicy.Backpropagate64 add root path score = some root' →
      root'.VisitsOK = true) ∧
    (root.Visits < 2 ^ 63 → ∀ c, root.Copy64 add = some c → c.VisitsOK = true) ∧
    (∀ other r e, other.VisitsOK = true → root.Visits + other.Visits < 2 ^ 63 →
      Node.Merge64 add root other = some (r, e) → r.VisitsOK = true) := by
  refine ⟨fun N init actions => ?_, fun q b hb => ?_, fun rnd path r hr => ?_,
    fun hmax path score root' hb => ?_, fun hmax c hc => ?_, fun other r e ho hsum hr => ?_⟩
  · have hroot : (NewTree N init actions).1.root =
        ((Node.NewNode N : Node S × Bool).1).withState (some init) := rfl
    rw [hroot, VisitsOK_iff]
    simp [childVisits]
  · have := allNodes_of_get? _ q root b h hb
    exact ((VisitsOK_iff b).mp this).1
  · exact Expand_visits rnd root path r h hr
  · exact Backpropagate64_visits add root root' path score h hmax hb
  · rw [Copy64_eq] at hc
    cases hm : Node.Merge64 add (Node.NewNode root.NumPlayers).1 root with
    | none => simp [hm] at hc
    | some x =>
      obtain ⟨c', e⟩ := x
      simp only [hm, Option.map_some', Option.some.injEq] at hc
      subst hc
      exact (Merge64_visits add root _ c' e (VisitsOK_NewNode _) h
        (by simp only [visits_NewNode, zero_add]; exact hmax) hm).1
  · exact (Merge64_visits add other root r e h ho hsum hr).1

/-- C34, as amended, on the tree `coinRootExpanded`, a root with one visit and one child
with one visit, whose counts are far below the bounds. -/
theorem visits_invariant_witness :
    coinRootExpanded.VisitsOK = true ∧
    (∀ (N : Nat) (init : coinState) (actions : List (Key × (coinState → coinState))),
      (NewTree N init actions).1.root.VisitsOK = true) ∧
    (∀ q b, coinRootExpanded.get? q = some b → childVisits b.children ≤ b.Visits) ∧
    (∀ rnd path r, UCTPolicy.Expand rnd coinRootExpanded path = some r →
      r.1.1.VisitsOK = true) ∧
    (∀ path score root',
      UCTPolicy.Backpropagate64 F64.add coinRootExpanded path score = some root' →
      root'.VisitsOK = true) ∧
    (∀ c, coinRootExpanded.Copy64 F64.add = some c → c.VisitsOK = true) ∧
    (∀ other r e, other.VisitsOK = true → coinRootExpanded.Visits + other.Visits < 2 ^ 63 →
      Node.Merge64 F64.add coinRootExpanded other = some (r, e) → r.VisitsOK = true) :=
  ⟨by decide, (visits_invariant F64.add coinRootExpanded (by decide)).1,
    (visits_invariant F64.add coinRootExpanded (by decide)).2.1,
    (visits_invariant F64.add coinRootExpanded (by decide)).2.2.1,
    (visits_invariant F64.add coinRootExpanded (by decide)).2.2.2.1 (by decide),
    (visits_invariant F64.add coinRootExpanded (by decide)).2.2.2.2.1 (by decide),
    (visits_invariant F64.add coinRootExpanded (by decide)).2.2.2.2.2⟩

theorem Merge64_wideTree :
    Node.Merge64 F64.add wideTree wideTree = some
      (Node.mk [F64.fin 0] 1 (some { done := false }) (-(2 ^ 63))
        [(Key.str "flip", Node.mk [F64.fin 0] 1 (some { done := true }) (2 ^ 62) []
          Policy.UCTPolicy)]
        Policy.UCTPolicy, none) := by
  simp [Node.Merge64, Node.mergeLoop64, wideTree, mergeGetErrors, Node.NumPlayers,
    Node.Player, mergeScoresWith, Node.Visits, Node.numPlayers, Node.State, Node.score,
    Node.visits, Node.children, Node.withScore, Node.withVisits, Node.withState,
    Node.SetChild, Node.withChildren, mapGet, mapSet, State.Player, F64.add,
    wrapInt64]

theorem Copy64_wideTree : wideTree.Copy64 F64.add = some wideTree := by
  simp [Node.Copy64, Node.Merge64, Node.mergeLoop64, wideTree, mergeGetErrors,
    Node.NumPlayers, Node.Player, mergeScoresWith, Node.Visits, Node.numPlayers, Node.State,
    Node.score, Node.visits, Node.children, Node.withScore, Node.withVisits,
    Node.withState, Node.SetChild, Node.withChildren, mapGet, mapSet, State.Player,
    State.Copy, F64.add, wrapInt64, Node.NewNode]

theorem Backpropagate64_fullRoot :
    UCTPolicy.Backpropagate64 F64.add fullRoot [] (F64.fin 0) = some
      (Node.mk [F64.fin 0] 1 (some { done := false }) (-(2 ^ 63)) [] Policy.UCTPolicy) := by
  simp [UCTPolicy.Backpropagate64, UCTPolicy.BackpropagateLoop64, fullRoot, get?_nil,
    Node.Player, Node.Score, Node.SetScore, Node.AddVisit64, Node.withScore,
    Node.withVisits, Node.modify, Node.State, Node.score, Node.visits, State.Player,
    F64.add, wrapInt64, Parent]

/-- C34 as stated fails on the `int64` counters of the source.  The invariant holds in the
tree `wideTree`, whose root has `2^62` visits and whose child has `2^61`, and in its copy,
which is the same tree.  Merging the two adds `2^62 + 2^62` at the root, which wraps
around to `-2^63`, and gives the child `2^62` visits: the invariant fails after a `Merge`
of two trees that satisfy it.  It also fails after `Backpropagate` at a root that has the
largest `int64` as its visits. -/
theorem visits_invariant_counterexample :
    wideTree.VisitsOK = true ∧ wideTree.Copy64 F64.add = some wideTree ∧
    (∃ r, Node.Merge64 F64.add wideTree wideTree = some (r, none) ∧
      r.Visits = -(2 ^ 63) ∧ childVisits r.children = 2 ^ 62 ∧ r.VisitsOK = false) ∧
    fullRoot.VisitsOK = true ∧
    ∃ root', UCTPolicy.Backpropagate64 F64.add fullRoot [] (F64.fin 0) = some root' ∧
      root'.Visits = -(2 ^ 63) ∧ childVisits root'.children = 0 ∧
      root'.VisitsOK = false := by
  refine ⟨by decide, Copy64_wideTree, ⟨_, Merge64_wideTree, rfl, ?_, by decide⟩, by decide,
    ⟨_, Backpropagate64_fullRoot, rfl, rfl, by decide⟩⟩
  simp [childVisits, Node.children, Node.visits]

/-! ### Within the range of `int64` the counters are exact -/

mutual
/-- Below the range of `int64` the counter does not wrap: `Merge64` with the exact
addition of scores is `Merge`. -/
theorem Merge64_eq_Merge {S : Type} [State S] :
    ∀ (other node : Node S), node.VisitsOK = true → other.VisitsOK = true →
      node.visits + other.visits < 2 ^ 63 →
      Node.Merge64 F64.add node other = Node.Merge node other
  | Node.mk oscore onum ostate ovisits ochildren opolicy, node, hn, ho, hb => by
    have hnn := VisitsOK_nonneg _ ho
    have hnn' := VisitsOK_nonneg _ hn
    have ho' := (VisitsOK_iff _).mp ho
    have hn' := (VisitsOK_iff _).mp hn
    have hb' : node.visits + ovisits < 2 ^ 63 := hb
    simp only [Node.children, Node.visits] at ho' hnn
    have hw : wrapInt64 (node.visits +
        (Node.mk oscore onum ostate ovisits ochildren opolicy).Visits) =
        node.visits + (Node.mk oscore onum ostate ovisits ochildren opolicy).Visits :=
      wrapInt64_eq _ (by
        show -(2 ^ 63) ≤ node.visits + ovisits
        norm_num
        omega) hb'
    have h0 := hn'.1
    have h0' := ho'.1
    rw [Merge64_eq, Merge_eq, mergeScoresWith_add, hw]
    cases mergeGetErrors node (Node.mk oscore onum ostate ovisits ochildren opolicy) with
    | some err => rfl
    | none =>
      simp only
      cases mergeScores (Node.mk oscore onum ostate ovisits ochildren opolicy).score
          (List.range node.NumPlayers) node.score with
      | none => rfl
      | some sc =>
        simp only [Node.children]
        rw [mergeLoop64_eq_mergeLoop ochildren _ ho'.2 (by split <;> simpa using hn'.2)
          (by split <;> simp <;> omega)]
/-- The loop of `Merge64` below the range of `int64`. -/
theorem mergeLoop64_eq_mergeLoop {S : Type} [State S] :
    ∀ (l : List (Key × Node S)) (node : Node S), (∀ kc ∈ l, kc.2.VisitsOK = true) →
      (∀ kc ∈ node.children, kc.2.VisitsOK = true) →
      childVisits node.children + childVisits l < 2 ^ 63 →
      Node.mergeLoop64 F64.add node l = Node.mergeLoop node l
  | [], node, _, _, _ => by
    rw [Node.mergeLoop64, Node.mergeLoop]
  | (k, oc) :: rest, node, hl, hn, hb => by
    have hoc : oc.VisitsOK = true := hl (k, oc) (List.mem_cons_self _ _)
    have hrest : ∀ kc ∈ rest, kc.2.VisitsOK = true := fun kc hk =>
      hl kc (List.mem_cons_of_mem _ hk)
    have hocnn := VisitsOK_nonneg oc hoc
    have hrestnn := childVisits_nonneg rest hrest
    have hnnn := childVisits_nonneg node.children hn
    rw [childVisits_cons] at hb
    rw [Node.mergeLoop64, Node.mergeLoop]
    cases hget : mapGet k node.children with
    | none =>
      simp only
      rw [Merge64_eq_Merge oc _ (VisitsOK_NewNode _) hoc
        (by simp only [visits_NewNode]; omega)]
      cases hm : Node.Merge (Node.NewNode oc.NumPlayers).1 oc with
      | none => rfl
      | some x =>
        obtain ⟨otherCopy, e'⟩ := x
        simp only
        obtain ⟨c1, c2⟩ := Merge_visits oc _ otherCopy e' (VisitsOK_NewNode _) hoc hm
        simp only [visits_NewNode, zero_add] at c2
        have hset := childVisits_mapSet_none k otherCopy node.children hget
        exact mergeLoop64_eq_mergeLoop rest _ hrest
          (VisitsOK_children_SetChild node otherCopy k hn c1)
          (by rw [children_SetChild, hset]; omega)
    | some child =>
      simp only
      have hch := visits_le_childVisits_of_mem k child node.children hget hn
      rw [Merge64_eq_Merge oc child (hn (k, child) (mapGet_mem hget)) hoc (by omega)]
      cases hm : Node.Merge child oc with
      | none => rfl
      | some x =>
        obtain ⟨child', e'⟩ := x
        simp only
        obtain ⟨c1, c2⟩ := Merge_visits oc child child' e'
          (hn (k, child) (mapGet_mem hget)) hoc hm
        have hset := childVisits_mapSet_some k child' child node.children hget
        exact mergeLoop64_eq_mergeLoop rest _ hrest
          (VisitsOK_children_SetChild node child' k hn c1)
          (by rw [children_SetChild, hset]; omega)
end

/-- Below the range of `int64`, `Copy64` with the exact addition of scores is `Copy`. -/
theorem Copy64_eq_Copy {S : Type} [State S] (node : Node S) (h : node.VisitsOK = true)
    (hmax : node.visits < 2 ^ 63) : node.Copy64 F64.add = node.Copy := by
  rw [Copy64_eq, Copy_eq, Merge64_eq_Merge node _ (VisitsOK_NewNode _) h
    (by simp only [visits_NewNode, zero_add]; exact hmax)]

/-- The loop of `Backpropagate64` with the exact addition of scores is the loop of
`Backpropagate` while the root can count one more visit in `int64`. -/
theorem BackpropagateLoop64_eq {S : Type} (player : Nat) (score : F64) :
    ∀ (fuel : Nat) (root : Node S) (n : Option Path), root.VisitsInv n →
      (n.isSome = true → root.visits < 2 ^ 63 - 1) →
      UCTPolicy.BackpropagateLoop64 F64.add player score fuel root n =
        UCTPolicy.BackpropagateLoop player score fuel root n := by
  intro fuel
  induction fuel with
  | zero =>
    intro root n _ _
    cases n <;> rfl
  | succ f ih =>
    intro root n hd hm
    cases n with
    | none => rfl
    | some p =>
      rw [UCTPolicy.BackpropagateLoop64, UCTPolicy.BackpropagateLoop]
      cases hb : root.get? p with
      | none => rfl
      | some b =>
        simp only
        cases hsc : b.Score player with
        | none => rfl
        | some old =>
          simp only
          cases hset : b.SetScore player (F64.add old score) with
          | none => rfl
          | some node1 =>
            simp only
            have hnode1 : node1 = b.withScore (b.score.set player (F64.add old score)) := by
              unfold Node.SetScore at hset
              split at hset
              · exact (Option.some.inj hset).symm
              · simp at hset
            have hm' := hm rfl
            obtain ⟨b1, b2⟩ := DebtOK_visits_le p root b hd hb
            have hw : wrapInt64 (node1.visits + 1) = node1.visits + 1 := by
              rw [hnode1]
              exact wrapInt64_eq _ (by
                rw [visits_withScore]
                norm_num
                omega) (by rw [visits_withScore]; omega)
            have hadd : node1.AddVisit64 = node1.AddVisit := by
              simp only [Node.AddVisit64, Node.AddVisit, hw]
            rw [hadd]
            refine ih _ _ ?_ (fun hsome => ?_)
            · rw [hnode1]
              exact DebtOK_step _ p root b hd hb (by simp [Node.AddVisit])
                (by simp [Node.AddVisit])
            · cases p with
              | nil => simp [Parent] at hsome
              | cons k ks =>
                rw [visits_modify_cons]
                exact hm'

/-- Below the range of `int64`, `Backpropagate64` with the exact addition of scores is
`Backpropagate`. -/
theorem Backpropagate64_eq_Backpropagate {S : Type} [State S] (root : Node S) (path : Path)
    (score : F64) (h : root.VisitsOK = true) (hmax : root.visits < 2 ^ 63 - 1) :
    UCTPolicy.Backpropagate64 F64.add root path score =
      UCTPolicy.Backpropagate root path score := by
  unfold UCTPolicy.Backpropagate64 UCTPolicy.Backpropagate
  cases hn : root.get? path with
  | none => rfl
  | some node =>
    exact BackpropagateLoop64_eq _ _ _ root (some path)
      (DebtOK_of_VisitsOK path root node h hn) (fun _ => hmax)

end Montecarlo
